import Mathlib

/-!
# Boolean inverted index: builder and query engine

A shallow embedding of `bool_search/simple_vector.h`, `bool_search/simple_hash.h`,
`bool_search/bool_indexer.cpp` and `bool_search/bool_searcher.cpp`, of
`RussianStemmer::stem_word` with its helpers from `stemmer.cpp` and of
`ImprovedTokenizer::tokenize_text` with its helpers from `tokenizer.cpp`, followed by
theorems about the embedded functions.

Conventions of the embedding.

* A `SimpleVector<T>` is a `List`; `get(k)` is `List.getD k`, `push(v)` is `++ [v]`,
  an assignment `items[k] = v` is `List.set k v`.
* A C `int` is an `Int`, a `size_t` a `Nat`.  The code only compares, copies and counts these
  values; counters are assumed to stay below `2^31`.
* Every `while` loop whose trip count is not fixed on entry carries a fuel argument; the
  fuel passed by the caller is an upper bound of the trip count, and a theorem that states
  a result shows that the loop condition fails before the fuel is used up.
-/

namespace BoolSearch

/-! ## Definitions -/

/-! ### `simple_vector.h`: `SimpleVector<int>::sort` -/

namespace SimpleVector

/-- Inner loop `while (j >= 0 && key < items[j]) { items[j + 1] = items[j]; j--; }` of
`SimpleVector::sort`.  The first argument is the C variable `j` plus one, so `j >= 0` reads
`jp = j + 1 > 0`.  Returns the vector after the shifts together with the final `j + 1`. -/
def sortShift (key : Int) : Nat → List Int → List Int × Nat
  | 0, items => (items, 0)
  | j + 1, items =>
    if key < items.getD j 0 then sortShift key j (items.set (j + 1) (items.getD j 0))
    else (items, j + 1)

/-- Body of the `for (size_t i = 1; i < count; i++)` loop of `SimpleVector::sort`:
`key = items[i]; j = i - 1;` the shifting loop, then `items[j + 1] = key`. -/
def sortStep (items : List Int) (i : Nat) : List Int :=
  let key := items.getD i 0
  let r := sortShift key i items
  r.1.set r.2 key

/-- The insertion sort `SimpleVector<int>::sort`. -/
def sort (items : List Int) : List Int :=
  if items.length ≤ 1 then items
  else (List.range' 1 (items.length - 1)).foldl sortStep items

end SimpleVector

/-! ### `bool_searcher.cpp`: set algebra on document-id lists -/

/-- The `while (i < a.size() && j < b.size())` loop of `intersect`, on the state
`(i, j, res)`.  Every trip increases `i + j`, so `a.size() + b.size()` bounds the trips. -/
def intersectLoop (a b : List Int) : Nat → Nat → Nat → List Int → List Int
  | 0, _, _, res => res
  | fuel + 1, i, j, res =>
    if i < a.length ∧ j < b.length then
      let d1 := a.getD i 0
      let d2 := b.getD j 0
      if d1 = d2 then intersectLoop a b fuel (i + 1) (j + 1) (res ++ [d1])
      else if d1 < d2 then intersectLoop a b fuel (i + 1) j res
      else intersectLoop a b fuel i (j + 1) res
    else res

/-- The function `intersect`: both arguments are sorted in place, then merged. -/
def intersect (a b : List Int) : List Int :=
  let a := SimpleVector.sort a
  let b := SimpleVector.sort b
  intersectLoop a b (a.length + b.length) 0 0 []

/-- The first loop of `unite`, `while (i < a.size() && j < b.size())`, on the state
`(i, j, res)`; returns the state on exit. -/
def uniteLoop (a b : List Int) : Nat → Nat → Nat → List Int → Nat × Nat × List Int
  | 0, i, j, res => (i, j, res)
  | fuel + 1, i, j, res =>
    if i < a.length ∧ j < b.length then
      let d1 := a.getD i 0
      let d2 := b.getD j 0
      if d1 = d2 then uniteLoop a b fuel (i + 1) (j + 1) (res ++ [d1])
      else if d1 < d2 then uniteLoop a b fuel (i + 1) j (res ++ [d1])
      else uniteLoop a b fuel i (j + 1) (res ++ [d2])
    else (i, j, res)

/-- The loops `while (i < a.size()) { res.push(a.get(i)); i++; }` that end `unite`. -/
def uniteRest (a : List Int) : Nat → Nat → List Int → List Int
  | 0, _, res => res
  | fuel + 1, i, res =>
    if i < a.length then uniteRest a fuel (i + 1) (res ++ [a.getD i 0]) else res

/-- The function `unite`. -/
def unite (a b : List Int) : List Int :=
  let a := SimpleVector.sort a
  let b := SimpleVector.sort b
  let s := uniteLoop a b (a.length + b.length) 0 0 []
  let res := uniteRest a a.length s.1 s.2.2
  uniteRest b b.length s.2.1 res

/-- Body of the `for (int i = 0; i < total; i++)` loop of `complement` on the state
`(idx, res)`. -/
def complementStep (list : List Int) (st : Nat × List Int) (i : Nat) : Nat × List Int :=
  if st.1 < list.length ∧ list.getD st.1 0 = (i : Int) then (st.1 + 1, st.2)
  else (st.1, st.2 ++ [(i : Int)])

/-- The function `complement`; the loop runs for `i = 0, …, total - 1` (not at all when
`total ≤ 0`). -/
def complement (list : List Int) (total : Int) : List Int :=
  let list := SimpleVector.sort list
  ((List.range total.toNat).foldl (complementStep list) (0, [])).2

/-- The list `[0, 1, …, n - 1]` of all document ids of a universe of size `n`. -/
def allDocs (n : Int) : List Int := (List.range n.toNat).map Int.ofNat

/-! ### C strings and the C library

A byte is a `Nat` below 256 and a C string is the list of its bytes before the terminating
NUL.  `fopen` is assumed to succeed wherever the absence of the file is not modelled
explicitly, and text-mode newline translation is not modelled. -/

/-- The C function `strcmp` (bytes compared as `unsigned char`); only the sign of the result
is meaningful. -/
def strcmp : List Nat → List Nat → Int
  | [], [] => 0
  | [], _ :: _ => -1
  | _ :: _, [] => 1
  | c :: s, d :: t => if c = d then strcmp s t else if c < d then -1 else 1

/-- The C function `isspace` in the "C" locale: space, `\t`, `\n`, `\v`, `\f`, `\r`. -/
def isspace (c : Nat) : Bool := c = 32 || (9 ≤ c && c ≤ 13)

/-- The C function `isdigit`. -/
def isdigit (c : Nat) : Bool := 48 ≤ c && c ≤ 57

/-- The C function `tolower` in the "C" locale: `A`..`Z` are mapped to `a`..`z`, every other
byte (in particular every byte of a multi-byte UTF-8 sequence) is left unchanged. -/
def tolower (c : Nat) : Nat := if 65 ≤ c ∧ c ≤ 90 then c + 32 else c

/-- Decimal digits of `n`, most significant first, as ASCII bytes, pushed in front of `acc`;
the fuel bounds the number of digits. -/
def digitsAux : Nat → Nat → List Nat → List Nat
  | 0, _, acc => acc
  | fuel + 1, n, acc =>
    if n < 10 then (48 + n) :: acc else digitsAux fuel (n / 10) ((48 + n % 10) :: acc)

/-- Output of `printf("%u", n)`. -/
def printNat (n : Nat) : List Nat := digitsAux (n + 1) n []

/-- Output of the `printf` conversions `%d`, `%ld` and `%zu`. -/
def printInt (x : Int) : List Nat :=
  if x < 0 then 45 :: printNat x.natAbs else printNat x.toNat

/-- Value of a run of ASCII digits. -/
def digitsValue (ds : List Nat) : Nat := ds.foldl (fun acc c => acc * 10 + (c - 48)) 0

/-- The `sscanf` conversions `%d` and `%ld`: skip white space, read an optional sign and a
non-empty run of digits.  Returns the value and the unread rest, `none` on a matching
failure.  Values are assumed to fit the target type. -/
def scanInt (s : List Nat) : Option (Int × List Nat) :=
  let s := s.dropWhile isspace
  let neg := s.head? = some 45
  let s := if s.head? = some 45 ∨ s.head? = some 43 then s.drop 1 else s
  let ds := s.takeWhile isdigit
  if ds = [] then none
  else some (if neg then -(digitsValue ds : Int) else (digitsValue ds : Int), s.dropWhile isdigit)

/-- The `sscanf` conversion `%255[^c]`: a non-empty run of at most 255 bytes other than
`stop`, with no white space skipped in front.  Returns the run and the unread rest. -/
def scanSet (stop : Nat) (s : List Nat) : Option (List Nat × List Nat) :=
  let t := (s.takeWhile (fun c => c != stop)).take 255
  if t = [] then none else some (t, s.drop t.length)

/-- One call `fgets(line, n, file)` on the unread part of a file: at most `n - 1` bytes, up
to and including the first `\n`.  Returns the line and the unread rest. -/
def fgetsAux : Nat → List Nat → List Nat × List Nat
  | 0, s => ([], s)
  | _ + 1, [] => ([], [])
  | k + 1, c :: s =>
    if c = 10 then ([c], s) else ((fgetsAux k s).1.cons c, (fgetsAux k s).2)

/-- The lines delivered by `while (fgets(line, n, file))`; each call consumes at least one
byte, so the number of unread bytes bounds the trips. -/
def readLines (n : Nat) : Nat → List Nat → List (List Nat)
  | 0, _ => []
  | fuel + 1, s =>
    if s = [] then [] else (fgetsAux (n - 1) s).1 :: readLines n fuel (fgetsAux (n - 1) s).2

/-! ### `simple_vector.h`: `SimpleVector<T>::sort_quick` -/

namespace SimpleVector

/-- Read of `items[k]` for a C `int` index; `none` is an access outside the vector. -/
def getAt {α : Type} (items : List α) (k : Int) : Option α :=
  if 0 ≤ k then items[k.toNat]? else none

/-- The loop `while (items[i] < pivot) i++;` of `quick_sort`. -/
def scanUp {α : Type} (lt : α → α → Bool) (pivot : α) (items : List α) : Nat → Int → Option Int
  | 0, _ => none
  | fuel + 1, i =>
    match getAt items i with
    | none => none
    | some x => if lt x pivot then scanUp lt pivot items fuel (i + 1) else some i

/-- The loop `while (pivot < items[j]) j--;` of `quick_sort`. -/
def scanDown {α : Type} (lt : α → α → Bool) (pivot : α) (items : List α) :
    Nat → Int → Option Int
  | 0, _ => none
  | fuel + 1, j =>
    match getAt items j with
    | none => none
    | some x => if lt pivot x then scanDown lt pivot items fuel (j - 1) else some j

/-- The exchange `temp = items[i]; items[i] = items[j]; items[j] = temp;`. -/
def swap {α : Type} (items : List α) (i j : Nat) : List α :=
  match items[i]?, items[j]? with
  | some x, some y => (items.set i y).set j x
  | _, _ => items

/-- The loop `while (i <= j)` of `quick_sort`; returns the vector and the final `i`, `j`. -/
def partitionLoop {α : Type} (lt : α → α → Bool) (pivot : α) :
    Nat → List α → Int → Int → Option (List α × Int × Int)
  | 0, _, _, _ => none
  | fuel + 1, items, i, j =>
    if i ≤ j then
      match scanUp lt pivot items (items.length + 1) i with
      | none => none
      | some i1 =>
        match scanDown lt pivot items (items.length + 1) j with
        | none => none
        | some j1 =>
          if i1 ≤ j1 then partitionLoop lt pivot fuel (swap items i1.toNat j1.toNat) (i1 + 1) (j1 - 1)
          else partitionLoop lt pivot fuel items i1 j1
    else some (items, i, j)

/-- The method `quick_sort(left, right)`; `lt` is `operator<` of the element type.  The
result `none` stands for an access outside the vector (or for exhausted fuel). -/
def quick_sort {α : Type} (lt : α → α → Bool) : Nat → List α → Int → Int → Option (List α)
  | 0, _, _, _ => none
  | fuel + 1, items, left, right =>
    if left ≥ right then some items
    else
      match getAt items (Int.tdiv (left + right) 2) with
      | none => none
      | some pivot =>
        match partitionLoop lt pivot (items.length + 1) items left right with
        | none => none
        | some (items1, i, j) =>
          match (if left < j then quick_sort lt fuel items1 left j else some items1) with
          | none => none
          | some items2 => if i < right then quick_sort lt fuel items2 i right else some items2

/-- The method `sort_quick`. -/
def sort_quick {α : Type} (lt : α → α → Bool) (items : List α) : Option (List α) :=
  if items.length > 1 then quick_sort lt (items.length + 1) items 0 ((items.length : Int) - 1)
  else some items

end SimpleVector

/-! ### `simple_hash.h`: `TermDict` -/

/-- A `TermDict::Node` without its `next` pointer: a chain of nodes is a list. -/
structure Node where
  key : List Nat
  value : Int
  deriving DecidableEq, Repr

/-- The class `TermDict`: `buckets[i]` is the chain hanging from bucket `i`, head first. -/
structure TermDict where
  buckets : List (List Node)
  bucket_count : Nat
  size_ : Nat
  deriving DecidableEq, Repr

/-- An `int` converted to `unsigned int` from a plain `char`, which is taken to be signed:
bytes from 128 on are negative. -/
def charToUnsigned (c : Nat) : Nat := if c < 128 then c else c + 2 ^ 32 - 256

namespace TermDict

/-- The constructor `TermDict(size_t init_size = 1024)`. -/
def new : TermDict := { buckets := List.replicate 1024 [], bucket_count := 1024, size_ := 0 }

/-- The method `hash`: `h = ((h << 5) + h) + *str++` in 32-bit unsigned arithmetic, then
`h % bucket_count`. -/
def hash (d : TermDict) (str : List Nat) : Nat :=
  (str.foldl (fun h c => ((h * 32 % 2 ^ 32 + h) % 2 ^ 32 + charToUnsigned c) % 2 ^ 32) 5381)
    % d.bucket_count

/-- The `while (node)` loop of `add` on one chain: the first node whose key compares equal
gets the new value; `none` when the loop falls off the end of the chain. -/
def addChain (key : List Nat) (value : Int) : List Node → Option (List Node)
  | [] => none
  | node :: rest =>
    if strcmp node.key key = 0 then some ({ node with value := value } :: rest)
    else (addChain key value rest).map (fun r => node :: r)

/-- The method `add`. -/
def add (d : TermDict) (key : List Nat) (value : Int) : TermDict :=
  let idx := d.hash key
  match addChain key value (d.buckets.getD idx []) with
  | some chain => { d with buckets := d.buckets.set idx chain }
  | none =>
    { d with buckets := d.buckets.set idx ({ key := key, value := value } :: d.buckets.getD idx []),
             size_ := d.size_ + 1 }

/-- The `while (node)` loop of `find` on one chain. -/
def findChain (key : List Nat) : List Node → Option Int
  | [] => none
  | node :: rest => if strcmp node.key key = 0 then some node.value else findChain key rest

/-- The method `find`: `some v` when it returns `true` with `result = v`, `none` when it
returns `false`. -/
def find (d : TermDict) (key : List Nat) : Option Int :=
  findChain key (d.buckets.getD (d.hash key) [])

/-- The method `size`. -/
def size (d : TermDict) : Nat := d.size_

/-- A `TermDict::Iterator`: `current` is the part of the chain that starts at the node the
iterator points to, `[]` for `nullptr`. -/
structure Iterator where
  bucket_idx : Nat
  current : List Node
  deriving DecidableEq, Repr

/-- The method `end`. -/
def end_ (d : TermDict) : Iterator := { bucket_idx := d.bucket_count, current := [] }

/-- The method `begin`: the head of the first non-empty bucket. -/
def begin (d : TermDict) : Iterator :=
  match (List.range d.bucket_count).find? (fun i => !(d.buckets.getD i []).isEmpty) with
  | some i => { bucket_idx := i, current := d.buckets.getD i [] }
  | none => d.end_

/-- The loop `while (bucket_idx < bucket_count && !buckets[bucket_idx]) bucket_idx++;` of
`Iterator::next`. -/
def skipEmpty (d : TermDict) : Nat → Nat → Nat
  | 0, idx => idx
  | fuel + 1, idx =>
    if idx < d.bucket_count ∧ (d.buckets.getD idx []).isEmpty then skipEmpty d fuel (idx + 1)
    else idx

/-- The method `Iterator::next` (that is `operator++`). -/
def next (d : TermDict) (it : Iterator) : Iterator :=
  match it.current with
  | [] => it
  | _ :: (n :: rest) => { it with current := n :: rest }
  | [_] =>
    let idx := skipEmpty d d.bucket_count (it.bucket_idx + 1)
    { bucket_idx := idx, current := if idx < d.bucket_count then d.buckets.getD idx [] else [] }

end TermDict

/-! ### `bool_indexer.cpp`: `BoolIndexer` -/

/-- The struct `DocEntry`. -/
structure DocEntry where
  doc_id : Int
  positions : List Int
  deriving DecidableEq, Repr

/-- The struct `TermData`. -/
structure TermData where
  docs : List DocEntry
  doc_count : Int
  deriving DecidableEq, Repr

/-- The struct `TermInfo`. -/
structure TermInfo where
  term : List Nat
  term_id : Int
  doc_count : Int
  file_offset : Int
  deriving DecidableEq, Repr

/-- The comparison `DocEntry::operator<`. -/
def DocEntry.lt (a b : DocEntry) : Bool := decide (a.doc_id < b.doc_id)

/-- The comparison `TermInfo::operator<`. -/
def TermInfo.lt (a b : TermInfo) : Bool := decide (strcmp a.term b.term < 0)

/-- The constructor `TermInfo(const char* t, int id)`: `strncpy` keeps 255 bytes. -/
def TermInfo.mk2 (t : List Nat) (id : Int) : TermInfo :=
  { term := t.take 255, term_id := id, doc_count := 0, file_offset := 0 }

/-- The class `BoolIndexer`; an entry `none` of `index_data` is a null `TermData*`. -/
structure BoolIndexer where
  term_to_id : TermDict
  index_data : List (Option TermData)
  doc_names : List (List Nat)
  next_id : Int
  doc_count : Int
  deriving DecidableEq, Repr

/-- The files written by `BoolIndexer::save` and read by `SearchIndex::load`; `none` is an
absent file.  The text files are byte sequences.  `index_data.bin` is written and read in
units of one `int` only, so it is kept as the sequence of these `int`s; the `int` number `k`
lies at byte offset `4 * k`. -/
structure IndexDir where
  vocabulary : Option (List Nat)
  index_data : Option (List Int)
  documents : Option (List Nat)
  deriving DecidableEq, Repr

namespace BoolIndexer

/-- The constructor `BoolIndexer()`. -/
def new : BoolIndexer :=
  { term_to_id := TermDict.new, index_data := [], doc_names := [], next_id := 0, doc_count := 0 }

/-- The method `ensure_capacity`: `while (size <= id) index_data.push(nullptr)`. -/
def ensure_capacity (index_data : List (Option TermData)) (id : Int) : List (Option TermData) :=
  index_data ++ List.replicate (id + 1 - index_data.length).toNat none

/-- The method `add_doc`; returns the indexer and the returned document id. -/
def add_doc (b : BoolIndexer) (name : List Nat) : BoolIndexer × Int :=
  ({ b with doc_names := b.doc_names ++ [name], doc_count := b.doc_count + 1 }, b.doc_count)

/-- The `for` loop of `add_occurrence` that looks for the entry of `doc_id`, followed by
`entry->positions.push(pos)` on the entry found; `none` when there is no such entry. -/
def pushPos (doc_id pos : Int) : List DocEntry → Option (List DocEntry)
  | [] => none
  | e :: rest =>
    if e.doc_id = doc_id then some ({ e with positions := e.positions ++ [pos] } :: rest)
    else (pushPos doc_id pos rest).map (fun r => e :: r)

/-- The part of `add_occurrence` that follows `TermData* data = index_data.get(term_id)`. -/
def record (data : TermData) (doc_id pos : Int) : TermData :=
  match pushPos doc_id pos data.docs with
  | some docs => { data with docs := docs }
  | none =>
    { docs := data.docs ++ [{ doc_id := doc_id, positions := [pos] }],
      doc_count := data.doc_count + 1 }

/-- The method `add_occurrence`.  Term ids are the non-negative values of `next_id`, so the
index `term_id` is converted with `Int.toNat`.  The method has no check of `pos`. -/
def add_occurrence (b : BoolIndexer) (term : List Nat) (doc_id pos : Int) : BoolIndexer :=
  let b1 : BoolIndexer × Int :=
    match b.term_to_id.find term with
    | some id => (b, id)
    | none =>
      ({ b with
          term_to_id := b.term_to_id.add term b.next_id,
          next_id := b.next_id + 1,
          index_data :=
            (ensure_capacity b.index_data b.next_id).set b.next_id.toNat
              (some { docs := [], doc_count := 0 }) },
        b.next_id)
  match b1.1.index_data.getD b1.2.toNat none with
  | none => b1.1
  | some data =>
    { b1.1 with index_data := b1.1.index_data.set b1.2.toNat (some (record data doc_id pos)) }

/-- The loop of `sort_all` over `index_data`: every non-null entry gets its `docs` sorted
with `sort_quick`; `none` when a `sort_quick` call leaves its vector. -/
def sortEntries : List (Option TermData) → Option (List (Option TermData))
  | [] => some []
  | none :: rest => (sortEntries rest).map (fun r => none :: r)
  | some data :: rest =>
    match SimpleVector.sort_quick DocEntry.lt data.docs with
    | none => none
    | some docs => (sortEntries rest).map (fun r => some { data with docs := docs } :: r)

/-- The method `sort_all`. -/
def sort_all (b : BoolIndexer) : Option BoolIndexer :=
  (sortEntries b.index_data).map (fun data => { b with index_data := data })

/-- Body of the first loop of `save`: the `TermInfo` pushed to `vocab` for the node `it`
points to. -/
def vocabEntry (b : BoolIndexer) (node : Node) : TermInfo :=
  let info := TermInfo.mk2 node.key node.value
  if node.value < (b.index_data.length : Int) then
    match b.index_data.getD node.value.toNat none with
    | some data => { info with doc_count := data.doc_count }
    | none => info
  else info

/-- The first loop of `save`, `for (auto it = begin(); it != end(); ++it)`, which fills
`vocab`; the dictionary holds `size()` nodes, which bounds the trips. -/
def collectVocab (b : BoolIndexer) : Nat → TermDict.Iterator → List TermInfo → List TermInfo
  | 0, _, vocab => vocab
  | fuel + 1, it, vocab =>
    match it.current with
    | [] => vocab
    | node :: _ => collectVocab b fuel (b.term_to_id.next it) (vocab ++ [vocabEntry b node])

/-- The `int`s that `save` writes to `index_data.bin` for one term: the number of postings,
then for every posting its `doc_id`, the number of its positions and the positions. -/
def postingBlock (data : TermData) : List Int :=
  (data.docs.length : Int) ::
    (data.docs.map (fun e => e.doc_id :: (e.positions.length : Int) :: e.positions)).flatten

/-- Body of the loop `for (size_t i = 0; i < vocab.size(); i++)` of `save` on the state
(bytes of `vocabulary.txt`, `int`s of `index_data.bin`, `offset`). -/
def saveStep (b : BoolIndexer) (st : List Nat × List Int × Int) (info : TermInfo) :
    List Nat × List Int × Int :=
  match b.index_data.getD info.term_id.toNat none with
  | none => st
  | some data =>
    (st.1 ++ info.term ++ [9] ++ printInt info.doc_count ++ [9] ++ printInt st.2.2 ++ [10],
      st.2.1 ++ postingBlock data,
      4 * ((st.2.1 ++ postingBlock data).length : Int))

/-- The lines `"%zu\t%s\n"` of `documents.txt`. -/
def documentLines (names : List (List Nat)) : List Nat :=
  ((List.range names.length).map
    (fun (i : Nat) => printInt (i : Int) ++ [9] ++ names.getD i [] ++ [10])).flatten

/-- The method `save`: the three files read back by the searcher (`stats.txt` is left out).
All files are assumed to open; `none` when `vocab.sort_quick()` leaves its vector. -/
def save (b : BoolIndexer) : Option IndexDir :=
  let vocab := collectVocab b b.term_to_id.size b.term_to_id.begin []
  match SimpleVector.sort_quick TermInfo.lt vocab with
  | none => none
  | some vocab =>
    let out := vocab.foldl (saveStep b) ([], [], 0)
    some { vocabulary := some out.1, index_data := some out.2.1,
           documents := some (documentLines b.doc_names) }

end BoolIndexer

/-! ### `bool_searcher.cpp`: `SearchIndex` -/

/-- The struct `TermIndex`. -/
structure TermIndex where
  term : List Nat
  doc_count : Int
  offset : Int
  deriving DecidableEq, Repr

/-- The class `SearchIndex` after `load`.  The field `data` is the file found at
`data_path` by the `fopen` of `get_docs` (`none` when it does not open). -/
structure SearchIndex where
  terms : List TermIndex
  doc_names : List (Option (List Nat))
  total_docs : Int
  data : Option (List Int)
  deriving DecidableEq, Repr

/-- The ways in which `SearchIndex::load` does not return `true`. -/
inductive LoadFault where
  /-- The file `vocabulary.txt` does not open: `load` returns `false`. -/
  | noVocabulary
  /-- A line of `documents.txt` carries a negative id: `doc_names.get(id) = copy` writes
  outside the vector (undefined behaviour). -/
  | badWrite
  deriving DecidableEq, Repr

namespace SearchIndex

/-- The test `sscanf(line, "%255[^\t]\t%d\t%ld", ...) == 3` on the buffer that `fgets`
filled with a line of `vocabulary.txt`, with the values read.  `sscanf` reads the C string
in the buffer, which ends at the first NUL byte of the line.  A `\t` of the format skips
any run of white space. -/
def scanVocabLine (line : List Nat) : Option TermIndex :=
  match scanSet 9 (line.takeWhile (fun c => c != 0)) with
  | none => none
  | some (term, r1) =>
    match scanInt (r1.dropWhile isspace) with
    | none => none
    | some (doc_count, r2) =>
      match scanInt (r2.dropWhile isspace) with
      | none => none
      | some (offset, _) => some { term := term, doc_count := doc_count, offset := offset }

/-- The test `sscanf(line, "%d\t%255[^\n]", &id, name) == 2` on the buffer that `fgets`
filled with a line of `documents.txt`, with the values read.  `sscanf` reads the C string
in the buffer, which ends at the first NUL byte of the line. -/
def scanDocLine (line : List Nat) : Option (Int × List Nat) :=
  match scanInt (line.takeWhile (fun c => c != 0)) with
  | none => none
  | some (id, r1) =>
    match scanSet 10 (r1.dropWhile isspace) with
    | none => none
    | some (name, _) => some (id, name)

/-- Body of the loop over the lines of `documents.txt` on the state
(`doc_names`, `total_docs`). -/
def loadDocStep (st : List (Option (List Nat)) × Int) (line : List Nat) :
    Except LoadFault (List (Option (List Nat)) × Int) :=
  match scanDocLine line with
  | none => .ok st
  | some (id, name) =>
    if id < 0 then .error .badWrite
    else
      .ok (((st.1 ++ List.replicate (id.toNat + 1 - st.1.length) none).set id.toNat (some name)),
        id + 1)

/-- The loop over the lines of `documents.txt`. -/
def loadDocs : List (List Nat) → List (Option (List Nat)) × Int →
    Except LoadFault (List (Option (List Nat)) × Int)
  | [], st => .ok st
  | line :: rest, st =>
    match loadDocStep st line with
    | .error e => .error e
    | .ok st1 => loadDocs rest st1

/-- The method `load` on a fresh `SearchIndex`, given the contents of the directory. -/
def load (dir : IndexDir) : Except LoadFault SearchIndex :=
  match dir.vocabulary with
  | none => .error .noVocabulary
  | some vocab =>
    let terms := (readLines 1024 vocab.length vocab).filterMap scanVocabLine
    match dir.documents with
    | none => .ok { terms := terms, doc_names := [], total_docs := 0, data := dir.index_data }
    | some docs =>
      match loadDocs (readLines 1024 docs.length docs) ([], 0) with
      | .error e => .error e
      | .ok st =>
        .ok { terms := terms, doc_names := st.1, total_docs := st.2, data := dir.index_data }

/-- One `fread(&x, sizeof(int), 1, file)` at byte position `pos`; `none` when the file has
no `int` there (the variable read into stays uninitialised), and also at a position that is
not a multiple of 4, where the read would straddle two `int`s of the file. -/
def readInt (file : List Int) (pos : Nat) : Option Int :=
  if pos % 4 = 0 then file[pos / 4]? else none

/-- The call `fseek(file, delta, SEEK_CUR)` at position `pos`: a seek to a negative position
fails and leaves the position where it is.  At position 0, right after `fopen`, this is also
`fseek(file, delta, SEEK_SET)`. -/
def seekCur (pos : Nat) (delta : Int) : Nat :=
  if 0 ≤ (pos : Int) + delta then ((pos : Int) + delta).toNat else pos

/-- The loop `for (int j = 0; j < doc_count; j++)` of `get_docs` on the state
(file position, `result`). -/
def readPostings (file : List Int) : Nat → Nat → List Int → Option (List Int)
  | 0, _, result => some result
  | n + 1, pos, result =>
    match readInt file pos with
    | none => none
    | some doc_id =>
      match readInt file (pos + 4) with
      | none => none
      | some pos_count =>
        readPostings file n (seekCur (pos + 8) (4 * pos_count)) (result ++ [doc_id])

/-- The method `get_docs`; `none` when an `fread` finds no `int` to read, in which case the
C code goes on with an uninitialised variable. -/
def get_docs (idx : SearchIndex) (term : List Nat) : Option (List Int) :=
  match idx.terms.find? (fun ti => strcmp ti.term term = 0) with
  | none => some []
  | some ti =>
    match idx.data with
    | none => some []
    | some file =>
      match readInt file (seekCur 0 ti.offset) with
      | none => none
      | some doc_count => readPostings file doc_count.toNat (seekCur 0 ti.offset + 4) []

/-- The method `doc_name`. -/
def doc_name (idx : SearchIndex) (id : Int) : Option (List Nat) :=
  if 0 ≤ id ∧ id < (idx.doc_names.length : Int) then idx.doc_names.getD id.toNat none else none

/-- The method `doc_total`. -/
def doc_total (idx : SearchIndex) : Int := idx.total_docs

end SearchIndex

/-! ### `bool_searcher.cpp`: `QueryParser` -/

/-- The enum `TokenType`. -/
inductive TokenType where
  | WORD | AND | OR | NOT | LPAR | RPAR | END
  deriving DecidableEq, Repr

/-- The struct `Token`. -/
structure Token where
  type : TokenType
  word : List Nat
  deriving DecidableEq, Repr

/-- The class `QueryParser`: `input` is the unread part of the query, that is the C string
`input + pos`, and `current` the lookahead token. -/
structure QueryParser where
  input : List Nat
  current : Token
  deriving DecidableEq, Repr

/-- The ways in which the evaluation of a query does not return a result. -/
inductive Fault where
  /-- The fuel of the embedding is used up. -/
  | outOfFuel
  /-- A `get_docs` call reads past the end of `index_data.bin`. -/
  | badRead
  deriving DecidableEq, Repr

deriving instance DecidableEq for Except

namespace QueryParser

/-- The condition of the `while` loop of `next_token` that collects a word. -/
def wordChar (c : Nat) : Bool :=
  c != 0 && !isspace c && c != 40 && c != 41 && c != 38 && c != 124 && c != 33

/-- The method `skip_spaces`. -/
def skip_spaces (input : List Nat) : List Nat := input.dropWhile isspace

/-- The method `next_token`; `input[pos]` is `getD 0 0` of the unread part, the terminating
NUL included. -/
def next_token (p : QueryParser) : QueryParser :=
  let s := skip_spaces p.input
  let c := s.getD 0 0
  if c = 0 then { input := s, current := { type := .END, word := [] } }
  else if c = 40 then { input := s.drop 1, current := { type := .LPAR, word := [] } }
  else if c = 41 then { input := s.drop 1, current := { type := .RPAR, word := [] } }
  else if c = 38 ∧ s.getD 1 0 = 38 then
    { input := s.drop 2, current := { type := .AND, word := [] } }
  else if c = 124 ∧ s.getD 1 0 = 124 then
    { input := s.drop 2, current := { type := .OR, word := [] } }
  else if c = 33 then { input := s.drop 1, current := { type := .NOT, word := [] } }
  else
    { input := s.dropWhile wordChar,
      current := { type := .WORD, word := ((s.takeWhile wordChar).map tolower).take 255 } }

/-- The constructor `QueryParser(const char* query)`. -/
def new (query : List Nat) : QueryParser :=
  next_token { input := query, current := { type := .END, word := [] } }

mutual

/-- The method `parse_expr` up to its loop. -/
def parse_expr (idx : SearchIndex) : Nat → QueryParser → Except Fault (List Int × QueryParser)
  | 0, _ => .error .outOfFuel
  | fuel + 1, p =>
    match parse_term idx fuel p with
    | .error e => .error e
    | .ok (result, p1) => parse_expr_loop idx fuel result p1

/-- The loop `while (current.type == AND || current.type == OR)` of `parse_expr`. -/
def parse_expr_loop (idx : SearchIndex) :
    Nat → List Int → QueryParser → Except Fault (List Int × QueryParser)
  | 0, _, _ => .error .outOfFuel
  | fuel + 1, result, p =>
    if p.current.type = .AND ∨ p.current.type = .OR then
      match parse_term idx fuel (next_token p) with
      | .error e => .error e
      | .ok (right, p1) =>
        if p.current.type = .AND then parse_expr_loop idx fuel (intersect result right) p1
        else parse_expr_loop idx fuel (unite result right) p1
    else .ok (result, p)

/-- The method `parse_term`. -/
def parse_term (idx : SearchIndex) : Nat → QueryParser → Except Fault (List Int × QueryParser)
  | 0, _ => .error .outOfFuel
  | fuel + 1, p =>
    if p.current.type = .NOT then
      match parse_factor idx fuel (next_token p) with
      | .error e => .error e
      | .ok (inner, p1) => .ok (complement inner idx.doc_total, p1)
    else parse_factor idx fuel p

/-- The method `parse_factor`. -/
def parse_factor (idx : SearchIndex) : Nat → QueryParser → Except Fault (List Int × QueryParser)
  | 0, _ => .error .outOfFuel
  | fuel + 1, p =>
    if p.current.type = .LPAR then
      match parse_expr idx fuel (next_token p) with
      | .error e => .error e
      | .ok (result, p1) =>
        if p1.current.type ≠ .RPAR then .ok (result, p1) else .ok (result, next_token p1)
    else if p.current.type = .WORD then
      match idx.get_docs p.current.word with
      | none => .error .badRead
      | some result => .ok (result, next_token p)
    else .ok ([], p)

end

/-- The calls `QueryParser parser(query); parser.parse(idx)` of `main`.  The call depth
grows by three with every `(` and the loop of `parse_expr` makes one trip for every
operator, so `3 * strlen(query) + 4` bounds the fuel needed. -/
def parse (idx : SearchIndex) (query : List Nat) : Except Fault (List Int) :=
  match parse_expr idx (3 * query.length + 4) (new query) with
  | .error e => .error e
  | .ok (result, _) => .ok result

end QueryParser

namespace SimpleVector

/-- Relation between a vector before and after the work of `quick_sort` on the index range
`[l, r]`: same length, a permutation, unchanged outside the range, and every element found
in the range afterwards was in the range before. -/
def Stable {α : Type} (items items' : List α) (l r : Int) : Prop :=
  items'.length = items.length ∧ items'.Perm items ∧
  (∀ k : Int, (k < l ∨ r < k) → getAt items' k = getAt items k) ∧
  (∀ k : Int, l ≤ k → k ≤ r → ∃ k' : Int, l ≤ k' ∧ k' ≤ r ∧ getAt items' k = getAt items k')

/-- The elements at the indices of `[l, r]` are in non-descending order for `lt`. -/
def SortedRange {α : Type} (lt : α → α → Bool) (items : List α) (l r : Int) : Prop :=
  ∀ (k1 k2 : Int) (x y : α), l ≤ k1 → k1 < k2 → k2 ≤ r →
    getAt items k1 = some x → getAt items k2 = some y → lt y x = false

end SimpleVector

/-- Representation invariant of a `TermDict`: there are `bucket_count > 0` chains, every
node hangs from the bucket of its hash, the keys of a chain are pairwise different, and
`size_` counts the nodes. -/
def TermDict.WF (d : TermDict) : Prop :=
  d.buckets.length = d.bucket_count ∧ 0 < d.bucket_count ∧
  (∀ (i : Nat) (node : Node), node ∈ d.buckets.getD i [] → d.hash node.key = i) ∧
  (∀ i : Nat, ((d.buckets.getD i []).map Node.key).Nodup) ∧
  d.size_ = d.buckets.flatten.length

/-- The nodes that an iteration has still to visit: the rest of the current chain and the
chains of the buckets that follow. -/
def TermDict.iterRest (d : TermDict) (it : TermDict.Iterator) : List Node :=
  it.current ++ (d.buckets.drop (it.bucket_idx + 1)).flatten

/-! ### The build as a sequence of calls -/

/-- A call that the build makes on the `BoolIndexer`. -/
inductive BuildCall where
  | add_doc (name : List Nat)
  | add_occurrence (term : List Nat) (doc_id pos : Int)
  deriving DecidableEq, Repr

/-- The indexer after one more call. -/
def BoolIndexer.call (b : BoolIndexer) : BuildCall → BoolIndexer
  | .add_doc name => (b.add_doc name).1
  | .add_occurrence term doc_id pos => b.add_occurrence term doc_id pos

/-- The indexer after a sequence of calls on a fresh `BoolIndexer`. -/
def BoolIndexer.run (calls : List BuildCall) : BoolIndexer :=
  calls.foldl BoolIndexer.call BoolIndexer.new

/-- The whole round trip: the calls, then `sort_all` and `save` as in `main` of
bool_indexer.cpp, then `load` on the files written as in `main` of bool_searcher.cpp;
`none` when a step does not come back regularly. -/
def buildAndLoad (calls : List BuildCall) : Option SearchIndex :=
  match (BoolIndexer.run calls).sort_all with
  | none => none
  | some b =>
    match b.save with
    | none => none
    | some dir =>
      match SearchIndex.load dir with
      | .error _ => none
      | .ok idx => some idx

/-- What the calls say about the `TermData` of the term `t`: its postings carry pairwise
different document ids, namely those recorded for `t`; `doc_count` counts them; and the
block written for it has at most `1 + 3 * calls.length` `int`s. -/
def TermOK (calls : List BuildCall) (t : List Nat) (data : TermData) : Prop :=
  (data.docs.map DocEntry.doc_id).Nodup ∧
  (∀ d : Int, d ∈ data.docs.map DocEntry.doc_id ↔
    ∃ p : Int, BuildCall.add_occurrence t d p ∈ calls) ∧
  data.doc_count = (data.docs.length : Int) ∧
  (BoolIndexer.postingBlock data).length ≤ 1 + 3 * calls.length

/-- Invariant of the `BoolIndexer` after the calls `calls`. -/
def BoolIndexer.Inv (b : BoolIndexer) (calls : List BuildCall) : Prop :=
  b.term_to_id.WF ∧
  b.next_id = (b.index_data.length : Int) ∧
  (∀ (t : List Nat) (id : Int), b.term_to_id.find t = some id →
    0 ≤ id ∧ id < (b.index_data.length : Int) ∧
    ∃ data : TermData, b.index_data.getD id.toNat none = some data ∧ TermOK calls t data) ∧
  (∀ (t1 t2 : List Nat) (id : Int), b.term_to_id.find t1 = some id →
    b.term_to_id.find t2 = some id → t1 = t2) ∧
  (∀ (t : List Nat) (d p : Int), BuildCall.add_occurrence t d p ∈ calls →
    ∃ id : Int, b.term_to_id.find t = some id) ∧
  (∀ (t : List Nat) (id : Int), b.term_to_id.find t = some id →
    ∃ d p : Int, BuildCall.add_occurrence t d p ∈ calls) ∧
  b.term_to_id.size_ ≤ calls.length ∧
  b.doc_names.length ≤ calls.length ∧
  (∀ name ∈ b.doc_names, BuildCall.add_doc name ∈ calls)

/-- The entries that the second loop of `save` writes for the sorted `vocab`, when `w`
`int`s are already in `index_data.bin`: the `TermIndex` that `load` will read from the line
written, and the `TermData` whose block is written. -/
def BoolIndexer.layout (b : BoolIndexer) : List TermInfo → Nat → List (TermIndex × TermData)
  | [], _ => []
  | info :: rest, w =>
    match b.index_data.getD info.term_id.toNat none with
    | none => layout b rest w
    | some data =>
      ({ term := info.term, doc_count := info.doc_count, offset := 4 * (w : Int) }, data) ::
        layout b rest (w + (BoolIndexer.postingBlock data).length)

/-- The line `"%s\t%d\t%ld\n"` of `vocabulary.txt` without its final newline. -/
def vocabLineBody (ti : TermIndex) : List Nat :=
  ti.term ++ [9] ++ printInt ti.doc_count ++ [9] ++ printInt ti.offset

/-- The blocks of `index_data.bin` for a list of entries. -/
def blocksOf (entries : List (TermIndex × TermData)) : List Int :=
  (entries.map (fun e => BoolIndexer.postingBlock e.2)).flatten

/-- A vocabulary entry whose line `load` reads back as written: the term is non-empty, at
most 255 bytes long and free of tab and newline, and the two numbers are non-negative with
at most 18 digits. -/
def GoodEntry (ti : TermIndex) : Prop :=
  ti.term ≠ [] ∧ 9 ∉ ti.term ∧ 10 ∉ ti.term ∧ ti.term.length ≤ 255 ∧
  0 ≤ ti.doc_count ∧ ti.doc_count < 10 ^ 18 ∧ 0 ≤ ti.offset ∧ ti.offset < 10 ^ 18

/-! ### Concrete inputs -/

/-- The UTF-8 bytes of the word `кот`. -/
def kot : List Nat := [0xD0, 0xBA, 0xD0, 0xBE, 0xD1, 0x82]

/-- The UTF-8 bytes of the word `собака`. -/
def sobaka : List Nat :=
  [0xD1, 0x81, 0xD0, 0xBE, 0xD0, 0xB1, 0xD0, 0xB0, 0xD0, 0xBA, 0xD0, 0xB0]

/-- The file name `doc<k>.tokens` for a one-digit `k`. -/
def docName (k : Nat) : List Nat := [100, 111, 99, 48 + k, 46, 116, 111, 107, 101, 110, 115]

/-- The build calls of Scenario A: doc0 = (кот, собака), doc1 = (кот), doc2 = (собака), with
the document ids 0, 1, 2 that `add_doc` returns and 1-based positions. -/
def scenarioA : List BuildCall :=
  [.add_doc (docName 0), .add_occurrence kot 0 1, .add_occurrence sobaka 0 2,
   .add_doc (docName 1), .add_occurrence kot 1 1,
   .add_doc (docName 2), .add_occurrence sobaka 2 1]

/-- A build in which the term `a<TAB>b` occurs in document 0. -/
def tabCalls : List BuildCall := [.add_doc (docName 0), .add_occurrence [97, 9, 98] 0 1]

/-- A build in which the term `a<NEWLINE>b` occurs in document 0 and the term `b` in
document 1. -/
def newlineCalls : List BuildCall :=
  [.add_doc (docName 0), .add_doc (docName 1), .add_occurrence [97, 10, 98] 0 1,
   .add_occurrence [98] 1 1]

/-- A build in which a term of 255 letters `a` occurs in document 0 and a term of 256
letters `a` in document 1. -/
def longCalls : List BuildCall :=
  [.add_doc (docName 0), .add_doc (docName 1), .add_occurrence (List.replicate 255 97) 0 1,
   .add_occurrence (List.replicate 256 97) 1 1]

/-- A query word as the lexer sees it: a non-empty run of word bytes. -/
def QueryParser.IsWord (w : List Nat) : Prop :=
  w ≠ [] ∧ ∀ x ∈ w, QueryParser.wordChar x = true

instance (w : List Nat) : Decidable (QueryParser.IsWord w) :=
  inferInstanceAs (Decidable (_ ∧ _))

/-- The text the lexer stores for the word `w`: every byte through `tolower`, at most 255
bytes kept. -/
def QueryParser.lexeme (w : List Nat) : List Nat := (w.map tolower).take 255

/-- The index that `SearchIndex.load` returns for the directory saved from `scenarioA`. -/
def scenarioIndex : SearchIndex :=
  { terms := [{ term := kot, doc_count := 2, offset := 0 },
              { term := sobaka, doc_count := 2, offset := 28 }],
    doc_names := [some (docName 0), some (docName 1), some (docName 2)],
    total_docs := 3,
    data := some [2, 0, 1, 1, 1, 1, 1, 2, 0, 1, 2, 2, 1, 1] }

/-- Parenthesis depth after reading `s` from depth `d`; `none` when a `)` arrives at
depth 0. -/
def parenDepth : Nat → List Nat → Option Nat
  | d, [] => some d
  | d, c :: s =>
    if c = 40 then parenDepth (d + 1) s
    else if c = 41 then (if d = 0 then none else parenDepth (d - 1) s)
    else parenDepth d s

/-- The parentheses of `q` are properly nested and balanced. -/
def balanced (q : List Nat) : Prop := parenDepth 0 q = some 0

instance (q : List Nat) : Decidable (balanced q) := inferInstanceAs (Decidable (_ = _))

/-- No `)` of the unread input, lookahead token included, closes below depth 0 when the
parser stands at depth `d`. -/
def QueryParser.Nested (d : Nat) (p : QueryParser) : Prop :=
  match p.current.type with
  | .LPAR => (parenDepth (d + 1) p.input).isSome
  | .RPAR => 0 < d ∧ (parenDepth (d - 1) p.input).isSome
  | _ => (parenDepth d p.input).isSome

/-- State after an expression at depth `d`: no operator ahead, and either the nesting still
holds or the parser is leaving an unclosed group at a token other than `)`. -/
def QueryParser.PostE (d : Nat) (p : QueryParser) : Prop :=
  p.current.type ≠ .AND ∧ p.current.type ≠ .OR ∧ (Nested d p ∨ p.current.type ≠ .RPAR)

/-- State after a term or factor at depth `d`. -/
def QueryParser.PostT (d : Nat) (p : QueryParser) : Prop :=
  Nested d p ∨ (p.current.type ≠ .RPAR ∧ p.current.type ≠ .AND ∧ p.current.type ≠ .OR)

/-- Bytes still to be paid for: the unread input, plus one for a lookahead token that opens
a recursive call. -/
def QueryParser.weight (p : QueryParser) : Nat :=
  p.input.length +
    (if p.current.type = .LPAR ∨ p.current.type = .NOT ∨ p.current.type = .AND ∨
        p.current.type = .OR then 1 else 0)

/-- A parser call came back, with a result and at most `w` bytes still to be paid for, or
with a failed posting read; it did not stop for lack of fuel. -/
def QueryParser.Done (w : Nat) (res : Except Fault (List Int × QueryParser)) : Prop :=
  res = .error .badRead ∨ ∃ r p, res = .ok (r, p) ∧ p.weight ≤ w

namespace RussianStemmer

/-- Source `RussianStemmer::to_lower_russian` on the bytes of the word: after the lead byte
`0xD0` a second byte in `0x90..0xAF` gets `0x20` added and `0x81` becomes `0xB5`; after the
lead byte `0xD1` the second byte is kept; both steps skip two bytes.  Any other byte in
`A..Z` gets 32 added, and the rest is kept. -/
def to_lower_russian : List Nat → List Nat
  | [] => []
  | [c] => if 65 ≤ c ∧ c ≤ 90 then [c + 32] else [c]
  | c :: c2 :: rest =>
    if c = 0xD0 then
      (if 0x90 ≤ c2 ∧ c2 ≤ 0xAF then [c, c2 + 0x20]
       else if c2 = 0x81 then [c, 0xB5]
       else [c, c2]) ++ to_lower_russian rest
    else if c = 0xD1 then c :: c2 :: to_lower_russian rest
    else if 65 ≤ c ∧ c ≤ 90 then (c + 32) :: to_lower_russian (c2 :: rest)
    else c :: to_lower_russian (c2 :: rest)

end RussianStemmer

/-- The word has no capital Cyrillic letter: no two-byte unit `0xD0 c2` with `c2` in
`0x90..0xAF` or `c2 = 0x81`; a two-byte unit led by `0xD0` or `0xD1` has a second byte of
at least `0x80`. -/
def noCapitalCyrillic : List Nat → Bool
  | [] => true
  | [_] => true
  | c :: c2 :: rest =>
    if c = 0xD0 then
      !(0x90 ≤ c2 && c2 ≤ 0xAF) && c2 != 0x81 && 0x80 ≤ c2 && noCapitalCyrillic rest
    else if c = 0xD1 then 0x80 ≤ c2 && noCapitalCyrillic rest
    else noCapitalCyrillic (c2 :: rest)

/-! ### `bool_indexer.cpp`: `process_file` -/

/-- C `atoi`: skip white space, read an optional sign and the digits that follow; no digit
gives 0.  A value outside the range of `int` is undefined behaviour, modelled by `none`. -/
def atoi (s : List Nat) : Option Int :=
  let s := s.dropWhile isspace
  let neg := s.head? = some 45
  let s := if s.head? = some 45 ∨ s.head? = some 43 then s.drop 1 else s
  let v : Int :=
    if neg then -(digitsValue (s.takeWhile isdigit) : Int)
    else (digitsValue (s.takeWhile isdigit) : Int)
  if -2 ^ 31 ≤ v ∧ v < 2 ^ 31 then some v else none

/-- The tokens that `strtok(line, " \t")` followed by `strtok(nullptr, " \t")` until a null
pointer deliver: the maximal runs of bytes other than space and tab.  `cur` is the token
being read. -/
def strtokAll : List Nat → List Nat → List (List Nat)
  | [], cur => if cur = [] then [] else [cur]
  | c :: s, cur =>
    if c = 32 ∨ c = 9 then (if cur = [] then strtokAll s [] else cur :: strtokAll s [])
    else strtokAll s (cur ++ [c])

/-- One trip of `while (pos_str)` in `process_file`: `atoi`, then `add_occurrence` only when
`pos > 0`. -/
def processField (term : List Nat) (doc_id : Int) (b : BoolIndexer) (field : List Nat) :
    Option BoolIndexer :=
  match atoi field with
  | none => none
  | some pos => if pos > 0 then some (b.add_occurrence term doc_id pos) else some b

/-- The body of the `fgets` loop of `process_file` for one line: cut at the first NUL as
`strlen` does, strip one trailing `\n`, take the first token as the term and every further
token as a position field. -/
def processLine (doc_id : Int) (b : BoolIndexer) (line : List Nat) : Option BoolIndexer :=
  let s := line.takeWhile (fun c => c != 0)
  let s := if s.getLast? = some 10 then s.dropLast else s
  match strtokAll s [] with
  | [] => some b
  | term :: fields => fields.foldlM (processField term doc_id) b

/-- Source `process_file` on the bytes that the stream delivers (`none`: the file cannot be
opened, nothing is done). -/
def process_file (file : Option (List Nat)) (doc_id : Int) (b : BoolIndexer) :
    Option BoolIndexer :=
  match file with
  | none => some b
  | some bytes => (readLines 4096 bytes.length bytes).foldlM (processLine doc_id) b

/-! ### Reading the builder state back -/

/-- The `TermData` that the builder holds for `term`: the slot of `index_data` at the id
that `term_to_id` gives. -/
def BoolIndexer.postings (b : BoolIndexer) (term : List Nat) : Option TermData :=
  match b.term_to_id.find term with
  | some id => b.index_data.getD id.toNat none
  | none => none

/-- The positions passed for the pair (`t`, `d`), in call order. -/
def positionsOf (calls : List BuildCall) (t : List Nat) (d : Int) : List Int :=
  calls.filterMap (fun c =>
    match c with
    | .add_occurrence t' d' p => if t' = t ∧ d' = d then some p else none
    | .add_doc _ => none)

/-- The document ids passed together with the term `t`, in call order. -/
def docsOf (calls : List BuildCall) (t : List Nat) : List Int :=
  calls.filterMap (fun c =>
    match c with
    | .add_occurrence t' d' _ => if t' = t then some d' else none
    | .add_doc _ => none)

/-- The terms passed to `add_occurrence`, in call order. -/
def termsOf (calls : List BuildCall) : List (List Nat) :=
  calls.filterMap (fun c =>
    match c with
    | .add_occurrence t _ _ => some t
    | .add_doc _ => none)

/-- The distinct members of `l` in the order of their first occurrence. -/
def firstSeen (l : List (List Nat)) : List (List Nat) :=
  l.foldl (fun acc t => if t ∈ acc then acc else acc ++ [t]) []

namespace RussianStemmer

/-- Source `replace_yo_with_e`: the pairs `0xD1 0x91` and `0xD0 0x81` become `0xD0 0xB5`
and two bytes are skipped; any other byte is kept and one byte is skipped. -/
def replace_yo_with_e : List Nat → List Nat
  | [] => []
  | [c] => [c]
  | c :: c2 :: rest =>
    if (c = 0xD1 ∧ c2 = 0x91) ∨ (c = 0xD0 ∧ c2 = 0x81) then
      0xD0 :: 0xB5 :: replace_yo_with_e rest
    else c :: replace_yo_with_e (c2 :: rest)

/-- Source `is_number`: every byte is an ASCII digit. -/
def is_number (word : List Nat) : Bool := word.all isdigit

/-- Source `ends_with_utf8`: the suffix is not longer than the word and `strcmp` on the tail
of the word gives 0. -/
def ends_with_utf8 (word suffix : List Nat) : Bool :=
  if word.length < suffix.length then false
  else decide (strcmp (word.drop (word.length - suffix.length)) suffix = 0)

/-- Source `remove_suffix_utf8`: the word is cut where the suffix starts. -/
def remove_suffix_utf8 (word suffix : List Nat) : List Nat :=
  if suffix.length ≤ word.length ∧ ends_with_utf8 word suffix = true then
    word.take (word.length - suffix.length)
  else word

/-- The array `noun_suffixes` of `stem_word`. -/
def noun_suffixes : List (List Nat) :=
  [[0xD0, 0xB0, 0xD0, 0xBC], [0xD1, 0x8F, 0xD0, 0xBC], [0xD0, 0xBE, 0xD0, 0xBC],
   [0xD0, 0xB5, 0xD0, 0xBC], [0xD0, 0xBE, 0xD0, 0xB9], [0xD0, 0xB5, 0xD0, 0xB9],
   [0xD0, 0xBE, 0xD0, 0xB2], [0xD0, 0xB5, 0xD0, 0xB2], [0xD0, 0xB5, 0xD0, 0xB9],
   [0xD0, 0xB0, 0xD0, 0xBC, 0xD0, 0xB8], [0xD1, 0x8F, 0xD0, 0xBC, 0xD0, 0xB8],
   [0xD0, 0xB0, 0xD1, 0x85], [0xD1, 0x8F, 0xD1, 0x85]]

/-- The array `verb_suffixes` of `stem_word`. -/
def verb_suffixes : List (List Nat) :=
  [[0xD0, 0xBB, 0xD0, 0xB0], [0xD0, 0xBB, 0xD0, 0xBE], [0xD0, 0xBB, 0xD0, 0xB8],
   [0xD1, 0x82, 0xD1, 0x8C], [0xD0, 0xBB, 0xD1, 0x81, 0xD1, 0x8F],
   [0xD0, 0xBB, 0xD0, 0xBE, 0xD1, 0x81, 0xD1, 0x8C],
   [0xD0, 0xBB, 0xD0, 0xB8, 0xD1, 0x81, 0xD1, 0x8C],
   [0xD0, 0xB0, 0xD0, 0xBB], [0xD1, 0x8F, 0xD0, 0xBB], [0xD0, 0xB8, 0xD0, 0xBB],
   [0xD1, 0x8B, 0xD0, 0xBB]]

/-- The array `adj_suffixes` of `stem_word`. -/
def adj_suffixes : List (List Nat) :=
  [[0xD1, 0x8B, 0xD0, 0xB9], [0xD0, 0xB8, 0xD0, 0xB9], [0xD0, 0xBE, 0xD0, 0xB9],
   [0xD0, 0xB0, 0xD1, 0x8F], [0xD1, 0x8F, 0xD1, 0x8F], [0xD0, 0xBE, 0xD0, 0xB5],
   [0xD0, 0xB5, 0xD0, 0xB5], [0xD1, 0x8B, 0xD0, 0xB5], [0xD0, 0xB8, 0xD0, 0xB5],
   [0xD0, 0xBE, 0xD0, 0xB3, 0xD0, 0xBE], [0xD0, 0xB5, 0xD0, 0xB3, 0xD0, 0xBE],
   [0xD0, 0xBE, 0xD0, 0xBC, 0xD1, 0x83], [0xD0, 0xB5, 0xD0, 0xBC, 0xD1, 0x83]]

/-- The search of one suffix loop of `stem_word`: the word with the first suffix of the
table that it ends with removed, `none` when it ends with none. -/
def stripFirst : List (List Nat) → List Nat → Option (List Nat)
  | [], _ => none
  | suffix :: rest, word =>
    if ends_with_utf8 word suffix then some (remove_suffix_utf8 word suffix)
    else stripFirst rest word

/-- One suffix loop of `stem_word` followed by the rest `next` of the function: after a
removal that leaves fewer than 2 bytes the function returns. -/
def stage (table : List (List Nat)) (next : List Nat → List Nat) (word : List Nat) :
    List Nat :=
  match stripFirst table word with
  | some cut => if cut.length < 2 then cut else next cut
  | none => next word

/-- The end of `stem_word`: a final soft sign `0xD1 0x8C` is cut off. -/
def dropSoftSign (word : List Nat) : List Nat :=
  if 2 ≤ word.length ∧ word.getD (word.length - 2) 0 = 0xD1 ∧
      word.getD (word.length - 1) 0 = 0x8C then
    word.take (word.length - 2)
  else word

/-- Source `RussianStemmer::stem_word`, as the word left in the buffer. -/
def stem_word (word : List Nat) : List Nat :=
  if word = [] then word
  else
    let w := replace_yo_with_e (to_lower_russian word)
    if w.length < 3 then w
    else if is_number w then []
    else stage noun_suffixes (stage verb_suffixes (stage adj_suffixes dropSoftSign)) w

end RussianStemmer

namespace RussianStemmer

/-- The word is in the form `to_lower_russian` produces: read as that function reads it, it
holds no `A`..`Z` and after no lead byte `0xD0` a byte of `0x90..0xAF` or `0x81`. -/
def lowered : List Nat → Bool
  | [] => true
  | [c] => !(decide (65 ≤ c ∧ c ≤ 90))
  | c :: c2 :: rest =>
    if c = 0xD0 then !(decide (0x90 ≤ c2 ∧ c2 ≤ 0xAF)) && c2 != 0x81 && lowered rest
    else if c = 0xD1 then lowered rest
    else !(decide (65 ≤ c ∧ c ≤ 90)) && lowered (c2 :: rest)

/-- The word holds neither `0xD1 0x91` nor `0xD0 0x81` at any place. -/
def yoFree : List Nat → Bool
  | [] => true
  | [_] => true
  | c :: c2 :: rest =>
    !(decide ((c = 0xD1 ∧ c2 = 0x91) ∨ (c = 0xD0 ∧ c2 = 0x81))) && yoFree (c2 :: rest)

/-- Nothing is left for `stem_word` to cut from the word: it has fewer than 3 bytes, or it
is not a number, ends with no suffix of the three tables and has no final soft sign. -/
def bare (word : List Nat) : Bool :=
  decide (word.length < 3) ||
    (!is_number word && (stripFirst noun_suffixes word).isNone &&
      (stripFirst verb_suffixes word).isNone && (stripFirst adj_suffixes word).isNone &&
      decide (dropSoftSign word = word))

end RussianStemmer

/-- UTF-8 bytes of the capital Russian letter number `k` (`А` is 0, `Я` is 31), the code
point `U+0410 + k`. -/
def upperLetter (k : Nat) : List Nat := [0xD0, 0x90 + k]

/-- UTF-8 bytes of the small Russian letter number `k` (`а` is 0, `я` is 31), the code point
`U+0430 + k`: lead byte `0xD0` up to `п`, lead byte `0xD1` from `р` on. -/
def lowerLetter (k : Nat) : List Nat :=
  if k < 16 then [0xD0, 0xB0 + k] else [0xD1, 0x80 + (k - 16)]

/-! ### `tokenizer.cpp` -/

/-- The struct `TokenizerConfig` with its default values. -/
structure TokenizerConfig where
  lowercase : Bool := true
  remove_numbers : Bool := true
  remove_short_tokens : Bool := true
  min_token_length : Nat := 2
  save_positions : Bool := false
  deriving DecidableEq, Repr

/-- The struct `TokenInfo` of `ImprovedTokenizer`. -/
structure TokenInfo where
  text : List Nat
  position : Nat
  deriving DecidableEq, Repr

namespace UTF8Converter

/-- Lookup in `cyrillic_lowercase_map` as `init_cyrillic_map` fills it: `U+0410..U+042F`
go up by `0x20` and `U+0401` goes to `U+0451`. -/
def cyrillic_lowercase_map (code_point : Nat) : Option Nat :=
  if 0x0410 ≤ code_point ∧ code_point ≤ 0x042F then some (code_point + 0x20)
  else if code_point = 0x0401 then some 0x0451
  else none

/-- The loop of `to_lower_rus_utf8` on the unread bytes; every trip reads at least one byte,
so the number of bytes bounds the trips.  A byte pushed to the result is reduced to 8
bits. -/
def lowerLoop : Nat → List Nat → List Nat
  | 0, _ => []
  | _ + 1, [] => []
  | fuel + 1, c :: rest =>
    if c < 128 then
      (if 65 ≤ c ∧ c ≤ 90 then c + 32 else c) :: lowerLoop fuel rest
    else if c &&& 0xE0 = 0xC0 then
      match rest with
      | [] => [c]
      | c2 :: rest2 =>
        (match cyrillic_lowercase_map (((c &&& 0x1F) <<< 6) ||| (c2 &&& 0x3F)) with
          | some lower => [(0xC0 ||| ((lower >>> 6) &&& 0x1F)) % 256, (0x80 ||| (lower &&& 0x3F)) % 256]
          | none => [c, c2]) ++ lowerLoop fuel rest2
    else if c &&& 0xF0 = 0xE0 then
      (if 3 ≤ (c :: rest).length then (c :: rest).take 3 else []) ++
        lowerLoop fuel ((c :: rest).drop 3)
    else if c &&& 0xF8 = 0xF0 then
      (if 4 ≤ (c :: rest).length then (c :: rest).take 4 else []) ++
        lowerLoop fuel ((c :: rest).drop 4)
    else c :: lowerLoop fuel rest

/-- Source `UTF8Converter::to_lower_rus_utf8`. -/
def to_lower_rus_utf8 (s : List Nat) : List Nat := lowerLoop s.length s

/-- Source `is_utf8_letter_start`. -/
def is_utf8_letter_start (c : Nat) : Bool :=
  (97 ≤ c && c ≤ 122) || (65 ≤ c && c ≤ 90) || c = 0xD0 || c = 0xD1

/-- Source `is_word_continuation`. -/
def is_word_continuation (c : Nat) : Bool :=
  (97 ≤ c && c ≤ 122) || (65 ≤ c && c ≤ 90) || (48 ≤ c && c ≤ 57) ||
    c = 95 || c = 45 || c = 39

end UTF8Converter

namespace ImprovedTokenizer

/-- Source `get_utf8_char_length`. -/
def get_utf8_char_length (first_byte : Nat) : Nat :=
  if first_byte < 128 then 1
  else if first_byte &&& 0xE0 = 0xC0 then 2
  else if first_byte &&& 0xF0 = 0xE0 then 3
  else if first_byte &&& 0xF8 = 0xF0 then 4
  else 1

/-- Source `should_keep_token`. -/
def should_keep_token (cfg : TokenizerConfig) (token : List Nat) : Bool :=
  if cfg.remove_short_tokens ∧ token.length < cfg.min_token_length then false
  else if cfg.remove_numbers ∧ token.all isdigit = true then false
  else true

/-- The `for` loop of `tokenize_text` and the lines after it, on the unread text and the
state (`tokens`, `current_token`, `in_token`, `position`); `none` when the fuel runs out
before the text does. -/
def tokenizeLoop (cfg : TokenizerConfig) :
    Nat → List Nat → List TokenInfo → List Nat → Bool → Nat → Option (List TokenInfo)
  | 0, _, _, _, _, _ => none
  | _ + 1, [], tokens, cur, in_token, position =>
    some (if in_token && should_keep_token cfg cur then
      tokens ++ [{ text := cur, position := position }] else tokens)
  | fuel + 1, c :: rest, tokens, cur, in_token, position =>
    if UTF8Converter.is_utf8_letter_start c then
      if get_utf8_char_length c ≤ (c :: rest).length then
        tokenizeLoop cfg fuel ((c :: rest).drop (get_utf8_char_length c)) tokens
          ((if in_token then cur else []) ++
            (if cfg.lowercase then
              UTF8Converter.to_lower_rus_utf8 ((c :: rest).take (get_utf8_char_length c))
            else (c :: rest).take (get_utf8_char_length c)))
          true position
      else tokenizeLoop cfg fuel rest tokens (if in_token then cur else []) true position
    else if in_token && UTF8Converter.is_word_continuation c then
      tokenizeLoop cfg fuel rest tokens (cur ++ [c]) in_token position
    else if in_token then
      if should_keep_token cfg cur then
        tokenizeLoop cfg fuel rest (tokens ++ [{ text := cur, position := position }]) cur
          false (position + 1)
      else tokenizeLoop cfg fuel rest tokens cur false position
    else tokenizeLoop cfg fuel rest tokens cur in_token position

/-- Source `ImprovedTokenizer::tokenize_text`; every trip of the loop reads at least one
byte. -/
def tokenize_text (cfg : TokenizerConfig) (text : List Nat) : Option (List TokenInfo) :=
  tokenizeLoop cfg (text.length + 1) text [] [] false 0

end ImprovedTokenizer

/-! ### `bool_indexer.cpp`: `build_from_dir` -/

/-- The tokens of a line as `process_file` of the indexer splits it: the line up to its
NUL, without a trailing newline, cut at spaces and tabs. -/
def lineTokens (line : List Nat) : List (List Nat) :=
  let s := line.takeWhile (fun c => c != 0)
  let s := if s.getLast? = some 10 then s.dropLast else s
  strtokAll s []

/-- The test `pos > 0` of `process_file` fails for the field: `atoi` gives a value that is
zero or negative. -/
def nonPositive (field : List Nat) : Bool :=
  match atoi field with
  | some pos => decide (pos ≤ 0)
  | none => false

/-- A line without a usable position: every field after the term fails the test
`pos > 0`; a line that is a term only has no such field at all. -/
def NoPosition (line : List Nat) : Prop :=
  ∀ field ∈ (lineTokens line).tail, nonPositive field = true

instance (line : List Nat) : Decidable (NoPosition line) :=
  inferInstanceAs (Decidable (∀ field ∈ (lineTokens line).tail, nonPositive field = true))

/-- A term as it stands alone on a line: no space, tab, NUL or newline byte. -/
def PlainTerm (t : List Nat) : Prop := ∀ c ∈ t, c ≠ 32 ∧ c ≠ 9 ∧ c ≠ 0 ∧ c ≠ 10

instance (t : List Nat) : Decidable (PlainTerm t) :=
  inferInstanceAs (Decidable (∀ c ∈ t, c ≠ 32 ∧ c ≠ 9 ∧ c ≠ 0 ∧ c ≠ 10))

namespace ImprovedTokenizer

/-- The line that `ImprovedTokenizer::process_file` writes for a token:
`token.text << " " << token.position << "\n"` with `save_positions`, else
`token.text << "\n"`. -/
def tokenLine (cfg : TokenizerConfig) (token : TokenInfo) : List Nat :=
  if cfg.save_positions then token.text ++ [32] ++ printNat token.position ++ [10]
  else token.text ++ [10]

end ImprovedTokenizer

namespace RussianStemmer

/-- The line that `RussianStemmer::process_file` writes for an input line (without its
newline): the line is cut at its first space and stemmed, and `word << '\n'` is written
unless the line or the stem is empty (`none`). -/
def stemLine (line : List Nat) : Option (List Nat) :=
  let cut := line.takeWhile (fun c => c != 32)
  if cut = [] then none
  else
    let word := stem_word cut
    if word = [] then none else some (word ++ [10])

end RussianStemmer

namespace TermDict

/-- The dictionary after the calls `add(key, value)` of `calls`, made in order on a newly
constructed dictionary. -/
def addAll (calls : List (List Nat × Int)) : TermDict :=
  calls.foldl (fun d kv => d.add kv.1 kv.2) TermDict.new

/-- The nodes that the loop `for (auto it = begin(); it != end(); ++it)` visits from the
iterator `it` on, in order; `it != end()` compares the `current` pointers. -/
def visit (d : TermDict) : Nat → Iterator → List Node
  | 0, _ => []
  | fuel + 1, it =>
    match it.current with
    | [] => []
    | node :: _ => node :: visit d fuel (d.next it)

/-- The finite map that the dictionary is to refine, in the words of the specification:
the value of the most recent `add` for the key `k`, `none` when `k` was never added. -/
def lastAdded (calls : List (List Nat × Int)) (k : List Nat) : Option Int :=
  calls.foldl (fun m kv => if kv.1 = k then some kv.2 else m) none

end TermDict

namespace SimpleVector

/-- A read `items[k]` made by the call `quick_sort(left, right)`, checked against the range
of that call: `none` also for an index outside `[left, right]`. -/
def getIn {α : Type} (items : List α) (left right k : Int) : Option α :=
  if left ≤ k ∧ k ≤ right then getAt items k else none

/-- The loop `while (items[i] < pivot) i++;` of `quick_sort(left, right)` with every read
checked against `[left, right]`. -/
def scanUpIn {α : Type} (lt : α → α → Bool) (pivot : α) (items : List α) (left right : Int) :
    Nat → Int → Option Int
  | 0, _ => none
  | fuel + 1, i =>
    match getIn items left right i with
    | none => none
    | some x => if lt x pivot then scanUpIn lt pivot items left right fuel (i + 1) else some i

/-- The loop `while (pivot < items[j]) j--;` of `quick_sort(left, right)` with every read
checked against `[left, right]`. -/
def scanDownIn {α : Type} (lt : α → α → Bool) (pivot : α) (items : List α)
    (left right : Int) : Nat → Int → Option Int
  | 0, _ => none
  | fuel + 1, j =>
    match getIn items left right j with
    | none => none
    | some x => if lt pivot x then scanDownIn lt pivot items left right fuel (j - 1) else some j

/-- The loop `while (i <= j)` of `quick_sort(left, right)` over the checked scans; the
exchange touches the two indices at which the scans stopped. -/
def partitionLoopIn {α : Type} (lt : α → α → Bool) (pivot : α) (left right : Int) :
    Nat → List α → Int → Int → Option (List α × Int × Int)
  | 0, _, _, _ => none
  | fuel + 1, items, i, j =>
    if i ≤ j then
      match scanUpIn lt pivot items left right (items.length + 1) i with
      | none => none
      | some i1 =>
        match scanDownIn lt pivot items left right (items.length + 1) j with
        | none => none
        | some j1 =>
          if i1 ≤ j1 then
            partitionLoopIn lt pivot left right fuel (swap items i1.toNat j1.toNat) (i1 + 1)
              (j1 - 1)
          else partitionLoopIn lt pivot left right fuel items i1 j1
    else some (items, i, j)

/-- The method `quick_sort(left, right)` with every read of every call, the recursive ones
included, checked against the range `[left, right]` of the call that makes it.  Indices are
mathematical integers; `left + right` stays within `int` for a vector of fewer than `2^30`
elements. -/
def quick_sortIn {α : Type} (lt : α → α → Bool) : Nat → List α → Int → Int → Option (List α)
  | 0, _, _, _ => none
  | fuel + 1, items, left, right =>
    if left ≥ right then some items
    else
      match getIn items left right (Int.tdiv (left + right) 2) with
      | none => none
      | some pivot =>
        match partitionLoopIn lt pivot left right (items.length + 1) items left right with
        | none => none
        | some (items1, i, j) =>
          match (if left < j then quick_sortIn lt fuel items1 left j else some items1) with
          | none => none
          | some items2 =>
            if i < right then quick_sortIn lt fuel items2 i right else some items2

/-- The method `sort_quick` over the checked `quick_sort`. -/
def sort_quickIn {α : Type} (lt : α → α → Bool) (items : List α) : Option (List α) :=
  if items.length > 1 then quick_sortIn lt (items.length + 1) items 0 ((items.length : Int) - 1)
  else some items

/-- Loop invariant of `while (i <= j)` in `quick_sort(left, right)`: the indices stay next
to the range, nothing left of `i` is above the pivot, nothing right of `j` is below it, and
while `i <= j` each scan has an element in the range at which it stops. -/
def PartInv {α : Type} (lt : α → α → Bool) (pivot : α) (left right : Int) (items : List α)
    (i j : Int) : Prop :=
  0 ≤ left ∧ right < items.length ∧ left ≤ i ∧ j ≤ right ∧ i ≤ right + 1 ∧ left - 1 ≤ j ∧
  (∀ (k : Int) (x : α), left ≤ k → k < i → getAt items k = some x → lt pivot x = false) ∧
  (∀ (k : Int) (x : α), j < k → k ≤ right → getAt items k = some x → lt x pivot = false) ∧
  (i ≤ j → ∃ (k : Int) (x : α), i ≤ k ∧ k ≤ right ∧ getAt items k = some x ∧
    lt x pivot = false) ∧
  (i ≤ j → ∃ (k : Int) (x : α), left ≤ k ∧ k ≤ j ∧ getAt items k = some x ∧
    lt pivot x = false)

end SimpleVector

/-- An expression tree of the query grammar, in the words of the specification: a word, a
parenthesised group, `!` in front of a factor, and `&&` / `||` with the chain so far as the
left operand and the next term as the right one. -/
inductive Query where
  | word (w : List Nat)
  | group (e : Query)
  | neg (f : Query)
  | conj (l r : Query)
  | disj (l r : Query)
  deriving DecidableEq, Repr

namespace Query

/-- A factor of the grammar: a word or a parenthesised group. -/
def isFactor : Query → Bool
  | word _ => true
  | group _ => true
  | _ => false

/-- A term of the grammar: a factor, or `!` in front of a factor. -/
def isTerm : Query → Bool
  | conj _ _ => false
  | disj _ _ => false
  | _ => true

/-- The tree follows the grammar: words are non-empty runs of word bytes, `!` stands in
front of a factor, and the right operand of `&&` and `||` is a term, so that chains are
left-associated. -/
def wellFormed : Query → Bool
  | word w => decide (QueryParser.IsWord w)
  | group e => wellFormed e
  | neg f => isFactor f && wellFormed f
  | conj l r => wellFormed l && isTerm r && wellFormed r
  | disj l r => wellFormed l && isTerm r && wellFormed r

/-- The text of the tree: `(` and `)` around a group, `!` right before its factor, and
`&&` / `||` between blanks. -/
def render : Query → List Nat
  | word w => w
  | group e => 40 :: (render e ++ [41])
  | neg f => 33 :: render f
  | conj l r => render l ++ ([32, 38, 38, 32] ++ render r)
  | disj l r => render l ++ ([32, 124, 124, 32] ++ render r)

/-- The value of the tree: `get_docs` for a word (looked up by its token text `lexeme w`,
which is `w` itself for a lowercase word of at most 255 bytes), `complement(., doc_total())`
for `!`, and `intersect` / `unite` of the value of the chain so far with that of the next
term; `none` when a `get_docs` call fails to read. -/
def eval (idx : SearchIndex) : Query → Option (List Int)
  | word w => idx.get_docs (QueryParser.lexeme w)
  | group e => eval idx e
  | neg f =>
    match eval idx f with
    | some a => some (complement a idx.doc_total)
    | none => none
  | conj l r =>
    match eval idx l, eval idx r with
    | some a, some b => some (intersect a b)
    | _, _ => none
  | disj l r =>
    match eval idx l, eval idx r with
    | some a, some b => some (unite a b)
    | _, _ => none

end Query

namespace SimpleVector

theorem sortShift_spec (key : Int) (A : List Int) :
    ∀ (h : Int) (R : List Int),
      (sortShift key A.length (A ++ h :: R)).1.set (sortShift key A.length (A ++ h :: R)).2 key
        = (A.reverse.orderedInsert (fun x y => y ≤ x) key).reverse ++ R := by
  induction A using List.reverseRecOn with
  | nil => intro h R; simp [sortShift]
  | append_singleton A x ih =>
    intro h R
    have hlen : (A ++ [x]).length = A.length + 1 := by simp
    have hget : (A ++ [x] ++ h :: R).getD A.length 0 = x := by
      rw [List.append_assoc, List.getD_eq_getElem?_getD, List.getElem?_append_right (le_refl _)]
      simp
    rw [hlen, sortShift, hget]
    by_cases hk : key < x
    · have hset : (A ++ [x] ++ h :: R).set (A.length + 1) x = A ++ x :: (x :: R) := by
        rw [List.append_assoc, List.set_append_right _ _ (by simp)]
        simp
      simp only [hk, if_true, hset]
      rw [ih x (x :: R)]
      have : ¬ x ≤ key := not_le.mpr hk
      simp [List.orderedInsert, this]
    · have hxk : x ≤ key := not_lt.mp hk
      simp only [hk, if_false]
      rw [List.append_assoc, List.set_append_right _ _ (by simp)]
      simp [List.orderedInsert, hxk]

end SimpleVector

namespace SimpleVector

theorem sortStep_spec (S : List Int) (key : Int) (R : List Int) :
    sortStep (S ++ key :: R) S.length
      = (S.reverse.orderedInsert (fun x y => y ≤ x) key).reverse ++ R := by
  have hget : (S ++ key :: R).getD S.length 0 = key := by
    rw [List.getD_eq_getElem?_getD, List.getElem?_append_right (le_refl _)]
    simp
  unfold sortStep
  simp only [hget]
  exact sortShift_spec key S key R

theorem insertRight_sorted (S : List Int) (key : Int) (hS : S.Sorted (· ≤ ·)) :
    ((S.reverse.orderedInsert (fun x y => y ≤ x) key).reverse).Sorted (· ≤ ·) := by
  have h1 : (S.reverse).Sorted (fun x y => y ≤ x) := by
    simpa [List.Sorted, List.pairwise_reverse] using hS
  have h2 := h1.orderedInsert key
  simpa [List.Sorted, List.pairwise_reverse] using h2

theorem insertRight_perm (S : List Int) (key : Int) :
    ((S.reverse.orderedInsert (fun x y => y ≤ x) key).reverse).Perm (S ++ [key]) := by
  refine (List.reverse_perm _).trans ?_
  refine (List.perm_orderedInsert _ _ _).trans ?_
  refine List.Perm.trans ?_ (List.perm_append_comm)
  simp

theorem sortFold_spec (R : List Int) :
    ∀ S : List Int, S.Sorted (· ≤ ·) →
      ((List.range' S.length R.length).foldl sortStep (S ++ R)).Sorted (· ≤ ·) ∧
      ((List.range' S.length R.length).foldl sortStep (S ++ R)).Perm (S ++ R) := by
  induction R with
  | nil => intro S hS; simpa using hS
  | cons key R ih =>
    intro S hS
    simp only [List.length_cons, List.range'_succ, List.foldl_cons, sortStep_spec]
    have hlen : ((S.reverse.orderedInsert (fun x y => y ≤ x) key).reverse).length
        = S.length + 1 := by simp [List.orderedInsert_length]
    have := ih _ (insertRight_sorted S key hS)
    rw [hlen] at this
    refine ⟨this.1, this.2.trans ?_⟩
    have hp := (insertRight_perm S key).append_right R
    simpa using hp

theorem sort_sorted_perm (l : List Int) : (sort l).Sorted (· ≤ ·) ∧ (sort l).Perm l := by
  unfold sort
  split
  · rename_i h
    refine ⟨?_, List.Perm.refl _⟩
    match l, h with
    | [], _ => simp
    | [x], _ => simp
  · rename_i h
    match l, h with
    | x :: R, _ =>
      have := sortFold_spec R [x] (by simp)
      simpa using this

theorem sort_sorted (l : List Int) : (sort l).Sorted (· ≤ ·) := (sort_sorted_perm l).1

theorem sort_perm (l : List Int) : (sort l).Perm l := (sort_sorted_perm l).2

theorem mem_sort {l : List Int} {x : Int} : x ∈ sort l ↔ x ∈ l := (sort_perm l).mem_iff

theorem sort_strict (l : List Int) (h : l.Nodup) : (sort l).Sorted (· < ·) :=
  (sort_sorted l).lt_of_le ((sort_perm l).nodup_iff.mpr h)

theorem sort_eq_self (l : List Int) (h : l.Sorted (· < ·)) : sort l = l :=
  List.eq_of_perm_of_sorted (sort_perm l) (sort_sorted l) h.le_of_lt

end SimpleVector

/-! ### Auxiliary facts on lists -/

theorem drop_eq_getD_cons {a : List Int} {i : Nat} (h : i < a.length) :
    a.drop i = a.getD i 0 :: a.drop (i + 1) := by
  rw [List.getD_eq_getElem _ _ h]
  exact List.drop_eq_getElem_cons h

theorem sorted_drop {a : List Int} (h : a.Sorted (· < ·)) (i : Nat) :
    (a.drop i).Sorted (· < ·) :=
  List.Pairwise.sublist (List.drop_sublist i a) h

theorem eq_of_sorted_of_mem_iff {l₁ l₂ : List Int} (h₁ : l₁.Sorted (· < ·))
    (h₂ : l₂.Sorted (· < ·)) (h : ∀ x, x ∈ l₁ ↔ x ∈ l₂) : l₁ = l₂ :=
  List.eq_of_perm_of_sorted ((List.perm_ext_iff_of_nodup h₁.nodup h₂.nodup).mpr h) h₁ h₂

theorem allDocs_sorted (n : Int) : (allDocs n).Sorted (· < ·) := by
  unfold allDocs
  rw [List.Sorted, List.pairwise_map]
  exact (List.pairwise_lt_range _).imp (fun h => Int.ofNat_lt.mpr h)

theorem mem_allDocs {n x : Int} : x ∈ allDocs n ↔ 0 ≤ x ∧ x < n := by
  unfold allDocs
  simp only [List.mem_map, List.mem_range]
  constructor
  · rintro ⟨k, hk, rfl⟩
    have : ((k : Nat) : Int) < n := by omega
    exact ⟨Int.ofNat_nonneg k, this⟩
  · rintro ⟨h0, h1⟩
    exact ⟨x.toNat, by omega, by simp [Int.toNat_of_nonneg h0]⟩

/-! ### `intersect` -/

theorem filter_mem_head_eq (d : Int) (A B : List Int) (hA : ∀ x ∈ A, d < x) :
    (d :: A).filter (fun x => decide (x ∈ d :: B)) = d :: A.filter (fun x => decide (x ∈ B)) := by
  rw [List.filter_cons]
  simp only [List.mem_cons, true_or, decide_True, if_true]
  congr 1
  apply List.filter_congr
  intro x hx
  have hne : x ≠ d := ne_of_gt (hA x hx)
  simp [hne]

theorem filter_mem_head_lt (d1 d2 : Int) (A B : List Int) (h : d1 < d2)
    (hB : ∀ x ∈ B, d2 < x) :
    (d1 :: A).filter (fun x => decide (x ∈ d2 :: B))
      = A.filter (fun x => decide (x ∈ d2 :: B)) := by
  rw [List.filter_cons]
  have hnot : d1 ∉ d2 :: B := by
    intro hm
    rcases List.mem_cons.mp hm with e | hm
    · omega
    · have := hB _ hm
      omega
  simp [hnot]

theorem filter_mem_head_gt (d1 d2 : Int) (A B : List Int) (h : d2 < d1)
    (hA : ∀ x ∈ A, d1 < x) :
    (d1 :: A).filter (fun x => decide (x ∈ d2 :: B))
      = (d1 :: A).filter (fun x => decide (x ∈ B)) := by
  apply List.filter_congr
  intro x hx
  have hx' : d2 < x := by
    rcases List.mem_cons.mp hx with e | hm
    · rw [e]; exact h
    · exact lt_trans h (hA _ hm)
  simp [ne_of_gt hx']

theorem intersectLoop_spec (a b : List Int) (ha : a.Sorted (· < ·)) (hb : b.Sorted (· < ·)) :
    ∀ (fuel i j : Nat) (res : List Int), (a.length - i) + (b.length - j) ≤ fuel →
      intersectLoop a b fuel i j res
        = res ++ (a.drop i).filter (fun x => decide (x ∈ b.drop j)) := by
  intro fuel
  induction fuel with
  | zero =>
    intro i j res h
    have : a.drop i = [] := List.drop_eq_nil_of_le (by omega)
    simp [intersectLoop, this]
  | succ fuel ih =>
    intro i j res h
    unfold intersectLoop
    by_cases hc : i < a.length ∧ j < b.length
    · obtain ⟨hi, hj⟩ := hc
      have hA := drop_eq_getD_cons hi
      have hB := drop_eq_getD_cons hj
      have sA := sorted_drop ha i
      have sB := sorted_drop hb j
      rw [hA] at sA
      rw [hB] at sB
      have gA := List.rel_of_sorted_cons sA
      have gB := List.rel_of_sorted_cons sB
      simp only [hi, hj, and_self, if_true]
      by_cases h1 : a.getD i 0 = b.getD j 0
      · simp only [h1, if_true]
        rw [ih (i + 1) (j + 1) _ (by omega), hA, hB, h1,
          filter_mem_head_eq _ _ _ (by rw [← h1]; exact gA)]
        simp
      · simp only [h1, if_false]
        by_cases h2 : a.getD i 0 < b.getD j 0
        · simp only [h2, if_true]
          rw [ih (i + 1) j _ (by omega), hA, hB, filter_mem_head_lt _ _ _ _ h2 gB]
        · simp only [h2, if_false]
          have h3 : b.getD j 0 < a.getD i 0 := lt_of_le_of_ne (not_lt.mp h2) (Ne.symm h1)
          rw [ih i (j + 1) _ (by omega), hA, hB, filter_mem_head_gt _ _ _ _ h3 gA]
    · simp only [hc, if_false]
      rcases not_and_or.mp hc with h1 | h1
      · have : a.drop i = [] := List.drop_eq_nil_of_le (by omega)
        simp [this]
      · have : b.drop j = [] := List.drop_eq_nil_of_le (by omega)
        simp [this]

theorem intersect_eq_filter (a b : List Int) (ha : a.Nodup) (hb : b.Nodup) :
    intersect a b
      = (SimpleVector.sort a).filter (fun x => decide (x ∈ SimpleVector.sort b)) := by
  unfold intersect
  have := intersectLoop_spec _ _ (SimpleVector.sort_strict a ha) (SimpleVector.sort_strict b hb)
    ((SimpleVector.sort a).length + (SimpleVector.sort b).length) 0 0 [] (by omega)
  simpa using this

theorem intersect_sorted (a b : List Int) (ha : a.Nodup) (hb : b.Nodup) :
    (intersect a b).Sorted (· < ·) := by
  rw [intersect_eq_filter a b ha hb]
  exact List.Pairwise.sublist (List.filter_sublist _) (SimpleVector.sort_strict a ha)

theorem mem_intersect (a b : List Int) (ha : a.Nodup) (hb : b.Nodup) (x : Int) :
    x ∈ intersect a b ↔ x ∈ a ∧ x ∈ b := by
  rw [intersect_eq_filter a b ha hb]
  simp [SimpleVector.mem_sort]

/-! ### `unite` -/

theorem uniteRest_spec (a : List Int) :
    ∀ (fuel i : Nat) (res : List Int), a.length - i ≤ fuel →
      uniteRest a fuel i res = res ++ a.drop i := by
  intro fuel
  induction fuel with
  | zero =>
    intro i res h
    have : a.drop i = [] := List.drop_eq_nil_of_le (by omega)
    simp [uniteRest, this]
  | succ fuel ih =>
    intro i res h
    unfold uniteRest
    by_cases hi : i < a.length
    · simp only [hi, if_true]
      rw [ih (i + 1) _ (by omega), drop_eq_getD_cons hi]
      simp
    · have : a.drop i = [] := List.drop_eq_nil_of_le (by omega)
      simp [hi, this]

/-- The three loops of `unite`, started in the state `(i, j, res)`. -/
theorem unite_loops_spec (a b : List Int) (ha : a.Sorted (· < ·)) (hb : b.Sorted (· < ·)) :
    ∀ (fuel i j : Nat) (res : List Int), (a.length - i) + (b.length - j) ≤ fuel →
      ∃ T : List Int,
        uniteRest b b.length (uniteLoop a b fuel i j res).2.1
          (uniteRest a a.length (uniteLoop a b fuel i j res).1 (uniteLoop a b fuel i j res).2.2)
          = res ++ T ∧
        T.Sorted (· < ·) ∧ ∀ x, x ∈ T ↔ x ∈ a.drop i ∨ x ∈ b.drop j := by
  have exit_case : ∀ (i j : Nat) (res : List Int), ¬ (i < a.length ∧ j < b.length) →
      ∃ T : List Int,
        uniteRest b b.length j (uniteRest a a.length i res) = res ++ T ∧
        T.Sorted (· < ·) ∧ ∀ x, x ∈ T ↔ x ∈ a.drop i ∨ x ∈ b.drop j := by
    intro i j res hc
    refine ⟨a.drop i ++ b.drop j, ?_, ?_, ?_⟩
    · rw [uniteRest_spec a _ _ _ (by omega), uniteRest_spec b _ _ _ (by omega)]
      simp
    · rcases not_and_or.mp hc with h1 | h1
      · have : a.drop i = [] := List.drop_eq_nil_of_le (by omega)
        simpa [this] using sorted_drop hb j
      · have : b.drop j = [] := List.drop_eq_nil_of_le (by omega)
        simpa [this] using sorted_drop ha i
    · intro x; simp
  intro fuel
  induction fuel with
  | zero =>
    intro i j res h
    simp only [uniteLoop]
    exact exit_case i j res (by omega)
  | succ fuel ih =>
    intro i j res h
    unfold uniteLoop
    by_cases hc : i < a.length ∧ j < b.length
    · obtain ⟨hi, hj⟩ := hc
      have hA := drop_eq_getD_cons hi
      have hB := drop_eq_getD_cons hj
      have sA := sorted_drop ha i
      have sB := sorted_drop hb j
      rw [hA] at sA
      rw [hB] at sB
      have gA := List.rel_of_sorted_cons sA
      have gB := List.rel_of_sorted_cons sB
      simp only [hi, hj, and_self, if_true]
      by_cases h1 : a.getD i 0 = b.getD j 0
      · simp only [h1, if_true]
        obtain ⟨T, hT, sT, mT⟩ := ih (i + 1) (j + 1) (res ++ [b.getD j 0]) (by omega)
        refine ⟨b.getD j 0 :: T, by rw [hT]; simp, ?_, ?_⟩
        · refine List.sorted_cons.mpr ⟨?_, sT⟩
          intro x hx
          rcases (mT x).mp hx with hx | hx
          · rw [← h1]; exact gA x hx
          · exact gB x hx
        · intro x
          rw [hA, hB, h1]
          simp only [List.mem_cons, mT x]
          tauto
      · simp only [h1, if_false]
        by_cases h2 : a.getD i 0 < b.getD j 0
        · simp only [h2, if_true]
          obtain ⟨T, hT, sT, mT⟩ := ih (i + 1) j (res ++ [a.getD i 0]) (by omega)
          refine ⟨a.getD i 0 :: T, by rw [hT]; simp, ?_, ?_⟩
          · refine List.sorted_cons.mpr ⟨?_, sT⟩
            intro x hx
            rcases (mT x).mp hx with hx | hx
            · exact gA x hx
            · rw [hB] at hx
              rcases List.mem_cons.mp hx with e | hx
              · rw [e]; exact h2
              · exact lt_trans h2 (gB x hx)
          · intro x
            rw [hA]
            simp only [List.mem_cons, mT x]
            tauto
        · simp only [h2, if_false]
          have h3 : b.getD j 0 < a.getD i 0 := lt_of_le_of_ne (not_lt.mp h2) (Ne.symm h1)
          obtain ⟨T, hT, sT, mT⟩ := ih i (j + 1) (res ++ [b.getD j 0]) (by omega)
          refine ⟨b.getD j 0 :: T, by rw [hT]; simp, ?_, ?_⟩
          · refine List.sorted_cons.mpr ⟨?_, sT⟩
            intro x hx
            rcases (mT x).mp hx with hx | hx
            · rw [hA] at hx
              rcases List.mem_cons.mp hx with e | hx
              · rw [e]; exact h3
              · exact lt_trans h3 (gA x hx)
            · exact gB x hx
          · intro x
            rw [hB]
            simp only [List.mem_cons, mT x]
            tauto
    · simp only [hc, if_false]
      exact exit_case i j res hc

theorem unite_sorted_mem (a b : List Int) (ha : a.Nodup) (hb : b.Nodup) :
    (unite a b).Sorted (· < ·) ∧ ∀ x, x ∈ unite a b ↔ x ∈ a ∨ x ∈ b := by
  obtain ⟨T, hT, sT, mT⟩ := unite_loops_spec _ _ (SimpleVector.sort_strict a ha)
    (SimpleVector.sort_strict b hb)
    ((SimpleVector.sort a).length + (SimpleVector.sort b).length) 0 0 [] (by omega)
  have hU : unite a b = T := by
    unfold unite
    simpa using hT
  rw [hU]
  refine ⟨sT, fun x => ?_⟩
  rw [mT x]
  simp [SimpleVector.mem_sort]

/-! ### `complement` -/

theorem complement_fold_spec (a : List Int) (ha : a.Sorted (· < ·)) (h0 : ∀ x ∈ a, 0 ≤ x) :
    ∀ k : Nat, ∃ idx : Nat,
      (List.range k).foldl (complementStep a) (0, [])
        = (idx, ((List.range k).map Int.ofNat).filter (fun x => decide (x ∉ a))) ∧
      idx ≤ a.length ∧ (∀ x ∈ a.take idx, x < (k : Int)) ∧ (∀ x ∈ a.drop idx, (k : Int) ≤ x) := by
  intro k
  induction k with
  | zero =>
    refine ⟨0, by simp, by simp, by simp, ?_⟩
    intro x hx
    simpa using h0 x (by simpa using hx)
  | succ k ih =>
    obtain ⟨idx, hf, hle, ht, hd⟩ := ih
    rw [List.range_succ, List.foldl_append, hf]
    simp only [List.foldl_cons, List.foldl_nil, List.map_append, List.map_cons, List.map_nil,
      List.filter_append]
    unfold complementStep
    by_cases hc : idx < a.length ∧ a.getD idx 0 = (k : Int)
    · obtain ⟨hi, hk⟩ := hc
      have hA := drop_eq_getD_cons hi
      have sA := sorted_drop ha idx
      rw [hA] at sA
      have gA := List.rel_of_sorted_cons sA
      have hmem : (k : Int) ∈ a := by
        have : (k : Int) ∈ a.drop idx := by rw [hA, hk]; exact List.mem_cons_self _ _
        exact List.mem_of_mem_drop this
      refine ⟨idx + 1, ?_, by omega, ?_, ?_⟩
      · simp only [hi, hk, and_self, if_true]
        simp [List.filter_cons, hmem]
      · intro x hx
        rw [List.take_succ] at hx
        rcases List.mem_append.mp hx with hx | hx
        · have := ht x hx
          push_cast
          omega
        · rw [List.getD_eq_getElem _ _ hi] at hk
          have hx2 : x = a[idx] := by
            simpa [List.getElem?_eq_getElem hi] using hx
          push_cast
          omega
      · intro x hx
        have := gA x hx
        push_cast
        omega
    · have hnot : (k : Int) ∉ a := by
        intro hm
        rw [← List.take_append_drop idx a] at hm
        rcases List.mem_append.mp hm with hm | hm
        · exact absurd (ht _ hm) (lt_irrefl _)
        · have hi : idx < a.length := by
            by_contra hcon
            rw [List.drop_eq_nil_of_le (by omega)] at hm
            exact absurd hm (List.not_mem_nil _)
          have hA := drop_eq_getD_cons hi
          have sA := sorted_drop ha idx
          rw [hA] at sA
          have gA := List.rel_of_sorted_cons sA
          have hne : a.getD idx 0 ≠ (k : Int) := fun e => hc ⟨hi, e⟩
          have hge : (k : Int) ≤ a.getD idx 0 := hd _ (by rw [hA]; exact List.mem_cons_self _ _)
          rw [hA] at hm
          rcases List.mem_cons.mp hm with e | hm
          · exact hne e.symm
          · have := gA _ hm
            omega
      refine ⟨idx, ?_, hle, ?_, ?_⟩
      · simp only [hc, if_false]
        simp [List.filter_cons, hnot]
      · intro x hx
        have := ht x hx
        push_cast
        omega
      · intro x hx
        have h1 := hd x hx
        have h2 : x ≠ (k : Int) := fun e => hnot (e ▸ List.mem_of_mem_drop hx)
        push_cast
        omega

theorem complement_eq_filter (a : List Int) (n : Int) (ha : a.Sorted (· < ·))
    (h0 : ∀ x ∈ a, 0 ≤ x) :
    complement a n = (allDocs n).filter (fun x => decide (x ∉ a)) := by
  unfold complement allDocs
  rw [SimpleVector.sort_eq_self a ha]
  obtain ⟨idx, hf, -⟩ := complement_fold_spec a ha h0 n.toNat
  simp only [hf]

theorem complement_sorted (a : List Int) (n : Int) (ha : a.Sorted (· < ·))
    (h0 : ∀ x ∈ a, 0 ≤ x) : (complement a n).Sorted (· < ·) := by
  rw [complement_eq_filter a n ha h0]
  exact List.Pairwise.sublist (List.filter_sublist _) (allDocs_sorted n)

theorem mem_complement (a : List Int) (n : Int) (ha : a.Sorted (· < ·))
    (h0 : ∀ x ∈ a, 0 ≤ x) (x : Int) : x ∈ complement a n ↔ 0 ≤ x ∧ x < n ∧ x ∉ a := by
  rw [complement_eq_filter a n ha h0]
  simp [mem_allDocs, and_assoc]

/-! ### The set-algebra claims -/

/-- C4: for duplicate-free integer lists `a` and `b`, in any order, `intersect a b` is
strictly increasing and contains exactly the values that occur in both `a` and `b`. -/
theorem intersect_is_set_intersection (a b : List Int) (ha : a.Nodup) (hb : b.Nodup) :
    (intersect a b).Sorted (· < ·) ∧ ∀ x, x ∈ intersect a b ↔ x ∈ a ∧ x ∈ b :=
  ⟨intersect_sorted a b ha hb, mem_intersect a b ha hb⟩

theorem intersect_is_set_intersection_witness :
    ([7, 1, 4, 2] : List Int).Nodup ∧ ([4, 9, 7, 0] : List Int).Nodup ∧
      intersect [7, 1, 4, 2] [4, 9, 7, 0] = [4, 7] ∧
      ((intersect [7, 1, 4, 2] [4, 9, 7, 0]).Sorted (· < ·) ∧
        ∀ x, x ∈ intersect [7, 1, 4, 2] [4, 9, 7, 0] ↔
          x ∈ ([7, 1, 4, 2] : List Int) ∧ x ∈ ([4, 9, 7, 0] : List Int)) :=
  ⟨by decide, by decide, by decide,
    intersect_is_set_intersection [7, 1, 4, 2] [4, 9, 7, 0] (by decide) (by decide)⟩

/-- C5: for duplicate-free integer lists `a` and `b`, in any order, `unite a b` is strictly
increasing (so every value occurs once) and contains exactly the values that occur in `a`
or in `b`. -/
theorem unite_is_set_union (a b : List Int) (ha : a.Nodup) (hb : b.Nodup) :
    (unite a b).Sorted (· < ·) ∧ ∀ x, x ∈ unite a b ↔ x ∈ a ∨ x ∈ b :=
  unite_sorted_mem a b ha hb

theorem unite_is_set_union_witness :
    ([7, 1, 4, 2] : List Int).Nodup ∧ ([4, 9, 7, 0] : List Int).Nodup ∧
      unite [7, 1, 4, 2] [4, 9, 7, 0] = [0, 1, 2, 4, 7, 9] ∧
      ((unite [7, 1, 4, 2] [4, 9, 7, 0]).Sorted (· < ·) ∧
        ∀ x, x ∈ unite [7, 1, 4, 2] [4, 9, 7, 0] ↔
          x ∈ ([7, 1, 4, 2] : List Int) ∨ x ∈ ([4, 9, 7, 0] : List Int)) :=
  ⟨by decide, by decide, by decide,
    unite_is_set_union [7, 1, 4, 2] [4, 9, 7, 0] (by decide) (by decide)⟩

/-- C6: for a sorted, duplicate-free list `a` of non-negative document ids and every total
`n`, `complement a n` is the ascending list of exactly the ids `i` with `0 ≤ i < n` that do
not occur in `a`; the ids of `a` that are `≥ n` do not change the result. -/
theorem complement_is_set_difference (a : List Int) (n : Int) (ha : a.Sorted (· < ·))
    (h0 : ∀ x ∈ a, 0 ≤ x) :
    (complement a n).Sorted (· < ·) ∧
      (∀ x, x ∈ complement a n ↔ 0 ≤ x ∧ x < n ∧ x ∉ a) ∧
      complement a n = complement (a.filter (fun x => decide (x < n))) n := by
  refine ⟨complement_sorted a n ha h0, mem_complement a n ha h0, ?_⟩
  have ha' : (a.filter (fun x => decide (x < n))).Sorted (· < ·) :=
    List.Pairwise.sublist (List.filter_sublist _) ha
  have h0' : ∀ x ∈ a.filter (fun x => decide (x < n)), 0 ≤ x :=
    fun x hx => h0 x (List.mem_of_mem_filter hx)
  rw [complement_eq_filter a n ha h0, complement_eq_filter _ n ha' h0']
  apply List.filter_congr
  intro x hx
  have := (mem_allDocs.mp hx).2
  simp [List.mem_filter, this]

theorem complement_is_set_difference_witness :
    ([1, 3, 8] : List Int).Sorted (· < ·) ∧ (∀ x ∈ ([1, 3, 8] : List Int), 0 ≤ x) ∧
      complement [1, 3, 8] 5 = [0, 2, 4] ∧
      ((complement [1, 3, 8] 5).Sorted (· < ·) ∧
        (∀ x, x ∈ complement [1, 3, 8] 5 ↔ 0 ≤ x ∧ x < 5 ∧ x ∉ ([1, 3, 8] : List Int)) ∧
        complement [1, 3, 8] 5
          = complement (([1, 3, 8] : List Int).filter (fun x => decide (x < 5))) 5) :=
  ⟨by decide, by decide, by decide,
    complement_is_set_difference [1, 3, 8] 5 (by decide) (by decide)⟩

/-- C7: for sorted duplicate-free id lists `a` and `b`,
`intersect a b = intersect b a`. -/
theorem intersect_comm (a b : List Int) (ha : a.Sorted (· < ·)) (hb : b.Sorted (· < ·)) :
    intersect a b = intersect b a := by
  apply eq_of_sorted_of_mem_iff (intersect_sorted a b ha.nodup hb.nodup)
    (intersect_sorted b a hb.nodup ha.nodup)
  intro x
  rw [mem_intersect a b ha.nodup hb.nodup, mem_intersect b a hb.nodup ha.nodup, and_comm]

theorem intersect_comm_witness :
    ([1, 2, 4, 7] : List Int).Sorted (· < ·) ∧ ([0, 4, 7, 9] : List Int).Sorted (· < ·) ∧
      intersect [1, 2, 4, 7] [0, 4, 7, 9] = intersect [0, 4, 7, 9] [1, 2, 4, 7] :=
  ⟨by decide, by decide, intersect_comm [1, 2, 4, 7] [0, 4, 7, 9] (by decide) (by decide)⟩

/-- C8: for sorted duplicate-free id lists `a` and `b`, `unite a b = unite b a`. -/
theorem unite_comm (a b : List Int) (ha : a.Sorted (· < ·)) (hb : b.Sorted (· < ·)) :
    unite a b = unite b a := by
  have h1 := unite_sorted_mem a b ha.nodup hb.nodup
  have h2 := unite_sorted_mem b a hb.nodup ha.nodup
  apply eq_of_sorted_of_mem_iff h1.1 h2.1
  intro x
  rw [h1.2 x, h2.2 x, or_comm]

theorem unite_comm_witness :
    ([1, 2, 4, 7] : List Int).Sorted (· < ·) ∧ ([0, 4, 7, 9] : List Int).Sorted (· < ·) ∧
      unite [1, 2, 4, 7] [0, 4, 7, 9] = unite [0, 4, 7, 9] [1, 2, 4, 7] :=
  ⟨by decide, by decide, unite_comm [1, 2, 4, 7] [0, 4, 7, 9] (by decide) (by decide)⟩

/-- C9: for a sorted duplicate-free list `a` of document ids (ids are zero-based, so
non-negative) and a universe size `n ≥ max(a) + 1`,
`complement (complement a n) n = a`. -/
theorem complement_involutive (a : List Int) (n : Int) (ha : a.Sorted (· < ·))
    (h0 : ∀ x ∈ a, 0 ≤ x) (hn : ∀ x ∈ a, x + 1 ≤ n) :
    complement (complement a n) n = a := by
  have hs := complement_sorted a n ha h0
  have hnn : ∀ x ∈ complement a n, 0 ≤ x := fun x hx => ((mem_complement a n ha h0 x).mp hx).1
  apply eq_of_sorted_of_mem_iff (complement_sorted _ n hs hnn) ha
  intro x
  rw [mem_complement _ n hs hnn, mem_complement a n ha h0]
  constructor
  · rintro ⟨h1, h2, h3⟩
    by_contra hx
    exact h3 ⟨h1, h2, hx⟩
  · intro hx
    have := hn x hx
    exact ⟨h0 x hx, by omega, fun h => h.2.2 hx⟩

theorem complement_involutive_witness :
    ([1, 3, 4] : List Int).Sorted (· < ·) ∧ (∀ x ∈ ([1, 3, 4] : List Int), 0 ≤ x) ∧
      (∀ x ∈ ([1, 3, 4] : List Int), x + 1 ≤ 6) ∧
      complement [1, 3, 4] 6 = [0, 2, 5] ∧
      complement (complement [1, 3, 4] 6) 6 = [1, 3, 4] :=
  ⟨by decide, by decide, by decide, by decide,
    complement_involutive [1, 3, 4] 6 (by decide) (by decide) (by decide)⟩

/-- C10: for a sorted duplicate-free list `a` of document ids and a universe size
`n ≥ max(a) + 1`, `intersect a (complement a n)` is empty and `unite a (complement a n)` is
the list `[0, 1, …, n - 1]`. -/
theorem complement_partitions_universe (a : List Int) (n : Int) (ha : a.Sorted (· < ·))
    (h0 : ∀ x ∈ a, 0 ≤ x) (hn : ∀ x ∈ a, x + 1 ≤ n) :
    intersect a (complement a n) = [] ∧ unite a (complement a n) = allDocs n := by
  have hs := complement_sorted a n ha h0
  constructor
  · rw [intersect_eq_filter a _ ha.nodup hs.nodup, List.filter_eq_nil_iff]
    intro x hx
    rw [SimpleVector.mem_sort] at hx
    simp only [SimpleVector.mem_sort, decide_eq_true_eq]
    intro hc
    exact ((mem_complement a n ha h0 x).mp hc).2.2 hx
  · have hu := unite_sorted_mem a (complement a n) ha.nodup hs.nodup
    apply eq_of_sorted_of_mem_iff hu.1 (allDocs_sorted n)
    intro x
    rw [hu.2 x, mem_complement a n ha h0, mem_allDocs]
    constructor
    · rintro (hx | ⟨h1, h2, -⟩)
      · have := hn x hx
        exact ⟨h0 x hx, by omega⟩
      · exact ⟨h1, h2⟩
    · rintro ⟨h1, h2⟩
      by_cases hx : x ∈ a
      · exact Or.inl hx
      · exact Or.inr ⟨h1, h2, hx⟩

theorem complement_partitions_universe_witness :
    ([1, 3, 4] : List Int).Sorted (· < ·) ∧ (∀ x ∈ ([1, 3, 4] : List Int), 0 ≤ x) ∧
      (∀ x ∈ ([1, 3, 4] : List Int), x + 1 ≤ 6) ∧
      allDocs 6 = [0, 1, 2, 3, 4, 5] ∧
      (intersect [1, 3, 4] (complement [1, 3, 4] 6) = [] ∧
        unite [1, 3, 4] (complement [1, 3, 4] 6) = allDocs 6) :=
  ⟨by decide, by decide, by decide, by decide,
    complement_partitions_universe [1, 3, 4] 6 (by decide) (by decide) (by decide)⟩

namespace SimpleVector

/-! ### Quicksort -/

theorem getAt_eq_some {α : Type} {items : List α} {k : Int} {x : α} :
    getAt items k = some x ↔ 0 ≤ k ∧ items[k.toNat]? = some x := by
  unfold getAt
  by_cases h : 0 ≤ k <;> simp [h]

theorem getAt_natCast {α : Type} (items : List α) (k : Nat) :
    getAt items (k : Int) = items[k]? := by
  unfold getAt
  simp

theorem getAt_exists {α : Type} {items : List α} {k : Int} (h0 : 0 ≤ k)
    (h1 : k < items.length) : ∃ x, getAt items k = some x := by
  have hk : k.toNat < items.length := by omega
  exact ⟨items[k.toNat], by simp [getAt, h0, List.getElem?_eq_getElem hk]⟩

theorem getAt_some_lt {α : Type} {items : List α} {k : Int} {x : α}
    (h : getAt items k = some x) : 0 ≤ k ∧ k < items.length := by
  obtain ⟨h0, h1⟩ := getAt_eq_some.mp h
  have := (List.getElem?_eq_some_iff.mp h1).1
  exact ⟨h0, by omega⟩

theorem set_cons_perm {α : Type} (l : List α) :
    ∀ (j : Nat) (y a : α), l[j]? = some y → (y :: l.set j a).Perm (a :: l) := by
  induction l with
  | nil => intro j y a h; simp at h
  | cons b l ih =>
    intro j y a h
    cases j with
    | zero =>
      simp only [List.getElem?_cons_zero, Option.some.injEq] at h
      subst h
      simpa using List.Perm.swap a b l
    | succ j =>
      simp only [List.getElem?_cons_succ] at h
      simp only [List.set_cons_succ]
      exact (List.Perm.swap b y _).trans (((ih j y a h).cons b).trans (List.Perm.swap a b l))

theorem swap_perm {α : Type} (l : List α) : ∀ (i j : Nat), (swap l i j).Perm l := by
  intro i j
  unfold swap
  cases hi : l[i]? with
  | none => simp
  | some x =>
    cases hj : l[j]? with
    | none => simp
    | some y =>
      simp only
      clear * - hi hj
      induction l generalizing i j with
      | nil => simp at hi
      | cons a l ih =>
        cases i with
        | zero =>
          simp only [List.getElem?_cons_zero, Option.some.injEq] at hi
          subst hi
          cases j with
          | zero =>
            simp only [List.getElem?_cons_zero, Option.some.injEq] at hj
            subst hj
            simp
          | succ j =>
            simp only [List.getElem?_cons_succ] at hj
            simpa using set_cons_perm l j y a hj
        | succ i =>
          simp only [List.getElem?_cons_succ] at hi
          cases j with
          | zero =>
            simp only [List.getElem?_cons_zero, Option.some.injEq] at hj
            subst hj
            simpa using set_cons_perm l i x a hi
          | succ j =>
            simp only [List.getElem?_cons_succ] at hj
            simpa using (ih i j hi hj).cons a

theorem swap_length {α : Type} (l : List α) (i j : Nat) : (swap l i j).length = l.length := by
  unfold swap
  split <;> simp

theorem getAt_swap {α : Type} (l : List α) (i j : Nat) (hi : i < l.length)
    (hj : j < l.length) (k : Int) :
    getAt (swap l i j) k
      = if k = (j : Int) then getAt l i else if k = (i : Int) then getAt l j else getAt l k := by
  unfold swap
  rw [List.getElem?_eq_getElem hi, List.getElem?_eq_getElem hj]
  simp only
  unfold getAt
  by_cases h0 : 0 ≤ k
  · have hk : k = ((k.toNat : Nat) : Int) := by omega
    simp only [h0, if_true, Int.toNat_ofNat, Int.ofNat_nonneg]
    by_cases h1 : k = (j : Int)
    · have : k.toNat = j := by omega
      simp [h1, hj, List.getElem?_eq_getElem hi]
    · have hne : j ≠ k.toNat := by omega
      simp only [h1, if_false]
      rw [List.getElem?_set_ne hne]
      by_cases h2 : k = (i : Int)
      · have : k.toNat = i := by omega
        simp [h2, hi, List.getElem?_eq_getElem hj]
      · have hne2 : i ≠ k.toNat := by omega
        simp only [h2, if_false]
        rw [List.getElem?_set_ne hne2]
  · have h1 : k ≠ (j : Int) := by omega
    have h2 : k ≠ (i : Int) := by omega
    simp [h0, h1, h2]

theorem Stable.refl {α : Type} (items : List α) (l r : Int) : Stable items items l r :=
  ⟨rfl, List.Perm.refl _, fun _ _ => rfl, fun k h1 h2 => ⟨k, h1, h2, rfl⟩⟩

theorem Stable.trans {α : Type} {a b c : List α} {l r : Int} (h1 : Stable a b l r)
    (h2 : Stable b c l r) : Stable a c l r := by
  obtain ⟨l1, p1, o1, c1⟩ := h1
  obtain ⟨l2, p2, o2, c2⟩ := h2
  refine ⟨l2.trans l1, p2.trans p1, fun k hk => (o2 k hk).trans (o1 k hk), ?_⟩
  intro k hl hr
  obtain ⟨k', hl', hr', e'⟩ := c2 k hl hr
  obtain ⟨k'', hl'', hr'', e''⟩ := c1 k' hl' hr'
  exact ⟨k'', hl'', hr'', e'.trans e''⟩

theorem Stable.mono {α : Type} {a b : List α} {l r l' r' : Int} (h : Stable a b l r)
    (hl : l' ≤ l) (hr : r ≤ r') : Stable a b l' r' := by
  obtain ⟨l1, p1, o1, c1⟩ := h
  refine ⟨l1, p1, fun k hk => o1 k (by omega), ?_⟩
  intro k h1 h2
  by_cases hin : l ≤ k ∧ k ≤ r
  · obtain ⟨k', hl', hr', e'⟩ := c1 k hin.1 hin.2
    exact ⟨k', by omega, by omega, e'⟩
  · exact ⟨k, h1, h2, o1 k (by omega)⟩

theorem swap_stable {α : Type} (items : List α) (i j : Nat) (l r : Int)
    (hi : i < items.length) (hj : j < items.length)
    (hil : l ≤ i) (hir : (i : Int) ≤ r) (hjl : l ≤ j) (hjr : (j : Int) ≤ r) :
    Stable items (swap items i j) l r := by
  refine ⟨swap_length _ _ _, swap_perm _ _ _, ?_, ?_⟩
  · intro k hk
    rw [getAt_swap _ _ _ hi hj]
    have h1 : k ≠ (j : Int) := by omega
    have h2 : k ≠ (i : Int) := by omega
    simp [h1, h2]
  · intro k hl hr
    rw [getAt_swap _ _ _ hi hj]
    by_cases h1 : k = (j : Int)
    · exact ⟨i, hil, hir, by simp [h1]⟩
    · by_cases h2 : k = (i : Int)
      · have hij : ¬ ((i : Int) = (j : Int)) := fun e => h1 (h2.trans e)
        exact ⟨j, hjl, hjr, by simp [h2, hij]⟩
      · exact ⟨k, hl, hr, by simp [h1, h2]⟩

theorem scanUp_spec {α : Type} (lt : α → α → Bool) (pivot : α) (items : List α) :
    ∀ (fuel : Nat) (i k : Int) (xk : α), 0 ≤ i → i ≤ k → getAt items k = some xk →
      lt xk pivot = false → (k - i).toNat + 1 ≤ fuel →
      ∃ i1 x1, scanUp lt pivot items fuel i = some i1 ∧ i ≤ i1 ∧ i1 ≤ k ∧
        getAt items i1 = some x1 ∧ lt x1 pivot = false ∧
        ∀ (k' : Int) (x : α), i ≤ k' → k' < i1 → getAt items k' = some x → lt x pivot = true := by
  intro fuel
  induction fuel with
  | zero => intro i k xk _ _ _ _ hf; omega
  | succ fuel ih =>
    intro i k xk h0 hik hk hxk hf
    have hkn := (getAt_some_lt hk).2
    obtain ⟨x, hx⟩ := getAt_exists h0 (by omega : i < items.length)
    unfold scanUp
    simp only [hx]
    by_cases hlt : lt x pivot = true
    · have hne : i ≠ k := by
        rintro rfl
        rw [hx] at hk
        cases hk
        rw [hlt] at hxk
        cases hxk
      simp only [hlt, if_true]
      obtain ⟨i1, x1, hs, h1, h2, h3, h4, h5⟩ :=
        ih (i + 1) k xk (by omega) (by omega) hk hxk (by omega)
      refine ⟨i1, x1, hs, by omega, h2, h3, h4, ?_⟩
      intro k' x' hk1 hk2 hget
      by_cases he : k' = i
      · subst he
        rw [hx] at hget
        cases hget
        exact hlt
      · exact h5 k' x' (by omega) hk2 hget
    · have hf' : lt x pivot = false := by simpa using hlt
      simp only [hf', Bool.false_eq_true, if_false]
      exact ⟨i, x, rfl, le_refl _, hik, hx, hf', fun k' x' h1 h2 _ => by omega⟩

theorem scanDown_spec {α : Type} (lt : α → α → Bool) (pivot : α) (items : List α) :
    ∀ (fuel : Nat) (j k : Int) (xk : α), j < items.length → k ≤ j → getAt items k = some xk →
      lt pivot xk = false → (j - k).toNat + 1 ≤ fuel →
      ∃ j1 x1, scanDown lt pivot items fuel j = some j1 ∧ j1 ≤ j ∧ k ≤ j1 ∧
        getAt items j1 = some x1 ∧ lt pivot x1 = false ∧
        ∀ (k' : Int) (x : α), j1 < k' → k' ≤ j → getAt items k' = some x → lt pivot x = true := by
  intro fuel
  induction fuel with
  | zero => intro j k xk _ _ _ _ hf; omega
  | succ fuel ih =>
    intro j k xk hjn hkj hk hxk hf
    have hk0 := (getAt_some_lt hk).1
    obtain ⟨x, hx⟩ := getAt_exists (by omega : 0 ≤ j) hjn
    unfold scanDown
    simp only [hx]
    by_cases hlt : lt pivot x = true
    · have hne : j ≠ k := by
        rintro rfl
        rw [hx] at hk
        cases hk
        rw [hlt] at hxk
        cases hxk
      simp only [hlt, if_true]
      obtain ⟨j1, x1, hs, h1, h2, h3, h4, h5⟩ :=
        ih (j - 1) k xk (by omega) (by omega) hk hxk (by omega)
      refine ⟨j1, x1, hs, by omega, h2, h3, h4, ?_⟩
      intro k' x' hk1 hk2 hget
      by_cases he : k' = j
      · subst he
        rw [hx] at hget
        cases hget
        exact hlt
      · exact h5 k' x' hk1 (by omega) hget
    · have hf' : lt pivot x = false := by simpa using hlt
      simp only [hf', Bool.false_eq_true, if_false]
      exact ⟨j, x, rfl, le_refl _, hkj, hx, hf', fun k' x' h1 h2 _ => by omega⟩

end SimpleVector

namespace SimpleVector

theorem partitionLoop_spec {α : Type} (lt : α → α → Bool)
    (hasym : ∀ a b, lt a b = true → lt b a = false) (pivot : α) (left right : Int) :
    ∀ (fuel : Nat) (items : List α) (i j : Int),
      0 ≤ left → right < items.length → left ≤ i → j ≤ right → i ≤ right + 1 → left - 1 ≤ j →
      (∀ (k : Int) (x : α), left ≤ k → k < i → getAt items k = some x → lt pivot x = false) →
      (∀ (k : Int) (x : α), j < k → k ≤ right → getAt items k = some x → lt x pivot = false) →
      (i ≤ j → ∃ (k : Int) (x : α), i ≤ k ∧ k ≤ right ∧ getAt items k = some x ∧
        lt x pivot = false) →
      (i ≤ j → ∃ (k : Int) (x : α), left ≤ k ∧ k ≤ j ∧ getAt items k = some x ∧
        lt pivot x = false) →
      (j - i + 1).toNat + 1 ≤ fuel →
      ∃ (items' : List α) (i' j' : Int),
        partitionLoop lt pivot fuel items i j = some (items', i', j') ∧
        Stable items items' left right ∧ i ≤ i' ∧ j' ≤ j ∧ j' < i' ∧ i' ≤ right + 1 ∧
        left - 1 ≤ j' ∧
        (∀ (k : Int) (x : α), left ≤ k → k < i' → getAt items' k = some x →
          lt pivot x = false) ∧
        (∀ (k : Int) (x : α), j' < k → k ≤ right → getAt items' k = some x →
          lt x pivot = false) ∧
        (∀ (m : Int) (xm : α), i ≤ m → m ≤ j → getAt items m = some xm →
          lt xm pivot = false → lt pivot xm = false → i < i' ∧ j' < j) := by
  intro fuel
  induction fuel with
  | zero => intro items i j _ _ _ _ _ _ _ _ _ _ hf; omega
  | succ fuel ih =>
    intro items i j hl0 hrn hli hjr hir hlj hL hR hU hD hf
    unfold partitionLoop
    by_cases hij : i ≤ j
    · simp only [hij, if_true]
      obtain ⟨kU, xU, hU1, hU2, hU3, hU4⟩ := hU hij
      obtain ⟨kD, xD, hD1, hD2, hD3, hD4⟩ := hD hij
      obtain ⟨i1, x1, hsU, hi1, hi2, hgi, hxi, hpU⟩ :=
        scanUp_spec lt pivot items (items.length + 1) i kU xU (by omega) hU1 hU3 hU4 (by omega)
      obtain ⟨j1, y1, hsD, hj1, hj2, hgj, hyj, hpD⟩ :=
        scanDown_spec lt pivot items (items.length + 1) j kD xD (by omega) hD2 hD3 hD4
          (by omega)
      simp only [hsU, hsD]
      have hLs : ∀ (k : Int) (x : α), left ≤ k → k < i1 → getAt items k = some x →
          lt pivot x = false := by
        intro k x h1 h2 hg
        by_cases hk : k < i
        · exact hL k x h1 hk hg
        · exact hasym _ _ (hpU k x (by omega) h2 hg)
      have hRs : ∀ (k : Int) (x : α), j1 < k → k ≤ right → getAt items k = some x →
          lt x pivot = false := by
        intro k x h1 h2 hg
        by_cases hk : j < k
        · exact hR k x hk h2 hg
        · exact hasym _ _ (hpD k x h1 (by omega) hg)
      by_cases h12 : i1 ≤ j1
      · simp only [h12, if_true]
        have hi1n : i1.toNat < items.length := by omega
        have hj1n : j1.toNat < items.length := by omega
        have hci : ((i1.toNat : Nat) : Int) = i1 := by omega
        have hcj : ((j1.toNat : Nat) : Int) = j1 := by omega
        have hgs : ∀ k : Int, getAt (swap items i1.toNat j1.toNat) k
            = if k = j1 then getAt items i1 else if k = i1 then getAt items j1
              else getAt items k := by
          intro k
          rw [getAt_swap _ _ _ hi1n hj1n, hci, hcj]
        have hst : Stable items (swap items i1.toNat j1.toNat) left right :=
          swap_stable items _ _ left right hi1n hj1n (by omega) (by omega) (by omega) (by omega)
        obtain ⟨items', i', j', hp, hs', h1, h2, h3, h4, h5, h6, h7, -⟩ :=
          ih (swap items i1.toNat j1.toNat) (i1 + 1) (j1 - 1) hl0
            (by rw [swap_length]; exact hrn) (by omega) (by omega) (by omega) (by omega)
            (by
              intro k x hk1 hk2 hg
              rw [hgs] at hg
              by_cases e1 : k = j1
              · have e2 : i1 = j1 := by omega
                simp only [e1, if_true] at hg
                rw [e2, hgj] at hg
                cases hg
                exact hyj
              · by_cases e2 : k = i1
                · have e1' : ¬ i1 = j1 := fun e => e1 (e2.trans e)
                  rw [e2] at hg
                  simp only [e1', if_false, if_true] at hg
                  rw [hgj] at hg
                  cases hg
                  exact hyj
                · simp only [e1, e2, if_false] at hg
                  exact hLs k x hk1 (by omega) hg)
            (by
              intro k x hk1 hk2 hg
              rw [hgs] at hg
              by_cases e1 : k = j1
              · simp only [e1, if_true] at hg
                rw [hgi] at hg
                cases hg
                exact hxi
              · have e2 : k ≠ i1 := by omega
                simp only [e1, e2, if_false] at hg
                exact hRs k x (by omega) hk2 hg)
            (by
              intro hlt
              refine ⟨j1, x1, by omega, by omega, ?_, hxi⟩
              rw [hgs]
              simp [hgi])
            (by
              intro hlt
              refine ⟨i1, y1, by omega, by omega, ?_, hyj⟩
              rw [hgs]
              have e1 : i1 ≠ j1 := by omega
              simp [e1, hgj])
            (by omega)
        exact ⟨items', i', j', hp, hst.trans hs', by omega, by omega, h3, h4, h5, h6, h7,
          fun m xm _ _ _ _ _ => ⟨by omega, by omega⟩⟩
      · simp only [h12, if_false]
        obtain ⟨fuel', rfl⟩ : ∃ f, fuel = f + 1 := ⟨fuel - 1, by omega⟩
        unfold partitionLoop
        simp only [h12, if_false]
        refine ⟨items, i1, j1, rfl, Stable.refl _ _ _, hi1, hj1, by omega, by omega, by omega,
          hLs, hRs, ?_⟩
        intro m xm hm1 hm2 hgm hxm1 hxm2
        exfalso
        obtain ⟨i2, _, hsU2, _, hi22, -⟩ :=
          scanUp_spec lt pivot items (items.length + 1) i m xm (by omega) hm1 hgm hxm1
            (by omega)
        obtain ⟨j2, _, hsD2, _, hj22, -⟩ :=
          scanDown_spec lt pivot items (items.length + 1) j m xm (by omega) hm2 hgm hxm2
            (by omega)
        rw [hsU] at hsU2
        rw [hsD] at hsD2
        cases hsU2
        cases hsD2
        omega
    · simp only [hij, if_false]
      exact ⟨items, i, j, rfl, Stable.refl _ _ _, le_refl _, le_refl _, by omega, hir, hlj,
        hL, hR, fun m xm h1 h2 _ _ _ => by omega⟩

end SimpleVector

namespace SimpleVector

theorem quick_sort_spec {α : Type} (lt : α → α → Bool)
    (hasym : ∀ a b, lt a b = true → lt b a = false)
    (htrans : ∀ a b c, lt b a = false → lt c b = false → lt c a = false) :
    ∀ (fuel : Nat) (items : List α) (left right : Int),
      0 ≤ left → right < items.length → (right - left).toNat + 1 ≤ fuel →
      ∃ items' : List α, quick_sort lt fuel items left right = some items' ∧
        Stable items items' left right ∧ SortedRange lt items' left right := by
  intro fuel
  induction fuel with
  | zero => intro items left right _ _ hf; omega
  | succ fuel ih =>
    intro items left right hl0 hrn hf
    unfold quick_sort
    by_cases hlr : left ≥ right
    · simp only [hlr, if_true]
      exact ⟨items, rfl, Stable.refl _ _ _, fun k1 k2 _ _ h1 h2 h3 _ _ => by omega⟩
    · simp only [hlr, if_false]
      have hm : Int.tdiv (left + right) 2 = (left + right) / 2 :=
        Int.tdiv_eq_ediv (by omega) (by omega)
      rw [hm]
      obtain ⟨pivot, hpiv⟩ := getAt_exists (by omega : 0 ≤ (left + right) / 2)
        (by omega : (left + right) / 2 < items.length)
      have hpp : lt pivot pivot = false := by
        by_contra h
        have h1 : lt pivot pivot = true := by simpa using h
        have h2 := hasym _ _ h1
        rw [h1] at h2
        cases h2
      simp only [hpiv]
      obtain ⟨items1, i', j', hp, hS1, hi', hj', hji, hir, hlj, hL, hR, hprog⟩ :=
        partitionLoop_spec lt hasym pivot left right (items.length + 1) items left right hl0 hrn
          (le_refl _) (le_refl _) (by omega) (by omega)
          (fun k x h1 h2 _ => by omega) (fun k x h1 h2 _ => by omega)
          (fun _ => ⟨(left + right) / 2, pivot, by omega, by omega, hpiv, hpp⟩)
          (fun _ => ⟨(left + right) / 2, pivot, by omega, by omega, hpiv, hpp⟩)
          (by omega)
      obtain ⟨hpi, hpj⟩ := hprog ((left + right) / 2) pivot (by omega) (by omega) hpiv hpp hpp
      simp only [hp]
      have hlen1 : items1.length = items.length := hS1.1
      have hcall1 : ∃ items2 : List α,
          (if left < j' then quick_sort lt fuel items1 left j' else some items1) = some items2 ∧
          Stable items1 items2 left j' ∧ SortedRange lt items2 left j' := by
        by_cases hc : left < j'
        · simp only [hc, if_true]
          exact ih items1 left j' hl0 (by omega) (by omega)
        · simp only [hc, if_false]
          exact ⟨items1, rfl, Stable.refl _ _ _, fun k1 k2 _ _ h1 h2 h3 _ _ => by omega⟩
      obtain ⟨items2, hq2, hS2, hsort2⟩ := hcall1
      simp only [hq2]
      have hlen2 : items2.length = items1.length := hS2.1
      have hcall2 : ∃ items3 : List α,
          (if i' < right then quick_sort lt fuel items2 i' right else some items2)
            = some items3 ∧
          Stable items2 items3 i' right ∧ SortedRange lt items3 i' right := by
        by_cases hc : i' < right
        · simp only [hc, if_true]
          exact ih items2 i' right (by omega) (by omega) (by omega)
        · simp only [hc, if_false]
          exact ⟨items2, rfl, Stable.refl _ _ _, fun k1 k2 _ _ h1 h2 h3 _ _ => by omega⟩
      obtain ⟨items3, hq3, hS3, hsort3⟩ := hcall2
      refine ⟨items3, hq3, ?_, ?_⟩
      · exact (hS1.trans (hS2.mono (le_refl _) (by omega))).trans (hS3.mono (by omega) (le_refl _))
      · intro k1 k2 x y h1 h12 h2 hx hy
        obtain ⟨-, -, o2, c2⟩ := hS2
        obtain ⟨-, -, o3, c3⟩ := hS3
        by_cases hA : k2 ≤ j'
        · have e1 := o3 k1 (Or.inl (by omega))
          have e2 := o3 k2 (Or.inl (by omega))
          rw [e1] at hx
          rw [e2] at hy
          exact hsort2 k1 k2 x y h1 h12 hA hx hy
        · by_cases hB : i' ≤ k1
          · exact hsort3 k1 k2 x y hB h12 h2 hx hy
          · have c1 : lt pivot x = false := by
              have e1 := o3 k1 (Or.inl (by omega))
              rw [e1] at hx
              by_cases hk : k1 ≤ j'
              · obtain ⟨k', hk1, hk2, e⟩ := c2 k1 h1 hk
                rw [e] at hx
                exact hL k' x hk1 (by omega) hx
              · rw [o2 k1 (Or.inr (by omega))] at hx
                exact hL k1 x h1 (by omega) hx
            have c2' : lt y pivot = false := by
              by_cases hk : i' ≤ k2
              · obtain ⟨k', hk1, hk2, e⟩ := c3 k2 hk h2
                rw [e, o2 k' (Or.inr (by omega))] at hy
                exact hR k' y (by omega) hk2 hy
              · rw [o3 k2 (Or.inl (by omega)), o2 k2 (Or.inr (by omega))] at hy
                exact hR k2 y (by omega) h2 hy
            exact htrans x pivot y c1 c2'

theorem sort_quick_spec {α : Type} (lt : α → α → Bool)
    (hasym : ∀ a b, lt a b = true → lt b a = false)
    (htrans : ∀ a b c, lt b a = false → lt c b = false → lt c a = false) (items : List α) :
    ∃ items' : List α, sort_quick lt items = some items' ∧ items'.Perm items ∧
      items'.Pairwise (fun a b => lt b a = false) := by
  unfold sort_quick
  by_cases h : items.length > 1
  · simp only [h, if_true]
    obtain ⟨items', hq, hS, hsort⟩ := quick_sort_spec lt hasym htrans (items.length + 1) items 0
      ((items.length : Int) - 1) (le_refl _) (by omega) (by omega)
    refine ⟨items', hq, hS.2.1, ?_⟩
    rw [List.pairwise_iff_getElem]
    intro i j hi hj hij
    have hlen : items'.length = items.length := hS.1
    refine hsort (i : Int) (j : Int) _ _ (by omega) (by omega) (by omega) ?_ ?_
    · rw [getAt_natCast, List.getElem?_eq_getElem hi]
    · rw [getAt_natCast, List.getElem?_eq_getElem hj]
  · simp only [h, if_false]
    refine ⟨items, rfl, List.Perm.refl _, ?_⟩
    match items, h with
    | [], _ => simp
    | [x], _ => simp
    | _ :: _ :: _, h => simp at h

end SimpleVector

/-! ### The C library -/

theorem strcmp_eq_zero_iff : ∀ (a b : List Nat), strcmp a b = 0 ↔ a = b
  | [], [] => by simp [strcmp]
  | [], _ :: _ => by simp [strcmp]
  | _ :: _, [] => by simp [strcmp]
  | c :: s, d :: t => by
    unfold strcmp
    by_cases h : c = d
    · simp [h, strcmp_eq_zero_iff s t]
    · by_cases h2 : c < d <;> simp [h, h2]

theorem strcmp_anti : ∀ (a b : List Nat), strcmp a b < 0 → ¬ strcmp b a < 0
  | [], [] => by simp [strcmp]
  | [], _ :: _ => by simp [strcmp]
  | _ :: _, [] => by simp [strcmp]
  | c :: s, d :: t => by
    unfold strcmp
    by_cases h : c = d
    · subst h
      simpa using strcmp_anti s t
    · have h' : ¬ d = c := fun e => h e.symm
      by_cases h2 : c < d
      · have h3 : ¬ d < c := by omega
        simp [h, h', h2, h3]
      · simp [h, h2]

theorem strcmp_trans : ∀ (a b c : List Nat),
    ¬ strcmp b a < 0 → ¬ strcmp c b < 0 → ¬ strcmp c a < 0
  | [], _, [] => by simp [strcmp]
  | [], _, _ :: _ => by simp [strcmp]
  | _ :: _, [], _ => by simp [strcmp]
  | _ :: _, _ :: _, [] => by simp [strcmp]
  | x :: a, y :: b, z :: c => by
    unfold strcmp
    by_cases h1 : y = x
    · subst h1
      by_cases h2 : z = y
      · subst h2
        simpa using strcmp_trans a b c
      · by_cases h3 : z < y <;> simp [h2, h3]
    · by_cases h2 : y < x
      · simp [h1, h2]
      · by_cases h3 : z = y
        · subst h3
          simp [h1, h2]
        · by_cases h4 : z < y
          · simp [h3, h4]
          · have h5 : ¬ z = x := by omega
            have h6 : ¬ z < x := by omega
            simp [h5, h6]

theorem docEntry_lt_asymm (a b : DocEntry) : DocEntry.lt a b = true → DocEntry.lt b a = false := by
  unfold DocEntry.lt
  simp only [decide_eq_true_eq, decide_eq_false_iff_not]
  omega

theorem docEntry_lt_trans (a b c : DocEntry) :
    DocEntry.lt b a = false → DocEntry.lt c b = false → DocEntry.lt c a = false := by
  unfold DocEntry.lt
  simp only [decide_eq_false_iff_not]
  omega

theorem termInfo_lt_asymm (a b : TermInfo) : TermInfo.lt a b = true → TermInfo.lt b a = false := by
  unfold TermInfo.lt
  simp only [decide_eq_true_eq, decide_eq_false_iff_not]
  exact strcmp_anti _ _

theorem termInfo_lt_trans (a b c : TermInfo) :
    TermInfo.lt b a = false → TermInfo.lt c b = false → TermInfo.lt c a = false := by
  unfold TermInfo.lt
  simp only [decide_eq_false_iff_not]
  exact strcmp_trans _ _ _

theorem digitsValue_append (ds : List Nat) (c : Nat) :
    digitsValue (ds ++ [c]) = digitsValue ds * 10 + (c - 48) := by
  simp [digitsValue, List.foldl_append]

theorem digitsAux_spec : ∀ (fuel n : Nat) (acc : List Nat), n < fuel →
    ∃ ds : List Nat, digitsAux fuel n acc = ds ++ acc ∧ ds ≠ [] ∧
      (∀ c ∈ ds, isdigit c = true) ∧ digitsValue ds = n ∧
      ∀ k : Nat, 0 < k → n < 10 ^ k → ds.length ≤ k := by
  intro fuel
  induction fuel with
  | zero => intro n acc h; omega
  | succ fuel ih =>
    intro n acc h
    unfold digitsAux
    by_cases h10 : n < 10
    · simp only [h10, if_true]
      refine ⟨[48 + n], rfl, by simp, ?_, ?_, ?_⟩
      · intro c hc
        simp only [List.mem_singleton] at hc
        subst hc
        simp [isdigit]
        omega
      · simp [digitsValue]
      · intro k hk _
        simpa using hk
    · simp only [h10, if_false]
      obtain ⟨ds, h1, h2, h3, h4, h5⟩ := ih (n / 10) ((48 + n % 10) :: acc) (by omega)
      refine ⟨ds ++ [48 + n % 10], by rw [h1]; simp, by simp, ?_, ?_, ?_⟩
      · intro c hc
        rcases List.mem_append.mp hc with hc | hc
        · exact h3 c hc
        · simp only [List.mem_singleton] at hc
          subst hc
          simp [isdigit]
          omega
      · rw [digitsValue_append, h4]
        omega
      · intro k hk hn
        obtain ⟨k', rfl⟩ : ∃ k', k = k' + 1 := ⟨k - 1, by omega⟩
        have hk' : 0 < k' := by
          rcases Nat.eq_zero_or_pos k' with e | e
          · subst e
            simp at hn
            omega
          · exact e
        have : n / 10 < 10 ^ k' := by
          rw [Nat.div_lt_iff_lt_mul (by omega)]
          rw [pow_succ] at hn
          exact hn
        have := h5 k' hk' this
        simp
        omega

theorem printNat_spec (n : Nat) :
    printNat n ≠ [] ∧ (∀ c ∈ printNat n, isdigit c = true) ∧ digitsValue (printNat n) = n ∧
      ∀ k : Nat, 0 < k → n < 10 ^ k → (printNat n).length ≤ k := by
  obtain ⟨ds, h1, h2, h3, h4, h5⟩ := digitsAux_spec (n + 1) n [] (by omega)
  unfold printNat
  rw [h1, List.append_nil]
  exact ⟨h2, h3, h4, h5⟩

theorem takeWhile_append_stop (p : Nat → Bool) (ds rest : List Nat)
    (hds : ∀ c ∈ ds, p c = true) (hrest : ∀ c, rest.head? = some c → p c = false) :
    (ds ++ rest).takeWhile p = ds ∧ (ds ++ rest).dropWhile p = rest := by
  induction ds with
  | nil =>
    cases rest with
    | nil => simp
    | cons c r =>
      have := hrest c rfl
      simp [List.takeWhile, List.dropWhile, this]
  | cons d ds ih =>
    have hd := hds d (List.mem_cons_self _ _)
    have := ih (fun c hc => hds c (List.mem_cons_of_mem _ hc))
    simp [List.takeWhile, List.dropWhile, hd, this.1, this.2]

theorem isdigit_not_space {c : Nat} (h : isdigit c = true) : isspace c = false := by
  simp only [isdigit, Bool.and_eq_true, decide_eq_true_eq] at h
  simp only [isspace, Bool.or_eq_false_iff, decide_eq_false_iff_not, Bool.and_eq_false_iff]
  omega

theorem scanInt_printInt (x : Int) (hx : 0 ≤ x) (rest : List Nat)
    (hrest : ∀ c, rest.head? = some c → isdigit c = false) :
    scanInt (printInt x ++ rest) = some (x, rest) := by
  obtain ⟨h2, h3, h4, -⟩ := printNat_spec x.toNat
  have hp : printInt x = printNat x.toNat := by
    unfold printInt
    simp [not_lt.mpr hx]
  rw [hp]
  obtain ⟨d, ds, hds⟩ : ∃ d ds, printNat x.toNat = d :: ds := by
    cases h : printNat x.toNat with
    | nil => exact absurd h h2
    | cons d ds => exact ⟨d, ds, rfl⟩
  have hd : isdigit d = true := h3 d (by rw [hds]; exact List.mem_cons_self _ _)
  have hsp : isspace d = false := isdigit_not_space hd
  have hd45 : d ≠ 45 := by
    intro e
    subst e
    simp [isdigit] at hd
  have hd43 : d ≠ 43 := by
    intro e
    subst e
    simp [isdigit] at hd
  have htw := takeWhile_append_stop isdigit (printNat x.toNat) rest h3 hrest
  unfold scanInt
  have hdw : (printNat x.toNat ++ rest).dropWhile isspace = printNat x.toNat ++ rest := by
    rw [hds]
    simp [List.dropWhile, hsp]
  simp only [hdw]
  have hhead : (printNat x.toNat ++ rest).head? = some d := by
    rw [hds]
    rfl
  simp only [hhead, Option.some.injEq, hd45, hd43, or_self, if_false, htw.1, htw.2, h2, h4]
  simp [Int.toNat_of_nonneg hx]

theorem fgetsAux_line : ∀ (k : Nat) (body rest : List Nat), 10 ∉ body → body.length < k →
    fgetsAux k (body ++ 10 :: rest) = (body ++ [10], rest)
  | 0, _, _, _, h => by omega
  | k + 1, [], rest, _, _ => by simp [fgetsAux]
  | k + 1, c :: body, rest, h10, hlen => by
    have hc : c ≠ 10 := fun e => h10 (by simp [e])
    have := fgetsAux_line k body rest (fun h => h10 (List.mem_cons_of_mem _ h))
      (by simpa using hlen)
    simp [fgetsAux, hc, this]

theorem readLines_lines (n : Nat) (bodies : List (List Nat))
    (h : ∀ body ∈ bodies, 10 ∉ body ∧ body.length + 1 < n) :
    ∀ fuel : Nat, (bodies.map (fun body => body ++ [10])).flatten.length ≤ fuel →
      readLines n fuel (bodies.map (fun body => body ++ [10])).flatten
        = bodies.map (fun body => body ++ [10]) := by
  induction bodies with
  | nil =>
    intro fuel _
    cases fuel <;> simp [readLines]
  | cons body bodies ih =>
    intro fuel hf
    obtain ⟨h10, hlen⟩ := h body (List.mem_cons_self _ _)
    simp only [List.map_cons, List.flatten_cons, List.length_append, List.length_cons,
      List.length_nil] at hf
    obtain ⟨fuel', rfl⟩ : ∃ f, fuel = f + 1 := ⟨fuel - 1, by omega⟩
    simp only [List.map_cons, List.flatten_cons, readLines]
    have hne : ¬ (body ++ [10] ++ (bodies.map (fun body => body ++ [10])).flatten = []) := by simp
    simp only [hne, if_false]
    have hfg := fgetsAux_line (n - 1) body (bodies.map (fun body => body ++ [10])).flatten h10
      (by omega)
    have happ : body ++ [10] ++ (bodies.map (fun body => body ++ [10])).flatten
        = body ++ 10 :: (bodies.map (fun body => body ++ [10])).flatten := by simp
    rw [happ, hfg]
    simp only [List.cons.injEq, true_and]
    exact ih (fun b hb => h b (List.mem_cons_of_mem _ hb)) fuel' (by omega)

theorem dropWhile_space_printInt (x : Int) (hx : 0 ≤ x) (rest : List Nat) :
    (printInt x ++ rest).dropWhile isspace = printInt x ++ rest := by
  obtain ⟨h2, h3, -⟩ := printNat_spec x.toNat
  have hp : printInt x = printNat x.toNat := by
    unfold printInt
    simp [not_lt.mpr hx]
  rw [hp]
  cases h : printNat x.toNat with
  | nil => exact absurd h h2
  | cons d ds =>
    have hd : isdigit d = true := h3 d (by rw [h]; exact List.mem_cons_self _ _)
    simp [List.dropWhile, isdigit_not_space hd]

theorem printInt_digits (x : Int) (hx : 0 ≤ x) : ∀ c ∈ printInt x, isdigit c = true := by
  have hp : printInt x = printNat x.toNat := by
    unfold printInt
    simp [not_lt.mpr hx]
  rw [hp]
  exact (printNat_spec x.toNat).2.1

theorem printInt_length (x : Int) (hx : 0 ≤ x) (k : Nat) (hk : 0 < k) (h : x < 10 ^ k) :
    (printInt x).length ≤ k := by
  have hp : printInt x = printNat x.toNat := by
    unfold printInt
    simp [not_lt.mpr hx]
  rw [hp]
  refine (printNat_spec x.toNat).2.2.2 k hk ?_
  have : ((x.toNat : Nat) : Int) < ((10 ^ k : Nat) : Int) := by
    rw [Int.toNat_of_nonneg hx]
    exact_mod_cast h
  exact_mod_cast this

theorem scanSet_stop (stop : Nat) (t rest : List Nat) (ht : t ≠ []) (hs : stop ∉ t)
    (hlen : t.length ≤ 255) : scanSet stop (t ++ stop :: rest) = some (t, stop :: rest) := by
  have htw := takeWhile_append_stop (fun c => c != stop) t (stop :: rest)
    (fun c hc => by
      have : c ≠ stop := fun e => hs (e ▸ hc)
      simpa using this)
    (fun c hc => by
      simp only [List.head?_cons, Option.some.injEq] at hc
      subst hc
      simp)
  unfold scanSet
  simp only [htw.1, List.take_of_length_le hlen, ht, if_false, List.drop_left]

theorem takeWhile_nul_self (l : List Nat) (h : 0 ∉ l) :
    l.takeWhile (fun c => c != 0) = l := by
  rw [List.takeWhile_eq_self_iff]
  intro c hc
  have : c ≠ 0 := fun e => h (e ▸ hc)
  simpa using this

theorem printInt_no_nul (x : Int) (hx : 0 ≤ x) : 0 ∉ printInt x := by
  intro h
  have := printInt_digits x hx 0 h
  simp [isdigit] at this

theorem takeWhile_nul_printInt (i : Int) (hi : 0 ≤ i) (rest : List Nat) :
    (printInt i ++ 9 :: rest).takeWhile (fun c => c != 0)
      = printInt i ++ 9 :: rest.takeWhile (fun c => c != 0) := by
  rw [List.takeWhile_append_of_pos (fun c hc => by
    have : c ≠ 0 := fun e => printInt_no_nul i hi (e ▸ hc)
    simpa using this)]
  simp [List.takeWhile_cons]

theorem scanVocabLine_line (t : List Nat) (dc off : Int) (ht : t ≠ []) (h0 : 0 ∉ t)
    (h9 : 9 ∉ t) (hlen : t.length ≤ 255) (hdc : 0 ≤ dc) (hoff : 0 ≤ off) :
    SearchIndex.scanVocabLine (t ++ [9] ++ printInt dc ++ [9] ++ printInt off ++ [10])
      = some { term := t, doc_count := dc, offset := off } := by
  have e : t ++ [9] ++ printInt dc ++ [9] ++ printInt off ++ [10]
      = t ++ 9 :: (printInt dc ++ 9 :: (printInt off ++ [10])) := by simp
  have hsp : isspace 9 = true := by decide
  have hnul : 0 ∉ t ++ [9] ++ printInt dc ++ [9] ++ printInt off ++ [10] := by
    simp only [List.mem_append, List.mem_singleton, not_or]
    exact ⟨⟨⟨⟨⟨h0, by omega⟩, printInt_no_nul dc hdc⟩, by omega⟩, printInt_no_nul off hoff⟩,
      by omega⟩
  unfold SearchIndex.scanVocabLine
  rw [takeWhile_nul_self _ hnul, e, scanSet_stop 9 t _ ht h9 hlen]
  simp only [List.dropWhile_cons, hsp, if_true]
  rw [dropWhile_space_printInt dc hdc,
    scanInt_printInt dc hdc _ (fun c hc => by
      simp only [List.head?_cons, Option.some.injEq] at hc
      subst hc
      decide)]
  simp only [List.dropWhile_cons, hsp, if_true]
  rw [dropWhile_space_printInt off hoff,
    scanInt_printInt off hoff _ (fun c hc => by
      simp only [List.head?_cons, Option.some.injEq] at hc
      subst hc
      decide)]

theorem scanDocLine_id (i : Int) (hi : 0 ≤ i) (rest : List Nat) (id : Int) (name : List Nat)
    (h : SearchIndex.scanDocLine (printInt i ++ 9 :: rest) = some (id, name)) : id = i := by
  unfold SearchIndex.scanDocLine at h
  rw [takeWhile_nul_printInt i hi, scanInt_printInt i hi _ (fun c hc => by
      simp only [List.head?_cons, Option.some.injEq] at hc
      subst hc
      decide)] at h
  simp only at h
  split at h
  · cases h
  · simp only [Option.some.injEq, Prod.mk.injEq] at h
    exact h.1.symm

/-! ### `TermDict` -/

namespace TermDict

theorem findChain_cons (node : Node) (c : List Node) (k : List Nat) :
    findChain k (node :: c) = if node.key = k then some node.value else findChain k c := by
  simp [findChain, strcmp_eq_zero_iff]

theorem findChain_eq_none_iff (k : List Nat) (c : List Node) :
    findChain k c = none ↔ k ∉ c.map Node.key := by
  induction c with
  | nil => simp [findChain]
  | cons node c ih =>
    rw [findChain_cons]
    by_cases h : node.key = k
    · simp [h]
    · have h' : ¬ k = node.key := fun e => h e.symm
      simp [h, h', ih]

theorem addChain_eq_none_iff (k : List Nat) (v : Int) (c : List Node) :
    addChain k v c = none ↔ findChain k c = none := by
  induction c with
  | nil => simp [addChain, findChain]
  | cons node c ih =>
    rw [findChain_cons]
    unfold addChain
    by_cases h : node.key = k
    · simp [strcmp_eq_zero_iff, h]
    · simp [strcmp_eq_zero_iff, h, ih]

theorem addChain_some (k : List Nat) (v : Int) (c c' : List Node)
    (h : addChain k v c = some c') :
    c'.map Node.key = c.map Node.key ∧ c'.length = c.length ∧
      ∀ k', findChain k' c' = if k' = k then some v else findChain k' c := by
  induction c generalizing c' with
  | nil => simp [addChain] at h
  | cons node c ih =>
    unfold addChain at h
    by_cases hk : node.key = k
    · simp only [strcmp_eq_zero_iff, hk, if_true, Option.some.injEq] at h
      subst h
      subst hk
      refine ⟨by simp, by simp, fun k' => ?_⟩
      rw [findChain_cons, findChain_cons]
      by_cases e : k' = node.key
      · simp [e]
      · have e1 : ¬ node.key = k' := fun x => e x.symm
        simp [e, e1]
    · simp only [strcmp_eq_zero_iff, hk, if_false, Option.map_eq_some'] at h
      obtain ⟨r, hr, rfl⟩ := h
      obtain ⟨h1, h2, h3⟩ := ih r hr
      refine ⟨by simp [h1], by simp [h2], fun k' => ?_⟩
      rw [findChain_cons, findChain_cons, h3]
      by_cases e : k' = k
      · subst e
        simp [hk]
      · simp [e]

theorem findChain_mem (c : List Node) (hnd : (c.map Node.key).Nodup) (node : Node)
    (h : node ∈ c) : findChain node.key c = some node.value := by
  induction c with
  | nil => simp at h
  | cons n c ih =>
    rw [findChain_cons]
    rw [List.map_cons, List.nodup_cons] at hnd
    rcases List.mem_cons.mp h with e | hm
    · simp [e]
    · have hne : ¬ n.key = node.key := by
        intro e
        exact hnd.1 (e ▸ List.mem_map_of_mem _ hm)
      simp [hne, ih hnd.2 hm]

theorem findChain_some_mem (c : List Node) (k : List Nat) (v : Int)
    (h : findChain k c = some v) : ({ key := k, value := v } : Node) ∈ c := by
  induction c with
  | nil => simp [findChain] at h
  | cons n c ih =>
    rw [findChain_cons] at h
    by_cases e : n.key = k
    · simp only [e, if_true, Option.some.injEq] at h
      have : n = { key := k, value := v } := by
        cases n
        simp_all
      rw [this]
      exact List.mem_cons_self _ _
    · simp only [e, if_false] at h
      exact List.mem_cons_of_mem _ (ih h)

theorem hash_lt (d : TermDict) (h : d.WF) (k : List Nat) : d.hash k < d.buckets.length := by
  rw [h.1]
  unfold hash
  exact Nat.mod_lt _ h.2.1

theorem getD_set (l : List (List Node)) (i j : Nat) (c : List Node) (hi : i < l.length) :
    (l.set i c).getD j [] = if j = i then c else l.getD j [] := by
  simp only [List.getD_eq_getElem?_getD, List.getElem?_set]
  by_cases e : i = j
  · subst e
    simp [hi]
  · have e' : ¬ j = i := fun x => e x.symm
    simp [e, e']

theorem flatten_set_length (l : List (List Node)) (i : Nat) (c : List Node)
    (hi : i < l.length) :
    ((l.set i c).flatten.length : Int)
      = (l.flatten.length : Int) - ((l.getD i []).length : Int) + (c.length : Int) := by
  induction l generalizing i with
  | nil => simp at hi
  | cons a l ih =>
    cases i with
    | zero => simp; omega
    | succ i =>
      have := ih i (by simpa using hi)
      simp only [List.set_cons_succ, List.flatten_cons, List.length_append, Nat.cast_add,
        List.getD_cons_succ] at *
      omega

theorem getD_replicate_nil (n i : Nat) :
    (List.replicate n ([] : List Node)).getD i [] = [] := by
  rw [List.getD_eq_getElem?_getD, List.getElem?_replicate]
  split <;> rfl

theorem flatten_replicate_nil (n : Nat) : (List.replicate n ([] : List Node)).flatten = [] := by
  induction n with
  | zero => rfl
  | succ n ih => rw [List.replicate_succ, List.flatten_cons, ih]; rfl

theorem find_new (k : List Nat) : TermDict.new.find k = none := by
  unfold find
  have : TermDict.new.buckets = List.replicate 1024 [] := rfl
  rw [this, getD_replicate_nil]
  rfl

theorem WF_new : TermDict.new.WF := by
  have hb : TermDict.new.buckets = List.replicate 1024 [] := rfl
  have hc : TermDict.new.bucket_count = 1024 := rfl
  have hs : TermDict.new.size_ = 0 := rfl
  refine ⟨?_, ?_, ?_, ?_, ?_⟩
  · rw [hb, hc, List.length_replicate]
  · rw [hc]; omega
  · intro i node hm
    rw [hb, getD_replicate_nil] at hm
    cases hm
  · intro i
    rw [hb, getD_replicate_nil]
    exact List.nodup_nil
  · rw [hb, hs, flatten_replicate_nil]
    rfl

theorem add_eq (d : TermDict) (k : List Nat) (v : Int) :
    d.add k v =
      match addChain k v (d.buckets.getD (d.hash k) []) with
      | some chain => { d with buckets := d.buckets.set (d.hash k) chain }
      | none =>
        { d with
          buckets := d.buckets.set (d.hash k)
            ({ key := k, value := v } :: d.buckets.getD (d.hash k) []),
          size_ := d.size_ + 1 } := rfl

theorem add_bucket_count (d : TermDict) (k : List Nat) (v : Int) :
    (d.add k v).bucket_count = d.bucket_count := by
  rw [add_eq]
  cases addChain k v (d.buckets.getD (d.hash k) []) <;> rfl

theorem hash_add (d : TermDict) (k : List Nat) (v : Int) (x : List Nat) :
    (d.add k v).hash x = d.hash x := by
  unfold hash
  rw [add_bucket_count]

theorem find_add (d : TermDict) (h : d.WF) (k : List Nat) (v : Int) (k' : List Nat) :
    (d.add k v).find k' = if k' = k then some v else d.find k' := by
  have hlt := hash_lt d h k
  unfold find
  rw [hash_add, add_eq]
  cases hc : addChain k v (d.buckets.getD (d.hash k) []) with
  | some chain =>
    simp only
    rw [getD_set _ _ _ _ hlt]
    by_cases e : d.hash k' = d.hash k
    · simp only [e, if_true]
      rw [(addChain_some _ _ _ _ hc).2.2 k']
    · have e2 : ¬ k' = k := fun x => e (x ▸ rfl)
      simp [e, e2]
  | none =>
    simp only
    rw [getD_set _ _ _ _ hlt]
    by_cases e : d.hash k' = d.hash k
    · simp only [e, if_true]
      rw [findChain_cons]
      by_cases e2 : k' = k
      · simp [e2]
      · have e3 : ¬ k = k' := fun x => e2 x.symm
        simp [e2, e3]
    · have e2 : ¬ k' = k := fun x => e (x ▸ rfl)
      simp [e, e2]

theorem WF_add (d : TermDict) (h : d.WF) (k : List Nat) (v : Int) : (d.add k v).WF := by
  have hlt := hash_lt d h k
  have hhash := hash_add d k v
  obtain ⟨h1, h2, h3, h4, h5⟩ := h
  have key : ∀ (chain : List Node) (sz : Nat),
      (∀ node ∈ chain, d.hash node.key = d.hash k) → (chain.map Node.key).Nodup →
      (sz : Int) = (d.size_ : Int) - ((d.buckets.getD (d.hash k) []).length : Int)
        + (chain.length : Int) →
      d.add k v = { buckets := d.buckets.set (d.hash k) chain, bucket_count := d.bucket_count,
                    size_ := sz } → (d.add k v).WF := by
    intro chain sz hc1 hc2 hsz heq
    refine ⟨?_, ?_, ?_, ?_, ?_⟩
    · rw [heq]; simpa using h1
    · rw [heq]; exact h2
    · intro i node hm
      rw [hhash]
      rw [heq] at hm
      simp only at hm
      rw [getD_set _ _ _ _ hlt] at hm
      by_cases e : i = d.hash k
      · simp only [e, if_true] at hm
        rw [e]
        exact hc1 node hm
      · simp only [e, if_false] at hm
        exact h3 i node hm
    · intro i
      rw [heq]
      simp only
      rw [getD_set _ _ _ _ hlt]
      by_cases e : i = d.hash k
      · simpa [e] using hc2
      · simpa [e] using h4 i
    · rw [heq]
      simp only
      have := flatten_set_length d.buckets (d.hash k) chain hlt
      omega
  cases hc : addChain k v (d.buckets.getD (d.hash k) []) with
  | some chain =>
    obtain ⟨e1, e2, e3⟩ := addChain_some _ _ _ _ hc
    refine key chain d.size_ ?_ ?_ (by omega) (by rw [add_eq, hc])
    · intro node hm
      have : node.key ∈ chain.map Node.key := List.mem_map_of_mem _ hm
      rw [e1] at this
      obtain ⟨n', hn', hk'⟩ := List.mem_map.mp this
      rw [← hk']
      exact h3 _ n' hn'
    · rw [e1]
      exact h4 _
  | none =>
    refine key ({ key := k, value := v } :: d.buckets.getD (d.hash k) []) (d.size_ + 1) ?_ ?_
      (by simp only [List.length_cons]; push_cast; omega) (by rw [add_eq, hc])
    · intro node hm
      rcases List.mem_cons.mp hm with e | hm
      · rw [e]
      · exact h3 _ node hm
    · rw [List.map_cons, List.nodup_cons]
      refine ⟨?_, h4 _⟩
      exact (findChain_eq_none_iff _ _).mp ((addChain_eq_none_iff _ _ _).mp hc)

theorem mem_entries_iff (d : TermDict) (h : d.WF) (node : Node) :
    node ∈ d.buckets.flatten ↔ d.find node.key = some node.value := by
  obtain ⟨h1, h2, h3, h4, h5⟩ := h
  constructor
  · intro hm
    obtain ⟨c, hc, hn⟩ := List.mem_flatten.mp hm
    obtain ⟨i, hi, rfl⟩ := List.getElem_of_mem hc
    have hget : d.buckets.getD i [] = d.buckets[i] := List.getD_eq_getElem _ _ hi
    have hh := h3 i node (by rw [hget]; exact hn)
    unfold find
    rw [hh, hget]
    have := h4 i
    rw [hget] at this
    exact findChain_mem _ this node hn
  · intro hf
    unfold find at hf
    have hm := findChain_some_mem _ _ _ hf
    have hlt : d.hash node.key < d.buckets.length := by
      rw [h1]
      exact Nat.mod_lt _ h2
    rw [List.getD_eq_getElem _ _ hlt] at hm
    exact List.mem_flatten.mpr ⟨_, List.getElem_mem _, hm⟩

end TermDict

namespace TermDict

theorem flatten_drop_skip (l : List (List Node)) :
    ∀ (n a : Nat), (∀ j, a ≤ j → j < a + n → l.getD j [] = []) →
      (l.drop a).flatten = (l.drop (a + n)).flatten := by
  intro n
  induction n with
  | zero => intro a _; rfl
  | succ n ih =>
    intro a h
    have h1 := ih (a + 1) (fun j h1 h2 => h j (by omega) (by omega))
    have e : a + 1 + n = a + (n + 1) := by omega
    rw [e] at h1
    rw [← h1]
    by_cases ha : a < l.length
    · have h0 := h a (le_refl _) (by omega)
      rw [List.getD_eq_getElem _ _ ha] at h0
      rw [List.drop_eq_getElem_cons ha, h0]
      rfl
    · rw [List.drop_eq_nil_of_le (by omega), List.drop_eq_nil_of_le (by omega)]

theorem skipEmpty_spec (d : TermDict) :
    ∀ (fuel idx : Nat), d.bucket_count - idx ≤ fuel →
      idx ≤ skipEmpty d fuel idx ∧
      (skipEmpty d fuel idx < d.bucket_count → d.buckets.getD (skipEmpty d fuel idx) [] ≠ []) ∧
      (d.buckets.drop (skipEmpty d fuel idx)).flatten = (d.buckets.drop idx).flatten := by
  intro fuel
  induction fuel with
  | zero =>
    intro idx h
    simp only [skipEmpty]
    exact ⟨le_refl _, fun h' => by omega, trivial⟩
  | succ fuel ih =>
    intro idx h
    unfold skipEmpty
    by_cases hc : idx < d.bucket_count ∧ (d.buckets.getD idx []).isEmpty = true
    · simp only [hc, and_self, if_true]
      obtain ⟨h1, h2, h3⟩ := ih (idx + 1) (by omega)
      refine ⟨by omega, h2, ?_⟩
      rw [h3]
      have he : d.buckets.getD idx [] = [] := List.isEmpty_iff.mp hc.2
      exact (flatten_drop_skip d.buckets 1 idx (fun j h1 h2 => by
        have : j = idx := by omega
        rw [this]
        exact he)).symm
    · simp only [hc, if_false]
      refine ⟨le_refl _, fun hlt => ?_, trivial⟩
      intro he
      exact hc ⟨hlt, List.isEmpty_iff.mpr he⟩

theorem iterRest_next (d : TermDict) (hlen : d.buckets.length = d.bucket_count)
    (it : Iterator) (node : Node) (rest : List Node) (hcur : it.current = node :: rest) :
    d.iterRest (d.next it) = rest ++ (d.buckets.drop (it.bucket_idx + 1)).flatten ∧
      ((d.next it).current = [] → d.iterRest (d.next it) = []) := by
  unfold next
  rw [hcur]
  cases rest with
  | cons n rest =>
    simp only [iterRest]
    exact ⟨trivial, fun h => by cases h⟩
  | nil =>
    simp only [iterRest, List.nil_append]
    obtain ⟨h1, h2, h3⟩ := skipEmpty_spec d d.bucket_count (it.bucket_idx + 1) (by omega)
    by_cases hlt : skipEmpty d d.bucket_count (it.bucket_idx + 1) < d.bucket_count
    · simp only [hlt, if_true]
      have hlt' : skipEmpty d d.bucket_count (it.bucket_idx + 1) < d.buckets.length := by omega
      constructor
      · rw [← h3, List.drop_eq_getElem_cons hlt', List.getD_eq_getElem _ _ hlt']
        rfl
      · intro he
        exact absurd he (h2 hlt)
    · simp only [hlt, if_false, List.nil_append]
      have e1 : (d.buckets.drop (skipEmpty d d.bucket_count (it.bucket_idx + 1))).flatten = [] := by
        rw [List.drop_eq_nil_of_le (by omega)]
        rfl
      have e2 : (d.buckets.drop (skipEmpty d d.bucket_count (it.bucket_idx + 1) + 1)).flatten
          = [] := by
        rw [List.drop_eq_nil_of_le (by omega)]
        rfl
      exact ⟨by rw [e2, ← h3, e1], fun _ => e2⟩

theorem find_range (p : Nat → Bool) : ∀ n : Nat,
    (∀ i, (List.range n).find? p = some i → i < n ∧ p i = true ∧ ∀ j < i, p j = false) ∧
    ((List.range n).find? p = none → ∀ j < n, p j = false) := by
  intro n
  induction n with
  | zero =>
    exact ⟨fun i h => by simp at h, fun _ j hj => by omega⟩
  | succ n ih =>
    rw [List.range_succ, List.find?_append]
    cases hf : (List.range n).find? p with
    | some i0 =>
      obtain ⟨h1, h2, h3⟩ := ih.1 i0 hf
      refine ⟨fun i h => ?_, fun h => by simp [Option.or] at h⟩
      simp only [Option.or, Option.some.injEq] at h
      subst h
      exact ⟨by omega, h2, h3⟩
    | none =>
      have hn := ih.2 hf
      simp only [Option.or]
      by_cases hp : p n = true
      · refine ⟨fun i h => ?_, fun h => by simp [List.find?, hp] at h⟩
        simp only [List.find?, hp, Option.some.injEq] at h
        subst h
        exact ⟨by omega, hp, hn⟩
      · have hp' : p n = false := by simpa using hp
        refine ⟨fun i h => by simp [List.find?, hp'] at h, fun _ j hj => ?_⟩
        by_cases e : j = n
        · rw [e]; exact hp'
        · exact hn j (by omega)

theorem iterRest_begin (d : TermDict) (hlen : d.buckets.length = d.bucket_count) :
    d.iterRest d.begin = d.buckets.flatten ∧
      (d.begin.current = [] → d.iterRest d.begin = []) := by
  obtain ⟨hs, hn⟩ := find_range (fun i => !(d.buckets.getD i []).isEmpty) d.bucket_count
  unfold begin
  cases hf : (List.range d.bucket_count).find? (fun i => !(d.buckets.getD i []).isEmpty) with
  | some i =>
    obtain ⟨h1, h2, h3⟩ := hs i hf
    simp only [iterRest]
    have hi : i < d.buckets.length := by omega
    have hskip := flatten_drop_skip d.buckets i 0 (fun j _ hj => by
      have := h3 j (by omega)
      simp only [Bool.not_eq_eq_eq_not, Bool.not_false] at this
      exact List.isEmpty_iff.mp this)
    simp only [List.drop_zero, Nat.zero_add] at hskip
    constructor
    · rw [hskip, List.drop_eq_getElem_cons hi, List.getD_eq_getElem _ _ hi]
      rfl
    · intro he
      simp only [Bool.not_eq_eq_eq_not, Bool.not_true] at h2
      have he' : d.buckets.getD i [] = [] := he
      rw [he'] at h2
      cases h2
  | none =>
    have h3 := hn hf
    simp only [iterRest, end_, List.nil_append]
    have hskip := flatten_drop_skip d.buckets d.bucket_count 0 (fun j _ hj => by
      have := h3 j (by omega)
      simp only [Bool.not_eq_eq_eq_not, Bool.not_false] at this
      exact List.isEmpty_iff.mp this)
    simp only [List.drop_zero, Nat.zero_add] at hskip
    have e1 : (d.buckets.drop d.bucket_count).flatten = [] := by
      rw [List.drop_eq_nil_of_le (by omega)]
      rfl
    have e2 : (d.buckets.drop (d.bucket_count + 1)).flatten = [] := by
      rw [List.drop_eq_nil_of_le (by omega)]
      rfl
    exact ⟨by rw [e2, hskip, e1], fun _ => e2⟩

end TermDict

namespace BoolIndexer

theorem collectVocab_spec (b : BoolIndexer)
    (hlen : b.term_to_id.buckets.length = b.term_to_id.bucket_count) :
    ∀ (fuel : Nat) (it : TermDict.Iterator) (vocab : List TermInfo),
      (it.current = [] → b.term_to_id.iterRest it = []) →
      (b.term_to_id.iterRest it).length ≤ fuel →
      collectVocab b fuel it vocab = vocab ++ (b.term_to_id.iterRest it).map (vocabEntry b) := by
  intro fuel
  induction fuel with
  | zero =>
    intro it vocab _ hf
    have : b.term_to_id.iterRest it = [] := List.length_eq_zero.mp (by omega)
    simp [collectVocab, this]
  | succ fuel ih =>
    intro it vocab hv hf
    unfold collectVocab
    cases hcur : it.current with
    | nil =>
      simp only
      rw [hv hcur]
      simp
    | cons node rest =>
      simp only
      obtain ⟨h1, h2⟩ := TermDict.iterRest_next b.term_to_id hlen it node rest hcur
      have hrest : b.term_to_id.iterRest it
          = node :: (rest ++ (b.term_to_id.buckets.drop (it.bucket_idx + 1)).flatten) := by
        simp [TermDict.iterRest, hcur]
      rw [ih _ _ h2 (by rw [h1]; rw [hrest] at hf; simpa using hf), h1, hrest]
      simp

theorem collectVocab_all (b : BoolIndexer) (h : b.term_to_id.WF) :
    collectVocab b b.term_to_id.size b.term_to_id.begin []
      = b.term_to_id.buckets.flatten.map (vocabEntry b) := by
  obtain ⟨h1, h2⟩ := TermDict.iterRest_begin b.term_to_id h.1
  rw [collectVocab_spec b h.1 _ _ _ h2 (by rw [h1]; exact le_of_eq h.2.2.2.2.symm), h1]
  simp

end BoolIndexer

namespace BoolIndexer

/-! ### `BoolIndexer`: the accumulator -/

theorem postingBlock_length (data : TermData) :
    (postingBlock data).length
      = 1 + (data.docs.map (fun e => 2 + e.positions.length)).sum := by
  unfold postingBlock
  simp only [List.length_cons, List.length_flatten, List.map_map]
  have : (List.length ∘ fun (e : DocEntry) => e.doc_id :: (e.positions.length : Int) :: e.positions)
      = fun e => 2 + e.positions.length := by
    funext e
    simp
    omega
  rw [this]
  omega

theorem pushPos_eq_none_iff (d p : Int) (docs : List DocEntry) :
    pushPos d p docs = none ↔ d ∉ docs.map DocEntry.doc_id := by
  induction docs with
  | nil => simp [pushPos]
  | cons e docs ih =>
    unfold pushPos
    by_cases h : e.doc_id = d
    · simp [h]
    · have h' : ¬ d = e.doc_id := fun x => h x.symm
      simp [h, h', ih]

theorem pushPos_some (d p : Int) (docs docs' : List DocEntry) (h : pushPos d p docs = some docs') :
    docs'.map DocEntry.doc_id = docs.map DocEntry.doc_id ∧
      (docs'.map (fun e => 2 + e.positions.length)).sum
        = (docs.map (fun e => 2 + e.positions.length)).sum + 1 := by
  induction docs generalizing docs' with
  | nil => simp [pushPos] at h
  | cons e docs ih =>
    unfold pushPos at h
    by_cases hk : e.doc_id = d
    · simp only [hk, if_true, Option.some.injEq] at h
      subst h
      simp
      omega
    · simp only [hk, if_false, Option.map_eq_some'] at h
      obtain ⟨r, hr, rfl⟩ := h
      obtain ⟨h1, h2⟩ := ih r hr
      simp [h1, h2]
      omega

theorem termOK_record (calls : List BuildCall) (t : List Nat) (data : TermData) (d p : Int)
    (h : TermOK calls t data) :
    TermOK (calls ++ [BuildCall.add_occurrence t d p]) t (record data d p) := by
  obtain ⟨h1, h2, h3, h4⟩ := h
  rw [postingBlock_length] at h4
  unfold record
  cases hp : pushPos d p data.docs with
  | some docs =>
    obtain ⟨e1, e2⟩ := pushPos_some d p _ _ hp
    have hmem : d ∈ data.docs.map DocEntry.doc_id := by
      by_contra hc
      rw [(pushPos_eq_none_iff d p _).mpr hc] at hp
      cases hp
    refine ⟨by simp only [e1]; exact h1, ?_, ?_, ?_⟩
    · intro d'
      simp only [e1, h2 d', List.mem_append, List.mem_singleton, BuildCall.add_occurrence.injEq,
        true_and]
      constructor
      · rintro ⟨p', hp'⟩
        exact ⟨p', Or.inl hp'⟩
      · rintro ⟨p', hp' | ⟨rfl, rfl⟩⟩
        · exact ⟨p', hp'⟩
        · exact (h2 d').mp hmem
    · simp only
      have := congrArg List.length e1
      simp only [List.length_map] at this
      rw [h3, this]
    · rw [postingBlock_length]
      simp only [e2, List.length_append, List.length_singleton]
      omega
  | none =>
    have hnot := (pushPos_eq_none_iff d p _).mp hp
    refine ⟨?_, ?_, ?_, ?_⟩
    · simp only [List.map_append, List.map_cons, List.map_nil]
      rw [List.nodup_append]
      refine ⟨h1, by simp, ?_⟩
      intro x hx hx'
      simp only [List.mem_singleton] at hx'
      subst hx'
      exact hnot hx
    · intro d'
      simp only [List.map_append, List.map_cons, List.map_nil, List.mem_append,
        List.mem_singleton, h2 d', BuildCall.add_occurrence.injEq, true_and]
      constructor
      · rintro (⟨p', hp'⟩ | rfl)
        · exact ⟨p', Or.inl hp'⟩
        · exact ⟨p, Or.inr ⟨rfl, rfl⟩⟩
      · rintro ⟨p', hp' | ⟨rfl, rfl⟩⟩
        · exact Or.inl ⟨p', hp'⟩
        · exact Or.inr rfl
    · simp only [List.length_append, List.length_singleton]
      rw [h3]
      push_cast
      rfl
    · rw [postingBlock_length]
      simp only [List.map_append, List.map_cons, List.map_nil, List.sum_append, List.sum_cons,
        List.sum_nil, List.length_append, List.length_singleton, List.length_cons,
        List.length_nil]
      omega

theorem termOK_other (calls : List BuildCall) (t t' : List Nat) (data : TermData) (d p : Int)
    (hne : t' ≠ t) (h : TermOK calls t' data) :
    TermOK (calls ++ [BuildCall.add_occurrence t d p]) t' data := by
  obtain ⟨h1, h2, h3, h4⟩ := h
  refine ⟨h1, ?_, h3, by simp only [List.length_append, List.length_singleton]; omega⟩
  intro d'
  rw [h2 d']
  simp only [List.mem_append, List.mem_singleton, BuildCall.add_occurrence.injEq]
  constructor
  · rintro ⟨p', hp'⟩
    exact ⟨p', Or.inl hp'⟩
  · rintro ⟨p', hp' | ⟨e, -⟩⟩
    · exact ⟨p', hp'⟩
    · exact absurd e hne

theorem termOK_add_doc (calls : List BuildCall) (t : List Nat) (data : TermData)
    (name : List Nat) (h : TermOK calls t data) :
    TermOK (calls ++ [BuildCall.add_doc name]) t data := by
  obtain ⟨h1, h2, h3, h4⟩ := h
  refine ⟨h1, ?_, h3, by simp only [List.length_append, List.length_singleton]; omega⟩
  intro d'
  rw [h2 d']
  simp

theorem Inv_new : Inv BoolIndexer.new [] := by
  refine ⟨TermDict.WF_new, rfl, ?_, ?_, ?_, ?_, ?_, ?_, ?_⟩
  · intro t id h
    rw [show BoolIndexer.new.term_to_id = TermDict.new from rfl, TermDict.find_new] at h
    cases h
  · intro t1 t2 id h
    rw [show BoolIndexer.new.term_to_id = TermDict.new from rfl, TermDict.find_new] at h
    cases h
  · intro t d p h
    cases h
  · intro t id h
    rw [show BoolIndexer.new.term_to_id = TermDict.new from rfl, TermDict.find_new] at h
    cases h
  · exact Nat.le_refl _
  · exact Nat.le_refl _
  · intro name h
    cases h

theorem Inv_add_doc (b : BoolIndexer) (calls : List BuildCall) (name : List Nat)
    (h : Inv b calls) : Inv (b.add_doc name).1 (calls ++ [BuildCall.add_doc name]) := by
  obtain ⟨h1, h2, h3, h4, h5, h6, h7, h8, h9⟩ := h
  refine ⟨h1, h2, ?_, h4, ?_, ?_, ?_, ?_, ?_⟩
  · intro t id hf
    obtain ⟨a, b', data, hd, hok⟩ := h3 t id hf
    exact ⟨a, b', data, hd, termOK_add_doc _ _ _ _ hok⟩
  · intro t d p hm
    simp only [List.mem_append, List.mem_singleton] at hm
    rcases hm with hm | hm
    · exact h5 t d p hm
    · cases hm
  · intro t id hf
    obtain ⟨d, p, hm⟩ := h6 t id hf
    exact ⟨d, p, List.mem_append_left _ hm⟩
  · simp only [List.length_append, List.length_singleton]
    exact Nat.le_succ_of_le h7
  · simp only [add_doc, List.length_append, List.length_singleton]
    omega
  · intro nm hm
    simp only [add_doc, List.mem_append, List.mem_singleton] at hm ⊢
    rcases hm with hm | hm
    · exact Or.inl (h9 nm hm)
    · exact Or.inr (by rw [hm])

end BoolIndexer

namespace BoolIndexer

theorem add_occurrence_of_some (b : BoolIndexer) (t : List Nat) (d p id : Int)
    (data : TermData) (hf : b.term_to_id.find t = some id)
    (hd : b.index_data.getD id.toNat none = some data) :
    b.add_occurrence t d p
      = { b with index_data := b.index_data.set id.toNat (some (record data d p)) } := by
  unfold add_occurrence
  simp only [hf, hd]

theorem add_occurrence_of_none (b : BoolIndexer) (t : List Nat) (d p : Int)
    (hf : b.term_to_id.find t = none) (hn : b.next_id = (b.index_data.length : Int)) :
    b.add_occurrence t d p
      = { b with
          term_to_id := b.term_to_id.add t b.next_id,
          next_id := b.next_id + 1,
          index_data := b.index_data ++ [some (record { docs := [], doc_count := 0 } d p)] } := by
  have hcap : ensure_capacity b.index_data b.next_id = b.index_data ++ [none] := by
    unfold ensure_capacity
    have : (b.next_id + 1 - (b.index_data.length : Int)).toNat = 1 := by omega
    rw [this]
    rfl
  have htn : b.next_id.toNat = b.index_data.length := by omega
  have hset : ∀ x y : Option TermData,
      (b.index_data ++ [x]).set b.index_data.length y = b.index_data ++ [y] := by
    intro x y
    rw [List.set_append_right _ _ (le_refl _)]
    simp
  have hget : ∀ x : Option TermData,
      (b.index_data ++ [x]).getD b.index_data.length none = x := by
    intro x
    rw [List.getD_eq_getElem?_getD, List.getElem?_append_right (le_refl _)]
    simp
  unfold add_occurrence
  simp only [hf, hcap, htn, hset, hget]

theorem getD_set_data (l : List (Option TermData)) (i j : Nat) (x : Option TermData)
    (hi : i < l.length) : (l.set i x).getD j none = if j = i then x else l.getD j none := by
  simp only [List.getD_eq_getElem?_getD, List.getElem?_set]
  by_cases e : i = j
  · subst e
    simp [hi]
  · have e' : ¬ j = i := fun x => e x.symm
    simp [e, e']

theorem add_size_le (d : TermDict) (k : List Nat) (v : Int) : (d.add k v).size_ ≤ d.size_ + 1 := by
  rw [TermDict.add_eq]
  cases TermDict.addChain k v (d.buckets.getD (d.hash k) []) with
  | some c => exact Nat.le_succ _
  | none => exact Nat.le_refl _

theorem Inv_add_occurrence (b : BoolIndexer) (calls : List BuildCall) (t : List Nat)
    (d p : Int) (h : Inv b calls) :
    Inv (b.add_occurrence t d p) (calls ++ [BuildCall.add_occurrence t d p]) := by
  obtain ⟨h1, h2, h3, h4, h5, h6, h7, h8, h9⟩ := h
  have hm5 : ∀ (t' : List Nat) (d' p' : Int),
      BuildCall.add_occurrence t' d' p' ∈ calls ++ [BuildCall.add_occurrence t d p] →
      BuildCall.add_occurrence t' d' p' ∈ calls ∨ t' = t := by
    intro t' d' p' hm
    simp only [List.mem_append, List.mem_singleton, BuildCall.add_occurrence.injEq] at hm
    rcases hm with hm | ⟨e, -⟩
    · exact Or.inl hm
    · exact Or.inr e
  have hlen : (calls ++ [BuildCall.add_occurrence t d p]).length = calls.length + 1 := by simp
  have hnames : ∀ name ∈ b.doc_names,
      BuildCall.add_doc name ∈ calls ++ [BuildCall.add_occurrence t d p] :=
    fun name hm => List.mem_append_left _ (h9 name hm)
  cases hf : b.term_to_id.find t with
  | some id =>
    obtain ⟨hi0, hil, data, hd, hok⟩ := h3 t id hf
    have hidx : id.toNat < b.index_data.length := by omega
    rw [add_occurrence_of_some b t d p id data hf hd]
    refine ⟨h1, by simpa using h2, ?_, h4, ?_, ?_, by rw [hlen]; exact Nat.le_succ_of_le h7,
      by rw [hlen]; exact Nat.le_succ_of_le h8, hnames⟩
    · intro t' id' hf'
      obtain ⟨hi0', hil', data', hd', hok'⟩ := h3 t' id' hf'
      simp only [List.length_set]
      refine ⟨hi0', hil', ?_⟩
      rw [getD_set_data _ _ _ _ hidx]
      by_cases e : id' = id
      · subst e
        have ht : t' = t := h4 t' t id' hf' hf
        subst ht
        rw [hd] at hd'
        cases hd'
        exact ⟨_, if_pos rfl, termOK_record calls t' data d p hok⟩
      · have e1 : ¬ id'.toNat = id.toNat := by omega
        have hne : t' ≠ t := by
          intro ht
          subst ht
          rw [hf] at hf'
          cases hf'
          exact e rfl
        exact ⟨data', by rw [if_neg e1]; exact hd', termOK_other calls t t' data' d p hne hok'⟩
    · intro t' d' p' hm
      rcases hm5 t' d' p' hm with hm | e
      · exact h5 t' d' p' hm
      · exact ⟨id, by rw [e]; exact hf⟩
    · intro t' id' hf'
      obtain ⟨d', p', hm⟩ := h6 t' id' hf'
      exact ⟨d', p', List.mem_append_left _ hm⟩
  | none =>
    rw [add_occurrence_of_none b t d p hf h2]
    have hfind : ∀ t', (b.term_to_id.add t b.next_id).find t'
        = if t' = t then some b.next_id else b.term_to_id.find t' :=
      fun t' => TermDict.find_add _ h1 _ _ _
    have hempty : TermOK calls t { docs := [], doc_count := 0 } := by
      refine ⟨List.nodup_nil, ?_, rfl, ?_⟩
      · intro d'
        simp only [List.map_nil, List.not_mem_nil, false_iff, not_exists]
        intro p' hm
        obtain ⟨id, hid⟩ := h5 t d' p' hm
        rw [hf] at hid
        cases hid
      · simp [postingBlock]
    have hnext : b.next_id + 1 = ((b.index_data ++
        [some (record { docs := [], doc_count := 0 } d p)]).length : Int) := by
      simp only [List.length_append, List.length_singleton]
      push_cast
      omega
    refine ⟨TermDict.WF_add _ h1 _ _, hnext, ?_, ?_, ?_, ?_, ?_,
      by rw [hlen]; exact Nat.le_succ_of_le h8, hnames⟩
    · intro t' id' hf'
      simp only at hf'
      rw [hfind] at hf'
      simp only [List.length_append, List.length_singleton]
      by_cases e : t' = t
      · simp only [e, if_true, Option.some.injEq] at hf'
        subst hf'
        subst e
        refine ⟨by omega, by push_cast; omega, _, ?_, termOK_record calls t' _ d p hempty⟩
        have : b.next_id.toNat = b.index_data.length := by omega
        rw [this, List.getD_eq_getElem?_getD, List.getElem?_append_right (le_refl _)]
        simp
      · simp only [e, if_false] at hf'
        obtain ⟨hi0', hil', data', hd', hok'⟩ := h3 t' id' hf'
        refine ⟨hi0', by push_cast; omega, data', ?_, termOK_other calls t t' data' d p e hok'⟩
        have hlt : id'.toNat < b.index_data.length := by omega
        rw [List.getD_eq_getElem?_getD, List.getElem?_append_left hlt,
          ← List.getD_eq_getElem?_getD]
        exact hd'
    · intro t1 t2 id hf1 hf2
      simp only at hf1 hf2
      rw [hfind] at hf1 hf2
      by_cases e1 : t1 = t
      · by_cases e2 : t2 = t
        · rw [e1, e2]
        · simp only [e1, if_true, Option.some.injEq] at hf1
          simp only [e2, if_false] at hf2
          have := (h3 t2 id hf2).2.1
          omega
      · by_cases e2 : t2 = t
        · simp only [e2, if_true, Option.some.injEq] at hf2
          simp only [e1, if_false] at hf1
          have := (h3 t1 id hf1).2.1
          omega
        · simp only [e1, e2, if_false] at hf1 hf2
          exact h4 t1 t2 id hf1 hf2
    · intro t' d' p' hm
      simp only
      rw [hfind]
      by_cases e : t' = t
      · exact ⟨b.next_id, by simp [e]⟩
      · rcases hm5 t' d' p' hm with hm | e'
        · obtain ⟨id, hid⟩ := h5 t' d' p' hm
          exact ⟨id, by simp [e, hid]⟩
        · exact absurd e' e
    · intro t' id' hf'
      simp only at hf'
      rw [hfind] at hf'
      by_cases e : t' = t
      · exact ⟨d, p, by rw [e]; simp⟩
      · simp only [e, if_false] at hf'
        obtain ⟨d', p', hm⟩ := h6 t' id' hf'
        exact ⟨d', p', List.mem_append_left _ hm⟩
    · rw [hlen]
      have := add_size_le b.term_to_id t b.next_id
      simp only
      omega

theorem Inv_run (calls : List BuildCall) : Inv (run calls) calls := by
  unfold run
  induction calls using List.reverseRecOn with
  | nil => exact Inv_new
  | append_singleton calls c ih =>
    rw [List.foldl_append]
    simp only [List.foldl_cons, List.foldl_nil]
    cases c with
    | add_doc name => exact Inv_add_doc _ _ name ih
    | add_occurrence t d p => exact Inv_add_occurrence _ _ t d p ih

end BoolIndexer

namespace BoolIndexer

/-! ### `BoolIndexer`: `sort_all` -/

theorem sortEntries_spec : ∀ l : List (Option TermData),
    ∃ l' : List (Option TermData), sortEntries l = some l' ∧ l'.length = l.length ∧
      ∀ i : Nat,
        (l.getD i none = none → l'.getD i none = none) ∧
        (∀ data : TermData, l.getD i none = some data →
          ∃ docs' : List DocEntry, l'.getD i none = some { data with docs := docs' } ∧
            docs'.Perm data.docs ∧
            docs'.Pairwise (fun a b => DocEntry.lt b a = false))
  | [] => ⟨[], rfl, rfl, fun i => ⟨fun _ => rfl, fun data h => by simp at h⟩⟩
  | none :: rest => by
    obtain ⟨r, h1, h2, h3⟩ := sortEntries_spec rest
    refine ⟨none :: r, by simp [sortEntries, h1], by simp [h2], ?_⟩
    intro i
    cases i with
    | zero => exact ⟨fun _ => rfl, fun data h => by simp at h⟩
    | succ i => simpa using h3 i
  | some data :: rest => by
    obtain ⟨r, h1, h2, h3⟩ := sortEntries_spec rest
    obtain ⟨docs', hs, hp, hpw⟩ := SimpleVector.sort_quick_spec DocEntry.lt docEntry_lt_asymm
      docEntry_lt_trans data.docs
    refine ⟨some { data with docs := docs' } :: r, by simp [sortEntries, h1, hs], by simp [h2], ?_⟩
    intro i
    cases i with
    | zero =>
      refine ⟨fun h => by simp at h, fun data' h => ?_⟩
      simp only [List.getD_cons_zero, Option.some.injEq] at h
      subst h
      exact ⟨docs', rfl, hp, hpw⟩
    | succ i => simpa using h3 i

theorem termOK_perm (calls : List BuildCall) (t : List Nat) (data : TermData)
    (docs' : List DocEntry) (hp : docs'.Perm data.docs) (h : TermOK calls t data) :
    TermOK calls t { data with docs := docs' } := by
  obtain ⟨h1, h2, h3, h4⟩ := h
  have hpm : (docs'.map DocEntry.doc_id).Perm (data.docs.map DocEntry.doc_id) := hp.map _
  refine ⟨hpm.nodup_iff.mpr h1, fun d => ?_, ?_, ?_⟩
  · rw [← h2 d]
    exact hpm.mem_iff
  · simp only
    rw [h3, hp.length_eq]
  · rw [postingBlock_length] at h4 ⊢
    simp only
    rw [(hp.map (fun e => 2 + e.positions.length)).sum_eq]
    exact h4

theorem sorted_ids_of_pairwise (docs : List DocEntry)
    (hpw : docs.Pairwise (fun a b => DocEntry.lt b a = false))
    (hnd : (docs.map DocEntry.doc_id).Nodup) : (docs.map DocEntry.doc_id).Sorted (· < ·) := by
  have h1 : (docs.map DocEntry.doc_id).Sorted (· ≤ ·) := by
    rw [List.Sorted, List.pairwise_map]
    refine hpw.imp ?_
    intro a b hab
    simp only [DocEntry.lt, decide_eq_false_iff_not, not_lt] at hab
    exact hab
  exact h1.lt_of_le hnd

theorem sort_all_spec (b : BoolIndexer) (calls : List BuildCall) (h : Inv b calls) :
    ∃ b' : BoolIndexer, b.sort_all = some b' ∧ Inv b' calls ∧ b'.doc_names = b.doc_names ∧
      ∀ (t : List Nat) (id : Int) (data : TermData), b'.term_to_id.find t = some id →
        b'.index_data.getD id.toNat none = some data →
        (data.docs.map DocEntry.doc_id).Sorted (· < ·) := by
  obtain ⟨l', hs, hlen, hl⟩ := sortEntries_spec b.index_data
  obtain ⟨h1, h2, h3, h4, h5, h6, h7, h8, h9⟩ := h
  refine ⟨{ b with index_data := l' }, by simp [sort_all, hs], ?_, rfl, ?_⟩
  · refine ⟨h1, by simp only [hlen]; exact h2, ?_, h4, h5, h6, h7, h8, h9⟩
    intro t id hf
    obtain ⟨a, c, data, hd, hok⟩ := h3 t id hf
    obtain ⟨docs', hd', hp, -⟩ := (hl id.toNat).2 data hd
    exact ⟨a, by simp only [hlen]; exact c, _, hd', termOK_perm calls t data docs' hp hok⟩
  · intro t id data hf hd
    obtain ⟨a, c, data0, hd0, hok⟩ := h3 t id hf
    obtain ⟨docs', hd', hp, hpw⟩ := (hl id.toNat).2 data0 hd0
    simp only at hd
    rw [hd'] at hd
    cases hd
    exact sorted_ids_of_pairwise docs' hpw (termOK_perm calls t data0 docs' hp hok).1

end BoolIndexer

namespace BoolIndexer

/-! ### `BoolIndexer`: `save` -/

theorem save_fold (b : BoolIndexer) : ∀ (infos : List TermInfo) (V : List Nat) (D : List Int),
    infos.foldl (saveStep b) (V, D, 4 * (D.length : Int))
      = (V ++ ((layout b infos D.length).map (fun e => vocabLineBody e.1 ++ [10])).flatten,
         D ++ blocksOf (layout b infos D.length),
         4 * ((D ++ blocksOf (layout b infos D.length)).length : Int)) := by
  intro infos
  induction infos with
  | nil => intro V D; simp [layout, blocksOf]
  | cons info rest ih =>
    intro V D
    rw [List.foldl_cons]
    unfold layout
    cases hd : b.index_data.getD info.term_id.toNat none with
    | none =>
      have : saveStep b (V, D, 4 * (D.length : Int)) info = (V, D, 4 * (D.length : Int)) := by
        simp only [saveStep, hd]
      rw [this]
      exact ih V D
    | some data =>
      have : saveStep b (V, D, 4 * (D.length : Int)) info
          = (V ++ info.term ++ [9] ++ printInt info.doc_count ++ [9]
              ++ printInt (4 * (D.length : Int)) ++ [10],
             D ++ postingBlock data, 4 * ((D ++ postingBlock data).length : Int)) := by
        simp only [saveStep, hd]
      rw [this, ih]
      simp only [List.length_append, List.map_cons, List.flatten_cons, blocksOf, vocabLineBody,
        List.append_assoc]

theorem layout_split (b : BoolIndexer) : ∀ (infos : List TermInfo) (w : Nat)
    (L1 L2 : List (TermIndex × TermData)) (e : TermIndex × TermData),
    layout b infos w = L1 ++ e :: L2 → e.1.offset = 4 * ((w + (blocksOf L1).length : Nat) : Int) := by
  intro infos
  induction infos with
  | nil =>
    intro w L1 L2 e h
    simp [layout] at h
  | cons info rest ih =>
    intro w L1 L2 e h
    unfold layout at h
    cases hd : b.index_data.getD info.term_id.toNat none with
    | none =>
      rw [hd] at h
      exact ih w L1 L2 e h
    | some data =>
      rw [hd] at h
      simp only at h
      cases L1 with
      | nil =>
        simp only [List.nil_append, List.cons.injEq] at h
        rw [← h.1]
        simp [blocksOf]
      | cons e0 L1 =>
        simp only [List.cons_append, List.cons.injEq] at h
        have := ih _ L1 L2 e h.2
        rw [this, ← h.1]
        simp only [blocksOf, List.map_cons, List.flatten_cons, List.length_append]
        push_cast
        omega

theorem layout_mem (b : BoolIndexer) : ∀ (infos : List TermInfo) (w : Nat)
    (e : TermIndex × TermData), e ∈ layout b infos w →
    ∃ info ∈ infos, e.1.term = info.term ∧ e.1.doc_count = info.doc_count ∧
      b.index_data.getD info.term_id.toNat none = some e.2 := by
  intro infos
  induction infos with
  | nil =>
    intro w e h
    simp [layout] at h
  | cons info rest ih =>
    intro w e h
    unfold layout at h
    cases hd : b.index_data.getD info.term_id.toNat none with
    | none =>
      rw [hd] at h
      obtain ⟨i, hi, r⟩ := ih w e h
      exact ⟨i, List.mem_cons_of_mem _ hi, r⟩
    | some data =>
      rw [hd] at h
      simp only [List.mem_cons] at h
      rcases h with h | h
      · refine ⟨info, List.mem_cons_self _ _, ?_⟩
        rw [h]
        exact ⟨rfl, rfl, hd⟩
      · obtain ⟨i, hi, r⟩ := ih _ e h
        exact ⟨i, List.mem_cons_of_mem _ hi, r⟩

theorem layout_mem_of (b : BoolIndexer) : ∀ (infos : List TermInfo) (w : Nat)
    (info : TermInfo) (data : TermData), info ∈ infos →
    b.index_data.getD info.term_id.toNat none = some data →
    ∃ e ∈ layout b infos w, e.1.term = info.term ∧ e.2 = data := by
  intro infos
  induction infos with
  | nil =>
    intro w info data h
    cases h
  | cons info0 rest ih =>
    intro w info data hm hdata
    unfold layout
    rcases List.mem_cons.mp hm with e | hm
    · subst e
      rw [hdata]
      exact ⟨_, List.mem_cons_self _ _, rfl, rfl⟩
    · cases hd : b.index_data.getD info0.term_id.toNat none with
      | none => exact ih w info data hm hdata
      | some data0 =>
        obtain ⟨e, he, r⟩ := ih (w + (postingBlock data0).length) info data hm hdata
        exact ⟨e, List.mem_cons_of_mem _ he, r⟩

theorem layout_length (b : BoolIndexer) : ∀ (infos : List TermInfo) (w : Nat),
    (layout b infos w).length ≤ infos.length := by
  intro infos
  induction infos with
  | nil => intro w; simp [layout]
  | cons info rest ih =>
    intro w
    unfold layout
    cases b.index_data.getD info.term_id.toNat none with
    | none => exact Nat.le_succ_of_le (ih w)
    | some data => simpa using ih _

theorem blocksOf_length_le (L : List (TermIndex × TermData)) (B : Nat)
    (h : ∀ e ∈ L, (postingBlock e.2).length ≤ B) : (blocksOf L).length ≤ L.length * B := by
  induction L with
  | nil => simp [blocksOf]
  | cons e L ih =>
    have h1 := h e (List.mem_cons_self _ _)
    have h2 := ih (fun x hx => h x (List.mem_cons_of_mem _ hx))
    simp only [blocksOf, List.map_cons, List.flatten_cons, List.length_append,
      List.length_cons] at h2 ⊢
    rw [Nat.succ_mul]
    omega

end BoolIndexer

namespace SearchIndex

/-! ### `SearchIndex`: `load` and `get_docs` on the files written by `save` -/

theorem isdigit_ne_newline {c : Nat} (h : isdigit c = true) : c ≠ 10 := by
  intro e
  subst e
  simp [isdigit] at h

theorem vocabLineBody_good (ti : TermIndex) (h : GoodEntry ti) :
    10 ∉ vocabLineBody ti ∧ (vocabLineBody ti).length + 1 < 1024 := by
  obtain ⟨h1, h2, h3, h4, h5, h6, h7, h8⟩ := h
  have l1 := printInt_length ti.doc_count h5 18 (by omega) h6
  have l2 := printInt_length ti.offset h7 18 (by omega) h8
  constructor
  · unfold vocabLineBody
    simp only [List.mem_append, List.mem_singleton, not_or]
    refine ⟨⟨⟨⟨h3, by omega⟩, ?_⟩, by omega⟩, ?_⟩
    · exact fun hm => isdigit_ne_newline (printInt_digits _ h5 _ hm) rfl
    · exact fun hm => isdigit_ne_newline (printInt_digits _ h7 _ hm) rfl
  · unfold vocabLineBody
    simp only [List.length_append, List.length_singleton]
    omega

theorem load_terms (tis : List TermIndex) (h : ∀ ti ∈ tis, GoodEntry ti)
    (h0 : ∀ ti ∈ tis, 0 ∉ ti.term) :
    (readLines 1024 (tis.map (fun ti => vocabLineBody ti ++ [10])).flatten.length
        (tis.map (fun ti => vocabLineBody ti ++ [10])).flatten).filterMap scanVocabLine
      = tis := by
  have hmm : tis.map (fun ti => vocabLineBody ti ++ [10])
      = (tis.map vocabLineBody).map (fun body => body ++ [10]) := by
    rw [List.map_map]
    rfl
  rw [hmm, readLines_lines 1024 (tis.map vocabLineBody) (by
    intro body hb
    obtain ⟨ti, hti, rfl⟩ := List.mem_map.mp hb
    exact vocabLineBody_good ti (h ti hti)) _ (le_refl _), ← hmm]
  clear hmm
  induction tis with
  | nil => rfl
  | cons ti tis ih =>
    obtain ⟨h1, h2, h3, h4, h5, h6, h7, h8⟩ := h ti (List.mem_cons_self _ _)
    have hl := scanVocabLine_line ti.term ti.doc_count ti.offset h1
      (h0 ti (List.mem_cons_self _ _)) h2 h4 h5 h7
    have hl' : scanVocabLine (vocabLineBody ti ++ [10]) = some ti := hl
    rw [List.map_cons, List.filterMap_cons, hl']
    simp only
    rw [ih (fun x hx => h x (List.mem_cons_of_mem _ hx))
      (fun x hx => h0 x (List.mem_cons_of_mem _ hx))]

theorem loadDocs_ok : ∀ (lines : List (List Nat)),
    (∀ line ∈ lines, ∃ (i : Int) (rest : List Nat), 0 ≤ i ∧ line = printInt i ++ 9 :: rest) →
    ∀ st, ∃ st', loadDocs lines st = .ok st'
  | [], _, st => ⟨st, rfl⟩
  | line :: rest, h, st => by
    obtain ⟨i, r, hi, hline⟩ := h line (List.mem_cons_self _ _)
    have hstep : ∃ st1, loadDocStep st line = .ok st1 := by
      unfold loadDocStep
      cases hs : scanDocLine line with
      | none => exact ⟨st, rfl⟩
      | some v =>
        obtain ⟨id, name⟩ := v
        rw [hline] at hs
        have hid := scanDocLine_id i hi r id name hs
        have : ¬ id < 0 := by omega
        simp only [this, if_false]
        exact ⟨_, rfl⟩
    obtain ⟨st1, h1⟩ := hstep
    obtain ⟨st', h'⟩ := loadDocs_ok rest (fun l hl => h l (List.mem_cons_of_mem _ hl)) st1
    refine ⟨st', ?_⟩
    unfold loadDocs
    rw [h1]
    exact h'

theorem load_documents_ok (names : List (List Nat)) (hn : names.length < 10 ^ 18)
    (h : ∀ name ∈ names, 10 ∉ name ∧ name.length ≤ 255) :
    ∀ st, ∃ st', loadDocs (readLines 1024 (BoolIndexer.documentLines names).length
      (BoolIndexer.documentLines names)) st = .ok st' := by
  have hbody : ∀ i ∈ List.range names.length,
      10 ∉ (printInt (i : Int) ++ [9] ++ names.getD i []) ∧
        (printInt (i : Int) ++ [9] ++ names.getD i []).length + 1 < 1024 := by
    intro i hi
    have hi' : i < names.length := List.mem_range.mp hi
    have hnm := h (names.getD i []) (by
      rw [List.getD_eq_getElem _ _ hi']
      exact List.getElem_mem _)
    have l1 := printInt_length (i : Int) (Int.ofNat_nonneg _) 18 (by omega)
      (by exact_mod_cast (lt_trans hi' hn))
    constructor
    · simp only [List.mem_append, List.mem_singleton, not_or]
      refine ⟨⟨?_, by omega⟩, hnm.1⟩
      exact fun hm => isdigit_ne_newline (printInt_digits _ (Int.ofNat_nonneg _) _ hm) rfl
    · simp only [List.length_append, List.length_singleton]
      omega
  have hmm : BoolIndexer.documentLines names
      = (((List.range names.length).map
          (fun (i : Nat) => printInt (i : Int) ++ [9] ++ names.getD i [])).map
            (fun body => body ++ [10])).flatten := by
    unfold BoolIndexer.documentLines
    rw [List.map_map]
    rfl
  rw [hmm, readLines_lines 1024 _ (by
    intro body hb
    obtain ⟨i, hi, rfl⟩ := List.mem_map.mp hb
    exact hbody i hi) _ (le_refl _)]
  apply loadDocs_ok
  intro line hl
  simp only [List.map_map, List.mem_map, Function.comp] at hl
  obtain ⟨i, -, rfl⟩ := hl
  exact ⟨(i : Int), names.getD i [] ++ [10], Int.ofNat_nonneg _, by simp⟩

theorem readInt_at (pre post : List Int) (x : Int) :
    readInt (pre ++ x :: post) (4 * pre.length) = some x := by
  unfold readInt
  have h1 : 4 * pre.length % 4 = 0 := by omega
  have h2 : 4 * pre.length / 4 = pre.length := by omega
  simp only [h1, if_true, h2]
  rw [List.getElem?_append_right (le_refl _)]
  simp

theorem readPostings_spec : ∀ (docs : List DocEntry) (pre post : List Int) (res : List Int),
    readPostings
        (pre ++ (docs.map (fun e => e.doc_id :: (e.positions.length : Int) :: e.positions)).flatten
          ++ post) docs.length (4 * pre.length) res
      = some (res ++ docs.map DocEntry.doc_id)
  | [], pre, post, res => by simp [readPostings]
  | e :: docs, pre, post, res => by
    have hfile : pre ++ ((e :: docs).map
          (fun e => e.doc_id :: (e.positions.length : Int) :: e.positions)).flatten ++ post
        = (pre ++ e.doc_id :: (e.positions.length : Int) :: e.positions)
          ++ (docs.map (fun e => e.doc_id :: (e.positions.length : Int) :: e.positions)).flatten
          ++ post := by simp
    have h1 : readInt (pre ++ ((e :: docs).map
          (fun e => e.doc_id :: (e.positions.length : Int) :: e.positions)).flatten ++ post)
        (4 * pre.length) = some e.doc_id := by
      have := readInt_at pre ((e.positions.length : Int) :: e.positions ++
        (docs.map (fun e => e.doc_id :: (e.positions.length : Int) :: e.positions)).flatten
          ++ post) e.doc_id
      simpa using this
    have h2 : readInt (pre ++ ((e :: docs).map
          (fun e => e.doc_id :: (e.positions.length : Int) :: e.positions)).flatten ++ post)
        (4 * pre.length + 4) = some (e.positions.length : Int) := by
      have := readInt_at (pre ++ [e.doc_id]) (e.positions ++
        (docs.map (fun e => e.doc_id :: (e.positions.length : Int) :: e.positions)).flatten
          ++ post) (e.positions.length : Int)
      have e4 : 4 * (pre ++ [e.doc_id]).length = 4 * pre.length + 4 := by simp; omega
      rw [e4] at this
      simpa using this
    have h3 : seekCur (4 * pre.length + 8) (4 * (e.positions.length : Int))
        = 4 * (pre ++ e.doc_id :: (e.positions.length : Int) :: e.positions).length := by
      unfold seekCur
      simp only [List.length_append, List.length_cons]
      have : (0 : Int) ≤ ((4 * pre.length + 8 : Nat) : Int) + 4 * (e.positions.length : Int) := by
        omega
      simp only [this, if_true]
      omega
    rw [List.length_cons, readPostings, h1]
    simp only
    rw [h2]
    simp only
    rw [h3, hfile, readPostings_spec docs _ post _]
    simp

theorem get_docs_layout (idx : SearchIndex) (L1 L2 : List (TermIndex × TermData))
    (ti : TermIndex) (data : TermData)
    (hdata : idx.data = some (blocksOf (L1 ++ (ti, data) :: L2)))
    (hoff : ti.offset = 4 * ((blocksOf L1).length : Int))
    (hfind : idx.terms.find? (fun e => strcmp e.term ti.term = 0) = some ti) :
    idx.get_docs ti.term = some (data.docs.map DocEntry.doc_id) := by
  unfold get_docs
  rw [hfind, hdata]
  simp only
  have hseek : seekCur 0 ti.offset = 4 * (blocksOf L1).length := by
    unfold seekCur
    rw [hoff]
    have : (0 : Int) ≤ ((0 : Nat) : Int) + 4 * ((blocksOf L1).length : Int) := by omega
    simp only [this, if_true]
    omega
  have hfile : blocksOf (L1 ++ (ti, data) :: L2)
      = blocksOf L1 ++ (data.docs.length : Int) ::
        ((data.docs.map (fun e => e.doc_id :: (e.positions.length : Int) :: e.positions)).flatten
          ++ blocksOf L2) := by
    simp [blocksOf, BoolIndexer.postingBlock]
  rw [hseek, hfile, readInt_at]
  simp only [Int.toNat_ofNat]
  have := readPostings_spec data.docs (blocksOf L1 ++ [(data.docs.length : Int)]) (blocksOf L2) []
  have e4 : 4 * (blocksOf L1 ++ [(data.docs.length : Int)]).length
      = 4 * (blocksOf L1).length + 4 := by simp; omega
  rw [e4] at this
  simpa using this

end SearchIndex

/-! ### The round trip -/

theorem find_layout (t : List Nat) : ∀ (L : List (TermIndex × TermData)),
    (∃ e ∈ L, e.1.term = t) →
    ∃ (L1 : List (TermIndex × TermData)) (ti : TermIndex) (data : TermData)
      (L2 : List (TermIndex × TermData)),
      L = L1 ++ (ti, data) :: L2 ∧ ti.term = t ∧
      (L.map Prod.fst).find? (fun x => strcmp x.term t = 0) = some ti
  | [], h => by
    obtain ⟨e, he, -⟩ := h
    cases he
  | (ti0, data0) :: L, h => by
    by_cases h0 : ti0.term = t
    · refine ⟨[], ti0, data0, L, rfl, h0, ?_⟩
      simp [List.find?, strcmp_eq_zero_iff, h0]
    · have h' : ∃ e ∈ L, e.1.term = t := by
        obtain ⟨e, he, het⟩ := h
        rcases List.mem_cons.mp he with rfl | he
        · exact absurd het h0
        · exact ⟨e, he, het⟩
      obtain ⟨L1, ti, data, L2, e1, e2, e3⟩ := find_layout t L h'
      refine ⟨(ti0, data0) :: L1, ti, data, L2, by rw [e1]; rfl, e2, ?_⟩
      have hne : ¬ strcmp ti0.term t = 0 := by rw [strcmp_eq_zero_iff]; exact h0
      simp only [List.map_cons, List.find?, hne, decide_False]
      exact e3

theorem vocabEntry_eq (b : BoolIndexer) (node : Node) (data : TermData)
    (hlt : node.value < (b.index_data.length : Int))
    (hd : b.index_data.getD node.value.toNat none = some data) :
    BoolIndexer.vocabEntry b node
      = { term := node.key.take 255, term_id := node.value, doc_count := data.doc_count,
          file_offset := 0 } := by
  unfold BoolIndexer.vocabEntry
  simp only [hlt, if_true, hd, TermInfo.mk2]

theorem bound_offset (n k B : Nat) (hn : n < 2 ^ 27) (hk : k ≤ n) (hB : B ≤ k * (1 + 3 * n)) :
    4 * (B : Int) < 10 ^ 18 := by
  have h1 : k * (1 + 3 * n) ≤ 2 ^ 27 * (1 + 3 * 2 ^ 27) :=
    Nat.mul_le_mul (by omega) (by omega)
  have h2 : B ≤ 2 ^ 27 * (1 + 3 * 2 ^ 27) := le_trans hB h1
  have h3 : (B : Int) ≤ ((2 ^ 27 * (1 + 3 * 2 ^ 27) : Nat) : Int) := by exact_mod_cast h2
  norm_num at h3 ⊢
  omega

/-- Facts on the index after the calls and `sort_all` that the round trip uses. -/
theorem entry_facts (b : BoolIndexer) (calls : List BuildCall) (hinv : b.Inv calls)
    (hterms : ∀ (t : List Nat) (d p : Int), BuildCall.add_occurrence t d p ∈ calls →
      t ≠ [] ∧ t.length ≤ 255 ∧ 9 ∉ t ∧ 10 ∉ t)
    (V : List TermInfo) (hV : V.Perm (b.term_to_id.buckets.flatten.map (b.vocabEntry)))
    (w : Nat) (e : TermIndex × TermData) (he : e ∈ b.layout V w) :
    ∃ id : Int, b.term_to_id.find e.1.term = some id ∧
      b.index_data.getD id.toNat none = some e.2 ∧ TermOK calls e.1.term e.2 ∧
      e.1.doc_count = e.2.doc_count ∧
      e.1.term ≠ [] ∧ e.1.term.length ≤ 255 ∧ 9 ∉ e.1.term ∧ 10 ∉ e.1.term := by
  obtain ⟨h1, h2, h3, h4, h5, h6, h7, h8, h9⟩ := hinv
  obtain ⟨info, hinfo, et, ec, ed⟩ := BoolIndexer.layout_mem b V w e he
  have hinfo' := hV.mem_iff.mp hinfo
  obtain ⟨node, hnode, rfl⟩ := List.mem_map.mp hinfo'
  have hf := (TermDict.mem_entries_iff _ h1 node).mp hnode
  obtain ⟨hi0, hil, data, hd, hok⟩ := h3 node.key node.value hf
  obtain ⟨d, p, hrec⟩ := h6 node.key node.value hf
  obtain ⟨g1, g2, g3, g4⟩ := hterms node.key d p hrec
  rw [vocabEntry_eq b node data hil hd] at et ec ed
  simp only [List.take_of_length_le g2] at et ec ed
  rw [hd] at ed
  cases ed
  refine ⟨node.value, by rw [et]; exact hf, hd, by rw [et]; exact hok, ec, ?_, ?_, ?_, ?_⟩
  · rw [et]; exact g1
  · rw [et]; exact g2
  · rw [et]; exact g3
  · rw [et]; exact g4

theorem save_spec (b : BoolIndexer) (hwf : b.term_to_id.WF) :
    ∃ V : List TermInfo, V.Perm (b.term_to_id.buckets.flatten.map b.vocabEntry) ∧
      b.save = some
        { vocabulary := some ((b.layout V 0).map (fun e => vocabLineBody e.1 ++ [10])).flatten,
          index_data := some (blocksOf (b.layout V 0)),
          documents := some (BoolIndexer.documentLines b.doc_names) } := by
  obtain ⟨V, hs, hp, -⟩ := SimpleVector.sort_quick_spec TermInfo.lt termInfo_lt_asymm
    termInfo_lt_trans (BoolIndexer.collectVocab b b.term_to_id.size b.term_to_id.begin [])
  rw [BoolIndexer.collectVocab_all b hwf] at hs hp
  refine ⟨V, hp, ?_⟩
  have hfold := BoolIndexer.save_fold b V [] []
  simp only [List.length_nil, Nat.cast_zero, mul_zero, List.nil_append] at hfold
  unfold BoolIndexer.save
  rw [BoolIndexer.collectVocab_all b hwf]
  simp only [hs, hfold]

/-- The amended round trip, for an indexer state that satisfies the invariant after
`sort_all`. -/
theorem round_trip_sorted (b : BoolIndexer) (calls : List BuildCall) (hn : calls.length < 2 ^ 27)
    (hterms : ∀ (t : List Nat) (d p : Int), BuildCall.add_occurrence t d p ∈ calls →
      t ≠ [] ∧ t.length ≤ 255 ∧ 9 ∉ t ∧ 10 ∉ t)
    (hcstr : ∀ (t : List Nat) (d p : Int), BuildCall.add_occurrence t d p ∈ calls → 0 ∉ t)
    (hnames : ∀ name : List Nat, BuildCall.add_doc name ∈ calls →
      name.length ≤ 255 ∧ 10 ∉ name)
    (hinv : b.Inv calls)
    (hsorted : ∀ (t : List Nat) (id : Int) (data : TermData), b.term_to_id.find t = some id →
      b.index_data.getD id.toNat none = some data →
      (data.docs.map DocEntry.doc_id).Sorted (· < ·)) :
    ∃ (dir : IndexDir) (idx : SearchIndex), b.save = some dir ∧ SearchIndex.load dir = .ok idx ∧
      ∀ t : List Nat, (∃ d p : Int, BuildCall.add_occurrence t d p ∈ calls) →
        ∃ r : List Int, idx.get_docs t = some r ∧ r.Sorted (· < ·) ∧
          ∀ d : Int, d ∈ r ↔ ∃ p : Int, BuildCall.add_occurrence t d p ∈ calls := by
  obtain ⟨V, hV, hsave⟩ := save_spec b hinv.1
  have hfacts := entry_facts b calls hinv hterms V hV 0
  obtain ⟨h1, h2, h3, h4, h5, h6, h7, h8, h9⟩ := hinv
  have hVlen : V.length ≤ calls.length := by
    rw [hV.length_eq, List.length_map, ← h1.2.2.2.2]
    exact h7
  have hLlen : (b.layout V 0).length ≤ calls.length :=
    le_trans (BoolIndexer.layout_length b V 0) hVlen
  have hblock : ∀ e ∈ b.layout V 0,
      (BoolIndexer.postingBlock e.2).length ≤ 1 + 3 * calls.length := by
    intro e he
    obtain ⟨id, -, -, hok, -⟩ := hfacts e he
    exact hok.2.2.2
  -- every line of the vocabulary is read back as written
  have hgood : ∀ ti ∈ (b.layout V 0).map Prod.fst, GoodEntry ti := by
    intro ti hti
    obtain ⟨e, he, rfl⟩ := List.mem_map.mp hti
    obtain ⟨id, hf, hd, hok, hdc, g1, g2, g3, g4⟩ := hfacts e he
    obtain ⟨L1, L2, hsplit⟩ := List.append_of_mem he
    have hoff := BoolIndexer.layout_split b V 0 L1 L2 e hsplit
    have hL1 : L1.length ≤ calls.length := by
      have : (b.layout V 0).length = L1.length + (L2.length + 1) := by
        rw [hsplit]; simp
      omega
    have hB1 : (blocksOf L1).length ≤ L1.length * (1 + 3 * calls.length) :=
      BoolIndexer.blocksOf_length_le L1 _ (fun x hx => hblock x (by rw [hsplit]; simp [hx]))
    have hdocs : e.2.docs.length ≤ (BoolIndexer.postingBlock e.2).length := by
      rw [BoolIndexer.postingBlock_length]
      have : ∀ l : List DocEntry, l.length ≤ (l.map (fun e => 2 + e.positions.length)).sum := by
        intro l
        induction l with
        | nil => simp
        | cons a l ih => simp; omega
      have := this e.2.docs
      omega
    have hb2 := hblock e he
    refine ⟨g1, g3, g4, g2, ?_, ?_, ?_, ?_⟩
    · rw [hdc, hok.2.2.1]; exact Int.ofNat_nonneg _
    · rw [hdc, hok.2.2.1]
      have : ((e.2.docs.length : Nat) : Int) ≤ 1 + 3 * 2 ^ 27 := by omega
      have h18 : (1 + 3 * 2 ^ 27 : Int) < 10 ^ 18 := by norm_num
      omega
    · rw [hoff]; omega
    · rw [hoff]
      simp only [Nat.zero_add]
      exact bound_offset calls.length L1.length _ hn hL1 hB1
  -- the document table loads
  have hdocs_ok := SearchIndex.load_documents_ok b.doc_names
    (lt_of_le_of_lt h8 (lt_trans hn (by norm_num)))
    (fun name hm => ⟨(hnames name (h9 name hm)).2, (hnames name (h9 name hm)).1⟩) ([], 0)
  obtain ⟨st, hst⟩ := hdocs_ok
  have hnul : ∀ ti ∈ (b.layout V 0).map Prod.fst, 0 ∉ ti.term := by
    intro ti hti
    obtain ⟨e, he, rfl⟩ := List.mem_map.mp hti
    obtain ⟨id, hf, -⟩ := hfacts e he
    obtain ⟨d, p, hrec⟩ := h6 e.1.term id hf
    exact hcstr e.1.term d p hrec
  have hterms_eq := SearchIndex.load_terms ((b.layout V 0).map Prod.fst) hgood hnul
  have hmm : ((b.layout V 0).map Prod.fst).map (fun ti => vocabLineBody ti ++ [10])
      = (b.layout V 0).map (fun e => vocabLineBody e.1 ++ [10]) := by
    rw [List.map_map]
    rfl
  rw [hmm] at hterms_eq
  refine ⟨_, { terms := (b.layout V 0).map Prod.fst, doc_names := st.1, total_docs := st.2,
               data := some (blocksOf (b.layout V 0)) }, hsave, ?_, ?_⟩
  · unfold SearchIndex.load
    simp only [hterms_eq, hst]
  · intro t hrec
    obtain ⟨d0, p0, hrec0⟩ := hrec
    obtain ⟨id, hf⟩ := h5 t d0 p0 hrec0
    obtain ⟨hi0, hil, data, hd, hok⟩ := h3 t id hf
    obtain ⟨g1, g2, g3, g4⟩ := hterms t d0 p0 hrec0
    have hnode : ({ key := t, value := id } : Node) ∈ b.term_to_id.buckets.flatten :=
      (TermDict.mem_entries_iff _ h1 _).mpr hf
    have hinV : b.vocabEntry { key := t, value := id } ∈ V :=
      hV.mem_iff.mpr (List.mem_map_of_mem _ hnode)
    have hve := vocabEntry_eq b { key := t, value := id } data hil hd
    simp only [List.take_of_length_le g2] at hve
    obtain ⟨e, he, het, -⟩ := BoolIndexer.layout_mem_of b V 0 _ data hinV (by rw [hve]; exact hd)
    rw [hve] at het
    simp only at het
    obtain ⟨L1, ti, data', L2, hsplit, hti, hfind⟩ := find_layout t (b.layout V 0) ⟨e, he, het⟩
    have hmem : (ti, data') ∈ b.layout V 0 := by rw [hsplit]; simp
    obtain ⟨id', hf', hd', -⟩ := hfacts (ti, data') hmem
    simp only at hf' hd'
    rw [hti, hf] at hf'
    cases hf'
    rw [hd] at hd'
    cases hd'
    have hoff := BoolIndexer.layout_split b V 0 L1 L2 (ti, data) hsplit
    simp only [Nat.zero_add] at hoff
    subst hti
    refine ⟨data.docs.map DocEntry.doc_id, ?_, hsorted ti.term id data hf hd, hok.2.1⟩
    exact SearchIndex.get_docs_layout _ L1 L2 ti data (by rw [hsplit]) hoff hfind

/-! ### The claims on the index as a whole -/

/-- C1 (amended): after every sequence of fewer than `2^27` `add_doc` and `add_occurrence`
calls in which every term is non-empty, at most 255 bytes long and free of tab and newline
bytes, and every document name is at most 255 bytes long and free of newline bytes, followed
by `sort_all` and `save`, `load` succeeds on the files written, and for every term `t`
recorded at least once `get_docs t` returns exactly the document ids `d` for which
`add_occurrence t d _` was called, each once, in ascending order, whatever the positions.
The terms are the C strings that `add_occurrence` is given, which hold no NUL byte
(`hcstr`). -/
theorem build_query_round_trip (calls : List BuildCall) (hn : calls.length < 2 ^ 27)
    (hterms : ∀ (t : List Nat) (d p : Int), BuildCall.add_occurrence t d p ∈ calls →
      t ≠ [] ∧ t.length ≤ 255 ∧ 9 ∉ t ∧ 10 ∉ t)
    (hcstr : ∀ (t : List Nat) (d p : Int), BuildCall.add_occurrence t d p ∈ calls → 0 ∉ t)
    (hnames : ∀ name : List Nat, BuildCall.add_doc name ∈ calls →
      name.length ≤ 255 ∧ 10 ∉ name) :
    ∃ idx : SearchIndex, buildAndLoad calls = some idx ∧
      ∀ t : List Nat, (∃ d p : Int, BuildCall.add_occurrence t d p ∈ calls) →
        ∃ r : List Int, idx.get_docs t = some r ∧ r.Sorted (· < ·) ∧
          ∀ d : Int, d ∈ r ↔ ∃ p : Int, BuildCall.add_occurrence t d p ∈ calls := by
  obtain ⟨b, hs, hinv, -, hsorted⟩ :=
    BoolIndexer.sort_all_spec _ calls (BoolIndexer.Inv_run calls)
  obtain ⟨dir, idx, hsave, hload, hq⟩ :=
    round_trip_sorted b calls hn hterms hcstr hnames hinv hsorted
  refine ⟨idx, ?_, hq⟩
  unfold buildAndLoad
  simp only [hs, hsave, hload]

theorem build_query_round_trip_witness :
    scenarioA.length < 2 ^ 27 ∧
    (∀ (t : List Nat) (d p : Int), BuildCall.add_occurrence t d p ∈ scenarioA →
      t ≠ [] ∧ t.length ≤ 255 ∧ 9 ∉ t ∧ 10 ∉ t) ∧
    (∀ (t : List Nat) (d p : Int), BuildCall.add_occurrence t d p ∈ scenarioA → 0 ∉ t) ∧
    (∀ name : List Nat, BuildCall.add_doc name ∈ scenarioA →
      name.length ≤ 255 ∧ 10 ∉ name) ∧
    ∃ idx : SearchIndex, buildAndLoad scenarioA = some idx ∧
      ∀ t : List Nat, (∃ d p : Int, BuildCall.add_occurrence t d p ∈ scenarioA) →
        ∃ r : List Int, idx.get_docs t = some r ∧ r.Sorted (· < ·) ∧
          ∀ d : Int, d ∈ r ↔ ∃ p : Int, BuildCall.add_occurrence t d p ∈ scenarioA := by
  have h1 : ∀ (t : List Nat) (d p : Int), BuildCall.add_occurrence t d p ∈ scenarioA →
      t ≠ [] ∧ t.length ≤ 255 ∧ 9 ∉ t ∧ 10 ∉ t := by
    intro t d p h
    simp [scenarioA] at h
    rcases h with ⟨rfl, -⟩ | ⟨rfl, -⟩ | ⟨rfl, -⟩ | ⟨rfl, -⟩ <;> decide
  have h0 : ∀ (t : List Nat) (d p : Int), BuildCall.add_occurrence t d p ∈ scenarioA →
      0 ∉ t := by
    intro t d p h
    simp [scenarioA] at h
    rcases h with ⟨rfl, -⟩ | ⟨rfl, -⟩ | ⟨rfl, -⟩ | ⟨rfl, -⟩ <;> decide
  have h2 : ∀ name : List Nat, BuildCall.add_doc name ∈ scenarioA →
      name.length ≤ 255 ∧ 10 ∉ name := by
    intro name h
    simp [scenarioA] at h
    rcases h with rfl | rfl | rfl <;> decide
  exact ⟨by decide, h1, h0, h2, build_query_round_trip scenarioA (by decide) h1 h0 h2⟩

/-- C1 as stated fails: a recorded term that holds a tab is not found again; a newline in
another term makes `get_docs` return the documents of that term; and a longer term that
agrees with a 255-byte term on its first 255 bytes hides it. -/
theorem build_query_round_trip_counterexample :
    (BuildCall.add_occurrence [97, 9, 98] 0 1 ∈ tabCalls ∧
      (buildAndLoad tabCalls).map (fun idx => idx.get_docs [97, 9, 98]) = some (some [])) ∧
    (BuildCall.add_occurrence [98] 1 1 ∈ newlineCalls ∧
      (∀ p : Int, BuildCall.add_occurrence [98] 0 p ∉ newlineCalls) ∧
      (buildAndLoad newlineCalls).map (fun idx => idx.get_docs [98]) = some (some [0])) ∧
    (BuildCall.add_occurrence (List.replicate 255 97) 0 1 ∈ longCalls ∧
      (∀ p : Int, BuildCall.add_occurrence (List.replicate 255 97) 1 p ∉ longCalls) ∧
      (buildAndLoad longCalls).map (fun idx => idx.get_docs (List.replicate 255 97))
        = some (some [1])) := by
  refine ⟨⟨by decide, by decide!⟩, ⟨by decide, ?_, by decide!⟩, ⟨by decide!, ?_, by decide!⟩⟩
  · intro p h
    simp [newlineCalls] at h
  · intro p h
    simp only [longCalls, List.mem_cons, List.mem_nil_iff, or_false] at h
    rcases h with h | h | h | h
    · cases h
    · cases h
    · injection h with _ h2 _
      exact absurd h2 (by decide)
    · injection h with h1 _ _
      have := congrArg List.length h1
      rw [List.length_replicate, List.length_replicate] at this
      omega

/-- C2 (Scenario A): on the index built from doc0 = (кот, собака), doc1 = (кот),
doc2 = (собака) the queries `кот`, `кот && собака`, `кот || собака` and `!кот` return
`[0, 1]`, `[0]`, `[0, 1, 2]` and `[2]`. -/
theorem scenario_A_queries :
    ∃ idx : SearchIndex, buildAndLoad scenarioA = some idx ∧
      QueryParser.parse idx kot = .ok [0, 1] ∧
      QueryParser.parse idx (kot ++ [32, 38, 38, 32] ++ sobaka) = .ok [0] ∧
      QueryParser.parse idx (kot ++ [32, 124, 124, 32] ++ sobaka) = .ok [0, 1, 2] ∧
      QueryParser.parse idx (33 :: kot) = .ok [2] :=
  ⟨{ terms := [{ term := kot, doc_count := 2, offset := 0 },
               { term := sobaka, doc_count := 2, offset := 28 }],
     doc_names := [some (docName 0), some (docName 1), some (docName 2)],
     total_docs := 3,
     data := some [2, 0, 1, 1, 1, 1, 1, 2, 0, 1, 2, 2, 1, 1] },
    by decide!, by decide!, by decide!, by decide!, by decide!⟩

namespace QueryParser

theorem wordChar_not_space {c : Nat} (h : wordChar c = true) : isspace c = false := by
  unfold wordChar at h
  simp only [Bool.and_eq_true, Bool.not_eq_true'] at h
  exact h.1.1.1.1.1.2

theorem new_word (c : Nat) (rest : List Nat) (hw : ∀ x ∈ c :: rest, wordChar x = true)
    (hlow : (c :: rest).map tolower = c :: rest) (hlen : (c :: rest).length ≤ 255) :
    QueryParser.new (c :: rest)
      = { input := [], current := { type := .WORD, word := c :: rest } } := by
  have hc := hw c (List.mem_cons_self _ _)
  have hsp := wordChar_not_space hc
  have hc' := hc
  unfold wordChar at hc'
  simp only [Bool.and_eq_true, Bool.not_eq_true', bne_iff_ne, ne_eq] at hc'
  obtain ⟨⟨⟨⟨⟨⟨c0, -⟩, c40⟩, c41⟩, c38⟩, c124⟩, c33⟩ := hc'
  have htw : (c :: rest).takeWhile wordChar = c :: rest := by
    rw [List.takeWhile_eq_self_iff]
    exact hw
  have hdw : (c :: rest).dropWhile wordChar = [] := by
    rw [List.dropWhile_eq_nil_iff]
    exact hw
  unfold QueryParser.new next_token skip_spaces
  have hds : (c :: rest).dropWhile isspace = c :: rest := by
    simp [List.dropWhile, hsp]
  simp only [hds, List.getD_cons_zero, c0, c40, c41, c38, c124, c33, if_false, false_and, htw,
    hdw, hlow, List.take_of_length_le hlen]

theorem parse_single_word (idx : SearchIndex) (t : List Nat)
    (hget : idx.get_docs t = some []) (fuel : Nat) :
    parse_expr idx (fuel + 3) { input := [], current := { type := .WORD, word := t } }
      = .ok ([], { input := [], current := { type := .END, word := [] } }) := by
  have hnext : next_token { input := [], current := { type := .WORD, word := t } }
      = { input := [], current := { type := .END, word := [] } } := by
    simp [next_token, skip_spaces]
  have e : fuel + 3 = (fuel + 2) + 1 := rfl
  rw [e, parse_expr]
  have e2 : fuel + 2 = (fuel + 1) + 1 := rfl
  rw [e2, parse_term]
  simp only [reduceCtorEq, if_false]
  rw [parse_factor]
  simp only [reduceCtorEq, if_false, if_true, hget, hnext]
  rw [parse_expr_loop]
  simp

end QueryParser

/-- C3: for every loaded index and every term that matches no entry of the in-memory
vocabulary, `get_docs` returns the empty sequence (a result, not an error).  The single-word
query that consists of the term evaluates to the empty set: this holds for the parser whose
lookahead token is the word `t` with nothing left to read, and for `parse` on the query
string `t` itself whenever the lexer reads `t` as that word, that is when `t` has only word
bytes, no ASCII capital and at most 255 bytes (the empty query included). -/
theorem unknown_term_is_empty (idx : SearchIndex) (t : List Nat)
    (hno : ∀ ti ∈ idx.terms, strcmp ti.term t ≠ 0) :
    idx.get_docs t = some [] ∧
      (∀ fuel : Nat,
        QueryParser.parse_expr idx (fuel + 3)
            { input := [], current := { type := .WORD, word := t } }
          = .ok ([], { input := [], current := { type := .END, word := [] } })) ∧
      ((∀ c ∈ t, QueryParser.wordChar c = true) → t.map tolower = t → t.length ≤ 255 →
        QueryParser.parse idx t = .ok []) := by
  have hget : idx.get_docs t = some [] := by
    unfold SearchIndex.get_docs
    have : idx.terms.find? (fun ti => strcmp ti.term t = 0) = none := by
      rw [List.find?_eq_none]
      intro ti hti
      simpa using hno ti hti
    rw [this]
  refine ⟨hget, fun fuel => QueryParser.parse_single_word idx t hget fuel,
    fun hw hlow hlen => ?_⟩
  unfold QueryParser.parse
  cases t with
  | nil =>
    have hnew : QueryParser.new [] = { input := [], current := { type := .END, word := [] } } := by
      simp [QueryParser.new, QueryParser.next_token, QueryParser.skip_spaces]
    rw [hnew]
    simp [QueryParser.parse_expr, QueryParser.parse_term, QueryParser.parse_factor,
      QueryParser.parse_expr_loop]
  | cons c rest =>
    rw [QueryParser.new_word c rest hw hlow hlen]
    have e : 3 * (c :: rest).length + 4 = (3 * (c :: rest).length + 1) + 3 := by omega
    rw [e, QueryParser.parse_single_word idx (c :: rest) hget]

theorem unknown_term_is_empty_witness :
    (∀ ti ∈ (SearchIndex.mk [{ term := kot, doc_count := 2, offset := 0 }] [] 3
        (some [2, 0, 1, 1, 1, 1, 1])).terms, strcmp ti.term sobaka ≠ 0) ∧
      (∀ c ∈ sobaka, QueryParser.wordChar c = true) ∧ sobaka.map tolower = sobaka ∧
      sobaka.length ≤ 255 ∧
      (SearchIndex.mk [{ term := kot, doc_count := 2, offset := 0 }] [] 3
        (some [2, 0, 1, 1, 1, 1, 1])).get_docs sobaka = some [] ∧
      QueryParser.parse (SearchIndex.mk [{ term := kot, doc_count := 2, offset := 0 }] [] 3
        (some [2, 0, 1, 1, 1, 1, 1])) sobaka = .ok [] :=
  ⟨by decide, by decide, by decide, by decide,
    (unknown_term_is_empty _ sobaka (by decide)).1,
    (unknown_term_is_empty _ sobaka (by decide)).2.2 (by decide) (by decide) (by decide)⟩

namespace QueryParser

theorem next_token_current (s : List Nat) (c1 c2 : Token) :
    next_token { input := s, current := c1 } = next_token { input := s, current := c2 } := rfl

theorem next_token_nil (c : Token) :
    next_token { input := [], current := c } = { input := [], current := { type := .END, word := [] } } := rfl

theorem next_token_space (c : Nat) (s : List Nat) (cur : Token) (hc : isspace c = true) :
    next_token { input := c :: s, current := cur } = next_token { input := s, current := cur } := by
  simp only [next_token, skip_spaces, List.dropWhile_cons, hc, if_true]

theorem next_token_and (s : List Nat) (cur : Token) :
    next_token { input := 38 :: 38 :: s, current := cur }
      = { input := s, current := { type := .AND, word := [] } } := rfl

theorem next_token_or (s : List Nat) (cur : Token) :
    next_token { input := 124 :: 124 :: s, current := cur }
      = { input := s, current := { type := .OR, word := [] } } := rfl

theorem next_token_not (s : List Nat) (cur : Token) :
    next_token { input := 33 :: s, current := cur }
      = { input := s, current := { type := .NOT, word := [] } } := rfl

theorem next_token_lpar (s : List Nat) (cur : Token) :
    next_token { input := 40 :: s, current := cur }
      = { input := s, current := { type := .LPAR, word := [] } } := rfl

theorem next_token_rpar (s : List Nat) (cur : Token) :
    next_token { input := 41 :: s, current := cur }
      = { input := s, current := { type := .RPAR, word := [] } } := rfl


theorem wordChar_facts (c : Nat) (h : wordChar c = true) :
    isspace c = false ∧ c ≠ 0 ∧ c ≠ 40 ∧ c ≠ 41 ∧ c ≠ 38 ∧ c ≠ 124 ∧ c ≠ 33 := by
  simp only [wordChar, Bool.and_eq_true, bne_iff_ne, ne_eq, Bool.not_eq_true'] at h
  tauto

theorem next_token_word (w rest : List Nat) (cur : Token) (hw : IsWord w)
    (hrest : ∀ c, rest.head? = some c → wordChar c = false) :
    next_token { input := w ++ rest, current := cur }
      = { input := rest, current := { type := .WORD, word := lexeme w } } := by
  obtain ⟨hne, hall⟩ := hw
  obtain ⟨htake, hdrop⟩ := takeWhile_append_stop wordChar w rest hall hrest
  cases w with
  | nil => exact absurd rfl hne
  | cons c w' =>
    obtain ⟨h1, h2, h3, h4, h5, h6, h7⟩ := wordChar_facts c (hall c (List.mem_cons_self _ _))
    have hs : skip_spaces ((c :: w') ++ rest) = (c :: w') ++ rest := by
      simp [skip_spaces, List.dropWhile, h1]
    unfold next_token
    simp only [hs, htake, hdrop, lexeme]
    simp [h2, h3, h4, h5, h6, h7]


theorem parse_factor_word (idx : SearchIndex) (fuel : Nat) (p : QueryParser) (A : List Int)
    (ht : p.current.type = .WORD) (hA : idx.get_docs p.current.word = some A) :
    parse_factor idx (fuel + 1) p = .ok (A, next_token p) := by
  rw [parse_factor]
  simp [ht, hA]

theorem parse_term_word (idx : SearchIndex) (fuel : Nat) (p : QueryParser) (A : List Int)
    (ht : p.current.type = .WORD) (hA : idx.get_docs p.current.word = some A) :
    parse_term idx (fuel + 2) p = .ok (A, next_token p) := by
  rw [parse_term, parse_factor_word idx fuel p A ht hA]
  simp [ht]

theorem parse_expr_loop_stop (idx : SearchIndex) (fuel : Nat) (r : List Int) (p : QueryParser)
    (h1 : p.current.type ≠ .AND) (h2 : p.current.type ≠ .OR) :
    parse_expr_loop idx (fuel + 1) r p = .ok (r, p) := by
  rw [parse_expr_loop]
  simp [h1, h2]

theorem parse_expr_loop_and (idx : SearchIndex) (fuel : Nat) (r right : List Int)
    (p p1 : QueryParser) (h : p.current.type = .AND)
    (ht : parse_term idx fuel (next_token p) = .ok (right, p1)) :
    parse_expr_loop idx (fuel + 1) r p = parse_expr_loop idx fuel (intersect r right) p1 := by
  rw [parse_expr_loop]
  simp [h, ht]

theorem parse_expr_loop_or (idx : SearchIndex) (fuel : Nat) (r right : List Int)
    (p p1 : QueryParser) (h : p.current.type = .OR)
    (ht : parse_term idx fuel (next_token p) = .ok (right, p1)) :
    parse_expr_loop idx (fuel + 1) r p = parse_expr_loop idx fuel (unite r right) p1 := by
  rw [parse_expr_loop]
  simp [h, ht]

theorem parse_expr_of_term (idx : SearchIndex) (fuel : Nat) (r : List Int)
    (p p1 : QueryParser) (ht : parse_term idx fuel p = .ok (r, p1)) :
    parse_expr idx (fuel + 1) p = parse_expr_loop idx fuel r p1 := by
  rw [parse_expr]
  simp [ht]

theorem parse_of_expr (idx : SearchIndex) (q : List Nat) (r : List Int) (p : QueryParser)
    (k : Nat) (hk : k ≤ 3 * q.length + 4)
    (h : ∀ fuel, parse_expr idx (fuel + k) (QueryParser.new q) = .ok (r, p)) :
    parse idx q = .ok r := by
  obtain ⟨f, hf⟩ : ∃ f, 3 * q.length + 4 = f + k := ⟨3 * q.length + 4 - k, by omega⟩
  unfold parse
  rw [hf, h f]

theorem not_wordChar_head (c : Nat) (rest : List Nat) (hc : wordChar c = false) :
    ∀ x, (c :: rest).head? = some x → wordChar x = false := by
  intro x hx
  simp only [List.head?_cons, Option.some.injEq] at hx
  exact hx ▸ hc

theorem not_wordChar_nil : ∀ x, ([] : List Nat).head? = some x → wordChar x = false := by
  intro x hx
  simp at hx

theorem parse_term_operand (idx : SearchIndex) (b rest : List Nat) (B : List Int)
    (cur : Token) (fuel : Nat) (hb : IsWord b) (hB : idx.get_docs (lexeme b) = some B)
    (hrest : ∀ x, rest.head? = some x → wordChar x = false) :
    parse_term idx (fuel + 2) (next_token { input := 32 :: (b ++ rest), current := cur })
      = .ok (B, next_token { input := rest, current := cur }) := by
  rw [next_token_space 32 _ _ (by decide), next_token_word b rest cur hb hrest]
  rw [parse_term_word idx fuel _ B rfl hB]
  rfl

/-- C11: the query parser gives `&&` and `||` the same precedence and associates them to the
left.  For words `a`, `b`, `c` (non-empty runs of word bytes) whose lexed texts have the
posting lists `A`, `B`, `C`, the query `a && b || c` evaluates to
`unite (intersect A B) C` and the query `a || b && c` to `intersect (unite A B) C`. -/
theorem no_operator_precedence (idx : SearchIndex) (a b c : List Nat) (A B C : List Int)
    (ha : IsWord a) (hb : IsWord b) (hc : IsWord c)
    (hA : idx.get_docs (lexeme a) = some A) (hB : idx.get_docs (lexeme b) = some B)
    (hC : idx.get_docs (lexeme c) = some C) :
    parse idx (a ++ [32, 38, 38, 32] ++ b ++ [32, 124, 124, 32] ++ c)
        = .ok (unite (intersect A B) C) ∧
      parse idx (a ++ [32, 124, 124, 32] ++ b ++ [32, 38, 38, 32] ++ c)
        = .ok (intersect (unite A B) C) := by
  constructor
  · refine parse_of_expr idx _ _ { input := [], current := { type := .END, word := [] } } 5
      (by simp only [List.length_append, List.length_cons, List.length_nil]; omega) (fun fuel => ?_)
    simp only [List.append_assoc, List.cons_append, List.nil_append, QueryParser.new]
    rw [next_token_word a _ _ ha (not_wordChar_head 32 _ (by decide))]
    rw [parse_expr_of_term idx (fuel + 4) A _ _ (parse_term_word idx (fuel + 2) _ A rfl hA)]
    rw [next_token_space 32 _ _ (by decide), next_token_and]
    rw [parse_expr_loop_and idx (fuel + 3) A B _ _ rfl
      (parse_term_operand idx b _ B _ (fuel + 1) hb hB (not_wordChar_head 32 _ (by decide)))]
    rw [next_token_space 32 _ _ (by decide), next_token_or]
    rw [parse_expr_loop_or idx (fuel + 2) _ C _ _ rfl
      (by
        have := parse_term_operand idx c [] C { type := .OR, word := [] } fuel hc hC
          not_wordChar_nil
        rwa [List.append_nil] at this)]
    rw [next_token_nil]
    exact parse_expr_loop_stop idx (fuel + 1) _ _ (by simp) (by simp)
  · refine parse_of_expr idx _ _ { input := [], current := { type := .END, word := [] } } 5
      (by simp only [List.length_append, List.length_cons, List.length_nil]; omega) (fun fuel => ?_)
    simp only [List.append_assoc, List.cons_append, List.nil_append, QueryParser.new]
    rw [next_token_word a _ _ ha (not_wordChar_head 32 _ (by decide))]
    rw [parse_expr_of_term idx (fuel + 4) A _ _ (parse_term_word idx (fuel + 2) _ A rfl hA)]
    rw [next_token_space 32 _ _ (by decide), next_token_or]
    rw [parse_expr_loop_or idx (fuel + 3) A B _ _ rfl
      (parse_term_operand idx b _ B _ (fuel + 1) hb hB (not_wordChar_head 32 _ (by decide)))]
    rw [next_token_space 32 _ _ (by decide), next_token_and]
    rw [parse_expr_loop_and idx (fuel + 2) _ C _ _ rfl
      (by
        have := parse_term_operand idx c [] C { type := .AND, word := [] } fuel hc hC
          not_wordChar_nil
        rwa [List.append_nil] at this)]
    rw [next_token_nil]
    exact parse_expr_loop_stop idx (fuel + 1) _ _ (by simp) (by simp)

theorem no_operator_precedence_witness :
    IsWord kot ∧ IsWord sobaka ∧ IsWord [120] ∧
      scenarioIndex.get_docs (lexeme kot) = some [0, 1] ∧
      scenarioIndex.get_docs (lexeme sobaka) = some [0, 2] ∧
      scenarioIndex.get_docs (lexeme [120]) = some [] ∧
      parse scenarioIndex (kot ++ [32, 38, 38, 32] ++ sobaka ++ [32, 124, 124, 32] ++ [120])
        = .ok (unite (intersect [0, 1] [0, 2]) []) ∧
      parse scenarioIndex (kot ++ [32, 124, 124, 32] ++ sobaka ++ [32, 38, 38, 32] ++ [120])
        = .ok (intersect (unite [0, 1] [0, 2]) []) :=
  ⟨by decide, by decide, by decide, by decide, by decide, by decide,
    no_operator_precedence scenarioIndex kot sobaka [120] [0, 1] [0, 2] []
      (by decide) (by decide) (by decide) (by decide) (by decide) (by decide)⟩

theorem parse_term_not (idx : SearchIndex) (fuel : Nat) (p p1 : QueryParser)
    (inner : List Int) (h : p.current.type = .NOT)
    (hf : parse_factor idx fuel (next_token p) = .ok (inner, p1)) :
    parse_term idx (fuel + 1) p = .ok (complement inner idx.doc_total, p1) := by
  rw [parse_term]
  simp [h, hf]

theorem parse_term_of_factor (idx : SearchIndex) (fuel : Nat) (p : QueryParser)
    (h : p.current.type ≠ .NOT) :
    parse_term idx (fuel + 1) p = parse_factor idx fuel p := by
  rw [parse_term]
  simp [h]

theorem parse_factor_lpar (idx : SearchIndex) (fuel : Nat) (p p1 : QueryParser)
    (r : List Int) (h : p.current.type = .LPAR)
    (he : parse_expr idx fuel (next_token p) = .ok (r, p1)) :
    parse_factor idx (fuel + 1) p
      = .ok (r, if p1.current.type = .RPAR then next_token p1 else p1) := by
  rw [parse_factor]
  by_cases h1 : p1.current.type = .RPAR <;> simp [h, he, h1]

theorem parse_factor_other (idx : SearchIndex) (fuel : Nat) (p : QueryParser)
    (h1 : p.current.type ≠ .LPAR) (h2 : p.current.type ≠ .WORD) :
    parse_factor idx (fuel + 1) p = .ok ([], p) := by
  rw [parse_factor]
  simp [h1, h2]

/-- C12: `!` applies to the factor that follows it and complements against all
`doc_total` documents.  For words `a`, `b` whose lexed texts have the posting lists `A`, `B`,
the query `!a && b` evaluates to `intersect (complement A N) B` and the query `!(a && b)` to
`complement (intersect A B) N`, where `N = idx.doc_total`. -/
theorem negation_binds_next_factor (idx : SearchIndex) (a b : List Nat) (A B : List Int)
    (ha : IsWord a) (hb : IsWord b)
    (hA : idx.get_docs (lexeme a) = some A) (hB : idx.get_docs (lexeme b) = some B) :
    parse idx ([33] ++ a ++ [32, 38, 38, 32] ++ b)
        = .ok (intersect (complement A idx.doc_total) B) ∧
      parse idx ([33, 40] ++ a ++ [32, 38, 38, 32] ++ b ++ [41])
        = .ok (complement (intersect A B) idx.doc_total) := by
  constructor
  · refine parse_of_expr idx _ _ { input := [], current := { type := .END, word := [] } } 4
      (by simp only [List.length_append, List.length_cons, List.length_nil]; omega)
      (fun fuel => ?_)
    simp only [List.append_assoc, List.cons_append, List.nil_append, QueryParser.new]
    rw [next_token_not]
    rw [parse_expr_of_term idx (fuel + 3) (complement A idx.doc_total) _ _
      (parse_term_not idx (fuel + 2) _ _ A rfl
        (by
          rw [next_token_word a _ _ ha (not_wordChar_head 32 _ (by decide))]
          exact parse_factor_word idx (fuel + 1) _ A rfl hA))]
    rw [next_token_space 32 _ _ (by decide), next_token_and]
    rw [parse_expr_loop_and idx (fuel + 2) _ B _ _ rfl
      (by
        have := parse_term_operand idx b [] B { type := .AND, word := [] } fuel hb hB
          not_wordChar_nil
        rwa [List.append_nil] at this)]
    rw [next_token_nil]
    exact parse_expr_loop_stop idx (fuel + 1) _ _ (by simp) (by simp)
  · refine parse_of_expr idx _ _ { input := [], current := { type := .END, word := [] } } 7
      (by simp only [List.length_append, List.length_cons, List.length_nil]; omega)
      (fun fuel => ?_)
    simp only [List.append_assoc, List.cons_append, List.nil_append, QueryParser.new]
    rw [next_token_not]
    have hinner : parse_expr idx (fuel + 4)
        (next_token { input := a ++ 32 :: 38 :: 38 :: 32 :: (b ++ [41]),
                      current := { type := .LPAR, word := [] } }) = .ok (intersect A B,
          { input := [], current := { type := .RPAR, word := [] } }) := by
      rw [next_token_word a _ _ ha (not_wordChar_head 32 _ (by decide))]
      rw [parse_expr_of_term idx (fuel + 3) A _ _ (parse_term_word idx (fuel + 1) _ A rfl hA)]
      rw [next_token_space 32 _ _ (by decide), next_token_and]
      rw [parse_expr_loop_and idx (fuel + 2) A B _ _ rfl
        (parse_term_operand idx b [41] B _ fuel hb hB (not_wordChar_head 41 _ (by decide)))]
      rw [next_token_rpar]
      exact parse_expr_loop_stop idx (fuel + 1) _ _ (by simp) (by simp)
    have hfactor := parse_factor_lpar idx (fuel + 4)
      { input := a ++ 32 :: 38 :: 38 :: 32 :: (b ++ [41]),
        current := { type := .LPAR, word := [] } } _ _ rfl hinner
    rw [if_pos rfl, next_token_nil] at hfactor
    rw [parse_expr_of_term idx (fuel + 6) (complement (intersect A B) idx.doc_total) _ _
      (parse_term_not idx (fuel + 5) _ _ (intersect A B) rfl
        (by rw [next_token_lpar]; exact hfactor))]
    exact parse_expr_loop_stop idx (fuel + 5) _ _ (by simp) (by simp)

/-- C14: a query that is empty or holds only whitespace bytes evaluates to the empty result
set on every index. -/
theorem empty_query_is_empty (idx : SearchIndex) (q : List Nat)
    (hq : ∀ c ∈ q, isspace c = true) : parse idx q = .ok [] := by
  have hs : skip_spaces q = [] := by
    unfold skip_spaces
    rw [List.dropWhile_eq_nil_iff]
    exact hq
  have hnew : QueryParser.new q = { input := [], current := { type := .END, word := [] } } := by
    unfold QueryParser.new next_token
    simp only [hs]
    rfl
  refine parse_of_expr idx q [] { input := [], current := { type := .END, word := [] } } 3
    (by omega) (fun fuel => ?_)
  rw [hnew, parse_expr_of_term idx (fuel + 2) [] _ { input := [], current := { type := .END, word := [] } }
    (by
      rw [parse_term_of_factor idx (fuel + 1) _ (by simp)]
      exact parse_factor_other idx fuel _ (by simp) (by simp))]
  exact parse_expr_loop_stop idx (fuel + 1) _ _ (by simp) (by simp)

theorem negation_binds_next_factor_witness :
    IsWord kot ∧ IsWord sobaka ∧ scenarioIndex.get_docs (lexeme kot) = some [0, 1] ∧
      scenarioIndex.get_docs (lexeme sobaka) = some [0, 2] ∧
      parse scenarioIndex ([33] ++ kot ++ [32, 38, 38, 32] ++ sobaka)
        = .ok (intersect (complement [0, 1] scenarioIndex.doc_total) [0, 2]) ∧
      parse scenarioIndex ([33, 40] ++ kot ++ [32, 38, 38, 32] ++ sobaka ++ [41])
        = .ok (complement (intersect [0, 1] [0, 2]) scenarioIndex.doc_total) :=
  ⟨by decide, by decide, by decide, by decide,
    negation_binds_next_factor scenarioIndex kot sobaka [0, 1] [0, 2]
      (by decide) (by decide) (by decide) (by decide)⟩

theorem empty_query_is_empty_witness :
    (∀ c ∈ [32, 9, 32], isspace c = true) ∧ parse scenarioIndex [32, 9, 32] = .ok [] :=
  ⟨by decide, empty_query_is_empty scenarioIndex [32, 9, 32] (by decide)⟩

end QueryParser

namespace QueryParser

theorem parenDepth_dropWhile (f : Nat → Bool) (hf : ∀ c, f c = true → c ≠ 40 ∧ c ≠ 41)
    (d : Nat) (s : List Nat) : parenDepth d (s.dropWhile f) = parenDepth d s := by
  induction s with
  | nil => rfl
  | cons c s ih =>
    cases h : f c with
    | false => simp [List.dropWhile, h]
    | true =>
      obtain ⟨h1, h2⟩ := hf c h
      simp only [List.dropWhile, h]
      rw [ih]
      conv_rhs => rw [parenDepth]
      simp [h1, h2]

theorem nested_next (d : Nat) (s : List Nat) (cur : Token) (h : (parenDepth d s).isSome) :
    Nested d (next_token { input := s, current := cur }) := by
  have hs : (parenDepth d (skip_spaces s)).isSome := by
    unfold skip_spaces
    rw [parenDepth_dropWhile isspace (fun c hc => by
      constructor <;> rintro rfl <;> simp [isspace] at hc)]
    exact h
  unfold next_token
  generalize skip_spaces s = t at hs
  cases t with
  | nil => simpa [Nested] using hs
  | cons c t =>
    simp only [List.getD_cons_zero]
    split_ifs with h0 h40 h41 h38 h124 h33
    · simpa [Nested] using hs
    · subst h40
      simpa [Nested, parenDepth] using hs
    · subst h41
      simp only [Nested, List.drop_one, List.tail_cons]
      rw [parenDepth] at hs
      simp only [if_neg (by decide : ¬ (41 : Nat) = 40), if_true] at hs
      by_cases hd : d = 0
      · simp [hd] at hs
      · simp only [hd, if_false] at hs
        exact ⟨Nat.pos_of_ne_zero hd, hs⟩
    · obtain ⟨rfl, h2⟩ := h38
      cases t with
      | nil => simp at h2
      | cons c2 t =>
        simp only [List.getD_cons_succ, List.getD_cons_zero] at h2
        subst h2
        simpa [Nested, parenDepth] using hs
    · obtain ⟨rfl, h2⟩ := h124
      cases t with
      | nil => simp at h2
      | cons c2 t =>
        simp only [List.getD_cons_succ, List.getD_cons_zero] at h2
        subst h2
        simpa [Nested, parenDepth] using hs
    · subst h33
      simpa [Nested, parenDepth] using hs
    · simp only [Nested]
      rw [parenDepth_dropWhile wordChar (fun x hx => by
        have := wordChar_facts x hx
        exact ⟨this.2.2.1, this.2.2.2.1⟩)]
      exact hs

theorem nested_step_other (d : Nat) (p : QueryParser) (h : Nested d p)
    (h1 : p.current.type ≠ .LPAR) (h2 : p.current.type ≠ .RPAR) :
    Nested d (next_token p) := by
  apply nested_next
  unfold Nested at h
  split at h
  · rename_i e; exact absurd e h1
  · rename_i e; exact absurd e h2
  · exact h

theorem nested_step_lpar (d : Nat) (p : QueryParser) (h : Nested d p)
    (h1 : p.current.type = .LPAR) : Nested (d + 1) (next_token p) := by
  apply nested_next
  unfold Nested at h
  simpa [h1] using h

theorem nested_step_rpar (d : Nat) (p : QueryParser) (h : Nested (d + 1) p)
    (h1 : p.current.type = .RPAR) : Nested d (next_token p) := by
  apply nested_next
  unfold Nested at h
  simpa [h1] using h

end QueryParser

namespace QueryParser

theorem nested_parse (idx : SearchIndex) : ∀ fuel : Nat,
    (∀ d p r p', Nested d p → parse_expr idx fuel p = .ok (r, p') → PostE d p') ∧
    (∀ d p r0 r p', PostT d p → parse_expr_loop idx fuel r0 p = .ok (r, p') → PostE d p') ∧
    (∀ d p r p', Nested d p → parse_term idx fuel p = .ok (r, p') → PostT d p') ∧
    (∀ d p r p', Nested d p → parse_factor idx fuel p = .ok (r, p') → PostT d p') := by
  intro fuel
  induction fuel with
  | zero =>
    refine ⟨?_, ?_, ?_, ?_⟩ <;> intros <;> rename_i h <;>
      simp [parse_expr, parse_expr_loop, parse_term, parse_factor] at h
  | succ fuel ih =>
    obtain ⟨ihE, ihL, ihT, ihF⟩ := ih
    refine ⟨?_, ?_, ?_, ?_⟩
    · intro d p r p' hn h
      rw [parse_expr] at h
      cases ht : parse_term idx fuel p with
      | error e => simp [ht] at h
      | ok v =>
        obtain ⟨r1, p1⟩ := v
        simp only [ht] at h
        exact ihL d p1 r1 r p' (ihT d p r1 p1 hn ht) h
    · intro d p r0 r p' hpre h
      rw [parse_expr_loop] at h
      by_cases hop : p.current.type = .AND ∨ p.current.type = .OR
      · simp only [hop, if_true] at h
        have hn : Nested d p := by
          rcases hpre with hn | ⟨-, h1, h2⟩
          · exact hn
          · rcases hop with e | e
            · exact absurd e h1
            · exact absurd e h2
        have hn' : Nested d (next_token p) :=
          nested_step_other d p hn (by rcases hop with e | e <;> simp [e])
            (by rcases hop with e | e <;> simp [e])
        cases ht : parse_term idx fuel (next_token p) with
        | error e => simp [ht] at h
        | ok v =>
          obtain ⟨r1, p1⟩ := v
          simp only [ht] at h
          have hp1 := ihT d _ r1 p1 hn' ht
          split_ifs at h
          · exact ihL d p1 _ r p' hp1 h
          · exact ihL d p1 _ r p' hp1 h
      · simp only [hop, if_false] at h
        injection h with h
        injection h with _ h
        subst h
        rw [not_or] at hop
        refine ⟨hop.1, hop.2, ?_⟩
        rcases hpre with hn | ⟨h1, -, -⟩
        · exact Or.inl hn
        · exact Or.inr h1
    · intro d p r p' hn h
      rw [parse_term] at h
      by_cases hnot : p.current.type = .NOT
      · simp only [hnot, if_true] at h
        have hn' : Nested d (next_token p) :=
          nested_step_other d p hn (by simp [hnot]) (by simp [hnot])
        cases hf : parse_factor idx fuel (next_token p) with
        | error e => simp [hf] at h
        | ok v =>
          obtain ⟨r1, p1⟩ := v
          simp only [hf] at h
          injection h with h
          injection h with _ h
          subst h
          exact ihF d _ r1 p1 hn' hf
      · simp only [hnot, if_false] at h
        exact ihF d p r p' hn h
    · intro d p r p' hn h
      rw [parse_factor] at h
      by_cases hl : p.current.type = .LPAR
      · simp only [hl, if_true] at h
        have hn' := nested_step_lpar d p hn hl
        cases he : parse_expr idx fuel (next_token p) with
        | error e => simp [he] at h
        | ok v =>
          obtain ⟨r1, p1⟩ := v
          simp only [he] at h
          obtain ⟨h1, h2, h3⟩ := ihE (d + 1) _ r1 p1 hn' he
          by_cases hr : p1.current.type = .RPAR
          · simp only [hr, ne_eq, not_true_eq_false, if_false] at h
            injection h with h
            injection h with _ h
            subst h
            rcases h3 with h3 | h3
            · exact Or.inl (nested_step_rpar d p1 h3 hr)
            · exact absurd hr h3
          · simp only [ne_eq, hr, not_false_eq_true, if_true] at h
            injection h with h
            injection h with _ h
            subst h
            exact Or.inr ⟨hr, h1, h2⟩
      · simp only [hl, if_false] at h
        by_cases hw : p.current.type = .WORD
        · simp only [hw, if_true] at h
          cases hg : idx.get_docs p.current.word with
          | none => simp [hg] at h
          | some res =>
            simp only [hg] at h
            injection h with h
            injection h with _ h
            subst h
            exact Or.inl (nested_step_other d p hn hl (by simp [hw]))
        · simp only [hw, if_false] at h
          injection h with h
          injection h with _ h
          subst h
          exact Or.inl hn

end QueryParser

namespace QueryParser

theorem weight_next_le (s : List Nat) (cur : Token) :
    (next_token { input := s, current := cur }).weight ≤ s.length := by
  have hs : (skip_spaces s).length ≤ s.length := by
    unfold skip_spaces
    exact (List.dropWhile_sublist _).length_le
  unfold next_token
  generalize skip_spaces s = t at hs
  cases t with
  | nil => simp [weight]
  | cons c t =>
    simp only [List.getD_cons_zero]
    split_ifs with h0 h40 h41 h38 h124 h33
    · simp only [weight]
      simp at hs ⊢
      omega
    · simp only [weight, List.drop_one, List.tail_cons]
      simp at hs ⊢
      omega
    · simp only [weight, List.drop_one, List.tail_cons]
      simp at hs ⊢
      omega
    · obtain ⟨-, h2⟩ := h38
      cases t with
      | nil => simp at h2
      | cons c2 t =>
        simp only [weight]
        simp at hs ⊢
        omega
    · obtain ⟨-, h2⟩ := h124
      cases t with
      | nil => simp at h2
      | cons c2 t =>
        simp only [weight]
        simp at hs ⊢
        omega
    · simp only [weight, List.drop_one, List.tail_cons]
      simp at hs ⊢
      omega
    · have := (List.dropWhile_sublist wordChar (l := c :: t)).length_le
      simp only [weight]
      simp at hs this ⊢
      omega

theorem weight_next_any (p : QueryParser) : (next_token p).weight ≤ p.weight := by
  have := weight_next_le p.input p.current
  have h2 : p.input.length ≤ p.weight := by unfold weight; omega
  exact le_trans this h2

theorem weight_next_lt (p : QueryParser)
    (h : p.current.type = .LPAR ∨ p.current.type = .NOT ∨ p.current.type = .AND ∨
      p.current.type = .OR) : (next_token p).weight + 1 ≤ p.weight := by
  have := weight_next_le p.input p.current
  have h2 : p.weight = p.input.length + 1 := by unfold weight; rw [if_pos h]
  rw [h2]
  exact Nat.succ_le_succ this

end QueryParser

namespace QueryParser

theorem Done.weaken {w w' : Nat} {res : Except Fault (List Int × QueryParser)}
    (h : Done w res) (hw : w ≤ w') : Done w' res := by
  rcases h with h | ⟨r, p, h, hp⟩
  · exact Or.inl h
  · exact Or.inr ⟨r, p, h, le_trans hp hw⟩

theorem parse_done (idx : SearchIndex) : ∀ fuel : Nat,
    (∀ p, 3 * p.weight + 3 ≤ fuel → Done p.weight (parse_expr idx fuel p)) ∧
    (∀ p r0, 3 * p.weight + 1 ≤ fuel → Done p.weight (parse_expr_loop idx fuel r0 p)) ∧
    (∀ p, 3 * p.weight + 2 ≤ fuel → Done p.weight (parse_term idx fuel p)) ∧
    (∀ p, 3 * p.weight + 1 ≤ fuel → Done p.weight (parse_factor idx fuel p)) := by
  intro fuel
  induction fuel with
  | zero =>
    refine ⟨?_, ?_, ?_, ?_⟩ <;> intros <;> omega
  | succ fuel ih =>
    obtain ⟨ihE, ihL, ihT, ihF⟩ := ih
    refine ⟨?_, ?_, ?_, ?_⟩
    · intro p hf
      rw [parse_expr]
      rcases ihT p (by omega) with ht | ⟨r1, p1, ht, hw⟩
      · rw [ht]; exact Or.inl rfl
      · rw [ht]
        exact (ihL p1 r1 (by omega)).weaken hw
    · intro p r0 hf
      rw [parse_expr_loop]
      by_cases hop : p.current.type = .AND ∨ p.current.type = .OR
      · simp only [hop, if_true]
        have hlt := weight_next_lt p (by tauto)
        rcases ihT (next_token p) (by omega) with ht | ⟨r1, p1, ht, hw⟩
        · rw [ht]; exact Or.inl rfl
        · rw [ht]
          simp only
          split_ifs
          · exact (ihL p1 _ (by omega)).weaken (by omega)
          · exact (ihL p1 _ (by omega)).weaken (by omega)
      · simp only [hop, if_false]
        exact Or.inr ⟨r0, p, rfl, le_refl _⟩
    · intro p hf
      rw [parse_term]
      by_cases hnot : p.current.type = .NOT
      · simp only [hnot, if_true]
        have hlt := weight_next_lt p (by tauto)
        rcases ihF (next_token p) (by omega) with ht | ⟨r1, p1, ht, hw⟩
        · rw [ht]; exact Or.inl rfl
        · rw [ht]
          exact Or.inr ⟨_, p1, rfl, by omega⟩
      · simp only [hnot, if_false]
        exact ihF p (by omega)
    · intro p hf
      rw [parse_factor]
      by_cases hl : p.current.type = .LPAR
      · simp only [hl, if_true]
        have hlt := weight_next_lt p (by tauto)
        rcases ihE (next_token p) (by omega) with ht | ⟨r1, p1, ht, hw⟩
        · rw [ht]; exact Or.inl rfl
        · rw [ht]
          simp only
          split_ifs
          · exact Or.inr ⟨_, p1, rfl, by omega⟩
          · exact Or.inr ⟨_, _, rfl, by have := weight_next_any p1; omega⟩
      · simp only [hl, if_false]
        by_cases hw : p.current.type = .WORD
        · simp only [hw, if_true]
          cases hg : idx.get_docs p.current.word with
          | none => exact Or.inl rfl
          | some res => exact Or.inr ⟨_, _, rfl, weight_next_any p⟩
        · simp only [hw, if_false]
          exact Or.inr ⟨_, _, rfl, le_refl _⟩

/-- The fuel that `parse` hands to `parse_expr` is enough: `parse` returns a result or
reports a failed posting read. -/
theorem parse_fuel_enough (idx : SearchIndex) (q : List Nat) :
    parse idx q ≠ .error .outOfFuel := by
  have hw : (QueryParser.new q).weight ≤ q.length := weight_next_le q _
  have := (parse_done idx (3 * q.length + 4)).1 (QueryParser.new q) (by omega)
  unfold parse
  rcases this with h | ⟨r, p, h, -⟩
  · rw [h]; simp
  · rw [h]; simp

end QueryParser

theorem scenarioIndex_built : buildAndLoad scenarioA = some scenarioIndex := by decide!

namespace QueryParser

theorem parse_after_lpar (idx : SearchIndex) (q : List Nat)
    (hq : (parenDepth 0 q).isSome) : parse idx (40 :: q) = parse idx q := by
  have hnew : QueryParser.new (40 :: q)
      = { input := q, current := { type := .LPAR, word := [] } } := rfl
  have hfuel : 3 * (40 :: q).length + 4 = (3 * q.length + 4) + 1 + 1 + 1 := by
    simp only [List.length_cons]; omega
  have hnest : Nested 0 (QueryParser.new q) := nested_next 0 q _ hq
  unfold parse
  rw [hnew, hfuel, parse_expr, parse_term_of_factor idx _ _ (by simp)]
  cases he : parse_expr idx (3 * q.length + 4) (QueryParser.new q) with
  | error e =>
    have hf : parse_factor idx (3 * q.length + 4 + 1)
        { input := q, current := { type := .LPAR, word := [] } } = .error e := by
      have hnt : next_token { input := q, current := { type := .LPAR, word := [] } }
          = QueryParser.new q := rfl
      rw [parse_factor]
      simp only [if_true]
      rw [hnt, he]
    rw [hf]
  | ok v =>
    obtain ⟨r, p1⟩ := v
    obtain ⟨h1, h2, h3⟩ := (nested_parse idx _).1 0 _ r p1 hnest he
    have hr : p1.current.type ≠ .RPAR := by
      rcases h3 with h3 | h3
      · intro e
        unfold Nested at h3
        rw [e] at h3
        exact absurd h3.1 (lt_irrefl 0)
      · exact h3
    have hf := parse_factor_lpar idx (3 * q.length + 4)
      { input := q, current := { type := .LPAR, word := [] } } p1 r rfl he
    rw [if_neg hr] at hf
    rw [hf]
    simp only
    rw [parse_expr_loop_stop idx _ r p1 h1 h2]

/-- C13: an unmatched `(` is recovered leniently.  For every index and every query `q` whose
parentheses are properly nested and balanced, parsing `(` followed by `q` gives the same
outcome as parsing `q`, and that outcome is a returned result or a failed posting read, never
an exhausted parser; on the Scenario A index `(кот && собака` returns `[0]`. -/
theorem unmatched_lpar_is_lenient (idx : SearchIndex) (q : List Nat) (hq : balanced q) :
    parse idx (40 :: q) = parse idx q ∧ parse idx q ≠ .error .outOfFuel ∧
      parse scenarioIndex ([40] ++ kot ++ [32, 38, 38, 32] ++ sobaka) = .ok [0] := by
  refine ⟨parse_after_lpar idx q ?_, parse_fuel_enough idx q, by decide!⟩
  unfold balanced at hq
  rw [hq]
  rfl

theorem unmatched_lpar_is_lenient_witness :
    balanced (kot ++ [32, 38, 38, 32] ++ sobaka) ∧
      parse scenarioIndex (40 :: (kot ++ [32, 38, 38, 32] ++ sobaka))
        = parse scenarioIndex (kot ++ [32, 38, 38, 32] ++ sobaka) :=
  ⟨by decide, (unmatched_lpar_is_lenient scenarioIndex _ (by decide)).1⟩

end QueryParser

namespace QueryParser

/-- C15 (amended): a lone `&` or `|` is neither an operator nor part of a word.  When the
lexer stands at a `&` that is not followed by `&`, or at a `|` that is not followed by `|`,
`next_token` produces a WORD token with empty text and leaves the scan position at that
byte. -/
theorem lone_operator_byte (ch : Nat) (rest : List Nat) (cur : Token)
    (hch : ch = 38 ∨ ch = 124) (hnext : rest.head? ≠ some ch) :
    next_token { input := ch :: rest, current := cur }
      = { input := ch :: rest, current := { type := .WORD, word := [] } } := by
  have hget : rest.getD 0 0 ≠ ch := by
    cases rest with
    | nil => rcases hch with rfl | rfl <;> simp
    | cons c r =>
      simp only [List.head?_cons, ne_eq, Option.some.injEq] at hnext
      simpa using hnext
  rcases hch with rfl | rfl
  · have hs : skip_spaces (38 :: rest) = 38 :: rest := rfl
    unfold next_token
    simp only [hs, List.getD_cons_zero, List.getD_cons_succ]
    simp only [List.getD_eq_getElem?_getD] at hget
    simp [hget, wordChar]
  · have hs : skip_spaces (124 :: rest) = 124 :: rest := rfl
    unfold next_token
    simp only [hs, List.getD_cons_zero, List.getD_cons_succ]
    simp only [List.getD_eq_getElem?_getD] at hget
    simp [hget, wordChar]

theorem lone_operator_byte_witness :
    (38 = 38 ∨ 38 = 124) ∧ ([97] : List Nat).head? ≠ some 38 ∧
      next_token { input := [38, 97], current := { type := .END, word := [] } }
        = { input := [38, 97], current := { type := .WORD, word := [] } } :=
  ⟨by decide, by decide, lone_operator_byte 38 [97] _ (by decide) (by decide)⟩

theorem lone_operator_byte_counterexample :
    (next_token { input := [38, 97], current := { type := .END, word := [] } }).current.type
        = .WORD ∧
      38 ∉ (next_token { input := [38, 97], current := { type := .END, word := [] } }).current.word ∧
      (next_token { input := [38, 97], current := { type := .END, word := [] } }).input
        = [38, 97] ∧
      (next_token { input := [124], current := { type := .END, word := [] } })
        = { input := [124], current := { type := .WORD, word := [] } } := by
  decide

end QueryParser

theorem map_tolower_eq_to_lower_russian : ∀ (n : Nat) (w : List Nat), w.length ≤ n →
    noCapitalCyrillic w = true → w.map tolower = RussianStemmer.to_lower_russian w := by
  intro n
  induction n with
  | zero =>
    intro w hl _
    cases w with
    | nil => rfl
    | cons c w => simp at hl
  | succ n ih =>
    intro w hl h
    match w, hl, h with
    | [], _, _ => rfl
    | [c], _, _ =>
      simp only [RussianStemmer.to_lower_russian, tolower, List.map_cons, List.map_nil]
      split_ifs <;> rfl
    | c :: c2 :: rest, hl, h =>
      have hl1 : (c2 :: rest).length ≤ n := by simp at hl ⊢; omega
      have hl2 : rest.length ≤ n := by simp at hl ⊢; omega
      rw [RussianStemmer.to_lower_russian]
      rw [noCapitalCyrillic] at h
      by_cases hD0 : c = 0xD0
      · subst hD0
        simp only [if_true, Bool.and_eq_true, Bool.not_eq_true', bne_iff_ne, ne_eq,
          decide_eq_true_eq] at h
        obtain ⟨⟨⟨h1, h2⟩, h3⟩, h4⟩ := h
        have h1' : ¬ (0x90 ≤ c2 ∧ c2 ≤ 0xAF) := by
          intro hh
          simp [hh.1, hh.2] at h1
        simp only [if_true, if_neg h1', if_neg h2, List.map_cons, ih rest hl2 h4]
        have e1 : tolower 0xD0 = 0xD0 := by decide
        have e2 : tolower c2 = c2 := by unfold tolower; rw [if_neg]; omega
        rw [e1, e2]
        rfl
      · by_cases hD1 : c = 0xD1
        · subst hD1
          simp only [if_neg (by decide : ¬ (0xD1 : Nat) = 0xD0), if_true, Bool.and_eq_true,
            decide_eq_true_eq] at h
          simp only [if_neg (by decide : ¬ (0xD1 : Nat) = 0xD0), if_true, List.map_cons,
            ih rest hl2 h.2]
          have e1 : tolower 0xD1 = 0xD1 := by decide
          have e2 : tolower c2 = c2 := by unfold tolower; rw [if_neg]; omega
          rw [e1, e2]
        · simp only [if_neg hD0, if_neg hD1] at h
          simp only [if_neg hD0, if_neg hD1]
          rw [List.map_cons, ih (c2 :: rest) hl1 h]
          unfold tolower
          split_ifs <;> rfl

/-- C16 (amended): query-side case folding matches build-side case folding on words without a
capital Cyrillic letter (ASCII in any letter case, Russian UTF-8 in lower case).  For such a
word `w` the bytewise `tolower` of the query lexer gives `to_lower_russian w`, and when `w`
is a query word of at most 255 bytes the WORD token that the lexer produces for it carries
exactly `to_lower_russian w`. -/
theorem query_folding_matches_stemmer (w : List Nat) (h : noCapitalCyrillic w = true) :
    w.map tolower = RussianStemmer.to_lower_russian w ∧
      (QueryParser.IsWord w → w.length ≤ 255 →
        QueryParser.new w = { input := [], current :=
          { type := .WORD, word := RussianStemmer.to_lower_russian w } }) := by
  have hmap := map_tolower_eq_to_lower_russian w.length w (le_refl _) h
  refine ⟨hmap, fun hw hlen => ?_⟩
  have := QueryParser.next_token_word w [] { type := .END, word := [] } hw
    QueryParser.not_wordChar_nil
  rw [List.append_nil] at this
  unfold QueryParser.new
  rw [this, QueryParser.lexeme, hmap, List.take_of_length_le]
  rw [← hmap, List.length_map]
  exact hlen

theorem query_folding_matches_stemmer_witness :
    noCapitalCyrillic ([67, 65, 84] ++ kot) = true ∧
      ([67, 65, 84] ++ kot).map tolower = RussianStemmer.to_lower_russian ([67, 65, 84] ++ kot) ∧
      QueryParser.new ([67, 65, 84] ++ kot) = { input := [], current :=
          { type := .WORD, word := [99, 97, 116] ++ kot } } :=
  ⟨by decide, (query_folding_matches_stemmer ([67, 65, 84] ++ kot) (by decide)).1,
    (query_folding_matches_stemmer ([67, 65, 84] ++ kot) (by decide)).2 (by decide) (by decide)⟩

theorem query_folding_matches_stemmer_counterexample :
    RussianStemmer.to_lower_russian [0xD0, 0x9A, 0xD0, 0xBE, 0xD1, 0x82] = kot ∧
      (QueryParser.new [0xD0, 0x9A, 0xD0, 0xBE, 0xD1, 0x82]).current.word
        = [0xD0, 0x9A, 0xD0, 0xBE, 0xD1, 0x82] ∧
      (QueryParser.new [0xD0, 0x9A, 0xD0, 0xBE, 0xD1, 0x82]).current.word
        ≠ RussianStemmer.to_lower_russian [0xD0, 0x9A, 0xD0, 0xBE, 0xD1, 0x82] ∧
      QueryParser.parse scenarioIndex [0xD0, 0x9A, 0xD0, 0xBE, 0xD1, 0x82] = .ok [] ∧
      QueryParser.parse scenarioIndex kot = .ok [0, 1] := by
  decide

namespace BoolIndexer

theorem find_add_occurrence (b : BoolIndexer) (calls : List BuildCall) (t : List Nat)
    (d p : Int) (h : Inv b calls) (t' : List Nat) :
    (b.add_occurrence t d p).term_to_id.find t'
      = if t' = t then some ((b.term_to_id.find t).getD b.next_id)
        else b.term_to_id.find t' := by
  obtain ⟨h1, h2, h3, -⟩ := h
  cases hf : b.term_to_id.find t with
  | some id =>
    obtain ⟨-, -, data, hd, -⟩ := h3 t id hf
    rw [add_occurrence_of_some b t d p id data hf hd]
    by_cases e : t' = t
    · simp [e, hf]
    · simp [e]
  | none =>
    rw [add_occurrence_of_none b t d p hf h2]
    simp only [Option.getD_none]
    exact TermDict.find_add _ h1 _ _ _

theorem next_id_add_occurrence (b : BoolIndexer) (calls : List BuildCall) (t : List Nat)
    (d p : Int) (h : Inv b calls) :
    (b.add_occurrence t d p).next_id
      = if (b.term_to_id.find t).isSome then b.next_id else b.next_id + 1 := by
  obtain ⟨h1, h2, h3, -⟩ := h
  cases hf : b.term_to_id.find t with
  | some id =>
    obtain ⟨-, -, data, hd, -⟩ := h3 t id hf
    rw [add_occurrence_of_some b t d p id data hf hd]
    rfl
  | none =>
    rw [add_occurrence_of_none b t d p hf h2]
    rfl

theorem postings_add_occurrence (b : BoolIndexer) (calls : List BuildCall) (t : List Nat)
    (d p : Int) (h : Inv b calls) (t' : List Nat) :
    (b.add_occurrence t d p).postings t'
      = if t' = t then
          some (record ((b.postings t).getD { docs := [], doc_count := 0 }) d p)
        else b.postings t' := by
  have hfind := find_add_occurrence b calls t d p h t'
  obtain ⟨h1, h2, h3, h4, -⟩ := h
  unfold postings
  rw [hfind]
  cases hf : b.term_to_id.find t with
  | some id =>
    obtain ⟨hi0, hil, data, hd, -⟩ := h3 t id hf
    have hidx : id.toNat < b.index_data.length := by omega
    rw [add_occurrence_of_some b t d p id data hf hd]
    by_cases e : t' = t
    · simp only [e, if_true, Option.getD_some]
      rw [getD_set_data _ _ _ _ hidx, if_pos rfl, hd]
      rfl
    · simp only [e, if_false]
      cases hf' : b.term_to_id.find t' with
      | none => rfl
      | some id' =>
        obtain ⟨hi0', -, -⟩ := h3 t' id' hf'
        have hne : id' ≠ id := fun x => e (h4 t' t id' hf' (x ▸ hf))
        have e1 : ¬ id'.toNat = id.toNat := by omega
        simp only
        rw [getD_set_data _ _ _ _ hidx, if_neg e1]
  | none =>
    rw [add_occurrence_of_none b t d p hf h2]
    by_cases e : t' = t
    · simp only [e, if_true, Option.getD_none]
      have : b.next_id.toNat = b.index_data.length := by omega
      rw [this, List.getD_eq_getElem?_getD, List.getElem?_append_right (le_refl _)]
      simp
    · simp only [e, if_false]
      cases hf' : b.term_to_id.find t' with
      | none => rfl
      | some id' =>
        obtain ⟨hi0', hil', -⟩ := h3 t' id' hf'
        have hlt : id'.toNat < b.index_data.length := by omega
        simp only
        rw [List.getD_eq_getElem?_getD, List.getElem?_append_left hlt,
          ← List.getD_eq_getElem?_getD]

theorem postings_add_doc (b : BoolIndexer) (name t : List Nat) :
    (b.add_doc name).1.postings t = b.postings t := rfl

theorem postings_new (t : List Nat) : BoolIndexer.new.postings t = none := by
  unfold postings
  have : BoolIndexer.new.term_to_id.find t = none := TermDict.find_new t
  rw [this]

theorem postings_inv (b : BoolIndexer) (calls : List BuildCall) (h : Inv b calls)
    (t : List Nat) (data : TermData) (hp : b.postings t = some data) : TermOK calls t data := by
  unfold postings at hp
  cases hf : b.term_to_id.find t with
  | none => rw [hf] at hp; cases hp
  | some id =>
    rw [hf] at hp
    obtain ⟨-, -, data', hd, hok⟩ := h.2.2.1 t id hf
    simp only at hp
    rw [hd] at hp
    cases hp
    exact hok

theorem postings_none (b : BoolIndexer) (calls : List BuildCall) (h : Inv b calls)
    (t : List Nat) (hp : b.postings t = none) (d p : Int) :
    BuildCall.add_occurrence t d p ∉ calls := by
  intro hm
  obtain ⟨id, hf⟩ := h.2.2.2.2.1 t d p hm
  obtain ⟨-, -, data', hd, -⟩ := h.2.2.1 t id hf
  unfold postings at hp
  rw [hf] at hp
  simp only at hp
  rw [hd] at hp
  cases hp

theorem postings_some (b : BoolIndexer) (calls : List BuildCall) (h : Inv b calls)
    (t : List Nat) (d p : Int) (hm : BuildCall.add_occurrence t d p ∈ calls) :
    ∃ data, b.postings t = some data := by
  cases hp : b.postings t with
  | none => exact absurd hm (postings_none b calls h t hp d p)
  | some data => exact ⟨data, rfl⟩

end BoolIndexer

namespace BoolIndexer

/-- C17: after any sequence of builder calls the document ids within each term's posting
list are pairwise distinct, and `sort_all` succeeds and leaves for each term a permutation of
the same postings (each with its position list and the same `doc_count`) whose document ids
are strictly increasing. -/
theorem posting_ids_distinct_then_sorted (calls : List BuildCall) :
    (∀ t data, (run calls).postings t = some data →
      (data.docs.map DocEntry.doc_id).Nodup) ∧
    ∃ b', (run calls).sort_all = some b' ∧
      ∀ t data, (run calls).postings t = some data →
        ∃ docs', b'.postings t = some { data with docs := docs' } ∧ docs'.Perm data.docs ∧
          (docs'.map DocEntry.doc_id).Sorted (· < ·) := by
  have hinv := Inv_run calls
  have hnd : ∀ t data, (run calls).postings t = some data →
      (data.docs.map DocEntry.doc_id).Nodup :=
    fun t data hp => (postings_inv _ calls hinv t data hp).1
  refine ⟨hnd, ?_⟩
  obtain ⟨l', hs, -, hl'⟩ := sortEntries_spec (run calls).index_data
  refine ⟨{ run calls with index_data := l' }, by unfold sort_all; rw [hs]; rfl, ?_⟩
  intro t data hp
  have hp' := hp
  unfold postings at hp' ⊢
  simp only
  cases hf : (run calls).term_to_id.find t with
  | none => rw [hf] at hp'; cases hp'
  | some id =>
    rw [hf] at hp'
    simp only at hp' ⊢
    obtain ⟨docs', hd', hperm, hpw⟩ := (hl' id.toNat).2 data hp'
    refine ⟨docs', hd', hperm, sorted_ids_of_pairwise docs' hpw ?_⟩
    exact ((hperm.map DocEntry.doc_id).nodup_iff).mpr (hnd t data hp)

end BoolIndexer

theorem positionsOf_snoc (calls : List BuildCall) (t t' : List Nat) (d d' p : Int) :
    positionsOf (calls ++ [BuildCall.add_occurrence t d p]) t' d'
      = positionsOf calls t' d' ++ (if t = t' ∧ d = d' then [p] else []) := by
  unfold positionsOf
  rw [List.filterMap_append]
  by_cases h : t = t' ∧ d = d'
  · simp [h]
  · simp [h]

theorem positionsOf_add_doc (calls : List BuildCall) (name t' : List Nat) (d' : Int) :
    positionsOf (calls ++ [BuildCall.add_doc name]) t' d' = positionsOf calls t' d' := by
  unfold positionsOf
  rw [List.filterMap_append]
  simp

theorem positionsOf_eq_nil (calls : List BuildCall) (t : List Nat) (d : Int)
    (h : ∀ p, BuildCall.add_occurrence t d p ∉ calls) : positionsOf calls t d = [] := by
  unfold positionsOf
  rw [List.filterMap_eq_nil_iff]
  intro c hc
  cases c with
  | add_doc name => rfl
  | add_occurrence t' d' p' =>
    by_cases e : t' = t ∧ d' = d
    · obtain ⟨rfl, rfl⟩ := e
      exact absurd hc (h p')
    · simp [e]

theorem mem_docsOf (calls : List BuildCall) (t : List Nat) (d : Int) :
    d ∈ docsOf calls t ↔ ∃ p, BuildCall.add_occurrence t d p ∈ calls := by
  unfold docsOf
  rw [List.mem_filterMap]
  constructor
  · rintro ⟨c, hc, h⟩
    cases c with
    | add_doc name => cases h
    | add_occurrence t' d' p' =>
      by_cases e : t' = t
      · subst e
        simp only [if_true, Option.some.injEq] at h
        subst h
        exact ⟨p', hc⟩
      · simp [e] at h
  · rintro ⟨p, hp⟩
    exact ⟨_, hp, by simp⟩

namespace BoolIndexer

theorem pushPos_entries (d p : Int) : ∀ (docs docs' : List DocEntry),
    pushPos d p docs = some docs' → (docs.map DocEntry.doc_id).Nodup →
    ∀ e' ∈ docs', ∃ e ∈ docs, e'.doc_id = e.doc_id ∧
      e'.positions = e.positions ++ (if e.doc_id = d then [p] else []) := by
  intro docs
  induction docs with
  | nil => intro docs' h; simp [pushPos] at h
  | cons e docs ih =>
    intro docs' h hnd e' he'
    unfold pushPos at h
    rw [List.map_cons, List.nodup_cons] at hnd
    by_cases hk : e.doc_id = d
    · simp only [hk, if_true, Option.some.injEq] at h
      subst h
      rcases List.mem_cons.mp he' with rfl | hm
      · exact ⟨e, List.mem_cons_self _ _, hk.symm, by simp [hk]⟩
      · refine ⟨e', List.mem_cons_of_mem _ hm, rfl, ?_⟩
        have : e'.doc_id ≠ d := by
          intro x
          apply hnd.1
          rw [hk, ← x]
          exact List.mem_map_of_mem _ hm
        simp [this]
    · simp only [hk, if_false] at h
      cases hr : pushPos d p docs with
      | none => rw [hr] at h; cases h
      | some r =>
        rw [hr] at h
        simp only [Option.map_some', Option.some.injEq] at h
        subst h
        rcases List.mem_cons.mp he' with rfl | hm
        · exact ⟨e', List.mem_cons_self _ _, rfl, by simp [hk]⟩
        · obtain ⟨e0, h0, h1, h2⟩ := ih r hr hnd.2 e' hm
          exact ⟨e0, List.mem_cons_of_mem _ h0, h1, h2⟩

theorem record_positions (calls : List BuildCall) (t : List Nat) (data : TermData)
    (d p : Int) (hok : TermOK calls t data)
    (hpos : ∀ e ∈ data.docs, e.positions = positionsOf calls t e.doc_id) :
    ∀ e ∈ (record data d p).docs,
      e.positions = positionsOf (calls ++ [BuildCall.add_occurrence t d p]) t e.doc_id := by
  intro e' he'
  rw [positionsOf_snoc]
  unfold record at he'
  cases hp : pushPos d p data.docs with
  | some docs' =>
    rw [hp] at he'
    obtain ⟨e, he, h1, h2⟩ := pushPos_entries d p _ _ hp hok.1 e' he'
    rw [h2, hpos e he, h1]
    by_cases hk : e.doc_id = d
    · simp [hk]
    · have hk' : ¬ d = e.doc_id := fun x => hk x.symm
      simp [hk, hk']
  | none =>
    rw [hp] at he'
    have hnot : d ∉ data.docs.map DocEntry.doc_id := (pushPos_eq_none_iff d p _).mp hp
    simp only [List.mem_append, List.mem_singleton] at he'
    rcases he' with hm | rfl
    · have hk : ¬ d = e'.doc_id := by
        intro x
        exact hnot (x ▸ List.mem_map_of_mem _ hm)
      rw [hpos e' hm]
      simp [hk]
    · have : positionsOf calls t d = [] :=
        positionsOf_eq_nil calls t d (fun p' hm => hnot ((hok.2.1 d).mpr ⟨p', hm⟩))
      simp [this]

theorem positions_run (calls : List BuildCall) : ∀ t data, (run calls).postings t = some data →
    ∀ e ∈ data.docs, e.positions = positionsOf calls t e.doc_id := by
  induction calls using List.reverseRecOn with
  | nil =>
    intro t data hp
    have : (run []).postings t = none := postings_new t
    rw [this] at hp
    cases hp
  | append_singleton calls c ih =>
    intro t data hp
    have hrun : run (calls ++ [c]) = (run calls).call c := by
      unfold run
      rw [List.foldl_append]
      rfl
    rw [hrun] at hp
    have hinv := Inv_run calls
    cases c with
    | add_doc name =>
      intro e he
      rw [positionsOf_add_doc]
      exact ih t data hp e he
    | add_occurrence t0 d p =>
      change ((run calls).add_occurrence t0 d p).postings t = some data at hp
      rw [postings_add_occurrence _ calls t0 d p hinv t] at hp
      by_cases e : t = t0
      · subst e
        simp only [if_true, Option.some.injEq] at hp
        subst hp
        cases hold : (run calls).postings t with
        | some old =>
          simp only [Option.getD_some]
          exact record_positions calls t old d p (postings_inv _ calls hinv t old hold)
            (ih t old hold)
        | none =>
          simp only [Option.getD_none]
          refine record_positions calls t _ d p ⟨List.nodup_nil, ?_, rfl, ?_⟩ (by simp)
          · intro d'
            simp only [List.map_nil, List.not_mem_nil, false_iff, not_exists]
            exact fun p' => postings_none _ calls hinv t hold d' p'
          · simp [postingBlock]
      · simp only [e, if_false] at hp
        intro e' he'
        rw [positionsOf_snoc]
        have e2 : ¬ (t0 = t ∧ d = e'.doc_id) := fun x => e x.1.symm
        rw [if_neg e2, List.append_nil]
        exact ih t data hp e' he'

end BoolIndexer

namespace BoolIndexer

theorem record_doc_count (data : TermData) (d p : Int) :
    (record data d p).doc_count
      = data.doc_count + (if d ∈ data.docs.map DocEntry.doc_id then 0 else 1) := by
  unfold record
  cases hp : pushPos d p data.docs with
  | some docs' =>
    have hmem : d ∈ data.docs.map DocEntry.doc_id := by
      by_contra hc
      rw [(pushPos_eq_none_iff d p _).mpr hc] at hp
      cases hp
    simp [hmem]
  | none =>
    have hnot : d ∉ data.docs.map DocEntry.doc_id := (pushPos_eq_none_iff d p _).mp hp
    simp [hnot]

theorem run_snoc (calls : List BuildCall) (c : BuildCall) :
    run (calls ++ [c]) = (run calls).call c := by
  unfold run
  rw [List.foldl_append]
  rfl

/-- C18: the posting accumulator.  After any sequence of builder calls, every pair
(`t`, `d`) passed to `add_occurrence` has a posting in the list of `t`; the list has one
posting per document; the position list of each posting is exactly the positions passed for
that pair, in call order with duplicates kept; `doc_count` equals the number of postings,
which is the number of distinct documents passed with `t`; and one more `add_occurrence` for
`t` raises `doc_count` by one exactly when its document is new for `t`. -/
theorem posting_accumulator (calls : List BuildCall) (t : List Nat) :
    (∀ d p, BuildCall.add_occurrence t d p ∈ calls →
      ∃ data, (run calls).postings t = some data ∧ d ∈ data.docs.map DocEntry.doc_id) ∧
    (∀ data, (run calls).postings t = some data →
      (data.docs.map DocEntry.doc_id).Nodup ∧
      (∀ e ∈ data.docs, e.positions = positionsOf calls t e.doc_id) ∧
      data.doc_count = (data.docs.length : Int) ∧
      data.docs.length = (docsOf calls t).dedup.length) ∧
    (∀ d p data', (run (calls ++ [BuildCall.add_occurrence t d p])).postings t = some data' →
      data'.doc_count = (((run calls).postings t).map TermData.doc_count).getD 0
        + (if d ∈ docsOf calls t then 0 else 1)) := by
  have hinv := Inv_run calls
  refine ⟨?_, ?_, ?_⟩
  · intro d p hm
    obtain ⟨data, hp⟩ := postings_some _ calls hinv t d p hm
    exact ⟨data, hp, ((postings_inv _ calls hinv t data hp).2.1 d).mpr ⟨p, hm⟩⟩
  · intro data hp
    obtain ⟨h1, h2, h3, -⟩ := postings_inv _ calls hinv t data hp
    refine ⟨h1, positions_run calls t data hp, h3, ?_⟩
    have hperm : (data.docs.map DocEntry.doc_id).Perm (docsOf calls t).dedup := by
      rw [List.perm_ext_iff_of_nodup h1 (List.nodup_dedup _)]
      intro d
      rw [List.mem_dedup, mem_docsOf, h2 d]
    rw [← hperm.length_eq, List.length_map]
  · intro d p data' hp
    rw [run_snoc] at hp
    change ((run calls).add_occurrence t d p).postings t = some data' at hp
    rw [postings_add_occurrence _ calls t d p hinv t] at hp
    simp only [if_true, Option.some.injEq] at hp
    subst hp
    rw [record_doc_count]
    cases hold : (run calls).postings t with
    | some old =>
      have h2 := (postings_inv _ calls hinv t old hold).2.1 d
      simp only [Option.getD_some, Option.map_some']
      by_cases hm : d ∈ old.docs.map DocEntry.doc_id
      · have : d ∈ docsOf calls t := (mem_docsOf calls t d).mpr (h2.mp hm)
        rw [if_pos hm, if_pos this]
      · have : d ∉ docsOf calls t := fun x => hm (h2.mpr ((mem_docsOf calls t d).mp x))
        rw [if_neg hm, if_neg this]
    | none =>
      have : d ∉ docsOf calls t := by
        intro x
        obtain ⟨p', hp'⟩ := (mem_docsOf calls t d).mp x
        exact postings_none _ calls hinv t hold d p' hp'
      simp [this]

end BoolIndexer

theorem firstSeen_snoc (l : List (List Nat)) (t : List Nat) :
    firstSeen (l ++ [t]) = if t ∈ firstSeen l then firstSeen l else firstSeen l ++ [t] := by
  unfold firstSeen
  rw [List.foldl_append]
  rfl

theorem termsOf_snoc_occurrence (calls : List BuildCall) (t : List Nat) (d p : Int) :
    termsOf (calls ++ [BuildCall.add_occurrence t d p]) = termsOf calls ++ [t] := by
  unfold termsOf
  rw [List.filterMap_append]
  rfl

theorem termsOf_snoc_doc (calls : List BuildCall) (name : List Nat) :
    termsOf (calls ++ [BuildCall.add_doc name]) = termsOf calls := by
  unfold termsOf
  rw [List.filterMap_append]
  simp

theorem mem_firstSeen (l : List (List Nat)) (t : List Nat) : t ∈ firstSeen l ↔ t ∈ l := by
  induction l using List.reverseRecOn with
  | nil => simp [firstSeen]
  | append_singleton l x ih =>
    rw [firstSeen_snoc]
    by_cases hx : x ∈ firstSeen l
    · rw [if_pos hx, List.mem_append, List.mem_singleton, ih]
      constructor
      · exact Or.inl
      · rintro (h | rfl)
        · exact h
        · exact ih.mp hx
    · rw [if_neg hx, List.mem_append, List.mem_append, ih]

theorem firstSeen_nodup (l : List (List Nat)) : (firstSeen l).Nodup := by
  induction l using List.reverseRecOn with
  | nil => simp [firstSeen]
  | append_singleton l x ih =>
    rw [firstSeen_snoc]
    by_cases hx : x ∈ firstSeen l
    · rw [if_pos hx]; exact ih
    · rw [if_neg hx]
      exact List.Nodup.append ih (List.nodup_singleton x) (by simpa using hx)

namespace BoolIndexer

theorem ids_run (calls : List BuildCall) :
    (run calls).next_id = ((firstSeen (termsOf calls)).length : Int) ∧
      ∀ t, (t ∉ firstSeen (termsOf calls) → (run calls).term_to_id.find t = none) ∧
        ∀ k : Nat, (firstSeen (termsOf calls))[k]? = some t →
          (run calls).term_to_id.find t = some (k : Int) := by
  induction calls using List.reverseRecOn with
  | nil =>
    refine ⟨rfl, fun t => ⟨fun _ => TermDict.find_new t, fun k hk => ?_⟩⟩
    simp [termsOf, firstSeen] at hk
  | append_singleton calls c ih =>
    obtain ⟨ih1, ih2⟩ := ih
    have hinv := Inv_run calls
    rw [run_snoc]
    cases c with
    | add_doc name =>
      rw [termsOf_snoc_doc]
      exact ⟨ih1, ih2⟩
    | add_occurrence t0 d p =>
      rw [termsOf_snoc_occurrence, firstSeen_snoc]
      change ((run calls).add_occurrence t0 d p).next_id = _ ∧
        ∀ t, (_ → ((run calls).add_occurrence t0 d p).term_to_id.find t = none) ∧
          ∀ k : Nat, _ → ((run calls).add_occurrence t0 d p).term_to_id.find t = some (k : Int)
      rw [next_id_add_occurrence _ calls t0 d p hinv]
      by_cases h0 : t0 ∈ firstSeen (termsOf calls)
      · obtain ⟨k0, hk0⟩ := List.getElem?_of_mem h0
        have hf0 := (ih2 t0).2 k0 hk0
        have hsame : ∀ t, ((run calls).add_occurrence t0 d p).term_to_id.find t
            = (run calls).term_to_id.find t := by
          intro t
          rw [find_add_occurrence _ calls t0 d p hinv t, hf0]
          by_cases e : t = t0
          · rw [if_pos e, e, hf0]; rfl
          · rw [if_neg e]
        simp only [if_pos h0, hf0, Option.isSome_some, if_true, hsame]
        exact ⟨ih1, ih2⟩
      · have hf0 := (ih2 t0).1 h0
        simp only [if_neg h0, hf0, Option.isSome_none, Bool.false_eq_true, if_false]
        refine ⟨by rw [ih1]; simp, fun t => ⟨fun hm => ?_, fun k hk => ?_⟩⟩
        · simp only [List.mem_append, List.mem_singleton, not_or] at hm
          rw [find_add_occurrence _ calls t0 d p hinv t, if_neg hm.2]
          exact (ih2 t).1 hm.1
        · rw [find_add_occurrence _ calls t0 d p hinv t, hf0]
          by_cases hlt : k < (firstSeen (termsOf calls)).length
          · rw [List.getElem?_append_left hlt] at hk
            have hm : t ∈ firstSeen (termsOf calls) := List.getElem?_mem hk
            have e : ¬ t = t0 := fun x => h0 (x ▸ hm)
            rw [if_neg e]
            exact (ih2 t).2 k hk
          · rw [List.getElem?_append_right (by omega)] at hk
            have hk0 : k - (firstSeen (termsOf calls)).length = 0 := by
              by_contra hne
              rw [List.getElem?_eq_none (by simp; omega)] at hk
              cases hk
            rw [hk0] at hk
            simp only [List.getElem?_cons_zero, Option.some.injEq] at hk
            rw [if_pos hk.symm, Option.getD_none, ih1]
            congr 1
            have : k = (firstSeen (termsOf calls)).length := by omega
            rw [this]

theorem ids_stable (calls more : List BuildCall) (t : List Nat) (id : Int)
    (h : (run calls).term_to_id.find t = some id) :
    (run (calls ++ more)).term_to_id.find t = some id := by
  induction more using List.reverseRecOn with
  | nil => rw [List.append_nil]; exact h
  | append_singleton more c ih =>
    rw [← List.append_assoc, run_snoc]
    cases c with
    | add_doc name => exact ih
    | add_occurrence t0 d p =>
      change ((run (calls ++ more)).add_occurrence t0 d p).term_to_id.find t = some id
      rw [find_add_occurrence _ _ t0 d p (Inv_run (calls ++ more)) t]
      by_cases e : t = t0
      · subst e
        rw [if_pos rfl, ih]
        rfl
      · rw [if_neg e]
        exact ih

/-- C19: term ids are dense and first-seen ordered.  After any sequence of builder calls,
with `ts` the distinct terms passed to `add_occurrence` in the order of their first
occurrence: `next_id` is the number of distinct terms; the `k`-th distinct term (from 0) has
id `k`; every id in use is the index in `ts` of its term, so the ids in use are exactly
`0 .. ts.length - 1`; and a term that has an id keeps it through every later call. -/
theorem term_ids_dense_first_seen (calls : List BuildCall) :
    (run calls).next_id = ((firstSeen (termsOf calls)).length : Int) ∧
    (∀ (k : Nat) (t : List Nat), (firstSeen (termsOf calls))[k]? = some t →
      (run calls).term_to_id.find t = some (k : Int)) ∧
    (∀ (t : List Nat) (id : Int), (run calls).term_to_id.find t = some id →
      ∃ k : Nat, id = (k : Int) ∧ (firstSeen (termsOf calls))[k]? = some t) ∧
    (∀ (more : List BuildCall) (t : List Nat) (id : Int),
      (run calls).term_to_id.find t = some id →
      (run (calls ++ more)).term_to_id.find t = some id) := by
  obtain ⟨h1, h2⟩ := ids_run calls
  refine ⟨h1, fun k t hk => (h2 t).2 k hk, fun t id hf => ?_,
    fun more t id hf => ids_stable calls more t id hf⟩
  by_cases hm : t ∈ firstSeen (termsOf calls)
  · obtain ⟨k, hk⟩ := List.getElem?_of_mem hm
    have := (h2 t).2 k hk
    rw [hf] at this
    exact ⟨k, Option.some.inj this, hk⟩
  · have := (h2 t).1 hm
    rw [hf] at this
    cases this

end BoolIndexer

/-- C20 (amended): non-positive positions are rejected by `process_file`, not by
`add_occurrence`.  A position field whose `atoi` value is at most 0 makes no
`add_occurrence` call: the trip of the field loop returns the index unchanged, and a token
line gives the same index with the field as without it. -/
theorem nonpositive_position_dropped (term : List Nat) (doc_id : Int) (b : BoolIndexer)
    (field : List Nat) (pos : Int) (h : atoi field = some pos) (hpos : pos ≤ 0) :
    processField term doc_id b field = some b ∧
      ∀ fields rest : List (List Nat),
        (fields ++ field :: rest).foldlM (processField term doc_id) b
          = (fields ++ rest).foldlM (processField term doc_id) b := by
  have hstep : ∀ b' : BoolIndexer, processField term doc_id b' field = some b' := by
    intro b'
    unfold processField
    rw [h]
    simp only
    rw [if_neg (by omega)]
  refine ⟨hstep b, fun fields rest => ?_⟩
  rw [List.foldlM_append, List.foldlM_append]
  congr 1
  funext b'
  rw [List.foldlM_cons, hstep b']
  rfl

theorem nonpositive_position_dropped_witness :
    atoi [45, 50] = some (-2) ∧ (-2 : Int) ≤ 0 ∧
      processField [97] 0 BoolIndexer.new [45, 50] = some BoolIndexer.new ∧
      ([[49]] ++ [45, 50] :: [[51]]).foldlM (processField [97] 0) BoolIndexer.new
        = ([[49]] ++ [[51]]).foldlM (processField [97] 0) BoolIndexer.new ∧
      process_file (some [97, 32, 49, 32, 48, 32, 45, 50, 32, 51, 10]) 0 BoolIndexer.new
        = process_file (some [97, 32, 49, 32, 51, 10]) 0 BoolIndexer.new :=
  ⟨by decide, by decide,
    (nonpositive_position_dropped [97] 0 BoolIndexer.new [45, 50] (-2) (by decide)
      (by decide)).1,
    (nonpositive_position_dropped [97] 0 BoolIndexer.new [45, 50] (-2) (by decide)
      (by decide)).2 [[49]] [[51]], by decide!⟩

theorem nonpositive_position_dropped_counterexample :
    BoolIndexer.new.add_occurrence [97] 0 (-3) ≠ BoolIndexer.new ∧
      (BoolIndexer.new.add_occurrence [97] 0 (-3)).next_id = 1 ∧
      (BoolIndexer.new.add_occurrence [97] 0 (-3)).postings [97]
        = some { docs := [{ doc_id := 0, positions := [-3] }], doc_count := 1 } ∧
      (BoolIndexer.new.add_occurrence [97] 0 0).postings [97]
        = some { docs := [{ doc_id := 0, positions := [0] }], doc_count := 1 } := by
  refine ⟨?_, by decide!, by decide!, by decide!⟩
  intro h
  have := congrArg BoolIndexer.next_id h
  revert this
  decide!

namespace SearchIndex

end SearchIndex

namespace TermDict

theorem keys_nodup_aux (g : List Nat → Nat) : ∀ (L : List (List Node)) (off : Nat),
    (∀ (i : Nat) (node : Node), node ∈ L.getD i [] → g node.key = i + off) →
    (∀ i : Nat, ((L.getD i []).map Node.key).Nodup) →
    (L.flatten.map Node.key).Nodup ∧ ∀ node ∈ L.flatten, off ≤ g node.key
  | [], _, _, _ => by simp
  | c :: L, off, hh, hn => by
    have ih := keys_nodup_aux g L (off + 1)
      (fun i node hm => by
        have := hh (i + 1) node (by simpa using hm)
        omega)
      (fun i => by simpa using hn (i + 1))
    have hc : ∀ node ∈ c, g node.key = off := fun node hm => by
      have := hh 0 node (by simpa using hm)
      omega
    constructor
    · rw [List.flatten_cons, List.map_append]
      refine List.Nodup.append (by simpa using hn 0) ih.1 ?_
      intro k hk1 hk2
      obtain ⟨n1, hn1, rfl⟩ := List.mem_map.mp hk1
      obtain ⟨n2, hn2, e⟩ := List.mem_map.mp hk2
      have h1 := hc n1 hn1
      have h2 := ih.2 n2 hn2
      rw [e] at h2
      omega
    · intro node hm
      rw [List.flatten_cons, List.mem_append] at hm
      rcases hm with hm | hm
      · exact le_of_eq (hc node hm).symm
      · have := ih.2 node hm
        omega

theorem keys_nodup (d : TermDict) (h : d.WF) : (d.buckets.flatten.map Node.key).Nodup :=
  (keys_nodup_aux d.hash d.buckets 0 (fun i node hm => by simpa using h.2.2.1 i node hm)
    h.2.2.2.1).1

end TermDict

namespace BoolIndexer

end BoolIndexer

namespace RussianStemmer

theorem to_lower_of_lowered : ∀ (n : Nat) (x : List Nat), x.length ≤ n → lowered x = true →
    to_lower_russian x = x
  | _, [], _, _ => rfl
  | _, [c], _, h => by
    simp only [lowered, Bool.not_eq_true', decide_eq_false_iff_not] at h
    simp only [to_lower_russian, if_neg h]
  | 0, _ :: _ :: _, hl, _ => by simp at hl
  | n + 1, c :: c2 :: rest, hl, h => by
    have hl1 : (c2 :: rest).length ≤ n := by simp at hl ⊢; omega
    have hl2 : rest.length ≤ n := by simp at hl ⊢; omega
    rw [lowered] at h
    rw [to_lower_russian]
    by_cases hD0 : c = 0xD0
    · simp only [hD0, if_true, Bool.and_eq_true, Bool.not_eq_true', decide_eq_false_iff_not,
        bne_iff_ne, ne_eq] at h ⊢
      obtain ⟨⟨h1, h2⟩, h3⟩ := h
      rw [if_neg h1, if_neg h2, to_lower_of_lowered n rest hl2 h3]
      rfl
    · by_cases hD1 : c = 0xD1
      · simp only [hD1, if_neg (by decide : ¬ (0xD1 : Nat) = 0xD0), if_true] at h ⊢
        rw [to_lower_of_lowered n rest hl2 h]
      · simp only [if_neg hD0, if_neg hD1, Bool.and_eq_true, Bool.not_eq_true',
          decide_eq_false_iff_not] at h ⊢
        rw [if_neg h.1, to_lower_of_lowered n (c2 :: rest) hl1 h.2]

theorem lowered_to_lower : ∀ (n : Nat) (w : List Nat), w.length ≤ n →
    lowered (to_lower_russian w) = true
  | _, [], _ => rfl
  | _, [c], _ => by
    simp only [to_lower_russian]
    split_ifs with h
    · simp only [lowered, Bool.not_eq_true', decide_eq_false_iff_not]; omega
    · simp only [lowered, Bool.not_eq_true', decide_eq_false_iff_not]; exact h
  | 0, _ :: _ :: _, hl => by simp at hl
  | n + 1, c :: c2 :: rest, hl => by
    have hl1 : (c2 :: rest).length ≤ n := by simp at hl ⊢; omega
    have hl2 : rest.length ≤ n := by simp at hl ⊢; omega
    have ih2 := lowered_to_lower n rest hl2
    have ih1 := lowered_to_lower n (c2 :: rest) hl1
    rw [to_lower_russian]
    by_cases hD0 : c = 0xD0
    · subst hD0
      simp only [if_true]
      split_ifs with h1 h2
      · simp only [List.cons_append, List.nil_append, lowered, if_true, ih2, Bool.and_true,
          Bool.and_eq_true, Bool.not_eq_true', decide_eq_false_iff_not, bne_iff_ne, ne_eq]
        exact ⟨⟨by omega, by omega⟩, ih2⟩
      · simp only [List.cons_append, List.nil_append, lowered, if_true, ih2, Bool.and_true,
          Bool.and_eq_true, Bool.not_eq_true', decide_eq_false_iff_not, bne_iff_ne, ne_eq]
        exact ⟨⟨by omega, by omega⟩, ih2⟩
      · simp only [List.cons_append, List.nil_append, lowered, if_true, ih2, Bool.and_true,
          Bool.and_eq_true, Bool.not_eq_true', decide_eq_false_iff_not, bne_iff_ne, ne_eq]
        exact ⟨⟨h1, h2⟩, ih2⟩
    · by_cases hD1 : c = 0xD1
      · subst hD1
        simp only [if_neg (by decide : ¬ (0xD1 : Nat) = 0xD0), if_true, lowered, ih2]
      · simp only [if_neg hD0, if_neg hD1]
        generalize hy : to_lower_russian (c2 :: rest) = y at ih1 ⊢
        cases y with
        | nil =>
          split_ifs with h
          · simp only [lowered, Bool.not_eq_true', decide_eq_false_iff_not]; omega
          · simp only [lowered, Bool.not_eq_true', decide_eq_false_iff_not]; exact h
        | cons y0 ys =>
          split_ifs with h
          · have e1 : ¬ c + 32 = 0xD0 := by omega
            have e2 : ¬ c + 32 = 0xD1 := by omega
            simp only [lowered, if_neg e1, if_neg e2, ih1, Bool.and_true, Bool.not_eq_true',
              decide_eq_false_iff_not]
            omega
          · simp only [lowered, if_neg hD0, if_neg hD1, ih1, Bool.and_true, Bool.not_eq_true',
              decide_eq_false_iff_not]
            exact h

end RussianStemmer

namespace RussianStemmer

theorem replace_yo_length : ∀ (n : Nat) (w : List Nat), w.length ≤ n →
    (replace_yo_with_e w).length = w.length
  | _, [], _ => rfl
  | _, [_], _ => rfl
  | 0, _ :: _ :: _, hl => by simp at hl
  | n + 1, c :: c2 :: rest, hl => by
    have hl1 : (c2 :: rest).length ≤ n := by simp at hl ⊢; omega
    have hl2 : rest.length ≤ n := by simp at hl ⊢; omega
    rw [replace_yo_with_e]
    split_ifs
    · simp only [List.length_cons, replace_yo_length n rest hl2]
    · simp only [List.length_cons, replace_yo_length n (c2 :: rest) hl1]

theorem replace_yo_head (c : Nat) (rest : List Nat) :
    ∃ t, replace_yo_with_e (c :: rest) = c :: t ∨ replace_yo_with_e (c :: rest) = 0xD0 :: t := by
  cases rest with
  | nil => exact ⟨[], Or.inl rfl⟩
  | cons c2 rest =>
    rw [replace_yo_with_e]
    split_ifs
    · exact ⟨_, Or.inr rfl⟩
    · exact ⟨_, Or.inl rfl⟩

theorem replace_yo_of_yoFree : ∀ (n : Nat) (x : List Nat), x.length ≤ n → yoFree x = true →
    replace_yo_with_e x = x
  | _, [], _, _ => rfl
  | _, [_], _, _ => rfl
  | 0, _ :: _ :: _, hl, _ => by simp at hl
  | n + 1, c :: c2 :: rest, hl, h => by
    have hl1 : (c2 :: rest).length ≤ n := by simp at hl ⊢; omega
    rw [yoFree] at h
    simp only [Bool.and_eq_true, Bool.not_eq_true', decide_eq_false_iff_not] at h
    rw [replace_yo_with_e, if_neg h.1, replace_yo_of_yoFree n (c2 :: rest) hl1 h.2]

theorem yoFree_cons_plain (a : Nat) (l : List Nat) (h0 : a ≠ 0xD0) (h1 : a ≠ 0xD1) :
    yoFree (a :: l) = yoFree l := by
  cases l with
  | nil => rfl
  | cons b l =>
    rw [yoFree]
    have : ¬ ((a = 0xD1 ∧ b = 0x91) ∨ (a = 0xD0 ∧ b = 0x81)) := by
      rintro (⟨e, -⟩ | ⟨e, -⟩)
      · exact h1 e
      · exact h0 e
    simp [this]

theorem yoFree_replace_yo : ∀ (n : Nat) (w : List Nat), w.length ≤ n →
    yoFree (replace_yo_with_e w) = true
  | _, [], _ => rfl
  | _, [_], _ => rfl
  | 0, _ :: _ :: _, hl => by simp at hl
  | n + 1, c :: c2 :: rest, hl => by
    have hl1 : (c2 :: rest).length ≤ n := by simp at hl ⊢; omega
    have hl2 : rest.length ≤ n := by simp at hl ⊢; omega
    have ih1 := yoFree_replace_yo n (c2 :: rest) hl1
    have ih2 := yoFree_replace_yo n rest hl2
    rw [replace_yo_with_e]
    split_ifs with hp
    · rw [yoFree]
      simp only [show ¬ (((0xD0 : Nat) = 0xD1 ∧ (0xB5 : Nat) = 0x91) ∨
        ((0xD0 : Nat) = 0xD0 ∧ (0xB5 : Nat) = 0x81)) by decide, decide_False, Bool.not_false,
        Bool.true_and]
      rw [yoFree_cons_plain 0xB5 _ (by decide) (by decide)]
      exact ih2
    · obtain ⟨t, ht | ht⟩ := replace_yo_head c2 rest
      · rw [ht] at ih1 ⊢
        rw [yoFree]
        simp only [hp, decide_False, Bool.not_false, Bool.true_and]
        exact ih1
      · rw [ht] at ih1 ⊢
        rw [yoFree]
        have : ¬ ((c = 0xD1 ∧ (0xD0 : Nat) = 0x91) ∨ (c = 0xD0 ∧ (0xD0 : Nat) = 0x81)) := by
          rintro (⟨-, e⟩ | ⟨-, e⟩) <;> exact absurd e (by decide)
        simp only [this, decide_False, Bool.not_false, Bool.true_and]
        exact ih1

theorem yoFree_take : ∀ (m : Nat) (x : List Nat), x.length ≤ m → yoFree x = true →
    ∀ k, yoFree (x.take k) = true
  | _, [], _, _, k => by simp [yoFree]
  | _, [c], _, _, k => by
    cases k with
    | zero => rfl
    | succ k => simp [yoFree]
  | 0, _ :: _ :: _, hl, _, _ => by simp at hl
  | m + 1, c :: c2 :: rest, hl, h, k => by
    have hl1 : (c2 :: rest).length ≤ m := by simp at hl ⊢; omega
    rw [yoFree] at h
    simp only [Bool.and_eq_true] at h
    have ih := yoFree_take m (c2 :: rest) hl1 h.2
    match k with
    | 0 => rfl
    | 1 => rfl
    | k + 2 =>
      have := ih (k + 1)
      simp only [List.take_succ_cons] at this ⊢
      rw [yoFree]
      simp only [Bool.and_eq_true]
      exact ⟨h.1, this⟩

end RussianStemmer

namespace RussianStemmer

theorem lowered_cons_plain (a : Nat) (l : List Nat) (h0 : a ≠ 0xD0) (h1 : a ≠ 0xD1)
    (hu : ¬ (65 ≤ a ∧ a ≤ 90)) : lowered (a :: l) = lowered l := by
  cases l with
  | nil => simp [lowered, hu]
  | cons b l =>
    rw [lowered, if_neg h0, if_neg h1]
    simp [hu]

theorem lowered_take : ∀ (m : Nat) (x : List Nat), x.length ≤ m → lowered x = true →
    ∀ k, lowered (x.take k) = true
  | _, [], _, _, k => by simp [lowered]
  | _, [c], _, h, k => by
    cases k with
    | zero => rfl
    | succ k => simpa using h
  | 0, _ :: _ :: _, hl, _, _ => by simp at hl
  | m + 1, c :: c2 :: rest, hl, h, k => by
    have hl1 : (c2 :: rest).length ≤ m := by simp at hl ⊢; omega
    have hl2 : rest.length ≤ m := by simp at hl ⊢; omega
    rw [lowered] at h
    match k with
    | 0 => rfl
    | 1 =>
      simp only [List.take_succ_cons, List.take_zero, lowered, Bool.not_eq_true',
        decide_eq_false_iff_not]
      by_cases hD0 : c = 0xD0
      · omega
      · by_cases hD1 : c = 0xD1
        · omega
        · simp only [if_neg hD0, if_neg hD1, Bool.and_eq_true, Bool.not_eq_true',
            decide_eq_false_iff_not] at h
          exact h.1
    | k + 2 =>
      simp only [List.take_succ_cons]
      rw [lowered]
      by_cases hD0 : c = 0xD0
      · simp only [hD0, if_true, Bool.and_eq_true] at h ⊢
        exact ⟨h.1, lowered_take m rest hl2 h.2 k⟩
      · by_cases hD1 : c = 0xD1
        · simp only [hD1, if_neg (by decide : ¬ (0xD1 : Nat) = 0xD0), if_true] at h ⊢
          exact lowered_take m rest hl2 h k
        · simp only [if_neg hD0, if_neg hD1, Bool.and_eq_true] at h ⊢
          have := lowered_take m (c2 :: rest) hl1 h.2 (k + 1)
          simp only [List.take_succ_cons] at this
          exact ⟨h.1, this⟩

theorem lowered_replace_yo : ∀ (m : Nat) (x : List Nat), x.length ≤ m → lowered x = true →
    lowered (replace_yo_with_e x) = true
  | _, [], _, _ => rfl
  | _, [c], _, h => h
  | 0, _ :: _ :: _, hl, _ => by simp at hl
  | m + 1, c :: c2 :: rest, hl, h => by
    have hl1 : (c2 :: rest).length ≤ m := by simp at hl ⊢; omega
    have hl2 : rest.length ≤ m := by simp at hl ⊢; omega
    -- the word that follows a lead byte and its second byte `c2`
    have after : ∀ (L : Nat), (L = 0xD0 ∨ L = 0xD1) →
        (L = 0xD0 → ¬ (0x90 ≤ c2 ∧ c2 ≤ 0xAF) ∧ c2 ≠ 0x81) → lowered rest = true →
        lowered (L :: replace_yo_with_e (c2 :: rest)) = true := by
      intro L hL hc2 hrest
      cases rest with
      | nil =>
        rcases hL with rfl | rfl
        · obtain ⟨a1, a2⟩ := hc2 rfl
          simp [replace_yo_with_e, lowered, a1, a2]
        · simp [replace_yo_with_e, lowered]
      | cons c3 rest' =>
        have hl3 : rest'.length ≤ m := by simp at hl2 ⊢; omega
        rw [replace_yo_with_e]
        split_ifs with hp
        · have hc3 : c3 = 0x91 ∨ c3 = 0x81 := by
            rcases hp with ⟨-, e⟩ | ⟨-, e⟩
            · exact Or.inl e
            · exact Or.inr e
          have hr' : lowered rest' = true := by
            rw [← lowered_cons_plain c3 rest' (by omega) (by omega) (by omega)]
            exact hrest
          have ih := lowered_replace_yo m rest' hl3 hr'
          have hB5 : lowered (0xB5 :: replace_yo_with_e rest') = true := by
            rw [lowered_cons_plain 0xB5 _ (by decide) (by decide) (by decide)]
            exact ih
          rcases hL with rfl | rfl
          · rw [lowered]
            simp only [if_true, Bool.and_eq_true, Bool.not_eq_true', decide_eq_false_iff_not,
              bne_iff_ne, ne_eq]
            exact ⟨⟨by omega, by omega⟩, hB5⟩
          · rw [lowered]
            simp only [if_neg (by decide : ¬ (0xD1 : Nat) = 0xD0), if_true]
            exact hB5
        · have ih := lowered_replace_yo m (c3 :: rest') hl2 hrest
          rcases hL with rfl | rfl
          · obtain ⟨a1, a2⟩ := hc2 rfl
            rw [lowered]
            simp only [if_true, Bool.and_eq_true, Bool.not_eq_true', decide_eq_false_iff_not,
              bne_iff_ne, ne_eq]
            exact ⟨⟨a1, a2⟩, ih⟩
          · rw [lowered]
            simp only [if_neg (by decide : ¬ (0xD1 : Nat) = 0xD0), if_true]
            exact ih
    rw [lowered] at h
    rw [replace_yo_with_e]
    by_cases hD0 : c = 0xD0
    · subst hD0
      simp only [if_true, Bool.and_eq_true, Bool.not_eq_true', decide_eq_false_iff_not,
        bne_iff_ne, ne_eq] at h
      obtain ⟨⟨a1, a2⟩, hrest⟩ := h
      have hp : ¬ (((0xD0 : Nat) = 0xD1 ∧ c2 = 0x91) ∨ ((0xD0 : Nat) = 0xD0 ∧ c2 = 0x81)) := by
        rintro (⟨e, -⟩ | ⟨-, e⟩)
        · exact absurd e (by decide)
        · exact a2 e
      rw [if_neg hp]
      exact after 0xD0 (Or.inl rfl) (fun _ => ⟨a1, a2⟩) hrest
    · by_cases hD1 : c = 0xD1
      · subst hD1
        simp only [if_neg (by decide : ¬ (0xD1 : Nat) = 0xD0), if_true] at h
        split_ifs with hp
        · rw [lowered]
          simp only [if_true, Bool.and_eq_true, Bool.not_eq_true', decide_eq_false_iff_not,
            bne_iff_ne, ne_eq]
          exact ⟨⟨by omega, by omega⟩, lowered_replace_yo m rest hl2 h⟩
        · exact after 0xD1 (Or.inr rfl) (fun e => absurd e (by decide)) h
      · simp only [if_neg hD0, if_neg hD1, Bool.and_eq_true, Bool.not_eq_true',
          decide_eq_false_iff_not] at h
        have hp : ¬ ((c = 0xD1 ∧ c2 = 0x91) ∨ (c = 0xD0 ∧ c2 = 0x81)) := by
          rintro (⟨e, -⟩ | ⟨e, -⟩)
          · exact hD1 e
          · exact hD0 e
        rw [if_neg hp, lowered_cons_plain c _ hD0 hD1 h.1]
        exact lowered_replace_yo m (c2 :: rest) hl1 h.2

end RussianStemmer

namespace RussianStemmer

theorem remove_suffix_take (word suffix : List Nat) :
    ∃ k, remove_suffix_utf8 word suffix = word.take k := by
  unfold remove_suffix_utf8
  split_ifs
  · exact ⟨_, rfl⟩
  · exact ⟨word.length, (List.take_length _).symm⟩

theorem stripFirst_take : ∀ (table : List (List Nat)) (word cut : List Nat),
    stripFirst table word = some cut → ∃ k, cut = word.take k
  | [], _, _, h => by simp [stripFirst] at h
  | suffix :: rest, word, cut, h => by
    rw [stripFirst] at h
    split_ifs at h
    · obtain ⟨k, hk⟩ := remove_suffix_take word suffix
      simp only [Option.some.injEq] at h
      exact ⟨k, h ▸ hk⟩
    · exact stripFirst_take rest word cut h

theorem stripFirst_shorter : ∀ (table : List (List Nat)) (word cut : List Nat),
    (∀ s ∈ table, s ≠ []) → stripFirst table word = some cut → cut.length < word.length
  | [], _, _, _, h => by simp [stripFirst] at h
  | suffix :: rest, word, cut, hne, h => by
    rw [stripFirst] at h
    split_ifs at h with he
    · simp only [Option.some.injEq] at h
      subst h
      have hs : 0 < suffix.length :=
        List.length_pos.mpr (hne suffix (List.mem_cons_self _ _))
      have hle : suffix.length ≤ word.length := by
        unfold ends_with_utf8 at he
        split_ifs at he with hlt
        omega
      unfold remove_suffix_utf8
      rw [if_pos ⟨hle, he⟩, List.length_take]
      omega
    · exact stripFirst_shorter rest word cut
        (fun s hs => hne s (List.mem_cons_of_mem _ hs)) h

theorem stage_take (table : List (List Nat)) (next : List Nat → List Nat)
    (hnext : ∀ w, ∃ k, next w = w.take k) (word : List Nat) :
    ∃ k, stage table next word = word.take k := by
  unfold stage
  cases hs : stripFirst table word with
  | none => exact hnext word
  | some cut =>
    obtain ⟨k, rfl⟩ := stripFirst_take table word cut hs
    simp only
    split_ifs
    · exact ⟨k, rfl⟩
    · obtain ⟨j, hj⟩ := hnext (word.take k)
      exact ⟨min j k, by rw [hj, List.take_take]⟩

theorem dropSoftSign_take (word : List Nat) : ∃ k, dropSoftSign word = word.take k := by
  unfold dropSoftSign
  split_ifs
  · exact ⟨_, rfl⟩
  · exact ⟨word.length, (List.take_length _).symm⟩

theorem stages_take (word : List Nat) :
    ∃ k, stage noun_suffixes (stage verb_suffixes (stage adj_suffixes dropSoftSign)) word
      = word.take k :=
  stage_take _ _ (stage_take _ _ (stage_take _ _ dropSoftSign_take)) word

/-- The word after `to_lower_russian` and `replace_yo_with_e`. -/
theorem normal_form (w : List Nat) :
    lowered (replace_yo_with_e (to_lower_russian w)) = true ∧
      yoFree (replace_yo_with_e (to_lower_russian w)) = true :=
  ⟨lowered_replace_yo _ _ (le_refl _) (lowered_to_lower _ w (le_refl _)),
    yoFree_replace_yo _ _ (le_refl _)⟩

theorem stem_word_take (w : List Nat) :
    ∃ k, stem_word w = (replace_yo_with_e (to_lower_russian w)).take k := by
  unfold stem_word
  by_cases h0 : w = []
  · subst h0
    exact ⟨0, rfl⟩
  · rw [if_neg h0]
    dsimp only
    split_ifs
    · exact ⟨_, (List.take_length _).symm⟩
    · exact ⟨0, rfl⟩
    · exact stages_take _

theorem stem_word_normal (w : List Nat) :
    replace_yo_with_e (to_lower_russian (stem_word w)) = stem_word w := by
  obtain ⟨k, hk⟩ := stem_word_take w
  obtain ⟨h1, h2⟩ := normal_form w
  have l1 : lowered (stem_word w) = true := by
    rw [hk]; exact lowered_take _ _ (le_refl _) h1 k
  have l2 : yoFree (stem_word w) = true := by
    rw [hk]; exact yoFree_take _ _ (le_refl _) h2 k
  rw [to_lower_of_lowered _ _ (le_refl _) l1, replace_yo_of_yoFree _ _ (le_refl _) l2]

end RussianStemmer

namespace RussianStemmer

theorem stage_some_shorter (table : List (List Nat)) (next : List Nat → List Nat)
    (hnext : ∀ w, ∃ k, next w = w.take k) (hne : ∀ s ∈ table, s ≠ [])
    (word cut : List Nat) (hs : stripFirst table word = some cut) :
    (stage table next word).length < word.length := by
  have hlt := stripFirst_shorter table word cut hne hs
  unfold stage
  rw [hs]
  simp only
  split_ifs
  · exact hlt
  · obtain ⟨k, hk⟩ := hnext cut
    rw [hk, List.length_take]
    omega

theorem stage_none (table : List (List Nat)) (next : List Nat → List Nat) (word : List Nat)
    (hs : stripFirst table word = none) : stage table next word = next word := by
  unfold stage
  rw [hs]

theorem stem_fixed_iff (s : List Nat) (hn : replace_yo_with_e (to_lower_russian s) = s) :
    stem_word s = s ↔ bare s = true := by
  unfold stem_word bare
  by_cases h0 : s = []
  · subst h0
    simp
  rw [if_neg h0]
  dsimp only
  rw [hn]
  by_cases h3 : s.length < 3
  · simp [h3]
  rw [if_neg h3]
  by_cases hnum : is_number s = true
  · rw [if_pos hnum]
    simp only [h3, decide_False, hnum, Bool.not_true, Bool.false_and, Bool.or_self,
      Bool.false_eq_true, iff_false]
    exact fun e => h0 e.symm
  rw [if_neg hnum]
  have hA := stage_take adj_suffixes dropSoftSign dropSoftSign_take
  have hV := stage_take verb_suffixes _ hA
  have shorter : ∀ (x : List Nat), x.length < s.length → ¬ x = s := by
    intro x hx e
    rw [e] at hx
    exact absurd hx (lt_irrefl _)
  simp only [h3, decide_False, Bool.false_or, Bool.and_eq_true, Bool.not_eq_true',
    Option.isNone_iff_eq_none, decide_eq_true_eq]
  cases h1 : stripFirst noun_suffixes s with
  | some cut =>
    have := stage_some_shorter noun_suffixes _ hV (by decide) s cut h1
    constructor
    · intro e; exact absurd e (shorter _ this)
    · rintro ⟨⟨⟨⟨-, e⟩, -⟩, -⟩, -⟩; cases e
  | none =>
    rw [stage_none _ _ _ h1]
    cases h2 : stripFirst verb_suffixes s with
    | some cut =>
      have := stage_some_shorter verb_suffixes _ hA (by decide) s cut h2
      constructor
      · intro e; exact absurd e (shorter _ this)
      · rintro ⟨⟨⟨-, e⟩, -⟩, -⟩; cases e
    | none =>
      rw [stage_none _ _ _ h2]
      cases h3' : stripFirst adj_suffixes s with
      | some cut =>
        have := stage_some_shorter adj_suffixes _ dropSoftSign_take (by decide) s cut h3'
        constructor
        · intro e; exact absurd e (shorter _ this)
        · rintro ⟨⟨-, e⟩, -⟩; cases e
      | none =>
        rw [stage_none _ _ _ h3']
        constructor
        · intro e
          refine ⟨⟨⟨⟨?_, rfl⟩, rfl⟩, rfl⟩, e⟩
          simpa using hnum
        · intro h; exact h.2

/-- C26 (amended): `stem_word` is idempotent exactly on the words whose stem has nothing left
to cut.  For every word `w`, `stem_word (stem_word w) = stem_word w` holds if and only if
the stem has fewer than 3 bytes, or is not a number, ends with no suffix of the three
tables and has no final soft sign. -/
theorem stem_word_idempotent_iff (w : List Nat) :
    stem_word (stem_word w) = stem_word w ↔ bare (stem_word w) = true :=
  stem_fixed_iff (stem_word w) (stem_word_normal w)

theorem stem_word_idempotent_iff_witness :
    bare (stem_word [0xD0, 0xB3, 0xD0, 0xBE, 0xD0, 0xB2, 0xD0, 0xBE, 0xD1, 0x80, 0xD0, 0xB8,
        0xD0, 0xBB]) = true ∧
    stem_word (stem_word [0xD0, 0xB3, 0xD0, 0xBE, 0xD0, 0xB2, 0xD0, 0xBE, 0xD1, 0x80, 0xD0, 0xB8,
        0xD0, 0xBB])
      = stem_word [0xD0, 0xB3, 0xD0, 0xBE, 0xD0, 0xB2, 0xD0, 0xBE, 0xD1, 0x80, 0xD0, 0xB8,
        0xD0, 0xBB] :=
  ⟨by decide, (stem_word_idempotent_iff _).mpr (by decide)⟩

/-- C26 as stated fails for `домом`: its stem is `дом`, and the stem of `дом` is `д`. -/
theorem stem_word_idempotent_iff_counterexample :
    stem_word [0xD0, 0xB4, 0xD0, 0xBE, 0xD0, 0xBC, 0xD0, 0xBE, 0xD0, 0xBC]
      = [0xD0, 0xB4, 0xD0, 0xBE, 0xD0, 0xBC] ∧
    stem_word (stem_word [0xD0, 0xB4, 0xD0, 0xBE, 0xD0, 0xBC, 0xD0, 0xBE, 0xD0, 0xBC])
      = [0xD0, 0xB4] := by
  decide

end RussianStemmer

namespace RussianStemmer

/-- C28: what `stem_word` returns on the inputs of the table in `RussianStemmer::test`.
Seven of the twelve words get the stem listed there; `столы`, `книги` and `ёлка` (with `ё`
replaced) come back whole, and `делать` and `писала` lose only `ть` and `ла`. -/
theorem stem_word_test_table :
    stem_word [0xD1, 0x81, 0xD1, 0x82, 0xD0, 0xBE, 0xD0, 0xBB, 0xD1, 0x8B]
      = [0xD1, 0x81, 0xD1, 0x82, 0xD0, 0xBE, 0xD0, 0xBB, 0xD1, 0x8B] ∧
    stem_word [0xD0, 0xBA, 0xD0, 0xBD, 0xD0, 0xB8, 0xD0, 0xB3, 0xD0, 0xB8]
      = [0xD0, 0xBA, 0xD0, 0xBD, 0xD0, 0xB8, 0xD0, 0xB3, 0xD0, 0xB8] ∧
    stem_word [0xD0, 0xBA, 0xD1, 0x80, 0xD0, 0xB0, 0xD1, 0x81, 0xD0, 0xB8, 0xD0, 0xB2, 0xD1, 0x8B,
        0xD0, 0xB9]
      = [0xD0, 0xBA, 0xD1, 0x80, 0xD0, 0xB0, 0xD1, 0x81, 0xD0, 0xB8, 0xD0, 0xB2] ∧
    stem_word [0xD1, 0x81, 0xD0, 0xB8, 0xD0, 0xBD, 0xD0, 0xB8, 0xD0, 0xB9]
      = [0xD1, 0x81, 0xD0, 0xB8, 0xD0, 0xBD] ∧
    stem_word [0xD0, 0xB4, 0xD0, 0xB5, 0xD0, 0xBB, 0xD0, 0xB0, 0xD1, 0x82, 0xD1, 0x8C]
      = [0xD0, 0xB4, 0xD0, 0xB5, 0xD0, 0xBB, 0xD0, 0xB0] ∧
    stem_word [0xD0, 0xB3, 0xD0, 0xBE, 0xD0, 0xB2, 0xD0, 0xBE, 0xD1, 0x80, 0xD0, 0xB8, 0xD0, 0xBB]
      = [0xD0, 0xB3, 0xD0, 0xBE, 0xD0, 0xB2, 0xD0, 0xBE, 0xD1, 0x80] ∧
    stem_word [0xD1, 0x91, 0xD0, 0xBB, 0xD0, 0xBA, 0xD0, 0xB0]
      = [0xD0, 0xB5, 0xD0, 0xBB, 0xD0, 0xBA, 0xD0, 0xB0] ∧
    stem_word [0xD0, 0xBF, 0xD0, 0xBE, 0xD0, 0xB5, 0xD0, 0xB7, 0xD0, 0xB4]
      = [0xD0, 0xBF, 0xD0, 0xBE, 0xD0, 0xB5, 0xD0, 0xB7, 0xD0, 0xB4] ∧
    stem_word [0xD1, 0x87, 0xD0, 0xB8, 0xD1, 0x82, 0xD0, 0xB0, 0xD0, 0xBB]
      = [0xD1, 0x87, 0xD0, 0xB8, 0xD1, 0x82] ∧
    stem_word [0xD0, 0xBF, 0xD0, 0xB8, 0xD1, 0x81, 0xD0, 0xB0, 0xD0, 0xBB, 0xD0, 0xB0]
      = [0xD0, 0xBF, 0xD0, 0xB8, 0xD1, 0x81, 0xD0, 0xB0] ∧
    stem_word [0xD0, 0xBE, 0xD0, 0xBD] = [0xD0, 0xBE, 0xD0, 0xBD] ∧
    stem_word [0xD1, 0x8F] = [0xD1, 0x8F] := by
  decide

/-- C30: what `to_lower_russian` does to the Russian letters.  The capitals `А`..`П` and `Ё`
become the UTF-8 bytes of `а`..`п` and `е`, and small letters stay as they are.  For the
capitals `Р`..`Я` the second byte alone is raised by `0x20` under the old lead byte `0xD0`,
which gives `0xD0 0xC0`..`0xD0 0xCF` and not the bytes `0xD1 0x80`..`0xD1 0x8F` of
`р`..`я`. -/
theorem to_lower_russian_letters :
    (∀ k < 16, to_lower_russian (upperLetter k) = lowerLetter k) ∧
    (∀ k < 32, 16 ≤ k → to_lower_russian (upperLetter k) = [0xD0, 0xB0 + k] ∧
      to_lower_russian (upperLetter k) ≠ lowerLetter k) ∧
    to_lower_russian [0xD0, 0x81] = [0xD0, 0xB5] ∧
    (∀ k < 32, to_lower_russian (lowerLetter k) = lowerLetter k) ∧
    to_lower_russian [0xD1, 0x91] = [0xD1, 0x91] := by
  decide

end RussianStemmer

namespace RussianStemmer

theorem digits_normal : ∀ w : List Nat, is_number w = true →
    lowered w = true ∧ yoFree w = true
  | [], _ => ⟨rfl, rfl⟩
  | c :: w, h => by
    unfold is_number at h
    rw [List.all_cons, Bool.and_eq_true] at h
    have hc : 48 ≤ c ∧ c ≤ 57 := by simpa [isdigit] using h.1
    obtain ⟨i1, i2⟩ := digits_normal w h.2
    rw [lowered_cons_plain c w (by omega) (by omega) (by omega),
      yoFree_cons_plain c w (by omega) (by omega)]
    exact ⟨i1, i2⟩

/-- C29 (amended): numeric tokens of at least 3 digits are discarded.  For every word that
consists of ASCII digits only, `stem_word` returns the empty string when the word has 3 or
more bytes (as for `123` and `2024`), and returns the word unchanged when it has 1 or 2. -/
theorem long_numbers_are_discarded (w : List Nat) (hd : is_number w = true) :
    (3 ≤ w.length → stem_word w = []) ∧ (w.length < 3 → stem_word w = w) := by
  obtain ⟨h1, h2⟩ := digits_normal w hd
  have hn : replace_yo_with_e (to_lower_russian w) = w := by
    rw [to_lower_of_lowered _ _ (le_refl _) h1, replace_yo_of_yoFree _ _ (le_refl _) h2]
  constructor
  · intro h3
    have h0 : w ≠ [] := by
      intro e
      rw [e] at h3
      simp at h3
    unfold stem_word
    rw [if_neg h0]
    dsimp only
    rw [hn, if_neg (by omega), if_pos hd]
  · intro h3
    unfold stem_word
    by_cases h0 : w = []
    · rw [if_pos h0]
    · rw [if_neg h0]
      dsimp only
      rw [hn, if_pos h3]

theorem long_numbers_are_discarded_witness :
    is_number [0x32, 0x30, 0x32, 0x34] = true ∧ is_number [0x31, 0x32, 0x33] = true ∧
      stem_word [0x32, 0x30, 0x32, 0x34] = [] ∧ stem_word [0x31, 0x32, 0x33] = [] :=
  ⟨by decide, by decide,
    (long_numbers_are_discarded [0x32, 0x30, 0x32, 0x34] (by decide)).1 (by decide), by decide⟩

/-- C29 as stated fails for the numbers `7` and `12`: `stem_word` returns them unchanged. -/
theorem long_numbers_are_discarded_counterexample :
    is_number [0x37] = true ∧ stem_word [0x37] = [0x37] ∧
      is_number [0x31, 0x32] = true ∧ stem_word [0x31, 0x32] = [0x31, 0x32] := by
  decide

end RussianStemmer

namespace ImprovedTokenizer

theorem get_utf8_char_length_pos (c : Nat) : 1 ≤ get_utf8_char_length c := by
  unfold get_utf8_char_length
  split_ifs <;> omega

theorem positions_push (tokens : List TokenInfo) (cur : List Nat)
    (h : tokens.map TokenInfo.position = List.range tokens.length) :
    (tokens ++ [TokenInfo.mk cur tokens.length]).map TokenInfo.position
      = List.range (tokens ++ [TokenInfo.mk cur tokens.length]).length := by
  rw [List.map_append, h, List.length_append, List.length_singleton, List.range_succ]
  rfl

theorem tokenizeLoop_positions (cfg : TokenizerConfig) : ∀ (fuel : Nat) (s : List Nat)
    (tokens : List TokenInfo) (cur : List Nat) (in_token : Bool),
    s.length < fuel → tokens.map TokenInfo.position = List.range tokens.length →
    ∃ out, tokenizeLoop cfg fuel s tokens cur in_token tokens.length = some out ∧
      out.map TokenInfo.position = List.range out.length
  | 0, _, _, _, _, hf, _ => by omega
  | fuel + 1, [], tokens, cur, in_token, _, h => by
    rw [tokenizeLoop]
    split_ifs
    · exact ⟨_, rfl, positions_push tokens cur h⟩
    · exact ⟨_, rfl, h⟩
  | fuel + 1, c :: rest, tokens, cur, in_token, hf, h => by
    have hrest : rest.length < fuel := by simp at hf; omega
    rw [tokenizeLoop]
    by_cases h1 : UTF8Converter.is_utf8_letter_start c = true
    · rw [if_pos h1]
      by_cases h2 : get_utf8_char_length c ≤ (c :: rest).length
      · rw [if_pos h2]
        refine tokenizeLoop_positions cfg fuel _ tokens _ true ?_ h
        have := get_utf8_char_length_pos c
        rw [List.length_drop]
        simp only [List.length_cons] at hf ⊢
        omega
      · rw [if_neg h2]
        exact tokenizeLoop_positions cfg fuel rest tokens _ true hrest h
    · rw [if_neg h1]
      by_cases h3 : (in_token && UTF8Converter.is_word_continuation c) = true
      · rw [if_pos h3]
        exact tokenizeLoop_positions cfg fuel rest tokens _ in_token hrest h
      · rw [if_neg h3]
        by_cases h4 : in_token = true
        · rw [if_pos h4]
          by_cases h5 : should_keep_token cfg cur = true
          · rw [if_pos h5]
            have := tokenizeLoop_positions cfg fuel rest
              (tokens ++ [TokenInfo.mk cur tokens.length]) cur false hrest
              (positions_push tokens cur h)
            simpa using this
          · rw [if_neg h5]
            exact tokenizeLoop_positions cfg fuel rest tokens _ false hrest h
        · rw [if_neg h4]
          exact tokenizeLoop_positions cfg fuel rest tokens _ in_token hrest h

/-- C27 (amended): tokenizer positions count from 0.  For every configuration and every
input text `tokenize_text` returns, and the `k`-th pair of the returned sequence (`k` from
0) has position `k`: positions start at 0, not at 1, and are strictly increasing along the
sequence. -/
theorem token_positions_count_from_zero (cfg : TokenizerConfig) (text : List Nat) :
    ∃ tokens, tokenize_text cfg text = some tokens ∧
      tokens.map TokenInfo.position = List.range tokens.length ∧
      (∀ (k : Nat) (tok : TokenInfo), tokens[k]? = some tok → tok.position = k) ∧
      (tokens.map TokenInfo.position).Sorted (· < ·) := by
  obtain ⟨out, h1, h2⟩ := tokenizeLoop_positions cfg (text.length + 1) text [] [] false
    (Nat.lt_succ_self _) rfl
  refine ⟨out, h1, h2, fun k tok hk => ?_, ?_⟩
  · have hlt : k < out.length := by
      by_contra hc
      rw [List.getElem?_eq_none (by omega)] at hk
      cases hk
    have h3 : (out.map TokenInfo.position)[k]? = some tok.position := by
      rw [List.getElem?_map, hk]
      rfl
    rw [h2, List.getElem?_range hlt] at h3
    exact (Option.some.inj h3).symm
  · rw [h2]
    exact List.sorted_lt_range _

theorem token_positions_count_from_zero_witness :
    ∃ tokens, tokenize_text {} (kot ++ [32, 49, 50, 32, 97, 98, 45, 99, 32] ++ sobaka)
        = some tokens ∧
      tokens.map TokenInfo.position = List.range tokens.length ∧
      (∀ (k : Nat) (tok : TokenInfo), tokens[k]? = some tok → tok.position = k) ∧
      (tokens.map TokenInfo.position).Sorted (· < ·) :=
  token_positions_count_from_zero {} (kot ++ [32, 49, 50, 32, 97, 98, 45, 99, 32] ++ sobaka)

/-- C27 as stated fails for the text `ab`: its only token has position 0. -/
theorem token_positions_count_from_zero_counterexample :
    tokenize_text {} [97, 98] = some [{ text := [97, 98], position := 0 }] := by
  decide

end ImprovedTokenizer

namespace SimpleVector

end SimpleVector

namespace SearchIndex

theorem get_docs_cases (idx : SearchIndex) (w : List Nat) :
    idx.get_docs w = some [] ∨ ∃ ti ∈ idx.terms, idx.get_docs w = idx.get_docs ti.term := by
  cases hf : idx.terms.find? (fun ti => strcmp ti.term w = 0) with
  | none => left; unfold get_docs; rw [hf]
  | some ti =>
    right
    have hp := List.find?_some hf
    have hw : ti.term = w := (strcmp_eq_zero_iff _ _).mp (by simpa using hp)
    exact ⟨ti, List.mem_of_find?_eq_some hf, by rw [hw]⟩

end SearchIndex

namespace QueryParser

theorem next_token_wordChar (c : Nat) (s : List Nat) (cur : Token) (hc : wordChar c = true) :
    (next_token { input := c :: s, current := cur }).current.type = .WORD := by
  obtain ⟨h1, h2, h3, h4, h5, h6, h7⟩ := wordChar_facts c hc
  simp [next_token, skip_spaces, List.dropWhile_cons, h1, h2, h3, h4, h5, h6, h7]

theorem parse_word_then (idx : SearchIndex) (x t : List Nat) (A : List Int) (hx : IsWord x)
    (hA : idx.get_docs (lexeme x) = some A)
    (ht : ∀ c, t.head? = some c → wordChar c = false)
    (h1 : (next_token { input := t, current := { type := .END, word := [] } }).current.type
      ≠ .AND)
    (h2 : (next_token { input := t, current := { type := .END, word := [] } }).current.type
      ≠ .OR) :
    parse idx (x ++ t) = .ok A := by
  have hn : QueryParser.new (x ++ t)
      = { input := t, current := { type := .WORD, word := lexeme x } } :=
    next_token_word x t _ hx ht
  refine parse_of_expr idx (x ++ t) A
    (next_token { input := t, current := { type := .END, word := [] } }) 3 (by omega) ?_
  intro fuel
  rw [hn, parse_expr_of_term idx (fuel + 2) A _ _ (parse_term_word idx fuel _ A rfl hA)]
  exact parse_expr_loop_stop idx (fuel + 1) A _ h1 h2

theorem parse_badRead (idx : SearchIndex) : ∀ fuel : Nat,
    (∀ p, parse_expr idx fuel p = .error .badRead → ∃ w, idx.get_docs w = none) ∧
    (∀ p r0, parse_expr_loop idx fuel r0 p = .error .badRead → ∃ w, idx.get_docs w = none) ∧
    (∀ p, parse_term idx fuel p = .error .badRead → ∃ w, idx.get_docs w = none) ∧
    (∀ p, parse_factor idx fuel p = .error .badRead → ∃ w, idx.get_docs w = none) := by
  intro fuel
  induction fuel with
  | zero =>
    refine ⟨?_, ?_, ?_, ?_⟩ <;> intros <;> simp_all [parse_expr, parse_expr_loop, parse_term,
      parse_factor]
  | succ fuel ih =>
    obtain ⟨ihE, ihL, ihT, ihF⟩ := ih
    refine ⟨?_, ?_, ?_, ?_⟩
    · intro p h
      rw [parse_expr] at h
      cases ht : parse_term idx fuel p with
      | error e =>
        rw [ht] at h
        simp only [Except.error.injEq] at h
        exact ihT p (by rw [ht, h])
      | ok v =>
        rw [ht] at h
        exact ihL _ _ h
    · intro p r0 h
      rw [parse_expr_loop] at h
      by_cases hop : p.current.type = .AND ∨ p.current.type = .OR
      · simp only [hop, if_true] at h
        cases ht : parse_term idx fuel (next_token p) with
        | error e =>
          rw [ht] at h
          simp only [Except.error.injEq] at h
          exact ihT _ (by rw [ht, h])
        | ok v =>
          rw [ht] at h
          simp only at h
          split_ifs at h
          · exact ihL _ _ h
          · exact ihL _ _ h
      · simp only [hop, if_false] at h
        cases h
    · intro p h
      rw [parse_term] at h
      by_cases hnot : p.current.type = .NOT
      · simp only [hnot, if_true] at h
        cases ht : parse_factor idx fuel (next_token p) with
        | error e =>
          rw [ht] at h
          simp only [Except.error.injEq] at h
          exact ihF _ (by rw [ht, h])
        | ok v =>
          rw [ht] at h
          cases h
      · simp only [hnot, if_false] at h
        exact ihF p h
    · intro p h
      rw [parse_factor] at h
      by_cases hl : p.current.type = .LPAR
      · simp only [hl, if_true] at h
        cases ht : parse_expr idx fuel (next_token p) with
        | error e =>
          rw [ht] at h
          simp only [Except.error.injEq] at h
          exact ihE _ (by rw [ht, h])
        | ok v =>
          rw [ht] at h
          simp only at h
          split_ifs at h
      · simp only [hl, if_false] at h
        by_cases hw : p.current.type = .WORD
        · simp only [hw, if_true] at h
          cases hg : idx.get_docs p.current.word with
          | none => exact ⟨_, hg⟩
          | some res =>
            rw [hg] at h
            cases h
        · simp only [hw, if_false] at h
          cases h

theorem parse_result (idx : SearchIndex) (q : List Nat) :
    (∃ r p, parse idx q = .ok r ∧
      parse_expr idx (3 * q.length + 4) (QueryParser.new q) = .ok (r, p)) ∨
    (parse idx q = .error .badRead ∧ ∃ w, idx.get_docs w = none) := by
  have hw : (QueryParser.new q).weight ≤ q.length := weight_next_le q _
  have hd := (parse_done idx (3 * q.length + 4)).1 (QueryParser.new q) (by omega)
  have hp : parse idx q = match parse_expr idx (3 * q.length + 4) (QueryParser.new q) with
      | .error e => .error e
      | .ok (result, _) => .ok result := rfl
  rcases hd with h | ⟨r, p, h, -⟩
  · exact Or.inr ⟨by rw [hp, h], (parse_badRead idx _).1 _ h⟩
  · exact Or.inl ⟨r, p, by rw [hp, h], h⟩

theorem parse_ok_of_readable (idx : SearchIndex)
    (hidx : ∀ ti ∈ idx.terms, idx.get_docs ti.term ≠ none) (q : List Nat) :
    ∃ r p, parse idx q = .ok r ∧
      parse_expr idx (3 * q.length + 4) (QueryParser.new q) = .ok (r, p) := by
  rcases parse_result idx q with h | ⟨-, w, hwn⟩
  · exact h
  · rcases idx.get_docs_cases w with h0 | ⟨ti, hti, he⟩
    · rw [h0] at hwn; cases hwn
    · exact absurd (he ▸ hwn) (hidx ti hti)

end QueryParser

namespace QueryParser

/-- C32: `QueryParser::parse` comes back on every query string, well-formed or not: the
evaluation never stops for lack of fuel, so it ends with a result or at a posting read that
finds no `int` in `index_data.bin`; over an index all of whose posting blocks can be read,
it returns a result for every query string. -/
theorem parse_is_total (idx : SearchIndex) (q : List Nat) :
    ((∃ r, parse idx q = .ok r) ∨ parse idx q = .error .badRead) ∧
    ((∀ ti ∈ idx.terms, idx.get_docs ti.term ≠ none) → ∃ r, parse idx q = .ok r) := by
  rcases parse_result idx q with ⟨r, -, h, -⟩ | ⟨h, -⟩
  · exact ⟨Or.inl ⟨r, h⟩, fun _ => ⟨r, h⟩⟩
  · refine ⟨Or.inr h, fun hidx => ?_⟩
    obtain ⟨r, -, hr, -⟩ := parse_ok_of_readable idx hidx q
    exact ⟨r, hr⟩

theorem parse_is_total_witness :
    (∀ ti ∈ scenarioIndex.terms, scenarioIndex.get_docs ti.term ≠ none) ∧
      ∃ r, parse scenarioIndex [40, 40, 97, 32, 38, 38, 32, 41, 124, 33] = .ok r :=
  ⟨by decide!, (parse_is_total scenarioIndex _).2 (by decide!)⟩

/-- C36: input after the first complete expression is ignored.  For words `x` and `y` the
queries `x y`, `x y` followed by any further text, and `x AND y` all return the posting list
of `x` alone (of its token text `lexeme x`); `AND`, `OR` and `NOT` are lexed as the WORD
tokens `and`, `or` and `not`, and the loop of `parse_expr` ends at a WORD token. -/
theorem trailing_input_is_ignored (idx : SearchIndex) (x y : List Nat) (A : List Int)
    (hx : IsWord x) (hy : IsWord y) (hA : idx.get_docs (lexeme x) = some A) :
    parse idx (x ++ 32 :: y) = .ok A ∧
    (∀ z, parse idx (x ++ 32 :: (y ++ z)) = .ok A) ∧
    parse idx (x ++ [32, 65, 78, 68, 32] ++ y) = .ok A ∧
    (QueryParser.new [65, 78, 68]).current = { type := .WORD, word := [97, 110, 100] } ∧
    (QueryParser.new [79, 82]).current = { type := .WORD, word := [111, 114] } ∧
    (QueryParser.new [78, 79, 84]).current = { type := .WORD, word := [110, 111, 116] } := by
  have key : ∀ (u z : List Nat), IsWord u → parse idx (x ++ 32 :: (u ++ z)) = .ok A := by
    intro u z hu
    obtain ⟨c, us, rfl⟩ : ∃ c us, u = c :: us := by
      cases u with
      | nil => exact absurd rfl hu.1
      | cons c us => exact ⟨c, us, rfl⟩
    have hc : wordChar c = true := hu.2 c (List.mem_cons_self _ _)
    have ht : (next_token { input := 32 :: (c :: us ++ z), current := { type := .END, word := [] } }).current.type = .WORD := by
      rw [next_token_space 32 _ _ (by decide)]
      exact next_token_wordChar c _ _ hc
    exact parse_word_then idx x _ A hx hA (not_wordChar_head 32 _ (by decide))
      (by rw [ht]; decide) (by rw [ht]; decide)
  refine ⟨?_, fun z => key y z hy, ?_, by decide, by decide, by decide⟩
  · have := key y [] hy
    rwa [List.append_nil] at this
  · have := key [65, 78, 68] (32 :: y) (by decide)
    simpa using this

theorem trailing_input_is_ignored_witness :
    IsWord kot ∧ IsWord sobaka ∧ scenarioIndex.get_docs (lexeme kot) = some [0, 1] ∧
      parse scenarioIndex (kot ++ [32, 65, 78, 68, 32] ++ sobaka) = .ok [0, 1] :=
  ⟨by decide, by decide, by decide!,
    (trailing_input_is_ignored scenarioIndex kot sobaka [0, 1] (by decide) (by decide)
      (by decide!)).2.2.1⟩

end QueryParser

theorem complement_fold_increasing (list : List Int) : ∀ n : Nat,
    ((List.range n).foldl (complementStep list) (0, [])).2.Sorted (· < ·) ∧
    ∀ x ∈ ((List.range n).foldl (complementStep list) (0, [])).2, x < (n : Int) := by
  intro n
  induction n with
  | zero => simp
  | succ n ih =>
    rw [List.range_succ, List.foldl_append]
    simp only [List.foldl_cons, List.foldl_nil]
    obtain ⟨h1, h2⟩ := ih
    unfold complementStep
    split_ifs
    · exact ⟨h1, fun x hx => by have := h2 x hx; push_cast; omega⟩
    · refine ⟨?_, fun x hx => ?_⟩
      · unfold List.Sorted
        rw [List.pairwise_append]
        exact ⟨h1, List.pairwise_singleton _ _, fun a ha b hb => by
          rw [List.mem_singleton] at hb
          rw [hb]
          exact h2 a ha⟩
      · rcases List.mem_append.mp hx with hx | hx
        · have := h2 x hx; push_cast; omega
        · rw [List.mem_singleton] at hx
          rw [hx]; push_cast; omega

theorem complement_increasing (list : List Int) (total : Int) :
    (complement list total).Sorted (· < ·) :=
  (complement_fold_increasing (SimpleVector.sort list) total.toNat).1

namespace QueryParser

theorem parse_sorted (idx : SearchIndex)
    (hidx : ∀ w r, idx.get_docs w = some r → r.Sorted (· < ·)) : ∀ fuel : Nat,
    (∀ p r p1, parse_expr idx fuel p = .ok (r, p1) → r.Sorted (· < ·)) ∧
    (∀ p r0 r p1, r0.Sorted (· < ·) → parse_expr_loop idx fuel r0 p = .ok (r, p1) →
      r.Sorted (· < ·)) ∧
    (∀ p r p1, parse_term idx fuel p = .ok (r, p1) → r.Sorted (· < ·)) ∧
    (∀ p r p1, parse_factor idx fuel p = .ok (r, p1) → r.Sorted (· < ·)) := by
  intro fuel
  induction fuel with
  | zero =>
    refine ⟨?_, ?_, ?_, ?_⟩ <;> intros <;> simp_all [parse_expr, parse_expr_loop, parse_term,
      parse_factor]
  | succ fuel ih =>
    obtain ⟨ihE, ihL, ihT, ihF⟩ := ih
    refine ⟨?_, ?_, ?_, ?_⟩
    · intro p r p1 h
      rw [parse_expr] at h
      cases ht : parse_term idx fuel p with
      | error e => rw [ht] at h; cases h
      | ok v =>
        rw [ht] at h
        exact ihL _ _ _ _ (ihT p v.1 v.2 ht) h
    · intro p r0 r p1 h0 h
      rw [parse_expr_loop] at h
      by_cases hop : p.current.type = .AND ∨ p.current.type = .OR
      · simp only [hop, if_true] at h
        cases ht : parse_term idx fuel (next_token p) with
        | error e => rw [ht] at h; cases h
        | ok v =>
          rw [ht] at h
          simp only at h
          have hv := ihT _ v.1 v.2 ht
          split_ifs at h
          · exact ihL _ _ _ _ (intersect_sorted _ _ h0.nodup hv.nodup) h
          · exact ihL _ _ _ _ (unite_sorted_mem _ _ h0.nodup hv.nodup).1 h
      · simp only [hop, if_false] at h
        cases h
        exact h0
    · intro p r p1 h
      rw [parse_term] at h
      by_cases hnot : p.current.type = .NOT
      · simp only [hnot, if_true] at h
        cases ht : parse_factor idx fuel (next_token p) with
        | error e => rw [ht] at h; cases h
        | ok v =>
          rw [ht] at h
          cases h
          exact complement_increasing _ _
      · simp only [hnot, if_false] at h
        exact ihF p _ _ h
    · intro p r p1 h
      rw [parse_factor] at h
      by_cases hl : p.current.type = .LPAR
      · simp only [hl, if_true] at h
        cases ht : parse_expr idx fuel (next_token p) with
        | error e => rw [ht] at h; cases h
        | ok v =>
          rw [ht] at h
          simp only at h
          have hv := ihE _ v.1 v.2 ht
          split_ifs at h <;> cases h <;> exact hv
      · simp only [hl, if_false] at h
        by_cases hw : p.current.type = .WORD
        · simp only [hw, if_true] at h
          cases hg : idx.get_docs p.current.word with
          | none => rw [hg] at h; cases h
          | some res =>
            rw [hg] at h
            cases h
            exact hidx _ _ hg
        · simp only [hw, if_false] at h
          cases h
          exact List.sorted_nil

/-- C33: query results are strictly increasing lists of document ids.  `intersect` and
`unite` return a strictly increasing list for strictly increasing arguments, `complement`
for every argument; so over an index whose vocabulary terms all have a strictly increasing
posting list, `QueryParser::parse` returns a strictly increasing list for every query
string. -/
theorem results_strictly_increasing (idx : SearchIndex)
    (hidx : ∀ ti ∈ idx.terms, ∃ r, idx.get_docs ti.term = some r ∧ r.Sorted (· < ·))
    (q : List Nat) :
    (∃ r, parse idx q = .ok r ∧ r.Sorted (· < ·)) ∧
    (∀ a b : List Int, a.Sorted (· < ·) → b.Sorted (· < ·) →
      (intersect a b).Sorted (· < ·) ∧ (unite a b).Sorted (· < ·)) ∧
    (∀ (a : List Int) (n : Int), a.Sorted (· < ·) → (complement a n).Sorted (· < ·)) := by
  refine ⟨?_, fun a b ha hb => ⟨intersect_sorted a b ha.nodup hb.nodup,
    (unite_sorted_mem a b ha.nodup hb.nodup).1⟩, fun a n _ => complement_increasing a n⟩
  have hall : ∀ w r, idx.get_docs w = some r → r.Sorted (· < ·) := by
    intro w r hw
    rcases idx.get_docs_cases w with h0 | ⟨ti, hti, he⟩
    · rw [h0] at hw; cases hw; exact List.sorted_nil
    · obtain ⟨r1, h1, h2⟩ := hidx ti hti
      rw [he, h1] at hw
      cases hw
      exact h2
  obtain ⟨r, p, hr, he⟩ := parse_ok_of_readable idx (fun ti hti => by
    obtain ⟨r1, h1, -⟩ := hidx ti hti
    rw [h1]; simp) q
  exact ⟨r, hr, (parse_sorted idx hall _).1 _ _ _ he⟩

theorem results_strictly_increasing_witness :
    (∀ ti ∈ scenarioIndex.terms,
        ∃ r, scenarioIndex.get_docs ti.term = some r ∧ r.Sorted (· < ·)) ∧
      ∃ r, parse scenarioIndex (33 :: sobaka ++ [32, 124, 124, 32] ++ kot) = .ok r ∧
        r.Sorted (· < ·) := by
  have h : ∀ ti ∈ scenarioIndex.terms,
      ∃ r, scenarioIndex.get_docs ti.term = some r ∧ r.Sorted (· < ·) := by
    intro ti hti
    simp only [scenarioIndex, List.mem_cons, List.mem_singleton, List.not_mem_nil,
      or_false] at hti
    rcases hti with rfl | rfl
    · exact ⟨[0, 1], by decide!, by decide⟩
    · exact ⟨[0, 2], by decide!, by decide⟩
  exact ⟨h, (results_strictly_increasing scenarioIndex h _).1⟩

end QueryParser

theorem strtokAll_plain : ∀ (t cur : List Nat), (∀ c ∈ t, c ≠ 32 ∧ c ≠ 9) →
    strtokAll t cur = if cur ++ t = [] then [] else [cur ++ t]
  | [], cur, _ => by simp [strtokAll]
  | c :: t, cur, h => by
    have hc := h c (List.mem_cons_self _ _)
    rw [strtokAll, if_neg (by tauto),
      strtokAll_plain t (cur ++ [c]) (fun x hx => h x (List.mem_cons_of_mem _ hx))]
    simp

theorem lineTokens_plain (t : List Nat) (h : PlainTerm t) :
    lineTokens (t ++ [10]) = (if t = [] then [] else [t]) ∧
      lineTokens t = (if t = [] then [] else [t]) := by
  have htw : ∀ l : List Nat, (∀ c ∈ l, c ≠ 0) → l.takeWhile (fun c => c != 0) = l := by
    intro l hl
    rw [List.takeWhile_eq_self_iff]
    intro c hc
    simpa using hl c hc
  have hst := strtokAll_plain t [] (fun c hc => ⟨(h c hc).1, (h c hc).2.1⟩)
  rw [List.nil_append] at hst
  constructor
  · unfold lineTokens
    rw [htw (t ++ [10]) (fun c hc => by
      rcases List.mem_append.mp hc with hc | hc
      · exact (h c hc).2.2.1
      · rw [List.mem_singleton] at hc; omega)]
    have e1 : (t ++ [10]).getLast? = some 10 := by simp
    have e2 : (t ++ [10]).dropLast = t := by simp
    simp only [e1, if_true, e2]
    exact hst
  · unfold lineTokens
    rw [htw t (fun c hc => (h c hc).2.2.1)]
    have hl : t.getLast? ≠ some 10 := by
      intro hl
      exact (h 10 (List.mem_of_mem_getLast? hl)).2.2.2 rfl
    simp only [hl, if_false]
    exact hst

theorem noPosition_plain (t : List Nat) (h : PlainTerm t) :
    NoPosition (t ++ [10]) ∧ NoPosition t := by
  obtain ⟨h1, h2⟩ := lineTokens_plain t h
  unfold NoPosition
  rw [h1, h2]
  constructor <;> (split_ifs <;> simp)

theorem processField_nonPositive (term : List Nat) (doc_id : Int) (b : BoolIndexer)
    (field : List Nat) (h : nonPositive field = true) :
    processField term doc_id b field = some b := by
  unfold nonPositive at h
  unfold processField
  cases ha : atoi field with
  | none => rw [ha] at h; cases h
  | some pos =>
    rw [ha] at h
    have hp : pos ≤ 0 := by simpa using h
    simp only
    rw [if_neg (by omega)]

theorem foldlM_fixed {α β : Type} (f : β → α → Option β) (b : β) :
    ∀ l : List α, (∀ a ∈ l, f b a = some b) → l.foldlM f b = some b
  | [], _ => rfl
  | a :: l, h => by
    rw [List.foldlM_cons, h a (List.mem_cons_self _ _)]
    exact foldlM_fixed f b l (fun x hx => h x (List.mem_cons_of_mem _ hx))

theorem processLine_noPosition (doc_id : Int) (b : BoolIndexer) (line : List Nat)
    (h : NoPosition line) : processLine doc_id b line = some b := by
  have hp : processLine doc_id b line = match lineTokens line with
      | [] => some b
      | term :: fields => fields.foldlM (processField term doc_id) b := rfl
  rw [hp]
  unfold NoPosition at h
  cases hl : lineTokens line with
  | nil => rfl
  | cons term fields =>
    rw [hl] at h
    exact foldlM_fixed _ b fields (fun f hf => processField_nonPositive term doc_id b f (h f hf))

/-- C37: a token line without a position field indexes nothing.  `process_file` of the
indexer hands the indexer back unchanged (term dictionary, postings and document counts)
for a line that is a term only, with or without its newline, and for every line whose
fields after the term all give `atoi` values that are zero or negative; a file made of
such lines leaves the indexer unchanged as a whole.  The line `token.text << "\n"` that the
tokenizer writes by default and the line `word << '\n'` that the stemmer writes are lines of
this kind whenever the term has no space, tab, NUL or newline byte. -/
theorem line_without_position_indexes_nothing (doc_id : Int) (b : BoolIndexer) :
    (∀ t, PlainTerm t →
      processLine doc_id b (t ++ [10]) = some b ∧ processLine doc_id b t = some b) ∧
    (∀ line, NoPosition line → processLine doc_id b line = some b) ∧
    (∀ bytes, (∀ line ∈ readLines 4096 bytes.length bytes, NoPosition line) →
      process_file (some bytes) doc_id b = some b) ∧
    (∀ token : TokenInfo, PlainTerm token.text →
      processLine doc_id b (ImprovedTokenizer.tokenLine {} token) = some b) ∧
    (∀ line out, RussianStemmer.stemLine line = some out → PlainTerm out.dropLast →
      processLine doc_id b out = some b) := by
  refine ⟨fun t ht => ⟨processLine_noPosition _ _ _ (noPosition_plain t ht).1,
    processLine_noPosition _ _ _ (noPosition_plain t ht).2⟩,
    fun line h => processLine_noPosition _ _ _ h, ?_, ?_, ?_⟩
  · intro bytes h
    exact foldlM_fixed _ b _ (fun line hl => processLine_noPosition doc_id b line (h line hl))
  · intro token ht
    exact processLine_noPosition _ _ _ (noPosition_plain token.text ht).1
  · intro line out hs hp
    have ho : out = out.dropLast ++ [10] := by
      unfold RussianStemmer.stemLine at hs
      simp only at hs
      split_ifs at hs
      simp only [Option.some.injEq] at hs
      rw [← hs]
      simp
    rw [ho]
    exact processLine_noPosition _ _ _ (noPosition_plain _ hp).1

theorem line_without_position_indexes_nothing_witness :
    PlainTerm kot ∧ processLine 0 BoolIndexer.new (kot ++ [10]) = some BoolIndexer.new ∧
      NoPosition (kot ++ [32, 48, 9, 45, 51, 10]) ∧
      processLine 0 BoolIndexer.new (kot ++ [32, 48, 9, 45, 51, 10]) = some BoolIndexer.new :=
  ⟨by decide,
    ((line_without_position_indexes_nothing 0 BoolIndexer.new).1 kot (by decide)).1,
    by decide,
    (line_without_position_indexes_nothing 0 BoolIndexer.new).2.1 _ (by decide)⟩

namespace TermDict

theorem addAll_snoc (calls : List (List Nat × Int)) (k : List Nat) (v : Int) :
    addAll (calls ++ [(k, v)]) = (addAll calls).add k v := by
  simp [addAll, List.foldl_append]

theorem lastAdded_snoc (calls : List (List Nat × Int)) (k : List Nat) (v : Int)
    (k' : List Nat) :
    lastAdded (calls ++ [(k, v)]) k' = if k' = k then some v else lastAdded calls k' := by
  simp only [lastAdded, List.foldl_append, List.foldl_cons, List.foldl_nil]
  by_cases e : k = k'
  · simp [e]
  · have e' : ¬ k' = k := fun x => e x.symm
    simp [e, e']

theorem addAll_spec (calls : List (List Nat × Int)) :
    (addAll calls).WF ∧ ∀ k, (addAll calls).find k = lastAdded calls k := by
  induction calls using List.reverseRecOn with
  | nil => exact ⟨WF_new, fun k => find_new k⟩
  | append_singleton calls kv ih =>
    obtain ⟨k, v⟩ := kv
    rw [addAll_snoc]
    refine ⟨WF_add _ ih.1 k v, fun k' => ?_⟩
    rw [find_add _ ih.1, lastAdded_snoc, ih.2]

theorem lastAdded_isSome (calls : List (List Nat × Int)) (k : List Nat) :
    (lastAdded calls k).isSome = true ↔ k ∈ calls.map Prod.fst := by
  induction calls using List.reverseRecOn with
  | nil => simp [lastAdded]
  | append_singleton calls kv ih =>
    obtain ⟨k1, v⟩ := kv
    rw [lastAdded_snoc]
    by_cases e : k = k1
    · simp [e]
    · simp only [e, if_false, ih, List.map_append, List.map_cons, List.map_nil,
        List.mem_append, List.mem_singleton, or_false]

theorem mem_keys_iff (d : TermDict) (h : d.WF) (k : List Nat) :
    k ∈ d.buckets.flatten.map Node.key ↔ (d.find k).isSome = true := by
  rw [List.mem_map]
  constructor
  · rintro ⟨node, hn, rfl⟩
    rw [(mem_entries_iff d h node).mp hn]
    rfl
  · intro hs
    obtain ⟨v, hv⟩ := Option.isSome_iff_exists.mp hs
    exact ⟨{ key := k, value := v }, (mem_entries_iff d h _).mpr hv, rfl⟩

theorem visit_spec (d : TermDict) (hlen : d.buckets.length = d.bucket_count) :
    ∀ (fuel : Nat) (it : Iterator), (it.current = [] → d.iterRest it = []) →
      (d.iterRest it).length ≤ fuel → visit d fuel it = d.iterRest it := by
  intro fuel
  induction fuel with
  | zero =>
    intro it _ hf
    have : d.iterRest it = [] := List.length_eq_zero.mp (by omega)
    rw [this]
    rfl
  | succ fuel ih =>
    intro it hv hf
    unfold visit
    cases hcur : it.current with
    | nil =>
      simp only
      rw [hv hcur]
    | cons node rest =>
      simp only
      obtain ⟨h1, h2⟩ := iterRest_next d hlen it node rest hcur
      have hrest : d.iterRest it
          = node :: (rest ++ (d.buckets.drop (it.bucket_idx + 1)).flatten) := by
        simp [iterRest, hcur]
      rw [ih _ h2 (by rw [h1]; rw [hrest] at hf; simpa using hf), h1, hrest]

theorem visit_begin (d : TermDict) (h : d.WF) (fuel : Nat) (hf : d.size ≤ fuel) :
    visit d fuel d.begin = d.buckets.flatten := by
  obtain ⟨h1, h2⟩ := iterRest_begin d h.1
  rw [visit_spec d h.1 fuel _ h2 (by rw [h1, ← h.2.2.2.2]; exact hf), h1]

/-- C35: `TermDict` refines a finite map.  After the calls `add(key, value)` of any list
`calls` on a new dictionary, `find(k)` returns the value of the most recent `add` for `k`
and fails when `k` was never added, keys being compared byte for byte whatever bucket they
hash to; `size()` is the number of distinct keys added; the iteration from `begin()` to
`end()` visits, for any fuel from `size()` on, a list of nodes whose keys are pairwise
different and are exactly the added keys, each node holding the value that `find` returns.
The method `find` is `const`: it is a function of the dictionary that returns no new
dictionary. -/
theorem termdict_refines_finite_map (calls : List (List Nat × Int)) :
    (∀ k, (addAll calls).find k = lastAdded calls k) ∧
    (∀ k, ((addAll calls).find k).isSome = true ↔ k ∈ calls.map Prod.fst) ∧
    (addAll calls).size = (calls.map Prod.fst).dedup.length ∧
    (∀ fuel, (addAll calls).size ≤ fuel →
      ((visit (addAll calls) fuel (addAll calls).begin).map Node.key).Nodup ∧
      ((visit (addAll calls) fuel (addAll calls).begin).map Node.key).Perm
        (calls.map Prod.fst).dedup ∧
      ∀ node ∈ visit (addAll calls) fuel (addAll calls).begin,
        (addAll calls).find node.key = some node.value) := by
  obtain ⟨hwf, hfind⟩ := addAll_spec calls
  have hsome : ∀ k, ((addAll calls).find k).isSome = true ↔ k ∈ calls.map Prod.fst := by
    intro k
    rw [hfind, lastAdded_isSome]
  have hnd := keys_nodup _ hwf
  have hperm : ((addAll calls).buckets.flatten.map Node.key).Perm
      (calls.map Prod.fst).dedup := by
    rw [List.perm_ext_iff_of_nodup hnd (List.nodup_dedup _)]
    intro k
    rw [mem_keys_iff _ hwf, hsome, List.mem_dedup]
  refine ⟨hfind, hsome, ?_, ?_⟩
  · have := hperm.length_eq
    rw [List.length_map] at this
    rw [← this]
    exact hwf.2.2.2.2
  · intro fuel hf
    rw [visit_begin _ hwf fuel hf]
    exact ⟨hnd, hperm, fun node hn => (mem_entries_iff _ hwf node).mp hn⟩

end TermDict

namespace SimpleVector

theorem scanUp_ge {α : Type} (lt : α → α → Bool) (pivot : α) (items : List α) :
    ∀ (fuel : Nat) (i i1 : Int), scanUp lt pivot items fuel i = some i1 → i ≤ i1 := by
  intro fuel
  induction fuel with
  | zero => intro i i1 h; simp [scanUp] at h
  | succ fuel ih =>
    intro i i1 h
    unfold scanUp at h
    cases hg : getAt items i with
    | none => rw [hg] at h; cases h
    | some x =>
      rw [hg] at h
      simp only at h
      split_ifs at h
      · have := ih _ _ h; omega
      · cases h; exact le_refl _

theorem scanDown_le {α : Type} (lt : α → α → Bool) (pivot : α) (items : List α) :
    ∀ (fuel : Nat) (j j1 : Int), scanDown lt pivot items fuel j = some j1 → j1 ≤ j := by
  intro fuel
  induction fuel with
  | zero => intro j j1 h; simp [scanDown] at h
  | succ fuel ih =>
    intro j j1 h
    unfold scanDown at h
    cases hg : getAt items j with
    | none => rw [hg] at h; cases h
    | some x =>
      rw [hg] at h
      simp only at h
      split_ifs at h
      · have := ih _ _ h; omega
      · cases h; exact le_refl _

theorem scanUpIn_eq {α : Type} (lt : α → α → Bool) (pivot : α) (items : List α)
    (left right : Int) :
    ∀ (fuel : Nat) (i i1 : Int), scanUp lt pivot items fuel i = some i1 → left ≤ i →
      i1 ≤ right → scanUpIn lt pivot items left right fuel i = some i1 := by
  intro fuel
  induction fuel with
  | zero => intro i i1 h; simp [scanUp] at h
  | succ fuel ih =>
    intro i i1 h hl hr
    have hge := scanUp_ge lt pivot items _ _ _ h
    unfold scanUp at h
    unfold scanUpIn
    have hin : getIn items left right i = getAt items i := by
      unfold getIn
      rw [if_pos ⟨hl, by omega⟩]
    rw [hin]
    cases hg : getAt items i with
    | none => rw [hg] at h; cases h
    | some x =>
      rw [hg] at h
      simp only at h ⊢
      split_ifs at h ⊢
      · exact ih _ _ h (by omega) hr
      · exact h

theorem scanDownIn_eq {α : Type} (lt : α → α → Bool) (pivot : α) (items : List α)
    (left right : Int) :
    ∀ (fuel : Nat) (j j1 : Int), scanDown lt pivot items fuel j = some j1 → j ≤ right →
      left ≤ j1 → scanDownIn lt pivot items left right fuel j = some j1 := by
  intro fuel
  induction fuel with
  | zero => intro j j1 h; simp [scanDown] at h
  | succ fuel ih =>
    intro j j1 h hr hl
    have hle := scanDown_le lt pivot items _ _ _ h
    unfold scanDown at h
    unfold scanDownIn
    have hin : getIn items left right j = getAt items j := by
      unfold getIn
      rw [if_pos ⟨by omega, hr⟩]
    rw [hin]
    cases hg : getAt items j with
    | none => rw [hg] at h; cases h
    | some x =>
      rw [hg] at h
      simp only at h ⊢
      split_ifs at h ⊢
      · exact ih _ _ h (by omega) hl
      · exact h

theorem partition_step {α : Type} (lt : α → α → Bool)
    (hasym : ∀ a b, lt a b = true → lt b a = false) (pivot : α) (left right : Int)
    (items : List α) (i j : Int) (hinv : PartInv lt pivot left right items i j)
    (hij : i ≤ j) :
    ∃ i1 j1 : Int, scanUp lt pivot items (items.length + 1) i = some i1 ∧
      scanDown lt pivot items (items.length + 1) j = some j1 ∧
      i ≤ i1 ∧ i1 ≤ right ∧ left ≤ j1 ∧ j1 ≤ j ∧
      (i1 ≤ j1 → PartInv lt pivot left right (swap items i1.toNat j1.toNat) (i1 + 1)
        (j1 - 1)) := by
  obtain ⟨hl0, hrn, hli, hjr, hir, hlj, hL, hR, hU, hD⟩ := hinv
  obtain ⟨kU, xU, hU1, hU2, hU3, hU4⟩ := hU hij
  obtain ⟨kD, xD, hD1, hD2, hD3, hD4⟩ := hD hij
  obtain ⟨i1, x1, hsU, hi1, hi2, hgi, hxi, hpU⟩ :=
    scanUp_spec lt pivot items (items.length + 1) i kU xU (by omega) hU1 hU3 hU4 (by omega)
  obtain ⟨j1, y1, hsD, hj1, hj2, hgj, hyj, hpD⟩ :=
    scanDown_spec lt pivot items (items.length + 1) j kD xD (by omega) hD2 hD3 hD4
      (by omega)
  refine ⟨i1, j1, hsU, hsD, hi1, by omega, by omega, hj1, fun h12 => ?_⟩
  have hLs : ∀ (k : Int) (x : α), left ≤ k → k < i1 → getAt items k = some x →
      lt pivot x = false := by
    intro k x h1 h2 hg
    by_cases hk : k < i
    · exact hL k x h1 hk hg
    · exact hasym _ _ (hpU k x (by omega) h2 hg)
  have hRs : ∀ (k : Int) (x : α), j1 < k → k ≤ right → getAt items k = some x →
      lt x pivot = false := by
    intro k x h1 h2 hg
    by_cases hk : j < k
    · exact hR k x hk h2 hg
    · exact hasym _ _ (hpD k x h1 (by omega) hg)
  have hi1n : i1.toNat < items.length := by omega
  have hj1n : j1.toNat < items.length := by omega
  have hci : ((i1.toNat : Nat) : Int) = i1 := by omega
  have hcj : ((j1.toNat : Nat) : Int) = j1 := by omega
  have hgs : ∀ k : Int, getAt (swap items i1.toNat j1.toNat) k
      = if k = j1 then getAt items i1 else if k = i1 then getAt items j1
        else getAt items k := by
    intro k
    rw [getAt_swap _ _ _ hi1n hj1n, hci, hcj]
  refine ⟨hl0, by rw [swap_length]; exact hrn, by omega, by omega, by omega, by omega,
    ?_, ?_, ?_, ?_⟩
  · intro k x hk1 hk2 hg
    rw [hgs] at hg
    by_cases e1 : k = j1
    · have e2 : i1 = j1 := by omega
      simp only [e1, if_true] at hg
      rw [e2, hgj] at hg
      cases hg
      exact hyj
    · by_cases e2 : k = i1
      · have e1' : ¬ i1 = j1 := fun e => e1 (e2.trans e)
        rw [e2] at hg
        simp only [e1', if_false, if_true] at hg
        rw [hgj] at hg
        cases hg
        exact hyj
      · simp only [e1, e2, if_false] at hg
        exact hLs k x hk1 (by omega) hg
  · intro k x hk1 hk2 hg
    rw [hgs] at hg
    by_cases e1 : k = j1
    · simp only [e1, if_true] at hg
      rw [hgi] at hg
      cases hg
      exact hxi
    · have e2 : k ≠ i1 := by omega
      simp only [e1, e2, if_false] at hg
      exact hRs k x (by omega) hk2 hg
  · intro hlt
    refine ⟨j1, x1, by omega, by omega, ?_, hxi⟩
    rw [hgs]
    simp [hgi]
  · intro hlt
    refine ⟨i1, y1, by omega, by omega, ?_, hyj⟩
    rw [hgs]
    have e1 : i1 ≠ j1 := by omega
    simp [e1, hgj]

theorem partitionLoopIn_done {α : Type} (lt : α → α → Bool) (pivot : α) (left right : Int)
    (fuel : Nat) (items : List α) (i j : Int) (hij : ¬ i ≤ j) :
    partitionLoopIn lt pivot left right fuel items i j = partitionLoop lt pivot fuel items i j := by
  cases fuel with
  | zero => rfl
  | succ fuel =>
    unfold partitionLoopIn partitionLoop
    simp only [hij, if_false]

theorem partitionLoopIn_eq {α : Type} (lt : α → α → Bool)
    (hasym : ∀ a b, lt a b = true → lt b a = false) (pivot : α) (left right : Int) :
    ∀ (fuel : Nat) (items : List α) (i j : Int), PartInv lt pivot left right items i j →
      partitionLoopIn lt pivot left right fuel items i j
        = partitionLoop lt pivot fuel items i j := by
  intro fuel
  induction fuel with
  | zero => intro items i j _; rfl
  | succ fuel ih =>
    intro items i j hinv
    by_cases hij : i ≤ j
    · obtain ⟨i1, j1, hsU, hsD, h1, h2, h3, h4, hnext⟩ :=
        partition_step lt hasym pivot left right items i j hinv hij
      unfold partitionLoopIn partitionLoop
      simp only [hij, if_true]
      rw [scanUpIn_eq lt pivot items left right _ _ _ hsU hinv.2.2.1 h2,
        scanDownIn_eq lt pivot items left right _ _ _ hsD hinv.2.2.2.1 h3, hsU, hsD]
      simp only
      by_cases h12 : i1 ≤ j1
      · simp only [h12, if_true]
        exact ih _ _ _ (hnext h12)
      · simp only [h12, if_false]
        exact partitionLoopIn_done lt pivot left right fuel items i1 j1 h12
    · exact partitionLoopIn_done lt pivot left right _ items i j hij

end SimpleVector

namespace SimpleVector

theorem quick_sortIn_eq {α : Type} (lt : α → α → Bool)
    (hasym : ∀ a b, lt a b = true → lt b a = false)
    (htrans : ∀ a b c, lt b a = false → lt c b = false → lt c a = false) :
    ∀ (fuel : Nat) (items : List α) (left right : Int),
      0 ≤ left → right < items.length → (right - left).toNat + 1 ≤ fuel →
      quick_sortIn lt fuel items left right = quick_sort lt fuel items left right := by
  intro fuel
  induction fuel with
  | zero => intro items left right _ _ hf; omega
  | succ fuel ih =>
    intro items left right hl0 hrn hf
    unfold quick_sortIn quick_sort
    by_cases hlr : left ≥ right
    · simp only [hlr, if_true]
    · simp only [hlr, if_false]
      have hm : Int.tdiv (left + right) 2 = (left + right) / 2 :=
        Int.tdiv_eq_ediv (by omega) (by omega)
      rw [hm]
      have hin : getIn items left right ((left + right) / 2)
          = getAt items ((left + right) / 2) := by
        unfold getIn
        rw [if_pos ⟨by omega, by omega⟩]
      rw [hin]
      obtain ⟨pivot, hpiv⟩ := getAt_exists (by omega : 0 ≤ (left + right) / 2)
        (by omega : (left + right) / 2 < items.length)
      have hpp : lt pivot pivot = false := by
        by_contra h
        have h1 : lt pivot pivot = true := by simpa using h
        have h2 := hasym _ _ h1
        rw [h1] at h2
        cases h2
      simp only [hpiv]
      have hinv : PartInv lt pivot left right items left right :=
        ⟨hl0, hrn, le_refl _, le_refl _, by omega, by omega,
          fun k x h1 h2 _ => by omega, fun k x h1 h2 _ => by omega,
          fun _ => ⟨(left + right) / 2, pivot, by omega, by omega, hpiv, hpp⟩,
          fun _ => ⟨(left + right) / 2, pivot, by omega, by omega, hpiv, hpp⟩⟩
      rw [partitionLoopIn_eq lt hasym pivot left right _ items left right hinv]
      obtain ⟨items1, i', j', hp, hS1, hi', hj', hji, hir, hlj, hL, hR, hprog⟩ :=
        partitionLoop_spec lt hasym pivot left right (items.length + 1) items left right hl0 hrn
          (le_refl _) (le_refl _) (by omega) (by omega)
          (fun k x h1 h2 _ => by omega) (fun k x h1 h2 _ => by omega)
          (fun _ => ⟨(left + right) / 2, pivot, by omega, by omega, hpiv, hpp⟩)
          (fun _ => ⟨(left + right) / 2, pivot, by omega, by omega, hpiv, hpp⟩)
          (by omega)
      obtain ⟨hpi, hpj⟩ := hprog ((left + right) / 2) pivot (by omega) (by omega) hpiv hpp hpp
      simp only [hp]
      have hlen1 : items1.length = items.length := hS1.1
      have e1 : (if left < j' then quick_sortIn lt fuel items1 left j' else some items1)
          = (if left < j' then quick_sort lt fuel items1 left j' else some items1) := by
        by_cases hc : left < j'
        · simp only [hc, if_true]
          exact ih items1 left j' hl0 (by omega) (by omega)
        · simp only [hc, if_false]
      rw [e1]
      cases hq2 : (if left < j' then quick_sort lt fuel items1 left j' else some items1) with
      | none => rfl
      | some items2 =>
        simp only
        have hlen2 : items2.length = items1.length := by
          by_cases hc : left < j'
          · simp only [hc, if_true] at hq2
            obtain ⟨items2', hq, hS, -⟩ :=
              quick_sort_spec lt hasym htrans fuel items1 left j' hl0 (by omega) (by omega)
            rw [hq] at hq2
            cases hq2
            exact hS.1
          · simp only [hc, if_false, Option.some.injEq] at hq2
            rw [hq2]
        by_cases hc : i' < right
        · simp only [hc, if_true]
          exact ih items2 i' right (by omega) (by omega) (by omega)
        · simp only [hc, if_false]

/-- C34: `sort_quick` sorts.  For an `operator<` that is a strict weak order (asymmetric,
with a transitive "not less") and a vector of any length with any duplicates, `sort_quick`
comes back, every read of every `quick_sort(left, right)` call stays inside `[left, right]`
(the version with the checked reads returns the same vector), and the vector that it leaves
is a permutation of the original in which no element is less than an earlier one. -/
theorem sort_quick_sorts {α : Type} (lt : α → α → Bool)
    (hasym : ∀ a b, lt a b = true → lt b a = false)
    (htrans : ∀ a b c, lt b a = false → lt c b = false → lt c a = false) (items : List α) :
    ∃ items' : List α, sort_quick lt items = some items' ∧
      sort_quickIn lt items = some items' ∧ items'.Perm items ∧
      items'.Pairwise (fun a b => lt b a = false) := by
  obtain ⟨items', hs, hp, hpw⟩ := sort_quick_spec lt hasym htrans items
  refine ⟨items', hs, ?_, hp, hpw⟩
  rw [← hs]
  unfold sort_quickIn sort_quick
  by_cases h : items.length > 1
  · simp only [h, if_true]
    exact quick_sortIn_eq lt hasym htrans _ items 0 _ (le_refl _) (by omega) (by omega)
  · simp only [h, if_false]

theorem sort_quick_sorts_witness :
    sort_quickIn (fun a b : Int => decide (a < b)) [3, 1, 2, 1, 3, 0] = some [0, 1, 1, 2, 3, 3] ∧
    ∃ items' : List Int,
      sort_quick (fun a b : Int => decide (a < b)) [3, 1, 2, 1, 3, 0] = some items' ∧
      sort_quickIn (fun a b : Int => decide (a < b)) [3, 1, 2, 1, 3, 0] = some items' ∧
      items'.Perm [3, 1, 2, 1, 3, 0] ∧
      items'.Pairwise (fun a b => decide (b < a) = false) :=
  ⟨by decide, sort_quick_sorts (fun a b : Int => decide (a < b))
    (fun a b h => by simp only [decide_eq_true_eq, decide_eq_false_iff_not] at *; omega)
    (fun a b c h1 h2 => by simp only [decide_eq_true_eq, decide_eq_false_iff_not] at *; omega)
    [3, 1, 2, 1, 3, 0]⟩

end SimpleVector

namespace QueryParser

theorem parse_fuel_succ (idx : SearchIndex) : ∀ fuel : Nat,
    (∀ p res, parse_expr idx fuel p = res → res ≠ .error .outOfFuel →
      parse_expr idx (fuel + 1) p = res) ∧
    (∀ p r0 res, parse_expr_loop idx fuel r0 p = res → res ≠ .error .outOfFuel →
      parse_expr_loop idx (fuel + 1) r0 p = res) ∧
    (∀ p res, parse_term idx fuel p = res → res ≠ .error .outOfFuel →
      parse_term idx (fuel + 1) p = res) ∧
    (∀ p res, parse_factor idx fuel p = res → res ≠ .error .outOfFuel →
      parse_factor idx (fuel + 1) p = res) := by
  intro fuel
  induction fuel with
  | zero =>
    refine ⟨?_, ?_, ?_, ?_⟩
    · intro p res h hne; rw [parse_expr] at h; exact absurd h.symm hne
    · intro p r0 res h hne; rw [parse_expr_loop] at h; exact absurd h.symm hne
    · intro p res h hne; rw [parse_term] at h; exact absurd h.symm hne
    · intro p res h hne; rw [parse_factor] at h; exact absurd h.symm hne
  | succ fuel ih =>
    obtain ⟨ihE, ihL, ihT, ihF⟩ := ih
    refine ⟨?_, ?_, ?_, ?_⟩
    · intro p res h hne
      rw [parse_expr] at h ⊢
      cases ht : parse_term idx fuel p with
      | error e =>
        rw [ht] at h
        simp only at h
        rw [ihT p _ ht (by rw [h]; exact hne)]
        exact h
      | ok v =>
        rw [ht] at h
        rw [ihT p _ ht (by simp)]
        exact ihL _ _ _ h hne
    · intro p r0 res h hne
      rw [parse_expr_loop] at h ⊢
      by_cases hop : p.current.type = .AND ∨ p.current.type = .OR
      · simp only [hop, if_true] at h ⊢
        cases ht : parse_term idx fuel (next_token p) with
        | error e =>
          rw [ht] at h
          simp only at h
          rw [ihT _ _ ht (by rw [h]; exact hne)]
          exact h
        | ok v =>
          rw [ht] at h
          rw [ihT _ _ ht (by simp)]
          simp only at h ⊢
          by_cases ha : p.current.type = .AND
          · simp only [ha, if_true] at h ⊢
            exact ihL _ _ _ h hne
          · simp only [ha, if_false] at h ⊢
            exact ihL _ _ _ h hne
      · simp only [hop, if_false] at h ⊢
        exact h
    · intro p res h hne
      rw [parse_term] at h ⊢
      by_cases hnot : p.current.type = .NOT
      · simp only [hnot, if_true] at h ⊢
        cases ht : parse_factor idx fuel (next_token p) with
        | error e =>
          rw [ht] at h
          simp only at h
          rw [ihF _ _ ht (by rw [h]; exact hne)]
          exact h
        | ok v =>
          rw [ht] at h
          rw [ihF _ _ ht (by simp)]
          exact h
      · simp only [hnot, if_false] at h ⊢
        exact ihF p _ h hne
    · intro p res h hne
      rw [parse_factor] at h ⊢
      by_cases hl : p.current.type = .LPAR
      · simp only [hl, if_true] at h ⊢
        cases ht : parse_expr idx fuel (next_token p) with
        | error e =>
          rw [ht] at h
          simp only at h
          rw [ihE _ _ ht (by rw [h]; exact hne)]
          exact h
        | ok v =>
          rw [ht] at h
          rw [ihE _ _ ht (by simp)]
          exact h
      · simp only [hl, if_false] at h ⊢
        exact h

theorem parse_fuel_add (idx : SearchIndex) (fuel : Nat) : ∀ k : Nat,
    (∀ p res, parse_expr idx fuel p = res → res ≠ .error .outOfFuel →
      parse_expr idx (fuel + k) p = res) ∧
    (∀ p r0 res, parse_expr_loop idx fuel r0 p = res → res ≠ .error .outOfFuel →
      parse_expr_loop idx (fuel + k) r0 p = res) ∧
    (∀ p res, parse_term idx fuel p = res → res ≠ .error .outOfFuel →
      parse_term idx (fuel + k) p = res) ∧
    (∀ p res, parse_factor idx fuel p = res → res ≠ .error .outOfFuel →
      parse_factor idx (fuel + k) p = res) := by
  intro k
  induction k with
  | zero => exact ⟨fun _ _ h _ => h, fun _ _ _ h _ => h, fun _ _ h _ => h, fun _ _ h _ => h⟩
  | succ k ih =>
    obtain ⟨h1, h2, h3, h4⟩ := parse_fuel_succ idx (fuel + k)
    exact ⟨fun p res h hne => h1 p res (ih.1 p res h hne) hne,
      fun p r0 res h hne => h2 p r0 res (ih.2.1 p r0 res h hne) hne,
      fun p res h hne => h3 p res (ih.2.2.1 p res h hne) hne,
      fun p res h hne => h4 p res (ih.2.2.2 p res h hne) hne⟩

theorem parse_fuel_le (idx : SearchIndex) (f1 f2 : Nat) (h12 : f1 ≤ f2) :
    (∀ p v, parse_expr idx f1 p = .ok v → parse_expr idx f2 p = .ok v) ∧
    (∀ p r0 v, parse_expr_loop idx f1 r0 p = .ok v → parse_expr_loop idx f2 r0 p = .ok v) ∧
    (∀ p v, parse_term idx f1 p = .ok v → parse_term idx f2 p = .ok v) ∧
    (∀ p v, parse_factor idx f1 p = .ok v → parse_factor idx f2 p = .ok v) := by
  obtain ⟨k, rfl⟩ : ∃ k, f2 = f1 + k := ⟨f2 - f1, by omega⟩
  obtain ⟨h1, h2, h3, h4⟩ := parse_fuel_add idx f1 k
  exact ⟨fun p v h => h1 p _ h (by simp), fun p r0 v h => h2 p r0 _ h (by simp),
    fun p v h => h3 p _ h (by simp), fun p v h => h4 p _ h (by simp)⟩

end QueryParser

namespace QueryParser

theorem new_of_state (s : List Nat) (cur : Token) :
    next_token { input := s, current := cur } = QueryParser.new s := rfl

theorem new_word_rest (w rest : List Nat) (hw : IsWord w)
    (hrest : ∀ c, rest.head? = some c → wordChar c = false) :
    QueryParser.new (w ++ rest)
      = { input := rest, current := { type := .WORD, word := lexeme w } } :=
  next_token_word w rest _ hw hrest

theorem new_space (s : List Nat) : QueryParser.new (32 :: s) = QueryParser.new s :=
  next_token_space 32 s _ (by decide)

theorem new_and (s : List Nat) :
    QueryParser.new (32 :: 38 :: 38 :: s) = { input := s, current := { type := .AND, word := [] } } := by
  rw [new_space]
  rfl

theorem new_or (s : List Nat) :
    QueryParser.new (32 :: 124 :: 124 :: s)
      = { input := s, current := { type := .OR, word := [] } } := by
  rw [new_space]
  rfl

theorem runs_expr (idx : SearchIndex) (p p0 : QueryParser) (r0 : List Int)
    (v : List Int × QueryParser) (ht : ∃ f, parse_term idx f p = .ok (r0, p0))
    (hl : ∃ f, parse_expr_loop idx f r0 p0 = .ok v) : ∃ f, parse_expr idx f p = .ok v := by
  obtain ⟨f1, h1⟩ := ht
  obtain ⟨f2, h2⟩ := hl
  refine ⟨max f1 f2 + 1, ?_⟩
  rw [parse_expr_of_term idx _ r0 p p0
    ((parse_fuel_le idx f1 (max f1 f2) (le_max_left _ _)).2.2.1 _ _ h1)]
  exact (parse_fuel_le idx f2 (max f1 f2) (le_max_right _ _)).2.1 _ _ _ h2

theorem runs_loop_and (idx : SearchIndex) (p p1 : QueryParser) (r right : List Int)
    (v : List Int × QueryParser) (h : p.current.type = .AND)
    (ht : ∃ f, parse_term idx f (next_token p) = .ok (right, p1))
    (hl : ∃ f, parse_expr_loop idx f (intersect r right) p1 = .ok v) :
    ∃ f, parse_expr_loop idx f r p = .ok v := by
  obtain ⟨f1, h1⟩ := ht
  obtain ⟨f2, h2⟩ := hl
  refine ⟨max f1 f2 + 1, ?_⟩
  rw [parse_expr_loop_and idx _ r right p p1 h
    ((parse_fuel_le idx f1 (max f1 f2) (le_max_left _ _)).2.2.1 _ _ h1)]
  exact (parse_fuel_le idx f2 (max f1 f2) (le_max_right _ _)).2.1 _ _ _ h2

theorem runs_loop_or (idx : SearchIndex) (p p1 : QueryParser) (r right : List Int)
    (v : List Int × QueryParser) (h : p.current.type = .OR)
    (ht : ∃ f, parse_term idx f (next_token p) = .ok (right, p1))
    (hl : ∃ f, parse_expr_loop idx f (unite r right) p1 = .ok v) :
    ∃ f, parse_expr_loop idx f r p = .ok v := by
  obtain ⟨f1, h1⟩ := ht
  obtain ⟨f2, h2⟩ := hl
  refine ⟨max f1 f2 + 1, ?_⟩
  rw [parse_expr_loop_or idx _ r right p p1 h
    ((parse_fuel_le idx f1 (max f1 f2) (le_max_left _ _)).2.2.1 _ _ h1)]
  exact (parse_fuel_le idx f2 (max f1 f2) (le_max_right _ _)).2.1 _ _ _ h2

end QueryParser

namespace QueryParser

theorem parse_tree (idx : SearchIndex) : ∀ e : Query, e.wellFormed = true →
    ∀ (r : List Int), e.eval idx = some r →
    ∀ rest : List Nat, (∀ c, rest.head? = some c → wordChar c = false) →
    (∃ r0 p0, (∃ f, parse_term idx f (QueryParser.new (e.render ++ rest)) = .ok (r0, p0)) ∧
      ∀ v, (∃ f, parse_expr_loop idx f r (QueryParser.new rest) = .ok v) →
        ∃ f, parse_expr_loop idx f r0 p0 = .ok v) ∧
    (e.isTerm = true →
      ∃ f, parse_term idx f (QueryParser.new (e.render ++ rest))
        = .ok (r, QueryParser.new rest)) ∧
    (e.isFactor = true →
      ∃ f, parse_factor idx f (QueryParser.new (e.render ++ rest))
        = .ok (r, QueryParser.new rest)) := by
  intro e
  induction e with
  | word w =>
    intro hwf r hev rest hrest
    have hw : IsWord w := by simpa [Query.wellFormed] using hwf
    have hg : idx.get_docs (lexeme w) = some r := hev
    have hn : QueryParser.new ((Query.word w).render ++ rest)
        = { input := rest, current := { type := .WORD, word := lexeme w } } :=
      new_word_rest w rest hw hrest
    have hT : ∃ f, parse_term idx f (QueryParser.new ((Query.word w).render ++ rest))
        = .ok (r, QueryParser.new rest) :=
      ⟨2, by rw [hn]; exact parse_term_word idx 0 _ r rfl hg⟩
    exact ⟨⟨r, _, hT, fun v hv => hv⟩, fun _ => hT,
      fun _ => ⟨1, by rw [hn]; exact parse_factor_word idx 0 _ r rfl hg⟩⟩
  | group e ih =>
    intro hwf r hev rest hrest
    have hwf1 : e.wellFormed = true := hwf
    have hev1 : e.eval idx = some r := hev
    obtain ⟨⟨r0, p0, ht0, hc0⟩, -, -⟩ :=
      ih hwf1 r hev1 (41 :: rest) (not_wordChar_head 41 rest (by decide))
    have hnr : QueryParser.new (41 :: rest)
        = { input := rest, current := { type := .RPAR, word := [] } } := rfl
    obtain ⟨fe, he⟩ := runs_expr idx _ p0 r0 (r, QueryParser.new (41 :: rest)) ht0
      (hc0 _ ⟨1, parse_expr_loop_stop idx 0 r (QueryParser.new (41 :: rest))
        (by rw [hnr]; simp) (by rw [hnr]; simp)⟩)
    have hshape : (Query.group e).render ++ rest = 40 :: (e.render ++ 41 :: rest) := by
      simp [Query.render]
    have hn : QueryParser.new (40 :: (e.render ++ 41 :: rest))
        = { input := e.render ++ 41 :: rest, current := { type := .LPAR, word := [] } } := rfl
    have hF : ∃ f, parse_factor idx f (QueryParser.new ((Query.group e).render ++ rest))
        = .ok (r, QueryParser.new rest) := by
      refine ⟨fe + 1, ?_⟩
      rw [hshape, hn, parse_factor_lpar idx fe
        { input := e.render ++ 41 :: rest, current := { type := .LPAR, word := [] } }
        (QueryParser.new (41 :: rest)) r rfl he, hnr]
      rfl
    have hT : ∃ f, parse_term idx f (QueryParser.new ((Query.group e).render ++ rest))
        = .ok (r, QueryParser.new rest) := by
      obtain ⟨f, hf⟩ := hF
      refine ⟨f + 1, ?_⟩
      rw [parse_term_of_factor idx f _ (by rw [hshape, hn]; simp)]
      exact hf
    exact ⟨⟨r, _, hT, fun v hv => hv⟩, fun _ => hT, fun _ => hF⟩
  | neg g ih =>
    intro hwf r hev rest hrest
    have hwf1 : g.isFactor = true ∧ g.wellFormed = true := by
      simpa [Query.wellFormed] using hwf
    obtain ⟨a, ha, hr⟩ : ∃ a, g.eval idx = some a ∧ r = complement a idx.doc_total := by
      have : (match g.eval idx with
        | some a => some (complement a idx.doc_total)
        | none => none) = some r := hev
      cases hg : g.eval idx with
      | none => rw [hg] at this; cases this
      | some a =>
        rw [hg] at this
        simp only [Option.some.injEq] at this
        exact ⟨a, rfl, this.symm⟩
    obtain ⟨-, -, hF⟩ := ih hwf1.2 a ha rest hrest
    obtain ⟨f, hf⟩ := hF hwf1.1
    have hn : QueryParser.new ((Query.neg g).render ++ rest)
        = { input := g.render ++ rest, current := { type := .NOT, word := [] } } := rfl
    have hT : ∃ f, parse_term idx f (QueryParser.new ((Query.neg g).render ++ rest))
        = .ok (r, QueryParser.new rest) := by
      refine ⟨f + 1, ?_⟩
      rw [hn, hr]
      exact parse_term_not idx f
        { input := g.render ++ rest, current := { type := .NOT, word := [] } } _ a rfl hf
    exact ⟨⟨r, _, hT, fun v hv => hv⟩, fun _ => hT, fun h => (Bool.false_ne_true h).elim⟩
  | conj l t ihl iht =>
    intro hwf r hev rest hrest
    have hwf1 : (l.wellFormed = true ∧ t.isTerm = true) ∧ t.wellFormed = true := by
      simpa [Query.wellFormed] using hwf
    obtain ⟨a, b, ha, hb, hr⟩ :
        ∃ a b, l.eval idx = some a ∧ t.eval idx = some b ∧ r = intersect a b := by
      have : (match l.eval idx, t.eval idx with
        | some a, some b => some (intersect a b)
        | _, _ => none) = some r := hev
      cases hl : l.eval idx with
      | none => rw [hl] at this; cases this
      | some a =>
        cases ht : t.eval idx with
        | none => rw [hl, ht] at this; cases this
        | some b =>
          rw [hl, ht] at this
          simp only [Option.some.injEq] at this
          exact ⟨a, b, rfl, rfl, this.symm⟩
    have hshape : (Query.conj l t).render ++ rest
        = l.render ++ (32 :: 38 :: 38 :: 32 :: (t.render ++ rest)) := by
      simp [Query.render]
    obtain ⟨⟨r0, p0, ht0, hc0⟩, -, -⟩ := ihl hwf1.1.1 a ha
      (32 :: 38 :: 38 :: 32 :: (t.render ++ rest)) (not_wordChar_head 32 _ (by decide))
    obtain ⟨-, hT, -⟩ := iht hwf1.2 b hb rest hrest
    refine ⟨⟨r0, p0, by rw [hshape]; exact ht0, fun v hv => ?_⟩, fun h => (Bool.false_ne_true h).elim,
      fun h => (Bool.false_ne_true h).elim⟩
    apply hc0
    rw [new_and]
    refine runs_loop_and idx _ (QueryParser.new rest) a b v rfl ?_ (by rw [← hr]; exact hv)
    rw [new_of_state, new_space]
    exact hT hwf1.1.2
  | disj l t ihl iht =>
    intro hwf r hev rest hrest
    have hwf1 : (l.wellFormed = true ∧ t.isTerm = true) ∧ t.wellFormed = true := by
      simpa [Query.wellFormed] using hwf
    obtain ⟨a, b, ha, hb, hr⟩ :
        ∃ a b, l.eval idx = some a ∧ t.eval idx = some b ∧ r = unite a b := by
      have : (match l.eval idx, t.eval idx with
        | some a, some b => some (unite a b)
        | _, _ => none) = some r := hev
      cases hl : l.eval idx with
      | none => rw [hl] at this; cases this
      | some a =>
        cases ht : t.eval idx with
        | none => rw [hl, ht] at this; cases this
        | some b =>
          rw [hl, ht] at this
          simp only [Option.some.injEq] at this
          exact ⟨a, b, rfl, rfl, this.symm⟩
    have hshape : (Query.disj l t).render ++ rest
        = l.render ++ (32 :: 124 :: 124 :: 32 :: (t.render ++ rest)) := by
      simp [Query.render]
    obtain ⟨⟨r0, p0, ht0, hc0⟩, -, -⟩ := ihl hwf1.1.1 a ha
      (32 :: 124 :: 124 :: 32 :: (t.render ++ rest)) (not_wordChar_head 32 _ (by decide))
    obtain ⟨-, hT, -⟩ := iht hwf1.2 b hb rest hrest
    refine ⟨⟨r0, p0, by rw [hshape]; exact ht0, fun v hv => ?_⟩, fun h => (Bool.false_ne_true h).elim,
      fun h => (Bool.false_ne_true h).elim⟩
    apply hc0
    rw [new_or]
    refine runs_loop_or idx _ (QueryParser.new rest) a b v rfl ?_ (by rw [← hr]; exact hv)
    rw [new_of_state, new_space]
    exact hT hwf1.1.2

end QueryParser

namespace QueryParser

/-- C31: the parser implements the denotation of the grammar.  For every expression tree
built from non-empty words, `!` in front of a factor, parenthesised groups and
left-associated chains of `&&` / `||`, whose `get_docs` reads succeed, parsing the text of
the tree returns the value of the tree (`get_docs` for words, `complement(., doc_total())`
for `!`, `intersect` / `unite` strictly left to right along a chain), and `parse_expr`
stops at the END token with no input left.  Words are looked up by their token text, which
is the word itself for a lowercase word of at most 255 bytes. -/
theorem parser_implements_grammar (idx : SearchIndex) (e : Query)
    (hwf : e.wellFormed = true) (r : List Int) (hev : e.eval idx = some r) :
    parse idx e.render = .ok r ∧
    parse_expr idx (3 * e.render.length + 4) (QueryParser.new e.render)
      = .ok (r, { input := [], current := { type := .END, word := [] } }) ∧
    (∀ w : List Nat, w.map tolower = w → w.length ≤ 255 → lexeme w = w) := by
  obtain ⟨⟨r0, p0, ht0, hc0⟩, -, -⟩ := parse_tree idx e hwf r hev [] not_wordChar_nil
  rw [List.append_nil] at ht0
  obtain ⟨f0, h0⟩ := runs_expr idx _ p0 r0 (r, QueryParser.new []) ht0
    (hc0 _ ⟨1, parse_expr_loop_stop idx 0 r (QueryParser.new []) (by decide) (by decide)⟩)
  have hw : (QueryParser.new e.render).weight ≤ e.render.length := weight_next_le _ _
  have hd := (parse_done idx (3 * e.render.length + 4)).1 (QueryParser.new e.render)
    (by omega)
  have hne : parse_expr idx (3 * e.render.length + 4) (QueryParser.new e.render)
      ≠ .error .outOfFuel := by
    rcases hd with h | ⟨r1, p1, h, -⟩
    · rw [h]; simp
    · rw [h]; simp
  have h1 := (parse_fuel_add idx (3 * e.render.length + 4) f0).1 _ _ rfl hne
  have h2 := (parse_fuel_le idx f0 (3 * e.render.length + 4 + f0) (by omega)).1 _ _ h0
  have h3 : parse_expr idx (3 * e.render.length + 4) (QueryParser.new e.render)
      = .ok (r, { input := [], current := { type := .END, word := [] } }) := by
    rw [← h1, h2]
    rfl
  refine ⟨?_, h3, fun w h1 h2 => ?_⟩
  · unfold parse
    rw [h3]
  · unfold lexeme
    rw [h1, List.take_of_length_le h2]

theorem parser_implements_grammar_witness :
    (Query.disj (.conj (.word kot) (.neg (.group (.word sobaka)))) (.word sobaka)).wellFormed
        = true ∧
      (Query.disj (.conj (.word kot) (.neg (.group (.word sobaka)))) (.word sobaka)).eval
        scenarioIndex = some [0, 1, 2] ∧
      parse scenarioIndex
        (Query.disj (.conj (.word kot) (.neg (.group (.word sobaka)))) (.word sobaka)).render
        = .ok [0, 1, 2] :=
  ⟨by decide, by decide!,
    (parser_implements_grammar scenarioIndex _ (by decide) [0, 1, 2] (by decide!)).1⟩

end QueryParser

namespace TermDict

theorem termdict_refines_finite_map_witness :
    lastAdded [(kot, 1), (sobaka, 2), (kot, 3)] kot = some 3 ∧
      (addAll [(kot, 1), (sobaka, 2), (kot, 3)]).find kot = some 3 ∧
      (addAll [(kot, 1), (sobaka, 2), (kot, 3)]).size ≤ 2 ∧
      ((visit (addAll [(kot, 1), (sobaka, 2), (kot, 3)]) 2
        (addAll [(kot, 1), (sobaka, 2), (kot, 3)]).begin).map Node.key).Perm
        ([kot, sobaka, kot].dedup) :=
  ⟨by decide,
    ((termdict_refines_finite_map [(kot, 1), (sobaka, 2), (kot, 3)]).1 kot).trans (by decide),
    by decide!,
    ((termdict_refines_finite_map [(kot, 1), (sobaka, 2), (kot, 3)]).2.2.2 2
      (by decide!)).2.1⟩

end TermDict

end BoolSearch
